import Mathlib

/-!
SquareMat: a shallow embedding of `SquareMat.hpp` / `SquareMat.cpp`.

The C++ class `Matrix::SquareMat` stores `int rows`, `int columns`, a heap
array `double** data` of row pointers and a public `size_t size`.

* The element type `double` is a parameter `α` carrying the operations the
  code uses (`0`, `1`, `+`, `-`, `*`, `/`, unary minus, `std::fmod` and the
  comparisons `!=`, `<`, `<=`).
  Statements that hold for arbitrary operations therefore hold for IEEE
  doubles as well; statements that need algebraic laws say so through a type
  class (`Semiring`, `CommRing`).  `F64` further below is a model of IEEE-754
  binary64 with round-to-nearest-even (no fused multiply-add), on which the
  code is evaluated and the statements about doubles are proved.
* Exceptions are values of `Except Error`.  An access through a raw pointer
  outside the allocated storage has no defined behaviour in C++; the model
  reports it as `Error.undefined_behavior`.
* `for (int i = lo; i < hi; ++i)` loops are `forInt lo hi`.
* Memory allocation is assumed to succeed.  The `int` product
  `rows * columns` kept in `size` wraps modulo `2^32` and is then converted to
  `size_t` (`wrapSize`); an overflow of `int` has no defined behaviour in C++,
  and this is the value that the compiled code stores.
* A matrix is a value (`SquareMat α`, the rows as lists) wherever an operation
  only reads its operands and builds a result.  Member functions that assign
  to `*this` act on a heap of such values (`Heap`), and the copy and move
  operations, whose point is which arrays of the free store an object owns,
  act on a memory with addresses (`Mem`).
* The values that a program can hold are described by `Reach`, and the calls
  that `getDeterminant` makes by `Calls` and `Entered`.
-/

/-- The two exception classes thrown by the code and the one thrown by
`new T[k]` for a negative `k`, plus two markers of the model: a raw access
outside the storage, and exhausted recursion fuel. -/
inductive Error where
  | invalid_argument
  | out_of_range
  | undefined_behavior
  | out_of_fuel
  | bad_array_new_length
  deriving DecidableEq

/-- The comparison `a != b` on elements (for doubles it is not the negation
of identity: `NaN != NaN` holds). -/
class FloatNe (α : Type) where
  ne : α → α → Bool

/-- The remainder `std::fmod(a, b)` on elements. -/
class FloatMod (α : Type) where
  fmod : α → α → α

/-- The comparisons `a < b` and `a <= b` on elements; `a > b` is `b < a` and
`a >= b` is `b <= a`. -/
class FloatOrd (α : Type) where
  lt : α → α → Bool
  le : α → α → Bool

/-- Conversion of an integer to `size_t` (64 bits). -/
def toSizeT (i : Int) : Nat := (i % 2 ^ 64).toNat

/-- The value of type `size_t` that an `int` expression with the exact value
`x >= 0` is converted to: the 32-bit two-complement arithmetic of the machine
keeps `x` modulo `2^32 = 4294967296`, read as a negative number from
`2^31 = 2147483648` on, and the conversion of a negative number to `size_t`
adds `2^64` to it. -/
def wrapSize (x : Nat) : Nat :=
  if x % 4294967296 < 2147483648 then x % 4294967296
  else x % 4294967296 + 18446744069414584320

/-- The loop `for (int i = lo; ...; ++i) body`, running `k` more iterations
from index `i`. -/
def forLoop {σ : Type} (body : Int → σ → Except Error σ) : Nat → Int → σ → Except Error σ
  | 0, _, s => .ok s
  | k + 1, i, s =>
    match body i s with
    | .ok s' => forLoop body k (i + 1) s'
    | .error e => .error e

/-- The loop `for (int i = lo; i < hi; ++i) body`. -/
def forInt {σ : Type} (lo hi : Int) (s : σ) (body : Int → σ → Except Error σ) : Except Error σ :=
  forLoop body (hi - lo).toNat lo s

/-- The class `SquareMat`: `rows`, `columns`, the rows of `data`, and `size`. -/
structure SquareMat (α : Type) where
  rows : Int
  columns : Int
  data : List (List α)
  size : Nat
  deriving DecidableEq

namespace SquareMat

variable {α : Type}

/-- The constructor `SquareMat::SquareMat(int rows, int columns)`; where
`size(rows * columns)` is reached both are positive, so the product is
positive. -/
def ctor [Zero α] (rows columns : Int) : Except Error (SquareMat α) :=
  if rows ≠ columns then .error .invalid_argument
  else if rows ≤ 0 ∨ columns ≤ 0 then .error .invalid_argument
  else .ok
    { rows := rows
      columns := columns
      size := wrapSize (rows * columns).toNat
      data := List.replicate rows.toNat (List.replicate columns.toNat 0) }

/-- The member `int getRows() const`. -/
def getRows (m : SquareMat α) : Int := m.rows

/-- The member `int getCols() const`. -/
def getCols (m : SquareMat α) : Int := m.columns

/-- The raw read `data[i][j]`. -/
def raw (m : SquareMat α) (i j : Int) : Except Error α :=
  if 0 ≤ i ∧ 0 ≤ j then
    match m.data.get? i.toNat with
    | some r =>
      match r.get? j.toNat with
      | some v => .ok v
      | none => .error .undefined_behavior
    | none => .error .undefined_behavior
  else .error .undefined_behavior

/-- The raw write `data[i][j] = v`. -/
def rawSet (m : SquareMat α) (i j : Int) (v : α) : Except Error (SquareMat α) :=
  if 0 ≤ i ∧ 0 ≤ j then
    match m.data.get? i.toNat with
    | some r =>
      if j.toNat < r.length then
        .ok { m with data := m.data.set i.toNat (r.set j.toNat v) }
      else .error .undefined_behavior
    | none => .error .undefined_behavior
  else .error .undefined_behavior

/-- The member `double* operator[](size_t row) const`: the returned row
pointer `this->data[row]` is represented by the position of the row in
`data`. -/
def operatorIndex (m : SquareMat α) (row : Nat) : Except Error Nat :=
  if row ≥ toSizeT m.rows then .error .out_of_range
  else if row < m.data.length then .ok row
  else .error .undefined_behavior

/-- The expression `m[i][j]` read as a value, for `int` indices. -/
def idx (m : SquareMat α) (i j : Int) : Except Error α :=
  match m.operatorIndex (toSizeT i) with
  | .ok p => m.raw p j
  | .error e => .error e

/-- The assignment `m[i][j] = v`, for `int` indices. -/
def setIdx (m : SquareMat α) (i j : Int) (v : α) : Except Error (SquareMat α) :=
  match m.operatorIndex (toSizeT i) with
  | .ok p => m.rawSet p j v
  | .error e => .error e

/-- The member `const double& operator()(int row, int col) const`, read as a
value. -/
def operatorCall (m : SquareMat α) (row col : Int) : Except Error α :=
  if row < 0 ∨ row ≥ m.rows ∨ col < 0 ∨ col ≥ m.columns then .error .out_of_range
  else m.raw row col

/-- The member `double& operator()(int row, int col)` followed by an
assignment through the returned reference. -/
def operatorCallSet (m : SquareMat α) (row col : Int) (v : α) : Except Error (SquareMat α) :=
  if row < 0 ∨ row ≥ m.rows ∨ col < 0 ∨ col ≥ m.columns then .error .out_of_range
  else m.rawSet row col v

/-- The function
`SquareMat operator*(const SquareMat& left, const SquareMat& right)`. -/
def operatorMul [Zero α] [Add α] [Mul α] (left right : SquareMat α) :
    Except Error (SquareMat α) :=
  if left.getRows ≠ right.getRows ∨ left.getCols ≠ right.getCols then
    .error .invalid_argument
  else do
    let result ← ctor left.getRows left.getCols
    forInt 0 left.getRows result fun i result =>
      forInt 0 right.getCols result fun j result => do
        let result ← result.setIdx i j 0
        forInt 0 left.getCols result fun k result => do
          let acc ← result.idx i j
          let a ← left.idx i k
          let b ← right.idx k j
          result.setIdx i j (acc + a * b)

/-- The copy constructor `SquareMat::SquareMat(const SquareMat& other)`: the
rows are allocated one after the other and filled element by element from
`other.data`. -/
def copy (other : SquareMat α) : Except Error (SquareMat α) := do
  let data ← forInt 0 other.rows ([] : List (List α)) fun i data => do
    let row ← forInt 0 other.columns ([] : List α) fun j row => do
      let v ← other.raw i j
      pure (row ++ [v])
    pure (data ++ [row])
  pure { rows := other.rows, columns := other.columns, size := other.size, data := data }

/-- The move constructor `SquareMat::SquareMat(SquareMat&& other) noexcept`:
the pair of the new object and the emptied `other`. -/
def moveCtor (other : SquareMat α) : SquareMat α × SquareMat α :=
  (other, { rows := 0, columns := 0, data := [], size := 0 })

/-- The move assignment `SquareMat& operator=(SquareMat&& other)` for
`this != &other`: the pair of the new `*this` and the emptied `other`. -/
def moveAssign (_self other : SquareMat α) : SquareMat α × SquareMat α :=
  (other, { rows := 0, columns := 0, data := [], size := 0 })

/-- The member `SquareMat& operator*=(const SquareMat& other)`, that is
`*this = *this * other`, the product being a temporary that is move-assigned. -/
def operatorMulAssign [Zero α] [Add α] [Mul α] (self other : SquareMat α) :
    Except Error (SquareMat α) := do
  let tmp ← operatorMul self other
  pure (moveAssign self tmp).1

/-- The member `SquareMat operator^(int scalar) const`. -/
def operatorPow [Zero α] [One α] [Add α] [Mul α] (self : SquareMat α) (scalar : Int) :
    Except Error (SquareMat α) :=
  if scalar < 0 then .error .invalid_argument
  else do
    let result ← ctor self.rows self.columns
    let result ← forInt 0 self.rows result fun i result =>
      forInt 0 self.columns result fun j result =>
        result.setIdx i j (if i = j then 1 else 0)
    if scalar = 0 then pure result
    else do
      let _helper ← copy self
      forInt 0 scalar result fun _ result => result.operatorMulAssign self

/-- The function `double getDeterminant(const SquareMat& mat)`, with `fuel`
bounding the depth of the recursion. -/
def getDeterminantAux [Zero α] [One α] [Add α] [Sub α] [Mul α] [Neg α] :
    Nat → SquareMat α → Except Error α
  | 0, _ => .error .out_of_fuel
  | fuel + 1, mat =>
    if mat.getRows = 2 then do
      let a ← mat.operatorCall 0 0
      let d ← mat.operatorCall 1 1
      let b ← mat.operatorCall 0 1
      let c ← mat.operatorCall 1 0
      pure (a * d - b * c)
    else
      forInt 0 mat.getCols (0 : α) fun i det => do
        let minor ← ctor (mat.getRows - 1) (mat.getCols - 1)
        let minor ← forInt 1 mat.getRows minor fun r minor => do
          let st ← forInt 0 mat.getCols (minor, (0 : Int)) fun c st =>
            if c = i then pure st
            else do
              let v ← mat.idx r c
              let minor ← st.1.setIdx (r - 1) st.2 v
              pure (minor, st.2 + 1)
          pure st.1
        let x ← mat.idx 0 i
        let d ← getDeterminantAux fuel minor
        pure (det + (if i % 2 = 0 then (1 : α) else -1) * x * d)

/-- The function `double getDeterminant(const SquareMat& mat)`: every
recursive call is on a matrix with one row less, so `rows + 1` levels of
recursion suffice (`getDeterminantAux_ofFun`). -/
def getDeterminant [Zero α] [One α] [Add α] [Sub α] [Mul α] [Neg α] (mat : SquareMat α) :
    Except Error α :=
  getDeterminantAux (mat.getRows.toNat + 1) mat

/-- The member `double operator!() const`; the expression `*this[0][0]` is
the first element of the row `(*this)[0]`. -/
def operatorNot [Zero α] [One α] [Add α] [Sub α] [Mul α] [Neg α] (self : SquareMat α) :
    Except Error α :=
  if self.rows ≠ self.columns then .error .invalid_argument
  else if self.rows = 1 then self.idx 0 0
  else getDeterminant self

/-- The minor that `getDeterminant(mat)` builds for the column `i`: the
statements `SquareMat minor(mat.getRows() - 1, mat.getCols() - 1);` and the
loops over `r` and `c` that fill it. -/
def buildMinor [Zero α] (mat : SquareMat α) (i : Int) : Except Error (SquareMat α) := do
  let minor ← ctor (mat.getRows - 1) (mat.getCols - 1)
  forInt 1 mat.getRows minor fun r minor => do
    let st ← forInt 0 mat.getCols (minor, (0 : Int)) fun c st =>
      if c = i then pure st
      else do
        let v ← mat.idx r c
        let minor ← st.1.setIdx (r - 1) st.2 v
        pure (minor, st.2 + 1)
    pure st.1

/-- The call `getDeterminant(mat)` calls `getDeterminant(minor)`: `mat` has not
2 rows, and `minor` is the minor built in the iteration `i` of the loop. -/
inductive Calls [Zero α] : SquareMat α → SquareMat α → Prop
  | minor (mat minor : SquareMat α) (i : Int) :
      mat.getRows ≠ 2 → 0 ≤ i → i < mat.getCols → buildMinor mat i = .ok minor →
      Calls mat minor

/-- The matrices on which `getDeterminant` is entered while `operator!` runs on
`A`: `A` itself when it is square and has not 1 row, and the matrices that an
entered call calls it on. -/
inductive Entered [Zero α] (A : SquareMat α) : SquareMat α → Prop
  | first : A.rows = A.columns → A.rows ≠ 1 → Entered A A
  | next (M M' : SquareMat α) : Entered A M → Calls M M' → Entered A M'

/-- The function `SquareMat operator~(const SquareMat& mat)`. -/
def operatorTilde [Zero α] (mat : SquareMat α) : Except Error (SquareMat α) := do
  let result ← ctor mat.getRows mat.getCols
  forInt 0 mat.getRows result fun i result =>
    forInt 0 mat.getCols result fun j result => do
      let v ← mat.idx j i
      result.setIdx i j v

/-- The member `bool operator==(const SquareMat& other) const`.  The loop
state is `some b` once `return b` has been executed, and the remaining
iterations are skipped. -/
def operatorEq [FloatNe α] (self other : SquareMat α) : Except Error Bool :=
  if self.rows ≠ other.rows ∨ self.columns ≠ other.columns then .ok false
  else do
    let ret ← forInt 0 self.rows (none : Option Bool) fun i ret =>
      forInt 0 self.columns ret fun j ret =>
        match ret with
        | some b => pure (some b)
        | none => do
          let a ← self.raw i j
          let b ← other.raw i j
          if FloatNe.ne a b then pure (some false) else pure none
    match ret with
    | some b => pure b
    | none => pure true

/-- The function `SquareMat operator+(const SquareMat& left, const SquareMat& right)`. -/
def operatorAdd [Zero α] [Add α] (left right : SquareMat α) : Except Error (SquareMat α) :=
  if left.getRows ≠ right.getRows ∨ left.getCols ≠ right.getCols then
    .error .invalid_argument
  else do
    let result ← ctor left.getRows left.getCols
    forInt 0 left.getRows result fun i result =>
      forInt 0 left.getCols result fun j result => do
        let a ← left.idx i j
        let b ← right.idx i j
        result.setIdx i j (a + b)

/-- The function `SquareMat operator-(const SquareMat& left, const SquareMat& right)`. -/
def operatorSub [Zero α] [Sub α] (left right : SquareMat α) : Except Error (SquareMat α) :=
  if left.getRows ≠ right.getRows ∨ left.getCols ≠ right.getCols then
    .error .invalid_argument
  else do
    let result ← ctor left.getRows left.getCols
    forInt 0 left.getRows result fun i result =>
      forInt 0 left.getCols result fun j result => do
        let a ← left.idx i j
        let b ← right.idx i j
        result.setIdx i j (a - b)

/-- The function `SquareMat operator*(const SquareMat& mat, double scalar)`. -/
def operatorMulScalar [Zero α] [Mul α] (mat : SquareMat α) (scalar : α) :
    Except Error (SquareMat α) := do
  let result ← ctor mat.getRows mat.getCols
  forInt 0 mat.getRows result fun i result =>
    forInt 0 mat.getCols result fun j result => do
      let a ← mat.idx i j
      result.setIdx i j (a * scalar)

/-- The function `SquareMat operator*(double scalar, const SquareMat& mat)`. -/
def operatorScalarMul [Zero α] [Mul α] (scalar : α) (mat : SquareMat α) :
    Except Error (SquareMat α) :=
  operatorMulScalar mat scalar

/-- The function `SquareMat operator%(const SquareMat& left, const SquareMat& right)`. -/
def operatorMod [Zero α] [Mul α] (left right : SquareMat α) : Except Error (SquareMat α) :=
  if left.getRows ≠ right.getRows ∨ left.getCols ≠ right.getCols then
    .error .invalid_argument
  else do
    let result ← ctor left.getRows left.getCols
    forInt 0 left.getRows result fun i result =>
      forInt 0 left.getCols result fun j result => do
        let a ← left.idx i j
        let b ← right.idx i j
        result.setIdx i j (a * b)

/-- The function `SquareMat operator%(const SquareMat& mat, int scalar)`; the
`int` is converted to `double` for `std::fmod`. -/
def operatorModInt [Zero α] [IntCast α] [FloatMod α] (mat : SquareMat α) (scalar : Int) :
    Except Error (SquareMat α) :=
  if scalar = 0 then .error .invalid_argument
  else do
    let result ← ctor mat.getRows mat.getCols
    forInt 0 mat.getRows result fun i result =>
      forInt 0 mat.getCols result fun j result => do
        let a ← mat.idx i j
        result.setIdx i j (FloatMod.fmod a (scalar : α))

/-- The function `SquareMat operator/(const SquareMat& mat, double scalar)`; the
test `scalar == 0.0` is the negation of `scalar != 0.0`. -/
def operatorDiv [Zero α] [Div α] [FloatNe α] (mat : SquareMat α) (scalar : α) :
    Except Error (SquareMat α) :=
  if FloatNe.ne scalar 0 = false then .error .invalid_argument
  else do
    let result ← ctor mat.getRows mat.getCols
    forInt 0 mat.getRows result fun i result =>
      forInt 0 mat.getCols result fun j result => do
        let a ← mat.idx i j
        result.setIdx i j (a / scalar)

/-- The member `bool operator!=(const SquareMat& other) const`. -/
def operatorNe [FloatNe α] (self other : SquareMat α) : Except Error Bool := do
  let b ← operatorEq self other
  pure (!b)

/-- The member `double countSum() const`. -/
def countSum [Zero α] [Add α] (self : SquareMat α) : Except Error α :=
  forInt 0 self.rows (0 : α) fun i sum =>
    forInt 0 self.columns sum fun j sum => do
      let v ← self.raw i j
      pure (sum + v)

/-- The member `bool operator>(const SquareMat& other) const`. -/
def operatorGt [Zero α] [Add α] [FloatOrd α] (self other : SquareMat α) : Except Error Bool := do
  let a ← self.countSum
  let b ← other.countSum
  pure (FloatOrd.lt b a)

/-- The member `bool operator>=(const SquareMat& other) const`. -/
def operatorGe [Zero α] [Add α] [FloatOrd α] (self other : SquareMat α) : Except Error Bool := do
  let a ← self.countSum
  let b ← other.countSum
  pure (FloatOrd.le b a)

/-- The member `bool operator<(const SquareMat& other) const`. -/
def operatorLt [Zero α] [Add α] [FloatOrd α] (self other : SquareMat α) : Except Error Bool := do
  let a ← self.countSum
  let b ← other.countSum
  pure (FloatOrd.lt a b)

/-- The member `bool operator<=(const SquareMat& other) const`. -/
def operatorLe [Zero α] [Add α] [FloatOrd α] (self other : SquareMat α) : Except Error Bool := do
  let a ← self.countSum
  let b ← other.countSum
  pure (FloatOrd.le a b)

/-- The member `void fill(double value)`: the state of `*this` after the call,
`cur` being the state of `*this` during the loops. -/
def fill (self : SquareMat α) (value : α) : Except Error (SquareMat α) :=
  forInt 0 self.rows self fun i cur =>
    forInt 0 self.columns cur fun j cur => cur.rawSet i j value

/-- The loops of the member `SquareMat& operator++()`, `data[i][j]++` on every
element: the state of `*this` after them. -/
def operatorInc [One α] [Add α] (self : SquareMat α) : Except Error (SquareMat α) :=
  forInt 0 self.rows self fun i cur =>
    forInt 0 self.columns cur fun j cur => do
      let v ← cur.raw i j
      cur.rawSet i j (v + 1)

/-- The loops of the member `SquareMat& operator--()`, `data[i][j]--` on every
element: the state of `*this` after them. -/
def operatorDec [One α] [Sub α] (self : SquareMat α) : Except Error (SquareMat α) :=
  forInt 0 self.rows self fun i cur =>
    forInt 0 self.columns cur fun j cur => do
      let v ← cur.raw i j
      cur.rawSet i j (v - 1)

end SquareMat

/-! ## Objects and references

The objects of a program live in a heap and are named by their addresses; a
reference parameter is an address, so that two references can name the same
object.  A member function that assigns to `*this` returns the heap after the
call together with its result or the exception it threw. -/

/-- The heap: the object stored at each address. -/
abbrev Heap (α : Type) := Nat → SquareMat α

namespace Heap

variable {α : Type}

open SquareMat

/-- The statement `*this = e; return *this;` of a compound assignment, `r`
being the outcome of evaluating `e`: an exception thrown by `e` leaves the
member before the assignment; otherwise the temporary is move-assigned to the
object at `this`, whose address is returned. -/
def assignFrom (h : Heap α) (this : Nat) (r : Except Error (SquareMat α)) :
    Except Error Nat × Heap α :=
  match r with
  | .error e => (.error e, h)
  | .ok tmp => (.ok this, Function.update h this (moveAssign (h this) tmp).1)

/-- The member `SquareMat& operator+=(const SquareMat& other)`:
`*this = *this + other`. -/
def operatorAddAssign [Zero α] [Add α] (h : Heap α) (this other : Nat) :
    Except Error Nat × Heap α :=
  assignFrom h this (operatorAdd (h this) (h other))

/-- The member `SquareMat& operator-=(const SquareMat& other)`:
`*this = *this - other`. -/
def operatorSubAssign [Zero α] [Sub α] (h : Heap α) (this other : Nat) :
    Except Error Nat × Heap α :=
  assignFrom h this (operatorSub (h this) (h other))

/-- The member `SquareMat& operator*=(const SquareMat& other)`:
`*this = *this * other`. -/
def operatorMulAssign [Zero α] [Add α] [Mul α] (h : Heap α) (this other : Nat) :
    Except Error Nat × Heap α :=
  assignFrom h this (operatorMul (h this) (h other))

/-- The member `SquareMat& operator*=(double scalar)`: `*this = *this * scalar`. -/
def operatorMulScalarAssign [Zero α] [Mul α] (h : Heap α) (this : Nat) (scalar : α) :
    Except Error Nat × Heap α :=
  assignFrom h this (operatorMulScalar (h this) scalar)

/-- The member `SquareMat& operator/=(double scalar)`: `*this = *this / scalar`. -/
def operatorDivAssign [Zero α] [Div α] [FloatNe α] (h : Heap α) (this : Nat) (scalar : α) :
    Except Error Nat × Heap α :=
  assignFrom h this (operatorDiv (h this) scalar)

/-- The member `SquareMat& operator%=(const int scalar)`: `*this = *this % scalar`. -/
def operatorModIntAssign [Zero α] [IntCast α] [FloatMod α] (h : Heap α) (this : Nat)
    (scalar : Int) : Except Error Nat × Heap α :=
  assignFrom h this (operatorModInt (h this) scalar)

/-- The member `SquareMat& operator%=(const SquareMat& other)`:
`*this = *this % other`. -/
def operatorModAssign [Zero α] [Mul α] (h : Heap α) (this other : Nat) :
    Except Error Nat × Heap α :=
  assignFrom h this (operatorMod (h this) (h other))

/-- The member `SquareMat& operator++()` called on the object at `this`: the
returned reference, as an address, and the heap after the call. -/
def operatorInc [One α] [Add α] (h : Heap α) (this : Nat) : Except Error (Nat × Heap α) := do
  let self ← SquareMat.operatorInc (h this)
  pure (this, Function.update h this self)

/-- The member `SquareMat operator++(int)` called on the object at `this`:
`SquareMat tmp(*this); ++(*this); return tmp;`, the returned value and the heap
after the call. -/
def operatorPostInc [One α] [Add α] (h : Heap α) (this : Nat) :
    Except Error (SquareMat α × Heap α) := do
  let tmp ← copy (h this)
  let r ← Heap.operatorInc h this
  pure (tmp, r.2)

/-- The member `SquareMat& operator--()` called on the object at `this`. -/
def operatorDec [One α] [Sub α] (h : Heap α) (this : Nat) : Except Error (Nat × Heap α) := do
  let self ← SquareMat.operatorDec (h this)
  pure (this, Function.update h this self)

/-- The member `SquareMat operator--(int)` called on the object at `this`:
`SquareMat tmp(*this); --(*this); return tmp;`. -/
def operatorPostDec [One α] [Sub α] (h : Heap α) (this : Nat) :
    Except Error (SquareMat α × Heap α) := do
  let tmp ← copy (h this)
  let r ← Heap.operatorDec h this
  pure (tmp, r.2)

end Heap

/-! ## Objects in memory

The members of an object are `rows`, `columns`, `size` and the pointer `data`
to an array `double*[]` of row pointers, each row being an array `double[]` of
its own in the free store.  Copying an object has to duplicate these arrays;
the definitions below keep the addresses, so that two objects sharing a row
are told apart from two objects holding equal rows. -/

/-- An object of class `SquareMat` as it lies in memory; `data` is the address
of the array of row pointers, `0` for `nullptr`. -/
structure Obj where
  rows : Int
  columns : Int
  data : Nat
  size : Nat
  deriving DecidableEq

/-- The members of a moved-from object. -/
def Obj.empty : Obj := { rows := 0, columns := 0, data := 0, size := 0 }

/-- The memory of a program: the objects of class `SquareMat` by address, the
live arrays `double*[]` and `double[]` of the free store by address (`none`
where no array is live), and the address `next` that the next `new` returns.
An element of an array is `none` until it is written. -/
structure Mem (α : Type) where
  objs : Nat → Obj
  tables : Nat → Option (List (Option Nat))
  arrays : Nat → Option (List (Option α))
  next : Nat

namespace Mem

variable {α : Type}

/-- An assignment to the members of the object at `a`. -/
def setObj (m : Mem α) (a : Nat) (o : Obj) : Mem α :=
  { m with objs := Function.update m.objs a o }

/-- The expression `new double*[k]`: the address of the new array and the
memory after the allocation. -/
def newTable (m : Mem α) (k : Int) : Except Error (Nat × Mem α) :=
  if k < 0 then .error .bad_array_new_length
  else .ok (m.next,
    { m with
      tables := Function.update m.tables m.next (some (List.replicate k.toNat none))
      next := m.next + 1 })

/-- The expression `new double[k]`, whose elements are not initialised. -/
def newArray (m : Mem α) (k : Int) : Except Error (Nat × Mem α) :=
  if k < 0 then .error .bad_array_new_length
  else .ok (m.next,
    { m with
      arrays := Function.update m.arrays m.next (some (List.replicate k.toNat none))
      next := m.next + 1 })

/-- The read `p[i]` of a row pointer. -/
def readPtr (m : Mem α) (p : Nat) (i : Int) : Except Error Nat :=
  if 0 ≤ i then
    match m.tables p with
    | some t =>
      match t.get? i.toNat with
      | some (some q) => .ok q
      | _ => .error .undefined_behavior
    | none => .error .undefined_behavior
  else .error .undefined_behavior

/-- The write `p[i] = q` of a row pointer. -/
def writePtr (m : Mem α) (p : Nat) (i : Int) (q : Nat) : Except Error (Mem α) :=
  if 0 ≤ i then
    match m.tables p with
    | some t =>
      if i.toNat < t.length then
        .ok { m with tables := Function.update m.tables p (some (t.set i.toNat (some q))) }
      else .error .undefined_behavior
    | none => .error .undefined_behavior
  else .error .undefined_behavior

/-- The read `q[j]` of an element. -/
def readCell (m : Mem α) (q : Nat) (j : Int) : Except Error α :=
  if 0 ≤ j then
    match m.arrays q with
    | some r =>
      match r.get? j.toNat with
      | some (some v) => .ok v
      | _ => .error .undefined_behavior
    | none => .error .undefined_behavior
  else .error .undefined_behavior

/-- The write `q[j] = v` of an element. -/
def writeCell (m : Mem α) (q : Nat) (j : Int) (v : α) : Except Error (Mem α) :=
  if 0 ≤ j then
    match m.arrays q with
    | some r =>
      if j.toNat < r.length then
        .ok { m with arrays := Function.update m.arrays q (some (r.set j.toNat (some v))) }
      else .error .undefined_behavior
    | none => .error .undefined_behavior
  else .error .undefined_behavior

/-- The statement `delete[] q` on a row; `delete[] nullptr` does nothing. -/
def deleteArray (m : Mem α) (q : Nat) : Except Error (Mem α) :=
  if q = 0 then .ok m
  else
    match m.arrays q with
    | some _ => .ok { m with arrays := Function.update m.arrays q none }
    | none => .error .undefined_behavior

/-- The statement `delete[] p` on an array of row pointers. -/
def deleteTable (m : Mem α) (p : Nat) : Except Error (Mem α) :=
  if p = 0 then .ok m
  else
    match m.tables p with
    | some _ => .ok { m with tables := Function.update m.tables p none }
    | none => .error .undefined_behavior

/-- The statements that the copy constructor and the copy assignment share:
`rows = other.rows; columns = other.columns; size = other.size;
data = new double*[rows];` and the loops that allocate every row and copy it
element by element. -/
def copyFields (m : Mem α) (this other : Nat) : Except Error (Mem α) := do
  let m := m.setObj this { m.objs this with rows := (m.objs other).rows }
  let m := m.setObj this { m.objs this with columns := (m.objs other).columns }
  let m := m.setObj this { m.objs this with size := (m.objs other).size }
  let r ← m.newTable (m.objs this).rows
  let m := r.2.setObj this { r.2.objs this with data := r.1 }
  forInt 0 (m.objs this).rows m fun i m => do
    let r ← m.newArray (m.objs this).columns
    let m ← r.2.writePtr (r.2.objs this).data i r.1
    forInt 0 (m.objs this).columns m fun j m => do
      let src ← m.readPtr (m.objs other).data i
      let v ← m.readCell src j
      let dst ← m.readPtr (m.objs this).data i
      m.writeCell dst j v

/-- The copy constructor `SquareMat::SquareMat(const SquareMat& other)`,
constructing the object at `this`. -/
def copyCtor (m : Mem α) (this other : Nat) : Except Error (Mem α) :=
  copyFields m this other

/-- The copy assignment `SquareMat& operator=(const SquareMat& other)` on the
object at `this`. -/
def copyAssign (m : Mem α) (this other : Nat) : Except Error (Mem α) :=
  if this = other then .ok m
  else do
    let m ← forInt 0 (m.objs this).rows m fun i m => do
      let q ← m.readPtr (m.objs this).data i
      m.deleteArray q
    let m ← m.deleteTable (m.objs this).data
    copyFields m this other

/-- The member `const double& operator()(int row, int col) const` on the
object at `a`, read as a value. -/
def operatorCall (m : Mem α) (a : Nat) (row col : Int) : Except Error α :=
  if row < 0 ∨ row ≥ (m.objs a).rows ∨ col < 0 ∨ col ≥ (m.objs a).columns then
    .error .out_of_range
  else do
    let q ← m.readPtr (m.objs a).data row
    m.readCell q col

/-- The member `double& operator()(int row, int col)` on the object at `a`,
followed by an assignment through the returned reference. -/
def operatorCallSet (m : Mem α) (a : Nat) (row col : Int) (v : α) : Except Error (Mem α) :=
  if row < 0 ∨ row ≥ (m.objs a).rows ∨ col < 0 ∨ col ≥ (m.objs a).columns then
    .error .out_of_range
  else do
    let q ← m.readPtr (m.objs a).data row
    m.writeCell q col v

/-- No array is live at the null pointer or at an address that the allocator
has not handed out yet. -/
def Inv (m : Mem α) : Prop :=
  1 ≤ m.next ∧ m.tables 0 = none ∧ m.arrays 0 = none ∧
    ∀ p, m.next ≤ p → m.tables p = none ∧ m.arrays p = none

/-- The object at `a` holds the matrix of dimension `n` with elements `f`: its
array of row pointers is live and lists the distinct addresses `ptrs`, and row
`i` holds `f i 0, ..., f i (n - 1)`.  An object of dimension `0` may hold the
null pointer instead (a moved-from object). -/
structure Layout (m : Mem α) (a : Nat) (n : Nat) (ptrs : List Nat) (f : Nat → Nat → α) :
    Prop where
  dim : n < 2 ^ 31
  rows : (m.objs a).rows = n
  columns : (m.objs a).columns = n
  len : ptrs.length = n
  nodup : ptrs.Nodup
  table : m.tables (m.objs a).data = some (ptrs.map some) ∨ (n = 0 ∧ (m.objs a).data = 0)
  row : ∀ i q, ptrs[i]? = some q →
    m.arrays q = some ((List.range n).map fun j => some (f i j))

/-- The member `int getRows() const` on the object at `a`. -/
def getRows (m : Mem α) (a : Nat) : Int := (m.objs a).rows

/-- The member `int getCols() const` on the object at `a`. -/
def getCols (m : Mem α) (a : Nat) : Int := (m.objs a).columns

/-- The statements `other.data = nullptr; other.rows = 0; other.columns = 0;
other.size = 0;` that end both move operations. -/
def resetObj (m : Mem α) (other : Nat) : Mem α :=
  let m := m.setObj other { m.objs other with data := 0 }
  let m := m.setObj other { m.objs other with rows := 0 }
  let m := m.setObj other { m.objs other with columns := 0 }
  m.setObj other { m.objs other with size := 0 }

/-- The move constructor `SquareMat::SquareMat(SquareMat&& other) noexcept`,
constructing the object at `this`: the members are initialised in the order
of their declaration, then `other` is reset. -/
def moveCtor (m : Mem α) (this other : Nat) : Mem α :=
  let m := m.setObj this { m.objs this with rows := (m.objs other).rows }
  let m := m.setObj this { m.objs this with columns := (m.objs other).columns }
  let m := m.setObj this { m.objs this with data := (m.objs other).data }
  let m := m.setObj this { m.objs this with size := (m.objs other).size }
  m.resetObj other

/-- The move assignment `SquareMat& operator=(SquareMat&& other) noexcept` on
the object at `this`. -/
def moveAssign (m : Mem α) (this other : Nat) : Except Error (Mem α) :=
  if this ≠ other then do
    let m ← forInt 0 (m.objs this).rows m fun i m => do
      let q ← m.readPtr (m.objs this).data i
      m.deleteArray q
    let m ← m.deleteTable (m.objs this).data
    let m := m.setObj this { m.objs this with rows := (m.objs other).rows }
    let m := m.setObj this { m.objs this with columns := (m.objs other).columns }
    let m := m.setObj this { m.objs this with size := (m.objs other).size }
    let m := m.setObj this { m.objs this with data := (m.objs other).data }
    pure (m.resetObj other)
  else pure m

/-- The memory while the loops of `copyFields` run on the object at `this`,
whose members are `o`: the new array of row pointers is at `p`, the rows
`r < k` of the copy are allocated at the addresses `p + 1 + r`, the rows
`r < i` are written, and the rows from `i` on are written up to column `j`. -/
def copyState (m : Mem α) (this : Nat) (o : Obj) (p n : Nat) (f : Nat → Nat → α)
    (k i j : Nat) : Mem α :=
  { objs := Function.update m.objs this o
    next := p + 1 + k
    tables := Function.update m.tables p
      (some ((List.range n).map fun r => if r < k then some (p + 1 + r) else none))
    arrays := fun q =>
      if p + 1 ≤ q ∧ q < p + 1 + k then
        some ((List.range n).map fun c =>
          if q - (p + 1) < i ∨ c < j then some (f (q - (p + 1)) c) else none)
      else m.arrays q }

/-- The memory after the rows `ptrs[0], ..., ptrs[t - 1]` have been deleted. -/
def freeState (m : Mem α) (ptrs : List Nat) (t : Nat) : Mem α :=
  { m with arrays := fun q => if q ∈ ptrs.take t then none else m.arrays q }

/-- The objects at `a` and `b` hold the matrices with elements `fa`, of
dimension `na`, and `fb`, of dimension `nb`, each in arrays of its own: no row
of one is a row of the other, and they do not share an array of row
pointers. -/
def Sep (m : Mem α) (a b : Nat) (na nb : Nat) (fa fb : Nat → Nat → α) : Prop :=
  Inv m ∧ ∃ pa pb : List Nat, Layout m a na pa fa ∧ Layout m b nb pb fb ∧
    (∀ q, q ∈ pa → q ∉ pb) ∧
    ((m.objs a).data = (m.objs b).data → (m.objs a).data = 0)

end Mem

/-- The values `g x` for the elements `x` of a list, when every one is
present. -/
def collect {β γ : Type} (g : β → Option γ) : List β → Option (List γ)
  | [] => some []
  | x :: xs =>
    match g x, collect g xs with
    | some y, some ys => some (y :: ys)
    | _, _ => none

namespace Mem

variable {α : Type}

/-- The elements of the row that a row pointer points to. -/
def loadRow (m : Mem α) (e : Option Nat) : Option (List α) :=
  match e with
  | none => none
  | some q =>
    match m.arrays q with
    | none => none
    | some r => collect id r

/-- The matrix that the object at `a` holds, as a value: its members, and the
rows read through its pointers.  An object whose `data` is null holds no
row. -/
def load (m : Mem α) (a : Nat) : Option (SquareMat α) :=
  if (m.objs a).data = 0 then
    some { rows := (m.objs a).rows, columns := (m.objs a).columns, size := (m.objs a).size
           data := [] }
  else
    match m.tables (m.objs a).data with
    | none => none
    | some t =>
      match collect m.loadRow t with
      | none => none
      | some d =>
        some { rows := (m.objs a).rows, columns := (m.objs a).columns
               size := (m.objs a).size, data := d }

end Mem

/-! ## Matrices of dimension `n` -/

namespace SquareMat

variable {α : Type}

/-- The matrix `m` has dimension `n`: `rows == columns == n` (an `int`), and
`data` holds `n` rows of `n` elements each.  Nothing is asked of the public
field `size`, which callers can overwrite. -/
def WF (m : SquareMat α) (n : Nat) : Prop :=
  n < 2 ^ 31 ∧ m.rows = n ∧ m.columns = n ∧
    m.data.length = n ∧ ∀ r ∈ m.data, r.length = n

/-- The matrix `m` with the public field `size` set to `s`. -/
def withSize (m : SquareMat α) (s : Nat) : SquareMat α := { m with size := s }

/-- The element stored at row `i`, column `j` (`0` outside the storage). -/
def elem [Zero α] (m : SquareMat α) (i j : Nat) : α :=
  (m.data.getD i []).getD j 0

/-- The matrix of dimension `n` whose element at `(i, j)` is `f i j`, with the
`size` that the constructor stores for the dimension `n`. -/
def ofFun (n : Nat) (f : Nat → Nat → α) : SquareMat α :=
  { rows := n
    columns := n
    size := wrapSize (n * n)
    data := (List.range n).map fun i => (List.range n).map (f i) }

/-- The function `f` with the value at `(i, j)` replaced by `v`. -/
def upd (f : Nat → Nat → α) (i j : Nat) (v : α) : Nat → Nat → α :=
  fun a b => if a = i ∧ b = j then v else f a b

end SquareMat

/-- The sum `0 + t 0 + t 1 + ... + t (n - 1)`, accumulated from the left in
the order of a loop `acc += t k` for `k = 0, ..., n - 1`. -/
def sumLeft {α : Type} [Zero α] [Add α] (n : Nat) (t : Nat → α) : α :=
  (List.range n).foldl (fun acc k => acc + t k) 0

/-- The value of `acc` after the loop `acc += t k` for `k = 0, ..., n - 1`. -/
def sumFrom {α : Type} [Add α] (acc : α) (n : Nat) (t : Nat → α) : α :=
  (List.range n).foldl (fun acc k => acc + t k) acc

/-- The sum of the elements `f i j`, `i, j < n`, accumulated from `0` row by
row, each row from left to right. -/
def sumAll {α : Type} [Zero α] [Add α] (n : Nat) (f : Nat → Nat → α) : α :=
  (List.range n).foldl (fun acc i => sumFrom acc n (f i)) 0

/-- The value of the accumulator of `countSum` after the rows `0, ..., t - 1`
of the elements `f`. -/
def sumRows {α : Type} [Zero α] [Add α] (n : Nat) (f : Nat → Nat → α) (t : Nat) : α :=
  (List.range t).foldl (fun acc i => sumFrom acc n (f i)) 0

/-- The value of the accumulator of `countSum` after the rows before row `i`
and the first `j` elements of row `i`. -/
def sumUpTo {α : Type} [Zero α] [Add α] (n : Nat) (f : Nat → Nat → α) (i j : Nat) : α :=
  sumFrom (sumRows n f i) j (f i)

namespace SquareMat

variable {α : Type}

/-- The minor of `A` for column `i`, as the specification words it: row 0
and column `i` are deleted, the remaining rows and columns keep their order. -/
def minorOf (A : SquareMat α) (i : Nat) : SquareMat α :=
  { rows := A.rows - 1
    columns := A.columns - 1
    size := wrapSize ((A.rows - 1) * (A.columns - 1)).toNat
    data := A.data.tail.map fun r => r.eraseIdx i }

/-- The column of the matrix that lands in column `b` of the minor for
column `i`. -/
def skipCol (i b : Nat) : Nat := if b < i then b else b + 1

/-- The column index `colIndex` of `getDeterminant` after the columns
`0, ..., c - 1` have been visited. -/
def colIdx (i c : Nat) : Nat := if c ≤ i then c else c - 1

/-- The elements of the minor for column `i` of the matrix with elements `f`. -/
def minorFun (f : Nat → Nat → α) (i : Nat) : Nat → Nat → α :=
  fun a b => f (a + 1) (skipCol i b)

/-- The value computed by `operator!` on a matrix of dimension `n` with
elements `f`, in closed form (see `operatorNot_ofFun`). -/
def detRec [Zero α] [One α] [Add α] [Sub α] [Mul α] [Neg α] : Nat → (Nat → Nat → α) → α
  | 0, _ => 0
  | 1, f => f 0 0
  | 2, f => f 0 0 * f 1 1 - f 0 1 * f 1 0
  | n + 3, f =>
    sumLeft (n + 3) fun i =>
      (if i % 2 = 0 then (1 : α) else -1) * f 0 i * detRec (n + 2) (minorFun f i)

end SquareMat

namespace SquareMat

variable {α : Type}

/-- The elements `f i j` with `i, j < n` as a matrix of Mathlib. -/
def toMat (n : Nat) (f : Nat → Nat → α) : Matrix (Fin n) (Fin n) α :=
  fun i j => f i j

/-- The Leibniz sum over the permutations of `n` indices, for the elements
`f i j` with `i, j < n`: the sum of `sign σ * ∏ i, f (σ i) i`. -/
def leibniz [CommRing α] (n : Nat) (f : Nat → Nat → α) : α :=
  ∑ σ : Equiv.Perm (Fin n), (((Equiv.Perm.sign σ : ℤˣ) : ℤ) : α) * ∏ i : Fin n, f (σ i) i

/-- The elements of the identity matrix, as `operator^` writes them. -/
def idFun [Zero α] [One α] : Nat → Nat → α :=
  fun i j => if i = j then 1 else 0

/-- The elements of the product of the matrices with elements `a` and `b`. -/
def mulFun [Zero α] [Add α] [Mul α] (n : Nat) (a b : Nat → Nat → α) : Nat → Nat → α :=
  fun i j => sumLeft n fun k => a i k * b k j

/-- The elements of the identity multiplied from the right `p` times by the
matrix with elements `f`. -/
def powFun [Zero α] [One α] [Add α] [Mul α] (n : Nat) (f : Nat → Nat → α) :
    Nat → Nat → Nat → α
  | 0 => idFun
  | p + 1 => mulFun n (powFun n f p) f

/-- The identity matrix of dimension `n`: `1` on the diagonal, `0` elsewhere. -/
def identity [Zero α] [One α] (n : Nat) : SquareMat α := ofFun n idFun

/-- The values of the objects that a caller can hold: results of the sized
constructor (its arguments are of type `int`), of the copy operations, of the
operators, and states left by the members that write to an object or by an
assignment to the public member `size`.  The destination of a move holds the
value that its source held, and the destination of a compound assignment the
result of the operator.  With `moves`, objects may also have been moved from:
the emptied source of a move is a value too. -/
inductive Reach [Zero α] [One α] [Add α] [Sub α] [Mul α] [Div α] [FloatNe α] [IntCast α]
    [FloatMod α] (moves : Bool) : SquareMat α → Prop
  | ctor (rows columns : Int) (M : SquareMat α) :
      -(2 ^ 31) ≤ rows → rows < 2 ^ 31 → -(2 ^ 31) ≤ columns → columns < 2 ^ 31 →
      SquareMat.ctor rows columns = .ok M → Reach moves M
  | copy (A B : SquareMat α) : Reach moves A → SquareMat.copy A = .ok B → Reach moves B
  | movedFromCtor (A : SquareMat α) :
      moves = true → Reach moves A → Reach moves (SquareMat.moveCtor A).2
  | movedFromAssign (A B : SquareMat α) :
      moves = true → Reach moves A → Reach moves B → Reach moves (SquareMat.moveAssign B A).2
  | setSize (A : SquareMat α) (s : Nat) : Reach moves A → Reach moves (A.withSize s)
  | add (A B R : SquareMat α) :
      Reach moves A → Reach moves B → operatorAdd A B = .ok R → Reach moves R
  | sub (A B R : SquareMat α) :
      Reach moves A → Reach moves B → operatorSub A B = .ok R → Reach moves R
  | mul (A B R : SquareMat α) :
      Reach moves A → Reach moves B → operatorMul A B = .ok R → Reach moves R
  | mod (A B R : SquareMat α) :
      Reach moves A → Reach moves B → operatorMod A B = .ok R → Reach moves R
  | mulScalar (A : SquareMat α) (s : α) (R : SquareMat α) :
      Reach moves A → operatorMulScalar A s = .ok R → Reach moves R
  | scalarMul (s : α) (A R : SquareMat α) :
      Reach moves A → operatorScalarMul s A = .ok R → Reach moves R
  | div (A : SquareMat α) (s : α) (R : SquareMat α) :
      Reach moves A → operatorDiv A s = .ok R → Reach moves R
  | modInt (A : SquareMat α) (k : Int) (R : SquareMat α) :
      Reach moves A → operatorModInt A k = .ok R → Reach moves R
  | pow (A : SquareMat α) (e : Int) (R : SquareMat α) :
      Reach moves A → operatorPow A e = .ok R → Reach moves R
  | tilde (A R : SquareMat α) : Reach moves A → operatorTilde A = .ok R → Reach moves R
  | callSet (A : SquareMat α) (row col : Int) (v : α) (A' : SquareMat α) :
      Reach moves A → A.operatorCallSet row col v = .ok A' → Reach moves A'
  | setIdx (A : SquareMat α) (i j : Int) (v : α) (A' : SquareMat α) :
      Reach moves A → A.setIdx i j v = .ok A' → Reach moves A'
  | fill (A : SquareMat α) (v : α) (A' : SquareMat α) :
      Reach moves A → A.fill v = .ok A' → Reach moves A'
  | inc (A A' : SquareMat α) : Reach moves A → A.operatorInc = .ok A' → Reach moves A'
  | dec (A A' : SquareMat α) : Reach moves A → A.operatorDec = .ok A' → Reach moves A'

end SquareMat

/-- Whether `p k` holds for every `k < n`. -/
def allBelow (n : Nat) (p : Nat → Bool) : Bool := (List.range n).all p

/-! ## IEEE-754 binary64

`double` values: NaN, the two infinities, and the finite values
`(-1)^neg * m * 2^e`.  A finite value is stored with `m < 2^53`,
`-1074 ≤ e ≤ 971`, and `m ≥ 2^52` unless `e = -1074` (subnormal numbers and
zero), so that equal numbers other than zeros have equal representations.
Arithmetic rounds to nearest, ties to even. -/

/-- A value of type `double`. -/
inductive F64 where
  | nan : F64
  | inf (neg : Bool) : F64
  | fin (neg : Bool) (m : Nat) (e : Int) : F64
  deriving DecidableEq

namespace F64

/-- The number of binary digits of `m`, by halving at most `fuel` times. -/
def bitLenAux : Nat → Nat → Nat
  | 0, _ => 0
  | fuel + 1, m => if m = 0 then 0 else bitLenAux fuel (m / 2) + 1

/-- The number of binary digits of `m`. -/
def bitLen (m : Nat) : Nat := bitLenAux m m

/-- The double nearest to `(-1)^neg * m * 2^e`, ties to even, with overflow
to infinity. -/
def round (neg : Bool) (m : Nat) (e : Int) : F64 :=
  if m = 0 then fin neg 0 (-1074)
  else
    let e' : Int := max (e + (bitLen m : Nat) - 53) (-1074)
    if e' ≤ e then
      if e' > 971 then inf neg else fin neg (m * 2 ^ (e - e').toNat) e'
    else
      let sh := (e' - e).toNat
      let q := m / 2 ^ sh
      let r := m % 2 ^ sh
      let half := 2 ^ (sh - 1)
      let q' := if r > half ∨ (r = half ∧ q % 2 = 1) then q + 1 else q
      if q' = 2 ^ 53 then
        (if e' + 1 > 971 then inf neg else fin neg (2 ^ 52) (e' + 1))
      else
        (if e' > 971 then inf neg else fin neg q' e')

/-- The sum `a + b` of doubles. -/
def add : F64 → F64 → F64
  | nan, _ => nan
  | _, nan => nan
  | inf s, inf t => if s = t then inf s else nan
  | inf s, fin _ _ _ => inf s
  | fin _ _ _, inf t => inf t
  | fin s1 m1 e1, fin s2 m2 e2 =>
    let e := min e1 e2
    let a : Int := (if s1 then -1 else 1) * ((m1 * 2 ^ (e1 - e).toNat : Nat) : Int)
    let b : Int := (if s2 then -1 else 1) * ((m2 * 2 ^ (e2 - e).toNat : Nat) : Int)
    let c := a + b
    if c = 0 then fin (s1 && s2) 0 (-1074) else round (decide (c < 0)) c.natAbs e

/-- The negation `-a` of a double. -/
def neg : F64 → F64
  | nan => nan
  | inf s => inf (!s)
  | fin s m e => fin (!s) m e

/-- The product `a * b` of doubles. -/
def mul : F64 → F64 → F64
  | nan, _ => nan
  | _, nan => nan
  | inf s, inf t => inf (xor s t)
  | inf s, fin t m _ => if m = 0 then nan else inf (xor s t)
  | fin s m _, inf t => if m = 0 then nan else inf (xor s t)
  | fin s1 m1 e1, fin s2 m2 e2 => round (xor s1 s2) (m1 * m2) (e1 + e2)

/-- The comparison `a != b` of doubles: true when either is NaN, false on
two zeros of any sign. -/
def ne : F64 → F64 → Bool
  | nan, _ => true
  | _, nan => true
  | inf s, inf t => s != t
  | inf _, fin _ _ _ => true
  | fin _ _ _, inf _ => true
  | fin s1 m1 e1, fin s2 m2 e2 =>
    if m1 = 0 ∧ m2 = 0 then false else !(decide (s1 = s2 ∧ m1 = m2 ∧ e1 = e2))

/-- The conversion of an `int` to `double`. -/
def ofInt (i : Int) : F64 := round (decide (i < 0)) i.natAbs 0

instance : Zero F64 := ⟨fin false 0 (-1074)⟩

instance : One F64 := ⟨ofInt 1⟩

instance : Add F64 := ⟨add⟩

instance : Neg F64 := ⟨neg⟩

instance : Sub F64 := ⟨fun a b => add a (neg b)⟩

instance : Mul F64 := ⟨mul⟩

instance : FloatNe F64 := ⟨ne⟩

/-- The quotient `a / b` of doubles: the quotient of the significands is taken
with at least 55 binary digits and a sticky last digit, then rounded. -/
def div : F64 → F64 → F64
  | nan, _ => nan
  | _, nan => nan
  | inf _, inf _ => nan
  | inf s, fin t _ _ => inf (xor s t)
  | fin s _ _, inf t => fin (xor s t) 0 (-1074)
  | fin s1 m1 e1, fin s2 m2 e2 =>
    if m2 = 0 then (if m1 = 0 then nan else inf (xor s1 s2))
    else
      let k := 55 + bitLen m2
      let q := m1 * 2 ^ k / m2
      let r := m1 * 2 ^ k % m2
      round (xor s1 s2) (2 * q + (if r = 0 then 0 else 1)) (e1 - e2 - k - 1)

/-- The remainder `std::fmod(a, b)` of doubles: the exact remainder of the
truncating division, with the sign of `a`. -/
def fmod : F64 → F64 → F64
  | nan, _ => nan
  | _, nan => nan
  | inf _, _ => nan
  | fin s m e, inf _ => fin s m e
  | fin s1 m1 e1, fin _ m2 e2 =>
    if m2 = 0 then nan
    else
      let e := min e1 e2
      round s1 (m1 * 2 ^ (e1 - e).toNat % (m2 * 2 ^ (e2 - e).toNat)) e

/-- The comparison `a < b` of doubles: false when either is NaN. -/
def lt : F64 → F64 → Bool
  | nan, _ => false
  | _, nan => false
  | inf s, inf t => s && !t
  | inf s, fin _ _ _ => s
  | fin _ _ _, inf t => !t
  | fin s1 m1 e1, fin s2 m2 e2 =>
    let e := min e1 e2
    let a : Int := (if s1 then -1 else 1) * ((m1 * 2 ^ (e1 - e).toNat : Nat) : Int)
    let b : Int := (if s2 then -1 else 1) * ((m2 * 2 ^ (e2 - e).toNat : Nat) : Int)
    decide (a < b)

/-- The comparison `a <= b` of doubles: false when either is NaN. -/
def le : F64 → F64 → Bool
  | nan, _ => false
  | _, nan => false
  | inf s, inf t => s || !t
  | inf s, fin _ _ _ => s
  | fin _ _ _, inf t => !t
  | fin s1 m1 e1, fin s2 m2 e2 =>
    let e := min e1 e2
    let a : Int := (if s1 then -1 else 1) * ((m1 * 2 ^ (e1 - e).toNat : Nat) : Int)
    let b : Int := (if s2 then -1 else 1) * ((m2 * 2 ^ (e2 - e).toNat : Nat) : Int)
    decide (a ≤ b)

instance : FloatOrd F64 := ⟨lt, le⟩

instance : Div F64 := ⟨div⟩

instance : FloatMod F64 := ⟨fmod⟩

instance : IntCast F64 := ⟨ofInt⟩

/-- The finite doubles: neither NaN nor an infinity, stored as described
above. -/
def IsFinite : F64 → Prop
  | fin _ m e => m < 2 ^ 53 ∧ -1074 ≤ e ∧ e ≤ 971 ∧ (m < 2 ^ 52 → e = -1074)
  | _ => False

instance (x : F64) : Decidable (IsFinite x) := by
  cases x <;> unfold IsFinite <;> infer_instance

/-- The double `0.1`, that is `0x1.999999999999ap-4`. -/
def tenth : F64 := fin false 0x1999999999999A (-56)

/-- The double `2^600`. -/
def big : F64 := fin false (2 ^ 52) 548

/-- The double `0.5`. -/
def half : F64 := fin false (2 ^ 52) (-53)

/-- The real number a finite double stands for (`0` for NaN and infinities). -/
def toRat : F64 → ℚ
  | fin s m e => (if s then -1 else 1) * (m : ℚ) * (2 : ℚ) ^ e
  | _ => 0

/-- The sign bit of a double (`false` for NaN). -/
def signBit : F64 → Bool
  | fin s _ _ => s
  | inf s => s
  | nan => false

/-- The function `std::fabs`. -/
def abs : F64 → F64
  | nan => nan
  | inf _ => inf false
  | fin _ m e => fin false m e

/-- The rational number `q` is the value of a finite double. -/
def Representable (q : ℚ) : Prop := ∃ x : F64, IsFinite x ∧ toRat x = q

/-- No addition of the accumulation of `countSum` rounds on the elements with
the values `q`: every exact partial sum is a double. -/
def ExactSum (n : Nat) (q : Nat → Nat → ℚ) : Prop :=
  ∀ i j : Nat, i < n → j < n → Representable (sumUpTo n q i (j + 1))

/-- No operation rounds in the product of the matrices of dimension `n` with
the values `a` and `b`: every exact product `a i k * b k j` and every exact
partial sum of the accumulation of an element is a double. -/
def ExactProduct (n : Nat) (a b : Nat → Nat → ℚ) : Prop :=
  ∀ i j k : Nat, i < n → j < n → k < n →
    Representable (a i k * b k j) ∧ Representable (sumLeft (k + 1) fun t => a i t * b t j)

/-- No operation rounds in the `p` multiplications by which `operator^`
computes the power `p` of the matrix of dimension `n` with the values `a`. -/
def ExactPower (n : Nat) (a : Nat → Nat → ℚ) : Nat → Prop
  | 0 => True
  | p + 1 => ExactPower n a p ∧ ExactProduct n (SquareMat.powFun n a p) a

end F64

namespace SquareMat

/-- No determinant of a minor overflows while `operator!` runs on the matrix
of dimension `n` with the elements `f`: the value that every recursive call of
`getDeterminant` returns is a finite double. -/
def MinorsFinite : Nat → (Nat → Nat → F64) → Prop
  | n + 3, f => ∀ i : Nat, i < n + 3 →
      F64.IsFinite (detRec (n + 2) (minorFun f i)) ∧ MinorsFinite (n + 2) (minorFun f i)
  | _, _ => True

end SquareMat

/-- The integer part of a rational number, rounding towards zero. -/
def truncQ (q : ℚ) : Int := if 0 ≤ q then ⌊q⌋ else ⌈q⌉

/-- Exact integer arithmetic: `a != b` is the negation of equality. -/
instance : FloatNe Int := ⟨fun a b => decide (a ≠ b)⟩

/-- Exact integer arithmetic: the order of the integers. -/
instance : FloatOrd Int := ⟨fun a b => decide (a < b), fun a b => decide (a ≤ b)⟩

/-- The value `u` compares equal to zero: `u != 0` is false. -/
def IsZero {α : Type} [Zero α] [FloatNe α] (u : α) : Prop := FloatNe.ne u 0 = false

/-- The laws of arithmetic that multiplication by the identity matrix relies
on, for the values `x` with `fin x`.  They hold in exact arithmetic and for
the finite doubles, where a product with `0` is a zero of either sign. -/
structure IdentityLaws (α : Type) [Zero α] [One α] [Add α] [Mul α] [FloatNe α]
    (fin : α → Prop) : Prop where
  zero : IsZero (0 : α)
  zero_add_zero : ∀ u v : α, IsZero u → IsZero v → IsZero (u + v)
  mul_zero : ∀ x : α, fin x → IsZero (x * 0)
  zero_mul : ∀ x : α, fin x → IsZero (0 * x)
  mul_one : ∀ x : α, fin x → x * 1 = x
  one_mul : ∀ x : α, fin x → 1 * x = x
  zero_add : ∀ u x : α, IsZero u → fin x → FloatNe.ne (u + x) x = false
  add_zero : ∀ y x u : α, fin x → FloatNe.ne y x = false → IsZero u →
    FloatNe.ne (y + u) x = false

/-- The value `t` is a zero, `1` or `-1`. -/
def IsUnitOrZero {α : Type} [Zero α] [One α] [Neg α] [FloatNe α] (t : α) : Prop :=
  IsZero t ∨ t = 1 ∨ t = -1

/-- The laws of arithmetic on zeros, `1` and `-1` that the determinant of an
identity matrix relies on.  They hold in exact arithmetic and for doubles,
where a product with `0` is a zero of either sign. -/
structure DetLaws (α : Type) [Zero α] [One α] [Add α] [Sub α] [Mul α] [Neg α]
    [FloatNe α] : Prop where
  zero : IsZero (0 : α)
  zero_add_zero : ∀ u v : α, IsZero u → IsZero v → IsZero (u + v)
  zero_add : ∀ u t : α, IsZero u → IsUnitOrZero t → IsUnitOrZero (u + t)
  add_zero : ∀ t w : α, IsUnitOrZero t → IsZero w → IsUnitOrZero (t + w)
  one_add_zero : ∀ w : α, IsZero w → (1 : α) + w = 1
  zero_add_one : (0 : α) + 1 = 1
  one_mul_zero : IsZero ((1 : α) * 0)
  neg_one_mul_zero : IsZero ((-1 : α) * 0)
  zero_mul : ∀ u t : α, IsZero u → IsUnitOrZero t → IsZero (u * t)
  one_mul_one : (1 : α) * 1 = 1
  neg_one_mul_one : (-1 : α) * 1 = -1
  one_mul : ∀ t : α, IsUnitOrZero t → IsUnitOrZero (1 * t)
  neg_one_mul : ∀ t : α, IsUnitOrZero t → IsUnitOrZero (-1 * t)
  base : ∀ x y z w : α, (x = 0 ∨ x = 1) → (y = 0 ∨ y = 1) → (z = 0 ∨ z = 1) →
    (w = 0 ∨ w = 1) → IsUnitOrZero (x * y - z * w)
  base_one : (1 : α) * 1 - 0 * 0 = 1

/-! ## Example matrices -/

/-- The matrix `[[1, 2], [3, 4]]` over the integers. -/
def exA : SquareMat Int := { rows := 2, columns := 2, data := [[1, 2], [3, 4]], size := 4 }

/-- The matrix `[[0, 1], [1, 0]]` over the integers. -/
def exB : SquareMat Int := { rows := 2, columns := 2, data := [[0, 1], [1, 0]], size := 4 }

/-- The matrix `[[1, 2, 3], [4, 5, 6], [7, 8, 10]]` over the integers. -/
def exC : SquareMat Int :=
  { rows := 3, columns := 3, data := [[1, 2, 3], [4, 5, 6], [7, 8, 10]], size := 9 }

/-- The matrix `[[1, 2], [0, 0]]` over the integers; its second row is zero. -/
def exZ : SquareMat Int := { rows := 2, columns := 2, data := [[1, 2], [0, 0]], size := 4 }

/-- The 1 x 1 matrix of doubles `[[0.1]]`. -/
def exTenth : SquareMat F64 :=
  { rows := 1, columns := 1, data := [[F64.tenth]], size := 1 }

/-- The 1 x 1 matrix of doubles `[[NaN]]`. -/
def exNaN : SquareMat F64 :=
  { rows := 1, columns := 1, data := [[F64.nan]], size := 1 }

/-- The 2 x 2 matrix of doubles `[[inf, 0], [0, 0]]`. -/
def exInf : SquareMat F64 :=
  { rows := 2, columns := 2, data := [[F64.inf false, 0], [0, 0]], size := 4 }

/-- The 3 x 3 matrix of doubles `[[0, 1, 1], [0, b, b], [0, b, b]]` with
`b = 2^600`; its first column is zero. -/
def exBig : SquareMat F64 :=
  { rows := 3, columns := 3
    data := [[0, 1, 1], [0, F64.big, F64.big], [0, F64.big, F64.big]], size := 9 }

/-- The 1 x 1 matrix of doubles `[[1]]`. -/
def exOne : SquareMat F64 :=
  { rows := 1, columns := 1, data := [[1]], size := 1 }

/-- The 1 x 1 matrix of doubles `[[inf]]`. -/
def exInfOne : SquareMat F64 :=
  { rows := 1, columns := 1, data := [[F64.inf false]], size := 1 }

/-- The 2 x 2 matrix of doubles `[[5, 7], [9, 11]]`. -/
def exMod : SquareMat F64 :=
  { rows := 2, columns := 2
    data := [[F64.ofInt 5, F64.ofInt 7], [F64.ofInt 9, F64.ofInt 11]], size := 4 }

/-- The 2 x 2 matrix of doubles `[[11, 9], [7, 5]]`. -/
def exModRev : SquareMat F64 :=
  { rows := 2, columns := 2
    data := [[F64.ofInt 11, F64.ofInt 9], [F64.ofInt 7, F64.ofInt 5]], size := 4 }

/-- The 2 x 2 matrix of doubles whose every element is `0.1`. -/
def exTenths2 : SquareMat F64 :=
  { rows := 2, columns := 2
    data := [[F64.tenth, F64.tenth], [F64.tenth, F64.tenth]], size := 4 }

/-- The 3 x 3 matrix of doubles whose every element is `0.1`. -/
def exTenths3 : SquareMat F64 :=
  { rows := 3, columns := 3
    data := [[F64.tenth, F64.tenth, F64.tenth], [F64.tenth, F64.tenth, F64.tenth],
      [F64.tenth, F64.tenth, F64.tenth]], size := 9 }

/-- The 1 x 1 matrix of doubles `[[2^53]]`. -/
def exTwo53 : SquareMat F64 :=
  { rows := 1, columns := 1, data := [[F64.fin false (2 ^ 52) 1]], size := 1 }

/-- The 1 x 1 matrix of doubles `[[2]]`. -/
def exTwo : SquareMat F64 :=
  { rows := 1, columns := 1, data := [[F64.ofInt 2]], size := 1 }

/-- The 2 x 2 matrix of doubles `[[1e16, 1], [-1e16, 1]]`. -/
def exCancel : SquareMat F64 :=
  { rows := 2, columns := 2
    data := [[F64.ofInt 10000000000000000, F64.ofInt 1],
      [F64.ofInt (-10000000000000000), F64.ofInt 1]], size := 4 }

/-- The 2 x 2 matrix of doubles whose every element is `3`. -/
def exThrees : SquareMat F64 :=
  { rows := 2, columns := 2
    data := [[F64.ofInt 3, F64.ofInt 3], [F64.ofInt 3, F64.ofInt 3]], size := 4 }

/-- The 3 x 3 matrix of doubles `[[0, 1, 2], [0, 3, 4], [0, 5, 6]]`; its first
column is zero. -/
def exZeroCol : SquareMat F64 :=
  { rows := 3, columns := 3
    data := [[0, F64.ofInt 1, F64.ofInt 2], [0, F64.ofInt 3, F64.ofInt 4],
      [0, F64.ofInt 5, F64.ofInt 6]], size := 9 }

/-- The 2 x 2 matrix of doubles `[[1, 2], [3, 4]]`. -/
def exF : SquareMat F64 :=
  { rows := 2, columns := 2
    data := [[F64.ofInt 1, F64.ofInt 2], [F64.ofInt 3, F64.ofInt 4]], size := 4 }

/-- A heap of matrices of doubles: `[[0.1]]` at address 0, the 2 x 2 matrix
`[[inf, 0], [0, 0]]` at address 1, and `[[1]]` everywhere else. -/
def exHeap : Heap F64 := fun a => if a = 0 then exTenth else if a = 1 then exInf else exOne

/-- A memory with one matrix of doubles, `[[0.1]]`, in the object at address 0:
its array of row pointers is at address 1 and its row at address 2.  The other
objects hold no storage. -/
def exMem : Mem F64 :=
  { objs := fun a =>
      if a = 0 then { rows := 1, columns := 1, data := 1, size := 1 }
      else { rows := 0, columns := 0, data := 0, size := 0 }
    tables := fun p => if p = 1 then some [some 2] else none
    arrays := fun q => if q = 2 then some [some F64.tenth] else none
    next := 3 }

/-- The memory `exMem` with the matrix `[[NaN]]` in place of `[[0.1]]`. -/
def exMemNaN : Mem F64 :=
  { objs := fun a =>
      if a = 0 then { rows := 1, columns := 1, data := 1, size := 1 }
      else { rows := 0, columns := 0, data := 0, size := 0 }
    tables := fun p => if p = 1 then some [some 2] else none
    arrays := fun q => if q = 2 then some [some F64.nan] else none
    next := 3 }

instance {α : Type} (m : SquareMat α) (n : Nat) : Decidable (SquareMat.WF m n) := by
  unfold SquareMat.WF
  infer_instance

/-! ## Loops -/

theorem forLoop_eq {σ : Type} (body : Int → σ → Except Error σ) (k : Nat) (lo : Int)
    (S : Nat → σ) (h : ∀ t, t < k → body (lo + t) (S t) = .ok (S (t + 1))) :
    forLoop body k lo (S 0) = .ok (S k) := by
  induction k generalizing lo S with
  | zero => rfl
  | succ k ih =>
    have h0 := h 0 (Nat.succ_pos k)
    simp only [Nat.cast_zero, add_zero, zero_add] at h0
    rw [forLoop, h0]
    have := ih (lo + 1) (fun t => S (t + 1)) (fun t ht => by
      have := h (t + 1) (Nat.succ_lt_succ ht)
      have e : lo + ((t + 1 : Nat) : Int) = lo + 1 + (t : Int) := by push_cast; ring
      rw [e] at this
      exact this)
    exact this

theorem forInt_eq {σ : Type} (body : Int → σ → Except Error σ) (lo : Int) (k : Nat)
    (S : Nat → σ) (h : ∀ t, t < k → body (lo + t) (S t) = .ok (S (t + 1))) :
    forInt lo (lo + k) (S 0) body = .ok (S k) := by
  unfold forInt
  have : (lo + (k : Int) - lo).toNat = k := by simp
  rw [this]
  exact forLoop_eq body k lo S h

theorem forInt_zero_eq {σ : Type} (body : Int → σ → Except Error σ) (k : Nat)
    (S : Nat → σ) (h : ∀ t, t < k → body t (S t) = .ok (S (t + 1))) :
    forInt 0 k (S 0) body = .ok (S k) := by
  have := forInt_eq body 0 k S (fun t ht => by simpa using h t ht)
  simpa using this

theorem toSizeT_natCast (i : Nat) (h : i < 2 ^ 64) : toSizeT (i : Int) = i := by
  unfold toSizeT
  have h1 : ((i : Int) % 2 ^ 64) = i := by
    apply Int.emod_eq_of_lt
    · exact Int.natCast_nonneg i
    · exact_mod_cast h
  rw [h1]
  simp

namespace SquareMat

variable {α : Type}

theorem ofFun_congr {n : Nat} {f g : Nat → Nat → α}
    (h : ∀ i j, i < n → j < n → f i j = g i j) : ofFun n f = ofFun n g := by
  unfold ofFun
  congr 1
  apply List.map_congr_left
  intro i hi
  apply List.map_congr_left
  intro j hj
  exact h i j (List.mem_range.mp hi) (List.mem_range.mp hj)

theorem ofFun_wf {n : Nat} (hn : n < 2 ^ 31) (f : Nat → Nat → α) : WF (ofFun n f) n := by
  refine ⟨hn, rfl, rfl, by simp [ofFun], ?_⟩
  intro r hr
  simp only [ofFun, List.mem_map, List.mem_range] at hr
  obtain ⟨i, _, rfl⟩ := hr
  simp

theorem withSize_wf {m : SquareMat α} {n : Nat} (h : WF m n) (s : Nat) :
    WF (m.withSize s) n := h

theorem ofFun_row {n : Nat} (f : Nat → Nat → α) {i : Nat} (hi : i < n) :
    (ofFun n f).data[i]? = some ((List.range n).map (f i)) := by
  simp [ofFun, List.getElem?_map, List.getElem?_range hi]

theorem ofFun_elem [Zero α] {n : Nat} (f : Nat → Nat → α) {i j : Nat} (hi : i < n)
    (hj : j < n) : (ofFun n f).elem i j = f i j := by
  simp [elem, List.getD_eq_getElem?_getD, ofFun_row f hi, List.getElem?_map,
    List.getElem?_range hj]

theorem WF.eq_ofFun [Zero α] {m : SquareMat α} {n : Nat} (h : WF m n) :
    m = (ofFun n m.elem).withSize m.size := by
  obtain ⟨_, hr, hc, hl, hrow⟩ := h
  cases m with
  | mk rows columns data size =>
    simp only at hr hc hl hrow
    subst hr hc
    simp only [ofFun, withSize, mk.injEq, true_and, and_true]
    apply List.ext_getElem
    · simp [hl]
    · intro i h1 h2
      have hi : i < n := by simpa [hl] using h1
      have hlen : (data[i]).length = n := hrow _ (List.getElem_mem h1)
      apply List.ext_getElem
      · simp [hlen]
      · intro j h3 h4
        have hj : j < n := by simpa [hlen] using h3
        simp [elem, List.getD_eq_getElem?_getD, List.getElem?_eq_getElem h1,
          List.getElem?_eq_getElem h3]

/-! The operators do not read `size`. -/

theorem raw_withSize (m : SquareMat α) (s : Nat) (i j : Int) :
    (m.withSize s).raw i j = m.raw i j := rfl

theorem operatorIndex_withSize (m : SquareMat α) (s : Nat) (row : Nat) :
    (m.withSize s).operatorIndex row = m.operatorIndex row := rfl

theorem idx_withSize (m : SquareMat α) (s : Nat) (i j : Int) :
    (m.withSize s).idx i j = m.idx i j := rfl

theorem operatorCall_withSize (m : SquareMat α) (s : Nat) (i j : Int) :
    (m.withSize s).operatorCall i j = m.operatorCall i j := rfl

theorem elem_withSize [Zero α] (m : SquareMat α) (s : Nat) :
    (m.withSize s).elem = m.elem := rfl

theorem minorOf_withSize (m : SquareMat α) (s : Nat) (i : Nat) :
    minorOf (m.withSize s) i = minorOf m i := rfl

theorem operatorMul_withSize [Zero α] [Add α] [Mul α] (l r : SquareMat α) (s t : Nat) :
    operatorMul (l.withSize s) (r.withSize t) = operatorMul l r := rfl

theorem operatorTilde_withSize [Zero α] (m : SquareMat α) (s : Nat) :
    operatorTilde (m.withSize s) = operatorTilde m := rfl

theorem operatorEq_withSize [FloatNe α] (l r : SquareMat α) (s t : Nat) :
    operatorEq (l.withSize s) (r.withSize t) = operatorEq l r := rfl

theorem getDeterminantAux_withSize [Zero α] [One α] [Add α] [Sub α] [Mul α] [Neg α]
    (fuel : Nat) (m : SquareMat α) (s : Nat) :
    getDeterminantAux fuel (m.withSize s) = getDeterminantAux fuel m := by
  cases fuel with
  | zero => rfl
  | succ k => rw [getDeterminantAux, getDeterminantAux]; rfl

theorem operatorNot_withSize [Zero α] [One α] [Add α] [Sub α] [Mul α] [Neg α]
    (m : SquareMat α) (s : Nat) : operatorNot (m.withSize s) = operatorNot m := by
  unfold operatorNot getDeterminant
  rw [getDeterminantAux_withSize]
  rfl

theorem rawSet_withSize (m : SquareMat α) (s : Nat) (i j : Int) (v : α) :
    (m.withSize s).rawSet i j v = (m.rawSet i j v).map fun r => r.withSize s := by
  unfold rawSet
  split
  · show (match m.data.get? i.toNat with
      | some r => _
      | none => _) = _
    cases m.data.get? i.toNat with
    | none => rfl
    | some r =>
      simp only
      split <;> rfl
  · rfl

theorem operatorCallSet_withSize (m : SquareMat α) (s : Nat) (i j : Int) (v : α) :
    (m.withSize s).operatorCallSet i j v =
      (m.operatorCallSet i j v).map fun r => r.withSize s := by
  unfold operatorCallSet
  show (if i < 0 ∨ i ≥ m.rows ∨ j < 0 ∨ j ≥ m.columns then _ else _) = _
  split
  · rfl
  · exact rawSet_withSize m s i j v

theorem copy_withSize (m : SquareMat α) (s : Nat) :
    copy (m.withSize s) = (copy m).map fun r => r.withSize s := by
  unfold copy
  show (do
    let data ← forInt 0 m.rows ([] : List (List α)) fun i data => do
      let row ← forInt 0 m.columns ([] : List α) fun j row => do
        let v ← m.raw i j
        pure (row ++ [v])
      pure (data ++ [row])
    pure ({ rows := m.rows, columns := m.columns, size := s, data := data } :
      SquareMat α)) = _
  cases forInt 0 m.rows ([] : List (List α)) fun i data => do
      let row ← forInt 0 m.columns ([] : List α) fun j row => do
        let v ← m.raw i j
        pure (row ++ [v])
      pure (data ++ [row]) with
  | error e => rfl
  | ok d => rfl

theorem operatorPow_withSize [Zero α] [One α] [Add α] [Mul α] (m : SquareMat α) (s : Nat)
    (p : Int) : operatorPow (m.withSize s) p = operatorPow m p := by
  unfold operatorPow
  split
  · rfl
  · show (do
      let result ← ctor m.rows m.columns
      let result ← forInt 0 m.rows result fun i result =>
        forInt 0 m.columns result fun j result =>
          result.setIdx i j (if i = j then 1 else 0)
      if p = 0 then pure result
      else do
        let _helper ← copy (m.withSize s)
        forInt 0 p result fun _ result => result.operatorMulAssign (m.withSize s)) = _
    rw [copy_withSize]
    cases ctor (α := α) m.rows m.columns with
    | error e => rfl
    | ok r0 =>
      simp only [bind, Except.bind]
      cases forInt 0 m.rows r0 fun i result =>
          forInt 0 m.columns result fun j result =>
            result.setIdx i j (if i = j then 1 else 0) with
      | error e => rfl
      | ok r1 =>
        simp only
        split
        · rfl
        · cases copy m with
          | error e => rfl
          | ok c => rfl

end SquareMat

/-! ## Element access on a matrix of dimension `n` -/

namespace SquareMat

variable {α : Type}

theorem raw_ofFun {n : Nat} (f : Nat → Nat → α) {i j : Nat} (hi : i < n) (hj : j < n) :
    (ofFun n f).raw i j = .ok (f i j) := by
  have h0 : (0 : Int) ≤ (i : Int) ∧ (0 : Int) ≤ (j : Int) :=
    ⟨Int.natCast_nonneg i, Int.natCast_nonneg j⟩
  simp only [raw, h0, and_self, if_true, Int.toNat_ofNat, List.get?_eq_getElem?,
    ofFun_row f hi]
  simp [List.getElem?_map, List.getElem?_range hj]

theorem set_map_range (n : Nat) (g : Nat → α) (j : Nat) (v : α) :
    ((List.range n).map g).set j v = (List.range n).map fun b => if b = j then v else g b := by
  apply List.ext_getElem?
  intro b
  rw [List.getElem?_set]
  by_cases hb : b < n
  · by_cases hjb : j = b
    · subst hjb
      simp [List.getElem?_map, List.getElem?_range hb, hb]
    · have hbj : ¬ b = j := fun h => hjb h.symm
      simp [List.getElem?_map, List.getElem?_range hb, hjb, hbj]
  · have h1 : ((List.range n).map g)[b]? = none := by
      apply List.getElem?_eq_none; simpa using Nat.le_of_not_lt hb
    have h2 : ((List.range n).map fun b => if b = j then v else g b)[b]? = none := by
      apply List.getElem?_eq_none; simpa using Nat.le_of_not_lt hb
    rw [h1, h2]
    split <;> simp_all

theorem rawSet_ofFun {n : Nat} (f : Nat → Nat → α) {i j : Nat} (hi : i < n) (hj : j < n)
    (v : α) : (ofFun n f).rawSet i j v = .ok (ofFun n (upd f i j v)) := by
  have h0 : (0 : Int) ≤ (i : Int) ∧ (0 : Int) ≤ (j : Int) :=
    ⟨Int.natCast_nonneg i, Int.natCast_nonneg j⟩
  simp only [rawSet, h0, and_self, if_true, Int.toNat_ofNat, List.get?_eq_getElem?,
    ofFun_row f hi]
  have hlen : j < ((List.range n).map (f i)).length := by simpa using hj
  simp only [hlen, if_true]
  congr 1
  simp only [ofFun, mk.injEq, true_and, and_true]
  rw [set_map_range n (f i) j v, set_map_range n _ i _]
  apply List.map_congr_left
  intro a ha
  by_cases hai : a = i
  · subst hai
    simp only [if_true]
    apply List.map_congr_left
    intro b _
    simp [upd]
  · simp only [hai, if_false]
    apply List.map_congr_left
    intro b _
    simp [upd, hai]

theorem operatorIndex_ofFun {n : Nat} (hn : n < 2 ^ 31) (f : Nat → Nat → α) {i : Nat}
    (hi : i < n) : (ofFun n f).operatorIndex (toSizeT i) = .ok i := by
  have h64 : n < 2 ^ 64 := lt_trans hn (by norm_num)
  rw [toSizeT_natCast i (lt_trans hi h64)]
  have hr : toSizeT (ofFun n f).rows = n := toSizeT_natCast n h64
  have hl : (ofFun n f).data.length = n := by simp [ofFun]
  simp [operatorIndex, hr, hl, hi]

theorem idx_ofFun {n : Nat} (hn : n < 2 ^ 31) (f : Nat → Nat → α) {i j : Nat} (hi : i < n)
    (hj : j < n) : (ofFun n f).idx i j = .ok (f i j) := by
  simp only [idx, operatorIndex_ofFun hn f hi]
  exact raw_ofFun f hi hj

theorem setIdx_ofFun {n : Nat} (hn : n < 2 ^ 31) (f : Nat → Nat → α) {i j : Nat}
    (hi : i < n) (hj : j < n) (v : α) :
    (ofFun n f).setIdx i j v = .ok (ofFun n (upd f i j v)) := by
  simp only [setIdx, operatorIndex_ofFun hn f hi]
  exact rawSet_ofFun f hi hj v

theorem operatorCall_ofFun {n : Nat} (f : Nat → Nat → α) {i j : Nat} (hi : i < n)
    (hj : j < n) : (ofFun n f).operatorCall i j = .ok (f i j) := by
  have hc : ¬ ((i : Int) < 0 ∨ (i : Int) ≥ (ofFun n f).rows ∨ (j : Int) < 0 ∨
      (j : Int) ≥ (ofFun n f).columns) := by
    simp only [ofFun]
    omega
  simp only [operatorCall, hc, if_false]
  exact raw_ofFun f hi hj

theorem ctor_ofFun [Zero α] {n : Nat} (h1 : 1 ≤ n) :
    ctor (α := α) n n = .ok (ofFun n fun _ _ => 0) := by
  have hc : ¬ ((n : Int) ≤ 0 ∨ (n : Int) ≤ 0) := by omega
  simp only [ctor, ne_eq, not_true_eq_false, if_false, hc]
  congr 1
  simp only [ofFun, mk.injEq, true_and, Int.toNat_ofNat]
  refine ⟨?_, ?_⟩
  · apply List.ext_getElem?
    intro i
    by_cases hi : i < n
    · simp only [List.getElem?_map, List.getElem?_range hi, Option.map_some',
        List.getElem?_replicate, hi, if_true]
      congr 1
      apply List.ext_getElem?
      intro j
      by_cases hj : j < n
      · simp [List.getElem?_map, List.getElem?_range hj, List.getElem?_replicate, hj]
      · rw [List.getElem?_eq_none (by simpa using Nat.le_of_not_lt hj),
          List.getElem?_eq_none (by simpa using Nat.le_of_not_lt hj)]
    · rw [List.getElem?_eq_none (by simpa using Nat.le_of_not_lt hi),
        List.getElem?_eq_none (by simpa using Nat.le_of_not_lt hi)]
  · rw [← Nat.cast_mul, Int.toNat_ofNat]

/-- A double loop that writes the value `g i j` at every position `(i, j)`
produces the matrix with these elements. -/
theorem fill_ofFun {n : Nat} (body : Int → Int → SquareMat α → Except Error (SquareMat α))
    (g : Nat → Nat → α)
    (hbody : ∀ i j, i < n → j < n → ∀ f : Nat → Nat → α,
      body i j (ofFun n f) = .ok (ofFun n (upd f i j (g i j))))
    (f : Nat → Nat → α) :
    forInt 0 n (ofFun n f) (fun i result => forInt 0 n result fun j result => body i j result)
      = .ok (ofFun n g) := by
  have houter := forInt_zero_eq
    (fun i result => forInt 0 (n : Int) result fun j result => body i j result) n
    (fun t => ofFun n fun a b => if a < t then g a b else f a b)
    (fun i hi => by
      have hinner := forInt_zero_eq (fun j result => body (i : Int) j result) n
        (fun t => ofFun n fun a b =>
          if a = i ∧ b < t then g a b else if a < i then g a b else f a b)
        (fun j hj => by
          simp only
          rw [hbody i j hi hj]
          congr 1
          apply ofFun_congr
          intro a b _ _
          simp only [upd]
          by_cases h1 : a = i
          · by_cases h2 : b = j
            · subst h1 h2; simp
            · have : b < j + 1 ↔ b < j := by omega
              simp [h1, h2, this]
          · simp [h1])
      simp only at hinner ⊢
      have e0 : (ofFun n fun a b => if a < i then g a b else f a b) =
          ofFun n fun a b => if a = i ∧ b < 0 then g a b else if a < i then g a b else f a b := by
        apply ofFun_congr; intro a b _ _; simp
      rw [e0, hinner]
      congr 1
      apply ofFun_congr
      intro a b _ hb
      by_cases h1 : a = i
      · subst h1; simp [hb]
      · have : a < i + 1 ↔ a < i := by omega
        simp [h1, this])
  simp only at houter
  have e0 : ofFun n f = ofFun n fun a b => if a < 0 then g a b else f a b := by
    apply ofFun_congr; intro a b _ _; simp
  rw [e0, houter]
  congr 1
  apply ofFun_congr
  intro a b ha _
  simp [ha]

end SquareMat

/-! ## The matrix product -/

theorem sumLeft_zero {α : Type} [Zero α] [Add α] (t : Nat → α) : sumLeft 0 t = 0 := rfl

theorem sumLeft_succ {α : Type} [Zero α] [Add α] (n : Nat) (t : Nat → α) :
    sumLeft (n + 1) t = sumLeft n t + t n := by
  simp [sumLeft, List.range_succ, List.foldl_append]

namespace SquareMat

variable {α : Type}

theorem upd_upd (f : Nat → Nat → α) (i j : Nat) (v w : α) :
    upd (upd f i j v) i j w = upd f i j w := by
  funext a b
  simp only [upd]
  split <;> rfl

theorem upd_same (f : Nat → Nat → α) (i j : Nat) (v : α) : upd f i j v i j = v := by
  simp [upd]

theorem operatorMul_ofFun [Zero α] [Add α] [Mul α] {n : Nat} (h1 : 1 ≤ n) (hn : n < 2 ^ 31)
    (a b : Nat → Nat → α) :
    operatorMul (ofFun n a) (ofFun n b) =
      .ok (ofFun n fun i j => sumLeft n fun k => a i k * b k j) := by
  have hrows : ∀ f : Nat → Nat → α, (ofFun n f).getRows = n := fun _ => rfl
  have hcols : ∀ f : Nat → Nat → α, (ofFun n f).getCols = n := fun _ => rfl
  simp only [operatorMul, hrows, hcols, ne_eq, not_true_eq_false, or_self, if_false,
    ctor_ofFun h1, bind, Except.bind]
  apply fill_ofFun _ (fun i j => sumLeft n fun k => a i k * b k j)
  intro i j hi hj f
  simp only [setIdx_ofFun hn f hi hj]
  have key : ∀ body : Int → SquareMat α → Except Error (SquareMat α),
      (∀ t, t < n → body (t : Int) (ofFun n (upd f i j (sumLeft t fun k => a i k * b k j))) =
        .ok (ofFun n (upd f i j (sumLeft (t + 1) fun k => a i k * b k j)))) →
      forInt 0 n (ofFun n (upd f i j 0)) body =
        .ok (ofFun n (upd f i j (sumLeft n fun k => a i k * b k j))) := by
    intro body hb
    exact forInt_zero_eq body n
      (fun t => ofFun n (upd f i j (sumLeft t fun k => a i k * b k j))) hb
  apply key
  intro k hk
  simp only [idx_ofFun hn _ hi hj, idx_ofFun hn a hi hk, idx_ofFun hn b hk hj,
    setIdx_ofFun hn _ hi hj, upd_same, upd_upd, sumLeft_succ]

end SquareMat

/-! ## The determinant -/

theorem forInt_steps {σ : Type} (lo hi : Int) (k : Nat) (hk : hi = lo + k) (S : Nat → σ)
    (s0 sk : σ) (h0 : s0 = S 0) (hk' : sk = S k) (body : Int → σ → Except Error σ)
    (h : ∀ t, t < k → body (lo + t) (S t) = .ok (S (t + 1))) :
    forInt lo hi s0 body = .ok sk := by
  subst hk h0 hk'
  exact forInt_eq body lo k S h

namespace SquareMat

variable {α : Type}

/-- The row loop body of `getDeterminant` copies row `t + 1` without column
`i` into row `t` of the minor. -/
theorem minor_row_loop {m : Nat} (hm : m + 1 < 2 ^ 31) (f : Nat → Nat → α) {i t : Nat}
    (hi : i < m + 1) (ht : t < m) (h : Nat → Nat → α) :
    forInt 0 ((m + 1 : Nat) : Int) (ofFun m h, (0 : Int))
      (fun c st =>
        if c = (i : Int) then pure st
        else do
          let v ← (ofFun (m + 1) f).idx (1 + (t : Int)) c
          let minor ← st.1.setIdx (1 + (t : Int) - 1) st.2 v
          pure (minor, st.2 + 1)) =
      .ok (ofFun m (fun a b => if a = t then f (t + 1) (skipCol i b) else h a b),
        ((m : Nat) : Int)) := by
  have hm' : m < 2 ^ 31 := by omega
  refine forInt_steps 0 _ (m + 1) (by simp)
    (fun c => (ofFun m (fun a b =>
      if a = t ∧ b < colIdx i c then f (t + 1) (skipCol i b) else h a b),
      ((colIdx i c : Nat) : Int))) _ _ ?_ ?_ _ ?_
  · simp only [colIdx, Nat.zero_le, if_true, Nat.cast_zero, Prod.mk.injEq, and_true]
    apply ofFun_congr
    intro a b _ _
    simp
  · have hc : colIdx i (m + 1) = m := by simp only [colIdx]; split <;> omega
    simp only [hc, Prod.mk.injEq, and_true]
    apply ofFun_congr
    intro a b _ hb
    simp [hb]
  · intro c hc
    simp only [zero_add]
    by_cases hci : c = i
    · subst hci
      have e1 : colIdx c (c + 1) = colIdx c c := by simp [colIdx]
      simp only [if_true, e1]
      rfl
    · have hci' : ¬ ((c : Int) = (i : Int)) := by exact_mod_cast hci
      have hlt : colIdx i c < m := by simp only [colIdx]; split <;> omega
      have hsucc : colIdx i (c + 1) = colIdx i c + 1 := by
        simp only [colIdx]; split <;> split <;> omega
      have hskip : skipCol i (colIdx i c) = c := by
        simp only [skipCol, colIdx]; split <;> split <;> omega
      have e1 : (1 : Int) + (t : Int) = ((t + 1 : Nat) : Int) := by push_cast; ring
      have e2 : (((t + 1 : Nat) : Int) - 1) = (t : Int) := by push_cast; ring
      simp only [hci', if_false, e1, e2, idx_ofFun hm f (Nat.succ_lt_succ ht) hc,
        setIdx_ofFun hm' _ ht hlt, bind, Except.bind, pure, Except.pure]
      congr 1
      rw [hsucc]
      simp only [Nat.cast_add, Nat.cast_one, Prod.mk.injEq, and_true]
      apply ofFun_congr
      intro a b _ _
      simp only [upd]
      by_cases h1 : a = t
      · by_cases h2 : b = colIdx i c
        · subst h1 h2; simp [hskip]
        · have : b < colIdx i c + 1 ↔ b < colIdx i c := by omega
          simp [h1, h2, this]
      · simp [h1]

/-- The loops of `getDeterminant` that fill the minor for column `i`. -/
theorem minor_loop {m : Nat} (hm : m + 1 < 2 ^ 31) (f : Nat → Nat → α) {i : Nat}
    (hi : i < m + 1) (g : Nat → Nat → α) :
    forInt 1 ((m + 1 : Nat) : Int) (ofFun m g)
      (fun r minor => do
        let st ← forInt 0 ((m + 1 : Nat) : Int) (minor, (0 : Int)) fun c st =>
          if c = (i : Int) then pure st
          else do
            let v ← (ofFun (m + 1) f).idx r c
            let minor ← st.1.setIdx (r - 1) st.2 v
            pure (minor, st.2 + 1)
        pure st.1) =
      .ok (ofFun m (minorFun f i)) := by
  refine forInt_steps 1 _ m (by push_cast; ring)
    (fun t => ofFun m fun a b => if a < t then minorFun f i a b else g a b) _ _ ?_ ?_ _ ?_
  · apply ofFun_congr; intro a b _ _; simp
  · apply ofFun_congr; intro a b ha _; simp [ha]
  · intro t ht
    beta_reduce
    rw [minor_row_loop hm f hi ht]
    simp only [bind, Except.bind, pure, Except.pure]
    congr 1
    apply ofFun_congr
    intro a b _ _
    by_cases h1 : a = t
    · subst h1; simp [minorFun]
    · have : a < t + 1 ↔ a < t := by omega
      simp [h1, this]

end SquareMat

namespace SquareMat

variable {α : Type}

theorem natCast_mod_two_eq_zero (t : Nat) : ((t : Int) % 2 = 0) ↔ (t % 2 = 0) := by
  omega

theorem getDeterminantAux_ofFun [Zero α] [One α] [Add α] [Sub α] [Mul α] [Neg α]
    (fuel : Nat) : ∀ (n : Nat) (f : Nat → Nat → α), 2 ≤ n → n < 2 ^ 31 → n ≤ fuel + 1 →
      getDeterminantAux fuel (ofFun n f) = .ok (detRec n f) := by
  induction fuel with
  | zero => intro n f h2 _ hf; omega
  | succ fuel ih =>
    intro n f h2 hn hf
    rw [getDeterminantAux]
    by_cases hn2 : n = 2
    · subst hn2
      have hrows : (ofFun 2 f).getRows = 2 := rfl
      have c00 : (ofFun 2 f).operatorCall 0 0 = .ok (f 0 0) := by
        simpa using operatorCall_ofFun f (n := 2) (i := 0) (j := 0) (by norm_num) (by norm_num)
      have c11 : (ofFun 2 f).operatorCall 1 1 = .ok (f 1 1) := by
        simpa using operatorCall_ofFun f (n := 2) (i := 1) (j := 1) (by norm_num) (by norm_num)
      have c01 : (ofFun 2 f).operatorCall 0 1 = .ok (f 0 1) := by
        simpa using operatorCall_ofFun f (n := 2) (i := 0) (j := 1) (by norm_num) (by norm_num)
      have c10 : (ofFun 2 f).operatorCall 1 0 = .ok (f 1 0) := by
        simpa using operatorCall_ofFun f (n := 2) (i := 1) (j := 0) (by norm_num) (by norm_num)
      simp only [hrows, if_true, c00, c11, c01, c10, bind, Except.bind, pure, Except.pure]
      rfl
    · obtain ⟨m, rfl⟩ : ∃ m, n = m + 1 := ⟨n - 1, by omega⟩
      have hrows : (ofFun (m + 1) f).getRows = ((m + 1 : Nat) : Int) := rfl
      have hcols : (ofFun (m + 1) f).getCols = ((m + 1 : Nat) : Int) := rfl
      have hne : ¬ (((m + 1 : Nat) : Int) = 2) := by omega
      have hsub : (((m + 1 : Nat) : Int) - 1) = ((m : Nat) : Int) := by
        push_cast; ring
      simp only [hrows, hcols, hne, if_false, hsub]
      refine forInt_steps 0 _ (m + 1) (by simp)
        (fun t => sumLeft t fun i =>
          (if i % 2 = 0 then (1 : α) else -1) * f 0 i * detRec m (minorFun f i))
        _ _ rfl ?_ _ ?_
      · obtain ⟨k, rfl⟩ : ∃ k, m = k + 2 := ⟨m - 2, by omega⟩
        rfl
      · intro t ht
        beta_reduce
        rw [ctor_ofFun (by omega : 1 ≤ m)]
        simp only [zero_add, bind, Except.bind, pure, Except.pure]
        have hloop := minor_loop (m := m) hn f ht (fun _ _ => (0 : α))
        simp only [bind, Except.bind, pure, Except.pure] at hloop
        rw [hloop]
        have hx : (ofFun (m + 1) f).idx 0 (t : Int) = .ok (f 0 t) := by
          simpa using idx_ofFun hn f (i := 0) (j := t) (by omega) ht
        simp only [hx, ih m (minorFun f t) (by omega) (by omega) (by omega),
          natCast_mod_two_eq_zero, sumLeft_succ, pure, Except.pure]

theorem getDeterminant_ofFun [Zero α] [One α] [Add α] [Sub α] [Mul α] [Neg α] {n : Nat}
    (h2 : 2 ≤ n) (hn : n < 2 ^ 31) (f : Nat → Nat → α) :
    getDeterminant (ofFun n f) = .ok (detRec n f) := by
  unfold getDeterminant
  apply getDeterminantAux_ofFun _ n f h2 hn
  have : (ofFun n f).getRows = (n : Int) := rfl
  rw [this, Int.toNat_ofNat]
  omega

theorem operatorNot_ofFun [Zero α] [One α] [Add α] [Sub α] [Mul α] [Neg α] {n : Nat}
    (h1 : 1 ≤ n) (hn : n < 2 ^ 31) (f : Nat → Nat → α) :
    operatorNot (ofFun n f) = .ok (detRec n f) := by
  have hrows : (ofFun n f).rows = (n : Int) := rfl
  have hcols : (ofFun n f).columns = (n : Int) := rfl
  simp only [operatorNot, hrows, hcols, ne_eq, not_true_eq_false, if_false]
  by_cases hn1 : n = 1
  · subst hn1
    have hx : (ofFun 1 f).idx 0 0 = .ok (f 0 0) := by
      simpa using idx_ofFun hn f (i := 0) (j := 0) (by norm_num) (by norm_num)
    simp only [Nat.cast_one, if_true, hx]
    rfl
  · have hne : ¬ ((n : Int) = 1) := by omega
    simp only [hne, if_false]
    exact getDeterminant_ofFun (by omega) hn f

end SquareMat

namespace SquareMat

variable {α : Type}

theorem minorOf_ofFun {m : Nat} (f : Nat → Nat → α) {i : Nat} (hi : i < m + 1) :
    minorOf (ofFun (m + 1) f) i = ofFun m (minorFun f i) := by
  have hsub : (((m + 1 : Nat) : Int) - 1) = ((m : Nat) : Int) := by push_cast; ring
  simp only [minorOf, ofFun, hsub, mk.injEq, true_and]
  refine ⟨?_, by rw [← Nat.cast_mul, Int.toNat_ofNat]⟩
  apply List.ext_getElem?
  intro a
  simp only [List.getElem?_map, List.getElem?_tail]
  by_cases ha : a < m
  · have ha' : a + 1 < m + 1 := by omega
    simp only [List.getElem?_range ha, List.getElem?_range ha', Option.map_some']
    congr 1
    apply List.ext_getElem?
    intro b
    rw [List.getElem?_eraseIdx]
    simp only [List.getElem?_map]
    by_cases hb : b < m
    · have hb1 : b < m + 1 := by omega
      have hb2 : b + 1 < m + 1 := by omega
      by_cases hbi : b < i
      · simp [hbi, List.getElem?_range hb, List.getElem?_range hb1, minorFun, skipCol]
      · simp [hbi, List.getElem?_range hb, List.getElem?_range hb2, minorFun, skipCol]
    · have hbi : ¬ b < i := by omega
      have h1 : (List.range (m + 1))[b + 1]? = none := by
        apply List.getElem?_eq_none; simp; omega
      have h2 : (List.range m)[b]? = none := by
        apply List.getElem?_eq_none; simp; omega
      simp [hbi, h1, h2]
  · have h1 : (List.range (m + 1))[a + 1]? = none := by
      apply List.getElem?_eq_none; simp; omega
    have h2 : (List.range m)[a]? = none := by
      apply List.getElem?_eq_none; simp; omega
    simp [h1, h2]

end SquareMat

/-! ## Exact arithmetic: the link with the matrices of Mathlib -/

theorem sumLeft_eq_sum {α : Type} [AddCommMonoid α] (n : Nat) (t : Nat → α) :
    sumLeft n t = ∑ k ∈ Finset.range n, t k := by
  induction n with
  | zero => simp [sumLeft_zero]
  | succ n ih => rw [sumLeft_succ, Finset.sum_range_succ, ih]

namespace SquareMat

variable {α : Type}

theorem ofFun_eq_of_toMat {n : Nat} {f g : Nat → Nat → α} (h : toMat n f = toMat n g) :
    ofFun n f = ofFun n g := by
  apply ofFun_congr
  intro i j hi hj
  exact congrFun (congrFun h ⟨i, hi⟩) ⟨j, hj⟩

theorem toMat_mul [Semiring α] (n : Nat) (a b : Nat → Nat → α) :
    toMat n (fun i j => sumLeft n fun k => a i k * b k j) = toMat n a * toMat n b := by
  funext i j
  simp only [toMat, Matrix.mul_apply, sumLeft_eq_sum]
  exact Finset.sum_range fun k => a i k * b k j

theorem toMat_idFun [Semiring α] (n : Nat) : toMat n (idFun (α := α)) = 1 := by
  funext i j
  simp [toMat, idFun, Matrix.one_apply, Fin.ext_iff]

theorem toMat_minorFun {k : Nat} (f : Nat → Nat → α) (i : Fin (k + 1)) :
    toMat k (minorFun f i) = (toMat (k + 1) f).submatrix Fin.succ i.succAbove := by
  funext a b
  simp only [toMat, minorFun, Matrix.submatrix_apply, Fin.val_succ]
  congr 1
  simp only [skipCol, Fin.succAbove, Fin.lt_def, Fin.coe_castSucc]
  split <;> simp

theorem sign_eq_pow [Ring α] (i : Nat) :
    (if i % 2 = 0 then (1 : α) else -1) = (-1) ^ i := by
  rcases Nat.even_or_odd i with h | h
  · have : i % 2 = 0 := Nat.even_iff.mp h
    simp [this, h.neg_one_pow]
  · have : i % 2 = 1 := Nat.odd_iff.mp h
    simp [this, h.neg_one_pow]

/-- The first-row cofactor recursion of `operator!` computes the determinant. -/
theorem detRec_eq_det [CommRing α] (n : Nat) :
    ∀ f : Nat → Nat → α, 1 ≤ n → detRec n f = (toMat n f).det := by
  induction n with
  | zero => intro f h; omega
  | succ n ih =>
    intro f _
    match n, ih with
    | 0, _ => rw [Matrix.det_fin_one]; rfl
    | 1, _ => rw [Matrix.det_fin_two]; rfl
    | k + 2, ih =>
      rw [Matrix.det_succ_row_zero]
      show sumLeft (k + 3) _ = _
      rw [sumLeft_eq_sum, Finset.sum_range]
      apply Finset.sum_congr rfl
      intro i _
      rw [ih (minorFun f i) (by omega), toMat_minorFun f i, sign_eq_pow]
      rfl

end SquareMat

/-! ## Copy, power, transpose, equality -/

namespace SquareMat

variable {α : Type}

theorem copy_ofFun {n : Nat} (f : Nat → Nat → α) : copy (ofFun n f) = .ok (ofFun n f) := by
  have hrows : (ofFun n f).rows = (n : Int) := rfl
  have hcols : (ofFun n f).columns = (n : Int) := rfl
  have hsize : (ofFun n f).size = wrapSize (n * n) := rfl
  have hrow : ∀ i, i < n →
      forInt 0 (n : Int) ([] : List α)
        (fun j row => do
          let v ← (ofFun n f).raw i j
          pure (row ++ [v])) = .ok ((List.range n).map (f i)) := by
    intro i hi
    refine forInt_steps 0 _ n (by simp) (fun t => (List.range t).map (f i)) _ _ rfl rfl _ ?_
    intro t ht
    simp only [zero_add, raw_ofFun f hi ht, bind, Except.bind, pure, Except.pure,
      List.range_succ, List.map_append, List.map_cons, List.map_nil]
  have hdata : forInt 0 (n : Int) ([] : List (List α))
      (fun i data => do
        let row ← forInt 0 (n : Int) ([] : List α) fun j row => do
          let v ← (ofFun n f).raw i j
          pure (row ++ [v])
        pure (data ++ [row])) =
      .ok ((List.range n).map fun i => (List.range n).map (f i)) := by
    refine forInt_steps 0 _ n (by simp)
      (fun t => (List.range t).map fun i => (List.range n).map (f i)) _ _ rfl rfl _ ?_
    intro t ht
    beta_reduce
    rw [zero_add, hrow t ht]
    simp only [bind, Except.bind, pure, Except.pure, List.range_succ, List.map_append,
      List.map_cons, List.map_nil]
  simp only [copy, hrows, hcols, hsize]
  rw [hdata]
  rfl

theorem operatorMulAssign_ofFun [Zero α] [Add α] [Mul α] {n : Nat} (h1 : 1 ≤ n)
    (hn : n < 2 ^ 31) (a b : Nat → Nat → α) :
    operatorMulAssign (ofFun n a) (ofFun n b) = .ok (ofFun n (mulFun n a b)) := by
  simp only [operatorMulAssign, operatorMul_ofFun h1 hn, bind, Except.bind, pure,
    Except.pure, moveAssign]
  rfl

theorem identity_loop [Zero α] [One α] {n : Nat} (hn : n < 2 ^ 31) (f : Nat → Nat → α) :
    forInt 0 (n : Int) (ofFun n f)
      (fun i result => forInt 0 (n : Int) result fun j result =>
        result.setIdx i j (if i = j then 1 else 0)) = .ok (identity n) := by
  apply fill_ofFun _ idFun
  intro i j hi hj g
  rw [setIdx_ofFun hn g hi hj]
  simp [idFun]

theorem operatorPow_ofFun [Zero α] [One α] [Add α] [Mul α] {n : Nat} (h1 : 1 ≤ n)
    (hn : n < 2 ^ 31) (f : Nat → Nat → α) (p : Nat) :
    operatorPow (ofFun n f) (p : Int) = .ok (ofFun n (powFun n f p)) := by
  have hrows : (ofFun n f).rows = (n : Int) := rfl
  have hcols : (ofFun n f).columns = (n : Int) := rfl
  have hneg : ¬ ((p : Int) < 0) := by omega
  simp only [operatorPow, hneg, if_false, hrows, hcols, ctor_ofFun h1, bind, Except.bind]
  rw [identity_loop hn]
  by_cases hp : p = 0
  · subst hp
    simp only [Nat.cast_zero, if_true]
    rfl
  · have hp' : ¬ ((p : Int) = 0) := by omega
    simp only [hp', if_false, copy_ofFun]
    refine forInt_steps 0 _ p (by simp) (fun t => ofFun n (powFun n f t)) _ _ rfl rfl _ ?_
    intro t _
    exact operatorMulAssign_ofFun h1 hn _ _

theorem operatorTilde_ofFun [Zero α] {n : Nat} (h1 : 1 ≤ n) (hn : n < 2 ^ 31)
    (f : Nat → Nat → α) :
    operatorTilde (ofFun n f) = .ok (ofFun n fun i j => f j i) := by
  have hrows : (ofFun n f).getRows = (n : Int) := rfl
  have hcols : (ofFun n f).getCols = (n : Int) := rfl
  simp only [operatorTilde, hrows, hcols, ctor_ofFun h1, bind, Except.bind]
  apply fill_ofFun _ (fun i j => f j i)
  intro i j hi hj g
  simp only [idx_ofFun hn f hj hi, setIdx_ofFun hn g hi hj]

end SquareMat

theorem allBelow_zero (p : Nat → Bool) : allBelow 0 p = true := rfl

theorem allBelow_succ (n : Nat) (p : Nat → Bool) :
    allBelow (n + 1) p = (allBelow n p && p n) := by
  simp [allBelow, List.range_succ, List.all_append]

theorem allBelow_iff (n : Nat) (p : Nat → Bool) :
    allBelow n p = true ↔ ∀ k, k < n → p k = true := by
  simp [allBelow, List.all_eq_true]

namespace SquareMat

variable {α : Type}

theorem operatorEq_row [FloatNe α] {n : Nat} (f g : Nat → Nat → α) {i : Nat} (hi : i < n)
    (ret : Option Bool) :
    forInt 0 (n : Int) ret
      (fun j ret =>
        match ret with
        | some b => pure (some b)
        | none => do
          let a ← (ofFun n f).raw i j
          let b ← (ofFun n g).raw i j
          if FloatNe.ne a b then pure (some false) else pure none) =
      .ok (match ret with
        | some b => some b
        | none => if allBelow n (fun j => !FloatNe.ne (f i j) (g i j)) then none
            else some false) := by
  refine forInt_steps 0 _ n (zero_add _).symm
    (fun t => match ret with
      | some b => some b
      | none => if allBelow t (fun j => !FloatNe.ne (f i j) (g i j)) then none
          else some false) _ _ ?_ rfl _ ?_
  · cases ret <;> simp [allBelow_zero]
  · intro t ht
    cases ret with
    | some b => rfl
    | none =>
      simp only [zero_add, allBelow_succ]
      by_cases hall : allBelow t (fun j => !FloatNe.ne (f i j) (g i j)) = true
      · simp only [hall, if_true, raw_ofFun f hi ht, raw_ofFun g hi ht, bind, Except.bind,
          pure, Except.pure, Bool.true_and]
        cases FloatNe.ne (f i t) (g i t) <;> simp
      · simp only [hall, Bool.false_and]
        rfl

theorem operatorEq_ofFun [FloatNe α] {n : Nat} (f g : Nat → Nat → α) :
    operatorEq (ofFun n f) (ofFun n g) =
      .ok (allBelow n fun i => allBelow n fun j => !FloatNe.ne (f i j) (g i j)) := by
  have hrows : ∀ h : Nat → Nat → α, (ofFun n h).rows = (n : Int) := fun _ => rfl
  have hcols : ∀ h : Nat → Nat → α, (ofFun n h).columns = (n : Int) := fun _ => rfl
  have houter : forInt 0 (n : Int) (none : Option Bool)
      (fun i ret => forInt 0 (n : Int) ret fun j ret =>
        match ret with
        | some b => pure (some b)
        | none => do
          let a ← (ofFun n f).raw i j
          let b ← (ofFun n g).raw i j
          if FloatNe.ne a b then pure (some false) else pure none) =
      .ok (if allBelow n (fun i => allBelow n fun j => !FloatNe.ne (f i j) (g i j)) then none
        else some false) := by
    refine forInt_steps 0 _ n (by simp)
      (fun t => if allBelow t (fun i => allBelow n fun j => !FloatNe.ne (f i j) (g i j))
        then none else some false) _ _ ?_ rfl _ ?_
    · simp [allBelow_zero]
    · intro t ht
      beta_reduce
      rw [zero_add, operatorEq_row f g ht, allBelow_succ]
      by_cases hall : allBelow t (fun i => allBelow n fun j => !FloatNe.ne (f i j) (g i j))
          = true
      · simp only [hall, if_true, Bool.true_and]
      · simp only [hall, Bool.false_and]
        rfl
  simp only [operatorEq, hrows, hcols, ne_eq, not_true_eq_false, or_self, if_false]
  rw [houter]
  by_cases hall : allBelow n (fun i => allBelow n fun j => !FloatNe.ne (f i j) (g i j)) = true
  · simp only [hall, if_true]; rfl
  · simp only [hall]
    rfl

theorem operatorEq_self [FloatNe α] {n : Nat} (f : Nat → Nat → α)
    (h : ∀ i j, i < n → j < n → FloatNe.ne (f i j) (f i j) = false) :
    operatorEq (ofFun n f) (ofFun n f) = .ok true := by
  rw [operatorEq_ofFun]
  congr 1
  rw [allBelow_iff]
  intro i hi
  rw [allBelow_iff]
  intro j hj
  simp [h i j hi hj]

end SquareMat

/-! ## Operators on a matrix of dimension `n` -/

namespace SquareMat

variable {α : Type}

theorem WF.idx_eq [Zero α] {m : SquareMat α} {n : Nat} (h : WF m n) {i j : Nat}
    (hi : i < n) (hj : j < n) : m.idx i j = .ok (m.elem i j) := by
  have e := h.eq_ofFun
  have := idx_ofFun h.1 m.elem hi hj
  rw [← idx_withSize _ m.size, ← e] at this
  exact this

theorem WF.raw_eq [Zero α] {m : SquareMat α} {n : Nat} (h : WF m n) {i j : Nat}
    (hi : i < n) (hj : j < n) : m.raw i j = .ok (m.elem i j) := by
  have e := h.eq_ofFun
  have := raw_ofFun m.elem hi hj
  rw [← raw_withSize _ m.size, ← e] at this
  exact this

theorem WF.operatorCall_eq [Zero α] {m : SquareMat α} {n : Nat} (h : WF m n) {i j : Nat}
    (hi : i < n) (hj : j < n) : m.operatorCall i j = .ok (m.elem i j) := by
  have e := h.eq_ofFun
  have := operatorCall_ofFun m.elem hi hj
  rw [← operatorCall_withSize _ m.size, ← e] at this
  exact this

theorem WF.operatorIndex_eq [Zero α] {m : SquareMat α} {n : Nat} (h : WF m n) {i : Nat}
    (hi : i < n) : m.operatorIndex (toSizeT i) = .ok i := by
  have e := h.eq_ofFun
  have := operatorIndex_ofFun h.1 m.elem hi
  rw [← operatorIndex_withSize _ m.size, ← e] at this
  exact this

theorem WF.operatorCallSet_eq [Zero α] {m : SquareMat α} {n : Nat} (h : WF m n) {i j : Nat}
    (hi : i < n) (hj : j < n) (v : α) :
    m.operatorCallSet i j v = .ok ((ofFun n (upd m.elem i j v)).withSize m.size) := by
  have e := h.eq_ofFun
  have hc : ¬ ((i : Int) < 0 ∨ (i : Int) ≥ (ofFun n m.elem).rows ∨ (j : Int) < 0 ∨
      (j : Int) ≥ (ofFun n m.elem).columns) := by
    simp only [ofFun]
    omega
  have h0 : (ofFun n m.elem).operatorCallSet i j v = .ok (ofFun n (upd m.elem i j v)) := by
    simp only [operatorCallSet, hc, if_false]
    exact rawSet_ofFun m.elem hi hj v
  have h1 := operatorCallSet_withSize (ofFun n m.elem) m.size i j v
  rw [h0, ← e] at h1
  exact h1

theorem WF.operatorMul_eq [Zero α] [Add α] [Mul α] {A B : SquareMat α} {n : Nat}
    (h1 : 1 ≤ n) (hA : WF A n) (hB : WF B n) :
    operatorMul A B = .ok (ofFun n fun i j => sumLeft n fun k => A.elem i k * B.elem k j) := by
  have e := operatorMul_ofFun h1 hA.1 A.elem B.elem
  rw [← operatorMul_withSize _ _ A.size B.size, ← hA.eq_ofFun, ← hB.eq_ofFun] at e
  exact e

theorem WF.operatorNot_eq [Zero α] [One α] [Add α] [Sub α] [Mul α] [Neg α]
    {A : SquareMat α} {n : Nat} (h1 : 1 ≤ n) (hA : WF A n) :
    operatorNot A = .ok (detRec n A.elem) := by
  have e := operatorNot_ofFun h1 hA.1 A.elem
  rw [← operatorNot_withSize _ A.size, ← hA.eq_ofFun] at e
  exact e

theorem WF.operatorPow_eq [Zero α] [One α] [Add α] [Mul α] {A : SquareMat α} {n : Nat}
    (h1 : 1 ≤ n) (hA : WF A n) (p : Nat) :
    operatorPow A (p : Int) = .ok (ofFun n (powFun n A.elem p)) := by
  have e := operatorPow_ofFun h1 hA.1 A.elem p
  rw [← operatorPow_withSize _ A.size, ← hA.eq_ofFun] at e
  exact e

theorem WF.operatorTilde_eq [Zero α] {A : SquareMat α} {n : Nat} (h1 : 1 ≤ n)
    (hA : WF A n) : operatorTilde A = .ok (ofFun n fun i j => A.elem j i) := by
  have e := operatorTilde_ofFun h1 hA.1 A.elem
  rw [← operatorTilde_withSize _ A.size, ← hA.eq_ofFun] at e
  exact e

theorem WF.operatorEq_eq [Zero α] [FloatNe α] {A B : SquareMat α} {n : Nat}
    (hA : WF A n) (hB : WF B n) :
    operatorEq A B =
      .ok (allBelow n fun i => allBelow n fun j => !FloatNe.ne (A.elem i j) (B.elem i j)) := by
  have e := operatorEq_ofFun (n := n) A.elem B.elem
  rw [← operatorEq_withSize _ _ A.size B.size, ← hA.eq_ofFun, ← hB.eq_ofFun] at e
  exact e

theorem WF.minorOf_eq [Zero α] {A : SquareMat α} {m : Nat} (hA : WF A (m + 1)) {i : Nat}
    (hi : i < m + 1) : minorOf A i = ofFun m (minorFun A.elem i) := by
  have e := minorOf_ofFun A.elem hi
  rw [← minorOf_withSize _ A.size, ← hA.eq_ofFun] at e
  exact e

theorem toMat_powFun [Semiring α] (n : Nat) (f : Nat → Nat → α) (p : Nat) :
    toMat n (powFun n f p) = toMat n f ^ p := by
  induction p with
  | zero => simp [powFun, toMat_idFun]
  | succ p ih =>
    show toMat n (fun i j => sumLeft n fun k => powFun n f p i k * f k j) = _
    rw [toMat_mul, ih, pow_succ]

end SquareMat

/-! ## Element-wise operators -/

namespace SquareMat

variable {α : Type}

/-- The double loop of an operator that combines two matrices element by
element. -/
theorem zipLoop_ofFun [Zero α] {n : Nat} (h1 : 1 ≤ n) (hn : n < 2 ^ 31)
    (a b : Nat → Nat → α) (op : α → α → α) :
    (do
      let result ← ctor (n : Int) (n : Int)
      forInt 0 (n : Int) result fun i result =>
        forInt 0 (n : Int) result fun j result => do
          let x ← (ofFun n a).idx i j
          let y ← (ofFun n b).idx i j
          result.setIdx i j (op x y)) = .ok (ofFun n fun i j => op (a i j) (b i j)) := by
  simp only [ctor_ofFun h1, bind, Except.bind]
  apply fill_ofFun _ (fun i j => op (a i j) (b i j))
  intro i j hi hj g
  simp only [idx_ofFun hn a hi hj, idx_ofFun hn b hi hj, setIdx_ofFun hn g hi hj]

/-- The double loop of an operator that transforms a matrix element by
element. -/
theorem mapLoop_ofFun [Zero α] {n : Nat} (h1 : 1 ≤ n) (hn : n < 2 ^ 31)
    (a : Nat → Nat → α) (op : α → α) :
    (do
      let result ← ctor (n : Int) (n : Int)
      forInt 0 (n : Int) result fun i result =>
        forInt 0 (n : Int) result fun j result => do
          let x ← (ofFun n a).idx i j
          result.setIdx i j (op x)) = .ok (ofFun n fun i j => op (a i j)) := by
  simp only [ctor_ofFun h1, bind, Except.bind]
  apply fill_ofFun _ (fun i j => op (a i j))
  intro i j hi hj g
  simp only [idx_ofFun hn a hi hj, setIdx_ofFun hn g hi hj]

theorem operatorAdd_ofFun [Zero α] [Add α] {n : Nat} (h1 : 1 ≤ n) (hn : n < 2 ^ 31)
    (a b : Nat → Nat → α) :
    operatorAdd (ofFun n a) (ofFun n b) = .ok (ofFun n fun i j => a i j + b i j) := by
  have hrows : ∀ f : Nat → Nat → α, (ofFun n f).getRows = n := fun _ => rfl
  have hcols : ∀ f : Nat → Nat → α, (ofFun n f).getCols = n := fun _ => rfl
  simp only [operatorAdd, hrows, hcols, ne_eq, not_true_eq_false, or_self, if_false]
  exact zipLoop_ofFun h1 hn a b fun x y => x + y

theorem operatorSub_ofFun [Zero α] [Sub α] {n : Nat} (h1 : 1 ≤ n) (hn : n < 2 ^ 31)
    (a b : Nat → Nat → α) :
    operatorSub (ofFun n a) (ofFun n b) = .ok (ofFun n fun i j => a i j - b i j) := by
  have hrows : ∀ f : Nat → Nat → α, (ofFun n f).getRows = n := fun _ => rfl
  have hcols : ∀ f : Nat → Nat → α, (ofFun n f).getCols = n := fun _ => rfl
  simp only [operatorSub, hrows, hcols, ne_eq, not_true_eq_false, or_self, if_false]
  exact zipLoop_ofFun h1 hn a b fun x y => x - y

theorem operatorMod_ofFun [Zero α] [Mul α] {n : Nat} (h1 : 1 ≤ n) (hn : n < 2 ^ 31)
    (a b : Nat → Nat → α) :
    operatorMod (ofFun n a) (ofFun n b) = .ok (ofFun n fun i j => a i j * b i j) := by
  have hrows : ∀ f : Nat → Nat → α, (ofFun n f).getRows = n := fun _ => rfl
  have hcols : ∀ f : Nat → Nat → α, (ofFun n f).getCols = n := fun _ => rfl
  simp only [operatorMod, hrows, hcols, ne_eq, not_true_eq_false, or_self, if_false]
  exact zipLoop_ofFun h1 hn a b fun x y => x * y

theorem operatorMulScalar_ofFun [Zero α] [Mul α] {n : Nat} (h1 : 1 ≤ n) (hn : n < 2 ^ 31)
    (a : Nat → Nat → α) (s : α) :
    operatorMulScalar (ofFun n a) s = .ok (ofFun n fun i j => a i j * s) := by
  have hrows : (ofFun n a).getRows = n := rfl
  have hcols : (ofFun n a).getCols = n := rfl
  simp only [operatorMulScalar, hrows, hcols]
  exact mapLoop_ofFun h1 hn a fun x => x * s

theorem operatorDiv_ofFun [Zero α] [Div α] [FloatNe α] {n : Nat} (h1 : 1 ≤ n)
    (hn : n < 2 ^ 31) (a : Nat → Nat → α) {s : α} (hs : FloatNe.ne s 0 = true) :
    operatorDiv (ofFun n a) s = .ok (ofFun n fun i j => a i j / s) := by
  have hrows : (ofFun n a).getRows = n := rfl
  have hcols : (ofFun n a).getCols = n := rfl
  simp only [operatorDiv, hs, Bool.true_eq_false, if_false, hrows, hcols]
  exact mapLoop_ofFun h1 hn a fun x => x / s

theorem operatorModInt_ofFun [Zero α] [IntCast α] [FloatMod α] {n : Nat} (h1 : 1 ≤ n)
    (hn : n < 2 ^ 31) (a : Nat → Nat → α) {k : Int} (hk : k ≠ 0) :
    operatorModInt (ofFun n a) k =
      .ok (ofFun n fun i j => FloatMod.fmod (a i j) (k : α)) := by
  have hrows : (ofFun n a).getRows = n := rfl
  have hcols : (ofFun n a).getCols = n := rfl
  simp only [operatorModInt, hk, if_false, hrows, hcols]
  exact mapLoop_ofFun h1 hn a fun x => FloatMod.fmod x (k : α)

theorem operatorAdd_withSize [Zero α] [Add α] (l r : SquareMat α) (s t : Nat) :
    operatorAdd (l.withSize s) (r.withSize t) = operatorAdd l r := rfl

theorem operatorSub_withSize [Zero α] [Sub α] (l r : SquareMat α) (s t : Nat) :
    operatorSub (l.withSize s) (r.withSize t) = operatorSub l r := rfl

theorem operatorMod_withSize [Zero α] [Mul α] (l r : SquareMat α) (s t : Nat) :
    operatorMod (l.withSize s) (r.withSize t) = operatorMod l r := rfl

theorem operatorMulScalar_withSize [Zero α] [Mul α] (m : SquareMat α) (s : Nat) (x : α) :
    operatorMulScalar (m.withSize s) x = operatorMulScalar m x := rfl

theorem operatorDiv_withSize [Zero α] [Div α] [FloatNe α] (m : SquareMat α) (s : Nat)
    (x : α) : operatorDiv (m.withSize s) x = operatorDiv m x := rfl

theorem operatorModInt_withSize [Zero α] [IntCast α] [FloatMod α] (m : SquareMat α)
    (s : Nat) (k : Int) : operatorModInt (m.withSize s) k = operatorModInt m k := rfl

theorem WF.operatorAdd_eq [Zero α] [Add α] {A B : SquareMat α} {n : Nat} (h1 : 1 ≤ n)
    (hA : WF A n) (hB : WF B n) :
    operatorAdd A B = .ok (ofFun n fun i j => A.elem i j + B.elem i j) := by
  have e := operatorAdd_ofFun h1 hA.1 A.elem B.elem
  rw [← operatorAdd_withSize _ _ A.size B.size, ← hA.eq_ofFun, ← hB.eq_ofFun] at e
  exact e

theorem WF.operatorSub_eq [Zero α] [Sub α] {A B : SquareMat α} {n : Nat} (h1 : 1 ≤ n)
    (hA : WF A n) (hB : WF B n) :
    operatorSub A B = .ok (ofFun n fun i j => A.elem i j - B.elem i j) := by
  have e := operatorSub_ofFun h1 hA.1 A.elem B.elem
  rw [← operatorSub_withSize _ _ A.size B.size, ← hA.eq_ofFun, ← hB.eq_ofFun] at e
  exact e

theorem WF.operatorMod_eq [Zero α] [Mul α] {A B : SquareMat α} {n : Nat} (h1 : 1 ≤ n)
    (hA : WF A n) (hB : WF B n) :
    operatorMod A B = .ok (ofFun n fun i j => A.elem i j * B.elem i j) := by
  have e := operatorMod_ofFun h1 hA.1 A.elem B.elem
  rw [← operatorMod_withSize _ _ A.size B.size, ← hA.eq_ofFun, ← hB.eq_ofFun] at e
  exact e

theorem WF.operatorMulScalar_eq [Zero α] [Mul α] {A : SquareMat α} {n : Nat} (h1 : 1 ≤ n)
    (hA : WF A n) (s : α) :
    operatorMulScalar A s = .ok (ofFun n fun i j => A.elem i j * s) := by
  have e := operatorMulScalar_ofFun h1 hA.1 A.elem s
  rw [← operatorMulScalar_withSize _ A.size, ← hA.eq_ofFun] at e
  exact e

theorem WF.operatorDiv_eq [Zero α] [Div α] [FloatNe α] {A : SquareMat α} {n : Nat}
    (h1 : 1 ≤ n) (hA : WF A n) {s : α} (hs : FloatNe.ne s 0 = true) :
    operatorDiv A s = .ok (ofFun n fun i j => A.elem i j / s) := by
  have e := operatorDiv_ofFun h1 hA.1 A.elem hs
  rw [← operatorDiv_withSize _ A.size, ← hA.eq_ofFun] at e
  exact e

theorem WF.operatorModInt_eq [Zero α] [IntCast α] [FloatMod α] {A : SquareMat α} {n : Nat}
    (h1 : 1 ≤ n) (hA : WF A n) {k : Int} (hk : k ≠ 0) :
    operatorModInt A k = .ok (ofFun n fun i j => FloatMod.fmod (A.elem i j) (k : α)) := by
  have e := operatorModInt_ofFun h1 hA.1 A.elem hk
  rw [← operatorModInt_withSize _ A.size, ← hA.eq_ofFun] at e
  exact e

/-- Matrices of different dimensions differ in `getRows()`. -/
theorem WF.mismatch {A B : SquareMat α} {n m : Nat} (hA : WF A n) (hB : WF B m)
    (h : n ≠ m) : A.getRows ≠ B.getRows ∨ A.getCols ≠ B.getCols := by
  left
  have ha : A.getRows = n := hA.2.1
  have hb : B.getRows = m := hB.2.1
  rw [ha, hb]
  exact_mod_cast h

end SquareMat

/-! ## In-place loops, sums and comparisons -/

namespace SquareMat

variable {α : Type}

/-- A double loop that replaces the element at every position `(i, j)` by
`op i j` of its current value produces the matrix of these values; the public
field `size` is not touched. -/
theorem mapInPlace_ofFun {n : Nat} (s : Nat)
    (body : Int → Int → SquareMat α → Except Error (SquareMat α))
    (op : Nat → Nat → α → α)
    (hbody : ∀ i j, i < n → j < n → ∀ f : Nat → Nat → α,
      body i j ((ofFun n f).withSize s) =
        .ok ((ofFun n (upd f i j (op i j (f i j)))).withSize s))
    (f : Nat → Nat → α) :
    forInt 0 n ((ofFun n f).withSize s)
        (fun i m => forInt 0 n m fun j m => body i j m) =
      .ok ((ofFun n fun i j => op i j (f i j)).withSize s) := by
  have wrap : ∀ {g h : Nat → Nat → α}, (∀ a b, a < n → b < n → g a b = h a b) →
      (Except.ok ((ofFun n g).withSize s) : Except Error (SquareMat α)) =
        .ok ((ofFun n h).withSize s) := fun hgh => by rw [ofFun_congr hgh]
  have houter := forInt_zero_eq
    (fun i m => forInt 0 (n : Int) m fun j m => body i j m) n
    (fun t => (ofFun n fun a b => if a < t then op a b (f a b) else f a b).withSize s)
    (fun i hi => by
      have hinner := forInt_zero_eq (fun j m => body (i : Int) j m) n
        (fun t => (ofFun n fun a b =>
          if a = i ∧ b < t then op a b (f a b)
          else if a < i then op a b (f a b) else f a b).withSize s)
        (fun j hj => by
          simp only
          rw [hbody i j hi hj]
          apply wrap
          intro a b _ _
          simp only [upd]
          by_cases h1 : a = i
          · by_cases h2 : b = j
            · subst h1 h2; simp
            · have : b < j + 1 ↔ b < j := by omega
              simp [h1, h2, this]
          · simp [h1])
      simp only at hinner ⊢
      have e0 : (ofFun n fun a b => if a < i then op a b (f a b) else f a b) =
          ofFun n fun a b => if a = i ∧ b < 0 then op a b (f a b)
            else if a < i then op a b (f a b) else f a b := by
        apply ofFun_congr; intro a b _ _; simp
      rw [e0, hinner]
      apply wrap
      intro a b _ hb
      by_cases h1 : a = i
      · subst h1; simp [hb]
      · have : a < i + 1 ↔ a < i := by omega
        simp [h1, this])
  simp only at houter
  have e0 : ofFun n f = ofFun n fun a b => if a < 0 then op a b (f a b) else f a b := by
    apply ofFun_congr; intro a b _ _; simp
  rw [e0, houter]
  apply wrap
  intro a b ha _
  simp [ha]

theorem rawSet_ofFun_withSize {n : Nat} (s : Nat) (f : Nat → Nat → α) {i j : Nat}
    (hi : i < n) (hj : j < n) (v : α) :
    ((ofFun n f).withSize s).rawSet i j v = .ok ((ofFun n (upd f i j v)).withSize s) := by
  rw [rawSet_withSize, rawSet_ofFun f hi hj]
  rfl

theorem fill_ofFun_withSize {n : Nat} (s : Nat) (f : Nat → Nat → α) (v : α) :
    fill ((ofFun n f).withSize s) v = .ok ((ofFun n fun _ _ => v).withSize s) := by
  unfold fill
  exact mapInPlace_ofFun (n := n) s (fun i j m => m.rawSet i j v) (fun _ _ _ => v)
    (fun _ _ hi hj g => rawSet_ofFun_withSize s g hi hj v) f

theorem operatorInc_ofFun_withSize [One α] [Add α] {n : Nat} (s : Nat) (f : Nat → Nat → α) :
    operatorInc ((ofFun n f).withSize s) = .ok ((ofFun n fun i j => f i j + 1).withSize s) := by
  unfold operatorInc
  exact mapInPlace_ofFun (n := n) s
    (fun i j m => do
      let v ← m.raw i j
      m.rawSet i j (v + 1))
    (fun _ _ x => x + 1)
    (fun i j hi hj g => by
      simp only [raw_withSize, raw_ofFun g hi hj, bind, Except.bind]
      exact rawSet_ofFun_withSize s g hi hj _) f

theorem operatorDec_ofFun_withSize [One α] [Sub α] {n : Nat} (s : Nat) (f : Nat → Nat → α) :
    operatorDec ((ofFun n f).withSize s) = .ok ((ofFun n fun i j => f i j - 1).withSize s) := by
  unfold operatorDec
  exact mapInPlace_ofFun (n := n) s
    (fun i j m => do
      let v ← m.raw i j
      m.rawSet i j (v - 1))
    (fun _ _ x => x - 1)
    (fun i j hi hj g => by
      simp only [raw_withSize, raw_ofFun g hi hj, bind, Except.bind]
      exact rawSet_ofFun_withSize s g hi hj _) f

theorem WF.fill_eq [Zero α] {A : SquareMat α} {n : Nat} (hA : WF A n) (v : α) :
    fill A v = .ok ((ofFun n fun _ _ => v).withSize A.size) := by
  have h := fill_ofFun_withSize (n := n) A.size A.elem v
  rw [← hA.eq_ofFun] at h
  exact h

theorem WF.operatorInc_eq [Zero α] [One α] [Add α] {A : SquareMat α} {n : Nat}
    (hA : WF A n) :
    operatorInc A = .ok ((ofFun n fun i j => A.elem i j + 1).withSize A.size) := by
  have h := operatorInc_ofFun_withSize (n := n) A.size A.elem
  rw [← hA.eq_ofFun] at h
  exact h

theorem WF.operatorDec_eq [Zero α] [One α] [Sub α] {A : SquareMat α} {n : Nat}
    (hA : WF A n) :
    operatorDec A = .ok ((ofFun n fun i j => A.elem i j - 1).withSize A.size) := by
  have h := operatorDec_ofFun_withSize (n := n) A.size A.elem
  rw [← hA.eq_ofFun] at h
  exact h

theorem WF.copy_eq [Zero α] {A : SquareMat α} {n : Nat} (hA : WF A n) : copy A = .ok A := by
  have h : copy ((ofFun n A.elem).withSize A.size) =
      .ok ((ofFun n A.elem).withSize A.size) := by
    rw [copy_withSize, copy_ofFun]
    rfl
  rw [← hA.eq_ofFun] at h
  exact h

theorem sumFrom_succ [Add α] (acc : α) (n : Nat) (t : Nat → α) :
    sumFrom acc (n + 1) t = sumFrom acc n t + t n := by
  simp [sumFrom, List.range_succ, List.foldl_append]

theorem sumLeft_congr [Zero α] [Add α] {n : Nat} {t u : Nat → α}
    (h : ∀ k, k < n → t k = u k) : sumLeft n t = sumLeft n u := by
  induction n with
  | zero => rfl
  | succ n ih =>
    rw [sumLeft_succ, sumLeft_succ, ih fun k hk => h k (Nat.lt_succ_of_lt hk),
      h n (Nat.lt_succ_self n)]

theorem countSum_ofFun [Zero α] [Add α] {n : Nat} (f : Nat → Nat → α) :
    countSum (ofFun n f) = .ok (sumAll n f) := by
  have hrow : ∀ i, i < n → ∀ acc : α,
      forInt 0 (n : Int) acc
        (fun j sum => do
          let v ← (ofFun n f).raw i j
          pure (sum + v)) = .ok (sumFrom acc n (f i)) := by
    intro i hi acc
    refine forInt_steps 0 _ n (zero_add _).symm (fun t => sumFrom acc t (f i)) _ _ rfl rfl _ ?_
    intro t ht
    simp only [zero_add, raw_ofFun f hi ht, bind, Except.bind, pure, Except.pure, sumFrom_succ]
  show forInt 0 (n : Int) (0 : α)
    (fun i sum => forInt 0 (n : Int) sum fun j sum => do
      let v ← (ofFun n f).raw i j
      pure (sum + v)) = _
  refine forInt_steps 0 _ n (zero_add _).symm
    (fun t => (List.range t).foldl (fun acc i => sumFrom acc n (f i)) 0) _ _ rfl rfl _ ?_
  intro t ht
  beta_reduce
  rw [zero_add, hrow t ht]
  simp only [List.range_succ, List.foldl_append, List.foldl_cons, List.foldl_nil]

theorem WF.setIdx_eq [Zero α] {m : SquareMat α} {n : Nat} (h : WF m n) {i j : Nat}
    (hi : i < n) (hj : j < n) (v : α) :
    m.setIdx i j v = .ok ((ofFun n (upd m.elem i j v)).withSize m.size) := by
  have h0 := rawSet_ofFun_withSize m.size m.elem hi hj v
  rw [← h.eq_ofFun] at h0
  simp only [setIdx, h.operatorIndex_eq hi]
  exact h0

theorem sumFrom_eq_sum [AddCommMonoid α] (acc : α) (n : Nat) (t : Nat → α) :
    sumFrom acc n t = acc + ∑ k ∈ Finset.range n, t k := by
  induction n with
  | zero => simp [sumFrom]
  | succ n ih => rw [sumFrom_succ, ih, Finset.sum_range_succ, add_assoc]

theorem sumAll_eq_sum [AddCommMonoid α] (n : Nat) (f : Nat → Nat → α) :
    sumAll n f = ∑ i ∈ Finset.range n, ∑ j ∈ Finset.range n, f i j := by
  have h : ∀ t : Nat, (List.range t).foldl (fun acc i => sumFrom acc n (f i)) 0 =
      ∑ i ∈ Finset.range t, ∑ j ∈ Finset.range n, f i j := by
    intro t
    induction t with
    | zero => simp
    | succ t ih =>
      rw [List.range_succ, List.foldl_append, ih, Finset.sum_range_succ]
      simp only [List.foldl_cons, List.foldl_nil, sumFrom_eq_sum]
  exact h n

theorem sumAll_upd [Ring α] (n : Nat) (f : Nat → Nat → α) {i j : Nat} (hi : i < n)
    (hj : j < n) (v : α) : sumAll n (upd f i j v) = sumAll n f + (v - f i j) := by
  rw [sumAll_eq_sum, sumAll_eq_sum]
  have e : ∀ a b, upd f i j v a b =
      f a b + (if a = i then (if b = j then v - f i j else 0) else 0) := by
    intro a b
    simp only [upd]
    by_cases h1 : a = i
    · by_cases h2 : b = j
      · subst h1 h2; simp
      · simp [h1, h2]
    · simp [h1]
  simp only [e, Finset.sum_add_distrib]
  congr 1
  rw [Finset.sum_eq_single i]
  · simp only [if_true]
    rw [Finset.sum_eq_single j]
    · simp
    · intro b _ hb; simp [hb]
    · intro hb; exact absurd (Finset.mem_range.mpr hj) hb
  · intro a _ ha; simp [ha]
  · intro ha; exact absurd (Finset.mem_range.mpr hi) ha

theorem WF.countSum_eq [Zero α] [Add α] {A : SquareMat α} {n : Nat} (hA : WF A n) :
    countSum A = .ok (sumAll n A.elem) := by
  have h := countSum_ofFun (n := n) A.elem
  have e : countSum ((ofFun n A.elem).withSize A.size) = countSum (ofFun n A.elem) := rfl
  rw [← e, ← hA.eq_ofFun] at h
  exact h

end SquareMat

/-! ## Arithmetic of finite doubles -/

namespace F64

theorem bitLenAux_spec (fuel : Nat) : ∀ m : Nat, m ≤ fuel →
    m < 2 ^ bitLenAux fuel m ∧ (m ≠ 0 → 2 ^ (bitLenAux fuel m - 1) ≤ m) := by
  induction fuel with
  | zero =>
    intro m hm
    have : m = 0 := by omega
    subst this
    simp [bitLenAux]
  | succ fuel ih =>
    intro m hm
    rw [bitLenAux]
    by_cases h0 : m = 0
    · subst h0; simp
    · simp only [h0, if_false]
      have hdiv : m / 2 ≤ fuel := by omega
      obtain ⟨h1, h2⟩ := ih (m / 2) hdiv
      refine ⟨?_, fun _ => ?_⟩
      · rw [pow_succ]; omega
      · simp only [Nat.add_sub_cancel]
        by_cases hd : m / 2 = 0
        · have : bitLenAux fuel (m / 2) = 0 := by
            rw [hd]; cases fuel <;> simp [bitLenAux]
          rw [this]; simp; omega
        · have h3 := h2 hd
          have : bitLenAux fuel (m / 2) = (bitLenAux fuel (m / 2) - 1) + 1 := by
            have : bitLenAux fuel (m / 2) ≠ 0 := by
              intro h; rw [h] at h1; simp at h1; omega
            omega
          rw [this, pow_succ]; omega

theorem bitLen_spec (m : Nat) :
    m < 2 ^ bitLen m ∧ (m ≠ 0 → 2 ^ (bitLen m - 1) ≤ m) :=
  bitLenAux_spec m m (le_refl m)

theorem bitLen_unique {m b : Nat} (hlo : 2 ^ b ≤ m) (hhi : m < 2 ^ (b + 1)) :
    bitLen m = b + 1 := by
  have hm : m ≠ 0 := by
    have : 0 < 2 ^ b := by positivity
    omega
  obtain ⟨h1, h2⟩ := bitLen_spec m
  have h2 := h2 hm
  by_contra hne
  rcases Nat.lt_or_gt_of_ne hne with h | h
  · have : 2 ^ bitLen m ≤ 2 ^ b := Nat.pow_le_pow_right (by norm_num) (by omega)
    omega
  · have : 2 ^ (b + 1) ≤ 2 ^ (bitLen m - 1) := Nat.pow_le_pow_right (by norm_num) (by omega)
    omega


theorem bitLen_mul_pow {m : Nat} (hm : m ≠ 0) (k : Nat) : bitLen (m * 2 ^ k) = bitLen m + k := by
  obtain ⟨h1, h2⟩ := bitLen_spec m
  have h2 := h2 hm
  have hb : bitLen m ≠ 0 := by
    intro h; rw [h] at h1; simp at h1; exact hm h1
  have e : bitLen m + k = (bitLen m - 1 + k) + 1 := by omega
  rw [e]
  apply bitLen_unique
  · rw [pow_add]; exact Nat.mul_le_mul_right _ h2
  · have : bitLen m - 1 + k + 1 = bitLen m + k := by omega
    rw [this, pow_add]
    exact Nat.mul_lt_mul_of_pos_right h1 (by positivity)

/-- A finite double, scaled exactly, rounds to itself. -/
theorem round_exact (s : Bool) (m : Nat) (e : Int) (k : Nat)
    (hfin : IsFinite (fin s m e)) : round s (m * 2 ^ k) (e - k) = fin s m e := by
  obtain ⟨hm, hlo, hhi, hsub⟩ := hfin
  by_cases h0 : m = 0
  · subst h0
    have : e = -1074 := hsub (by positivity)
    simp [round, this]
  · have hM : m * 2 ^ k ≠ 0 := by positivity
    have hlen : ((bitLen (m * 2 ^ k) : Nat) : Int) = (bitLen m : Int) + k := by
      rw [bitLen_mul_pow h0]; push_cast; ring
    have he' : max (e - (k : Int) + ((bitLen (m * 2 ^ k) : Nat) : Int) - 53) (-1074) = e := by
      rw [hlen]
      by_cases hn : m < 2 ^ 52
      · have he := hsub hn
        have hb : bitLen m ≤ 52 := by
          by_contra hc
          have h2 := (bitLen_spec m).2 h0
          have : 2 ^ 52 ≤ 2 ^ (bitLen m - 1) := Nat.pow_le_pow_right (by norm_num) (by omega)
          omega
        rw [he]
        apply max_eq_right
        omega
      · have hb : bitLen m = 53 := bitLen_unique (b := 52) (by omega) hm
        rw [hb]
        have : e - (k : Int) + ((53 : Nat) + (k : Int)) - 53 = e := by push_cast; ring
        rw [this]
        exact max_eq_left hlo
    simp only [round, hM, if_false, he']
    by_cases hk : k = 0
    · subst hk
      have h971 : ¬ e > 971 := by omega
      simp [h971]
    · have hle : ¬ (e ≤ e - (k : Int)) := by omega
      have hsh : (e - (e - (k : Int))).toNat = k := by
        have : e - (e - (k : Int)) = k := by ring
        rw [this]; simp
      have hq : m * 2 ^ k / 2 ^ k = m := Nat.mul_div_cancel _ (by positivity)
      have hr : m * 2 ^ k % 2 ^ k = 0 := Nat.mul_mod_left _ _
      have hhalf : 0 < 2 ^ (k - 1) := by positivity
      have h971 : ¬ e > 971 := by omega
      have hq53 : ¬ m = 2 ^ 53 := by omega
      have hcond : ¬ (0 > 2 ^ (k - 1) ∨ 0 = 2 ^ (k - 1) ∧ m % 2 = 1) := by
        intro h
        rcases h with h | h
        · omega
        · omega
      simp only [hle, if_false, hsh, hq, hr, hcond, hq53, h971]

theorem add_def (a b : F64) : a + b = add a b := rfl

theorem mul_def (a b : F64) : a * b = mul a b := rfl

theorem ne_def (a b : F64) : FloatNe.ne a b = ne a b := rfl

theorem zero_def : (0 : F64) = fin false 0 (-1074) := rfl

theorem one_def : (1 : F64) = fin false (2 ^ 52) (-52) := by decide

theorem isZero_iff (u : F64) : IsZero u ↔ ∃ s e, u = fin s 0 e := by
  unfold IsZero
  rw [ne_def, zero_def]
  cases u with
  | nan => simp [ne]
  | inf s => simp [ne]
  | fin s m e =>
    by_cases hm : m = 0
    · subst hm; simp [ne]
    · simp [ne, hm]

theorem ne_self_of_isFinite {x : F64} (h : IsFinite x) : ne x x = false := by
  cases x with
  | nan => exact absurd h (by simp [IsFinite])
  | inf s => exact absurd h (by simp [IsFinite])
  | fin s m e => simp [ne]

theorem signed_nat (s : Bool) (N : Nat) (hN : 0 < N) :
    (if s = true then (-1 : Int) else 1) * (N : Int) ≠ 0 ∧
    decide ((if s = true then (-1 : Int) else 1) * (N : Int) < 0) = s ∧
    ((if s = true then (-1 : Int) else 1) * (N : Int)).natAbs = N := by
  cases s with
  | false => simp; omega
  | true => simp; omega

/-- Adding a zero of either sign on the left of a finite double gives a
double that compares equal to it. -/
theorem zero_add_finite (t : Bool) (e1 : Int) {x : F64} (hx : IsFinite x) :
    ne (add (fin t 0 e1) x) x = false := by
  cases x with
  | nan => exact absurd hx (by simp [IsFinite])
  | inf s => exact absurd hx (by simp [IsFinite])
  | fin s m e =>
    by_cases hm : m = 0
    · subst hm
      simp [add, ne]
    · have hpos : 0 < m * 2 ^ (e - min e1 e).toNat := by positivity
      obtain ⟨h1, h2, h3⟩ := signed_nat s _ hpos
      have hr := round_exact s m e (e - min e1 e).toNat hx
      have hexp : e - ((e - min e1 e).toNat : Int) = min e1 e := by
        have := min_le_right e1 e
        omega
      rw [hexp] at hr
      simp only [add, Nat.zero_mul, Nat.cast_zero, mul_zero, zero_add]
      rw [if_neg h1, h2, h3, hr]
      simp [ne]

/-- Adding a zero of either sign on the right of a finite double gives a
double that compares equal to it. -/
theorem finite_add_zero (t : Bool) (e1 : Int) {x : F64} (hx : IsFinite x) :
    ne (add x (fin t 0 e1)) x = false := by
  cases x with
  | nan => exact absurd hx (by simp [IsFinite])
  | inf s => exact absurd hx (by simp [IsFinite])
  | fin s m e =>
    by_cases hm : m = 0
    · subst hm
      simp [add, ne]
    · have hpos : 0 < m * 2 ^ (e - min e e1).toNat := by positivity
      obtain ⟨h1, h2, h3⟩ := signed_nat s _ hpos
      have hr := round_exact s m e (e - min e e1).toNat hx
      have hexp : e - ((e - min e e1).toNat : Int) = min e e1 := by
        have := min_le_left e e1
        omega
      rw [hexp] at hr
      simp only [add, Nat.zero_mul, Nat.cast_zero, mul_zero, add_zero]
      rw [if_neg h1, h2, h3, hr]
      simp [ne]

theorem mul_one_finite {x : F64} (hx : IsFinite x) : mul x 1 = x := by
  cases x with
  | nan => exact absurd hx (by simp [IsFinite])
  | inf s => exact absurd hx (by simp [IsFinite])
  | fin s m e =>
    rw [one_def]
    have hr := round_exact s m e 52 hx
    simp only [mul, Bool.xor_false]
    exact hr

theorem one_mul_finite {x : F64} (hx : IsFinite x) : mul 1 x = x := by
  cases x with
  | nan => exact absurd hx (by simp [IsFinite])
  | inf s => exact absurd hx (by simp [IsFinite])
  | fin s m e =>
    rw [one_def]
    have hr := round_exact s m e 52 hx
    simp only [mul, Bool.false_xor]
    rw [Nat.mul_comm, add_comm]
    exact hr

/-- The finite doubles satisfy the laws used by multiplication with the
identity matrix. -/
theorem identityLaws : IdentityLaws F64 IsFinite where
  zero := by rw [isZero_iff]; exact ⟨false, -1074, rfl⟩
  zero_add_zero := by
    intro u v hu hv
    obtain ⟨s, e1, rfl⟩ := (isZero_iff u).mp hu
    obtain ⟨t, e2, rfl⟩ := (isZero_iff v).mp hv
    rw [isZero_iff]
    exact ⟨s && t, -1074, by simp [add_def, add]⟩
  mul_zero := by
    intro x hx
    cases x with
    | nan => exact absurd hx (by simp [IsFinite])
    | inf s => exact absurd hx (by simp [IsFinite])
    | fin s m e =>
      rw [isZero_iff]
      exact ⟨s, -1074, by simp [mul_def, zero_def, mul, round]⟩
  zero_mul := by
    intro x hx
    cases x with
    | nan => exact absurd hx (by simp [IsFinite])
    | inf s => exact absurd hx (by simp [IsFinite])
    | fin s m e =>
      rw [isZero_iff]
      exact ⟨s, -1074, by simp [mul_def, zero_def, mul, round]⟩
  mul_one := fun x hx => by rw [mul_def]; exact mul_one_finite hx
  one_mul := fun x hx => by rw [mul_def]; exact one_mul_finite hx
  zero_add := by
    intro u x hu hx
    obtain ⟨t, e1, rfl⟩ := (isZero_iff u).mp hu
    rw [ne_def, add_def]
    exact zero_add_finite t e1 hx
  add_zero := by
    intro y x u hx hyx hu
    obtain ⟨t, e1, rfl⟩ := (isZero_iff u).mp hu
    rw [ne_def] at hyx
    rw [ne_def, add_def]
    cases x with
    | nan => exact absurd hx (by simp [IsFinite])
    | inf s => exact absurd hx (by simp [IsFinite])
    | fin s m e =>
      cases y with
      | nan => simp [ne] at hyx
      | inf s' => simp [ne] at hyx
      | fin s' m' e' =>
        by_cases h0 : m' = 0 ∧ m = 0
        · obtain ⟨hm', hm⟩ := h0
          subst hm' hm
          simp [add, ne]
        · have heq : s' = s ∧ m' = m ∧ e' = e := by
            simp only [ne, h0, if_false] at hyx
            simpa using hyx
          obtain ⟨rfl, rfl, rfl⟩ := heq
          exact finite_add_zero t e1 hx

end F64

namespace F64

theorem neg_one_def : (-1 : F64) = fin true (2 ^ 52) (-52) := by decide

theorem sub_def (a b : F64) : a - b = add a (neg b) := rfl

theorem isFinite_one : IsFinite (fin false (2 ^ 52) (-52)) := by decide

theorem isFinite_neg_one : IsFinite (fin true (2 ^ 52) (-52)) := by decide

/-- A zero of either sign added on the left of a finite nonzero double
leaves it unchanged. -/
theorem zero_add_eq (t : Bool) (e1 : Int) {s : Bool} {m : Nat} {e : Int} (hm : m ≠ 0)
    (hx : IsFinite (fin s m e)) : add (fin t 0 e1) (fin s m e) = fin s m e := by
  have hpos : 0 < m * 2 ^ (e - min e1 e).toNat := by positivity
  obtain ⟨h1, h2, h3⟩ := signed_nat s _ hpos
  have hr := round_exact s m e (e - min e1 e).toNat hx
  have hexp : e - ((e - min e1 e).toNat : Int) = min e1 e := by
    have := min_le_right e1 e
    omega
  rw [hexp] at hr
  simp only [add, Nat.zero_mul, Nat.cast_zero, mul_zero, zero_add]
  rw [if_neg h1, h2, h3, hr]

/-- A zero of either sign added on the right of a finite nonzero double
leaves it unchanged. -/
theorem add_zero_eq (t : Bool) (e1 : Int) {s : Bool} {m : Nat} {e : Int} (hm : m ≠ 0)
    (hx : IsFinite (fin s m e)) : add (fin s m e) (fin t 0 e1) = fin s m e := by
  have hpos : 0 < m * 2 ^ (e - min e e1).toNat := by positivity
  obtain ⟨h1, h2, h3⟩ := signed_nat s _ hpos
  have hr := round_exact s m e (e - min e e1).toNat hx
  have hexp : e - ((e - min e e1).toNat : Int) = min e e1 := by
    have := min_le_left e e1
    omega
  rw [hexp] at hr
  simp only [add, Nat.zero_mul, Nat.cast_zero, mul_zero, add_zero]
  rw [if_neg h1, h2, h3, hr]

theorem isUnitOrZero_iff (t : F64) :
    IsUnitOrZero t ↔ (∃ s e, t = fin s 0 e) ∨ t = fin false (2 ^ 52) (-52) ∨
      t = fin true (2 ^ 52) (-52) := by
  unfold IsUnitOrZero
  rw [isZero_iff, neg_one_def, one_def]

theorem isZero_fin_zero (s : Bool) (e : Int) : IsZero (fin s 0 e) :=
  (isZero_iff _).mpr ⟨s, e, rfl⟩

set_option maxRecDepth 4000 in
/-- Doubles satisfy the laws used by the determinant of the identity matrix. -/
theorem detLaws : DetLaws F64 where
  zero := isZero_fin_zero false (-1074)
  zero_add_zero := identityLaws.zero_add_zero
  zero_add := by
    intro u t hu ht
    obtain ⟨s, e1, rfl⟩ := (isZero_iff u).mp hu
    rw [add_def]
    rcases (isUnitOrZero_iff t).mp ht with ⟨s', e', rfl⟩ | rfl | rfl
    · exact Or.inl (identityLaws.zero_add_zero _ _ (isZero_fin_zero s e1)
        (isZero_fin_zero s' e'))
    · rw [zero_add_eq s e1 (by norm_num) isFinite_one]
      exact (isUnitOrZero_iff _).mpr (Or.inr (Or.inl rfl))
    · rw [zero_add_eq s e1 (by norm_num) isFinite_neg_one]
      exact (isUnitOrZero_iff _).mpr (Or.inr (Or.inr rfl))
  add_zero := by
    intro t w ht hw
    obtain ⟨s, e1, rfl⟩ := (isZero_iff w).mp hw
    rw [add_def]
    rcases (isUnitOrZero_iff t).mp ht with ⟨s', e', rfl⟩ | rfl | rfl
    · exact Or.inl (identityLaws.zero_add_zero _ _ (isZero_fin_zero s' e')
        (isZero_fin_zero s e1))
    · rw [add_zero_eq s e1 (by norm_num) isFinite_one]
      exact (isUnitOrZero_iff _).mpr (Or.inr (Or.inl rfl))
    · rw [add_zero_eq s e1 (by norm_num) isFinite_neg_one]
      exact (isUnitOrZero_iff _).mpr (Or.inr (Or.inr rfl))
  one_add_zero := by
    intro w hw
    obtain ⟨s, e1, rfl⟩ := (isZero_iff w).mp hw
    rw [add_def, one_def]
    exact add_zero_eq s e1 (by norm_num) isFinite_one
  zero_add_one := by
    rw [add_def, zero_def, one_def]
    exact zero_add_eq false (-1074) (by norm_num) isFinite_one
  one_mul_zero := by rw [isZero_iff]; exact ⟨false, -1074, by decide⟩
  neg_one_mul_zero := by rw [isZero_iff]; exact ⟨true, -1074, by decide⟩
  zero_mul := by
    intro u t hu ht
    obtain ⟨s, e1, rfl⟩ := (isZero_iff u).mp hu
    rw [isZero_iff, mul_def]
    rcases (isUnitOrZero_iff t).mp ht with ⟨s', e', rfl⟩ | rfl | rfl
    · exact ⟨xor s s', -1074, by simp [mul, round]⟩
    · exact ⟨xor s false, -1074, by simp [mul, round]⟩
    · exact ⟨xor s true, -1074, by simp [mul, round]⟩
  one_mul_one := by decide
  neg_one_mul_one := by decide
  one_mul := by
    intro t ht
    rw [mul_def, one_def]
    rcases (isUnitOrZero_iff t).mp ht with ⟨s', e', rfl⟩ | rfl | rfl
    · exact Or.inl ((isZero_iff _).mpr ⟨s', -1074, by simp [mul, round]⟩)
    · exact (isUnitOrZero_iff _).mpr (Or.inr (Or.inl (by decide)))
    · exact (isUnitOrZero_iff _).mpr (Or.inr (Or.inr (by decide)))
  neg_one_mul := by
    intro t ht
    rw [mul_def, neg_one_def]
    rcases (isUnitOrZero_iff t).mp ht with ⟨s', e', rfl⟩ | rfl | rfl
    · exact Or.inl ((isZero_iff _).mpr ⟨!s', -1074, by simp [mul, round]⟩)
    · exact (isUnitOrZero_iff _).mpr (Or.inr (Or.inr (by decide)))
    · exact (isUnitOrZero_iff _).mpr (Or.inr (Or.inl (by decide)))
  base := by
    intro x y z w hx hy hz hw
    have hprod : ∀ a b : F64, (a = 0 ∨ a = 1) → (b = 0 ∨ b = 1) →
        a * b = fin false 0 (-1074) ∨ a * b = fin false (2 ^ 52) (-52) := by
      intro a b ha hb
      rcases ha with rfl | rfl <;> rcases hb with rfl | rfl
      · exact Or.inl (by decide)
      · exact Or.inl (by decide)
      · exact Or.inl (by decide)
      · exact Or.inr (by decide)
    rw [isUnitOrZero_iff, sub_def]
    rcases hprod x y hx hy with h | h <;> rcases hprod z w hz hw with h' | h' <;> rw [h, h']
    · exact Or.inl ⟨false, -1074, by decide⟩
    · exact Or.inr (Or.inr (zero_add_eq false (-1074) (by norm_num) isFinite_neg_one))
    · exact Or.inr (Or.inl (add_zero_eq true (-1074) (by norm_num) isFinite_one))
    · exact Or.inl ⟨false, -1074, by decide⟩
  base_one := by
    have h1 : (1 : F64) * 1 = fin false (2 ^ 52) (-52) := by decide
    have h0 : (0 : F64) * 0 = fin false 0 (-1074) := by decide
    rw [sub_def, h1, h0, one_def]
    exact add_zero_eq true (-1074) (by norm_num) isFinite_one

end F64

namespace F64

/-- The product of doubles does not depend on the order of the factors. -/
theorem mul_comm_double (a b : F64) : a * b = b * a := by
  rw [mul_def, mul_def]
  cases a with
  | nan => cases b <;> rfl
  | inf s =>
    cases b with
    | nan => rfl
    | inf t => simp [mul, Bool.xor_comm]
    | fin t m e => simp [mul, Bool.xor_comm]
  | fin s m e =>
    cases b with
    | nan => rfl
    | inf t => simp [mul, Bool.xor_comm]
    | fin t m' e' => simp only [mul, Bool.xor_comm s t, Nat.mul_comm m m', add_comm e e']

/-- Doubles that compare equal are neither less nor greater than each other. -/
theorem lt_of_ne_false (x y : F64) (h : FloatNe.ne x y = false) :
    FloatOrd.lt x y = false ∧ FloatOrd.lt y x = false := by
  show lt x y = false ∧ lt y x = false
  rw [ne_def] at h
  cases x with
  | nan => simp [ne] at h
  | inf s =>
    cases y with
    | nan => simp [ne] at h
    | inf t =>
      simp only [ne, bne_eq_false_iff_eq] at h
      subst h
      cases s <;> simp [lt]
    | fin t m e => simp [ne] at h
  | fin s1 m1 e1 =>
    cases y with
    | nan => simp [ne] at h
    | inf t => simp [ne] at h
    | fin s2 m2 e2 =>
      simp only [ne] at h
      by_cases hz : m1 = 0 ∧ m2 = 0
      · obtain ⟨rfl, rfl⟩ := hz
        simp [lt]
      · simp only [hz, if_false, Bool.not_eq_false', decide_eq_true_eq] at h
        obtain ⟨rfl, rfl, rfl⟩ := h
        simp [lt]

end F64

/-! ## The remainder of finite doubles -/

theorem truncQ_neg (q : ℚ) : truncQ (-q) = -truncQ q := by
  unfold truncQ
  rcases lt_trichotomy q 0 with h | h | h
  · have h1 : 0 ≤ -q := by linarith
    have h2 : ¬ 0 ≤ q := by linarith
    simp only [h1, h2, if_true, if_false, Int.floor_neg]
  · subst h; simp
  · have h1 : ¬ 0 ≤ -q := by linarith
    have h2 : 0 ≤ q := le_of_lt h
    simp only [h1, h2, if_true, if_false, Int.ceil_neg]

theorem truncQ_div (a b : Nat) : truncQ ((a : ℚ) / b) = ((a / b : Nat) : Int) := by
  have h : (0 : ℚ) ≤ (a : ℚ) / b := by positivity
  simp only [truncQ, h, if_true, Rat.floor_natCast_div_natCast]
  norm_cast

namespace F64

theorem scale_eq (m : Nat) (e1 e : Int) (h : e ≤ e1) :
    ((m * 2 ^ (e1 - e).toNat : Nat) : ℚ) * (2 : ℚ) ^ e = (m : ℚ) * (2 : ℚ) ^ e1 := by
  have hj : ((e1 - e).toNat : Int) = e1 - e := Int.toNat_of_nonneg (by omega)
  have h2 : (2 : ℚ) ^ e1 = (2 : ℚ) ^ ((e1 - e).toNat : Int) * (2 : ℚ) ^ e := by
    rw [← zpow_add₀ (two_ne_zero), hj]
    congr 1
    ring
  rw [h2, zpow_natCast]
  push_cast
  ring

/-- A number `m * 2^e` with `m < 2^53` and `e` in the range of exponents is a
double: rounding leaves it as it is. -/
theorem round_fits (s : Bool) (m : Nat) (e : Int) (hb : m < 2 ^ 53) (hlo : -1074 ≤ e)
    (hhi : e ≤ 971) :
    ∃ m' e', round s m e = fin s m' e' ∧ IsFinite (fin s m' e') ∧
      (m' : ℚ) * (2 : ℚ) ^ e' = (m : ℚ) * (2 : ℚ) ^ e ∧ (m' = 0 ↔ m = 0) := by
  by_cases h0 : m = 0
  · subst h0
    refine ⟨0, -1074, by simp [round], ⟨by norm_num, le_refl _, by norm_num, fun _ => rfl⟩, by simp,
      by simp⟩
  · obtain ⟨h1, h2⟩ := bitLen_spec m
    have h2 := h2 h0
    have hb1 : 1 ≤ bitLen m := by
      by_contra hc
      have : bitLen m = 0 := by omega
      rw [this] at h1
      simp at h1
      exact h0 h1
    have hb53 : bitLen m ≤ 53 := by
      by_contra hc
      have : 2 ^ 53 ≤ 2 ^ (bitLen m - 1) := Nat.pow_le_pow_right (by norm_num) (by omega)
      omega
    set e' : Int := max (e + (bitLen m : Nat) - 53) (-1074) with he'
    have hle : e' ≤ e := by omega
    have hnot : ¬ e' > 971 := by omega
    have hround : round s m e = fin s (m * 2 ^ (e - e').toNat) e' := by
      simp only [round, h0, if_false, ← he', hle, if_true, hnot]
    have hj : (e - e').toNat ≤ 53 - bitLen m := by omega
    refine ⟨_, _, hround, ⟨?_, by omega, by omega, ?_⟩, scale_eq m e e' hle, ?_⟩
    · calc m * 2 ^ (e - e').toNat < 2 ^ bitLen m * 2 ^ (e - e').toNat :=
            Nat.mul_lt_mul_of_pos_right h1 (by positivity)
        _ ≤ 2 ^ bitLen m * 2 ^ (53 - bitLen m) :=
            Nat.mul_le_mul_left _ (Nat.pow_le_pow_right (by norm_num) hj)
        _ = 2 ^ 53 := by rw [← pow_add]; congr 1; omega
    · intro hsmall
      by_contra hne
      have hj' : (e - e').toNat = 53 - bitLen m := by omega
      rw [hj'] at hsmall
      have : 2 ^ 52 ≤ m * 2 ^ (53 - bitLen m) := by
        calc 2 ^ 52 = 2 ^ (bitLen m - 1) * 2 ^ (53 - bitLen m) := by
              rw [← pow_add]; congr 1; omega
          _ ≤ m * 2 ^ (53 - bitLen m) := Nat.mul_le_mul_right _ h2
      omega
    · constructor
      · intro h
        rcases Nat.mul_eq_zero.mp h with h | h
        · exact h
        · exact absurd h (by positivity)
      · intro h; exact absurd h h0

end F64

theorem truncRem_core (M1 M2 : Nat) (hM2 : 0 < M2) (c : ℚ) (hc : 0 < c) (s t : Bool) :
    (if s then (-1 : ℚ) else 1) * (((M1 % M2 : Nat) : ℚ) * c) =
      (if s then (-1 : ℚ) else 1) * ((M1 : ℚ) * c) -
        ((if t then (-1 : ℚ) else 1) * ((M2 : ℚ) * c)) *
          (truncQ ((if s then (-1 : ℚ) else 1) * ((M1 : ℚ) * c) /
            ((if t then (-1 : ℚ) else 1) * ((M2 : ℚ) * c))) : ℚ) := by
  have hb : (M2 : ℚ) ≠ 0 := by positivity
  have hc' : c ≠ 0 := ne_of_gt hc
  have hdm : (M1 : ℚ) = (M2 : ℚ) * ((M1 / M2 : Nat) : ℚ) + ((M1 % M2 : Nat) : ℚ) := by
    have := Nat.div_add_mod M1 M2
    exact_mod_cast this.symm
  have hq : (M1 : ℚ) * c / ((M2 : ℚ) * c) = (M1 : ℚ) / M2 := by
    rw [mul_div_mul_right _ _ hc']
  have hT : ((truncQ ((M1 : ℚ) / M2) : Int) : ℚ) = ((M1 / M2 : Nat) : ℚ) := by
    rw [truncQ_div]; push_cast; rfl
  have hTn : ((truncQ (-((M1 : ℚ) / M2)) : Int) : ℚ) = -((M1 / M2 : Nat) : ℚ) := by
    rw [truncQ_neg, truncQ_div]; push_cast; rfl
  cases s <;> cases t
  · simp only [Bool.false_eq_true, if_false, one_mul, hq, hT]
    linear_combination (-c) * hdm
  · simp only [Bool.false_eq_true, if_false, if_true, one_mul, neg_one_mul, div_neg, hq, hTn]
    linear_combination (-c) * hdm
  · simp only [Bool.false_eq_true, if_false, if_true, one_mul, neg_one_mul, neg_div, hq, hTn]
    linear_combination c * hdm
  · simp only [if_true, neg_one_mul, neg_div_neg_eq, hq, hT]
    linear_combination c * hdm

namespace F64

theorem ofInt_spec (k : Int) (hk : k ≠ 0) (hint : -(2 ^ 31) ≤ k ∧ k < 2 ^ 31) :
    ∃ m e, ofInt k = fin (decide (k < 0)) m e ∧ IsFinite (fin (decide (k < 0)) m e) ∧
      m ≠ 0 ∧ (m : ℚ) * (2 : ℚ) ^ e = |(k : ℚ)| := by
  have hb : k.natAbs < 2 ^ 53 := by omega
  obtain ⟨m, e, h1, h2, h3, h4⟩ := round_fits (decide (k < 0)) k.natAbs 0 hb (by norm_num)
    (by norm_num)
  refine ⟨m, e, h1, h2, ?_, ?_⟩
  · intro h
    have := h4.mp h
    omega
  · rw [h3, zpow_zero, mul_one, Nat.cast_natAbs, Int.cast_abs]

end F64

namespace F64

theorem toRat_fin (s : Bool) (m : Nat) (e : Int) :
    toRat (fin s m e) = (if s then (-1 : ℚ) else 1) * ((m : ℚ) * (2 : ℚ) ^ e) := by
  simp only [toRat, mul_assoc]

/-- The remainder `std::fmod(x, k)` of a finite double by a nonzero `int` is
exact: it is `x - k * trunc(x / k)`, smaller than `k` in absolute value, with
the sign bit of `x`. -/
theorem fmod_spec (x : F64) (hx : IsFinite x) (k : Int) (hk : k ≠ 0)
    (hint : -(2 ^ 31) ≤ k ∧ k < 2 ^ 31) :
    IsFinite (fmod x (ofInt k)) ∧
    toRat (fmod x (ofInt k)) = toRat x - (k : ℚ) * (truncQ (toRat x / (k : ℚ)) : ℚ) ∧
    |toRat (fmod x (ofInt k))| < |(k : ℚ)| ∧
    signBit (fmod x (ofInt k)) = signBit x ∧
    (toRat (fmod x (ofInt k)) = 0 ∨
      (0 < toRat (fmod x (ofInt k)) ∧ 0 < toRat x) ∨
      (toRat (fmod x (ofInt k)) < 0 ∧ toRat x < 0)) := by
  cases x with
  | nan => exact absurd hx (by simp [IsFinite])
  | inf s => exact absurd hx (by simp [IsFinite])
  | fin s1 m1 e1 =>
    obtain ⟨hm1, hlo1, hhi1, -⟩ := hx
    obtain ⟨m2, e2, hy, ⟨hm2, hlo2, hhi2, -⟩, hm20, hval⟩ := ofInt_spec k hk hint
    rw [hy]
    have hfm : fmod (fin s1 m1 e1) (fin (decide (k < 0)) m2 e2) =
        round s1 (m1 * 2 ^ (e1 - min e1 e2).toNat % (m2 * 2 ^ (e2 - min e1 e2).toNat))
          (min e1 e2) := by
      simp only [fmod, hm20, if_false]
    set e := min e1 e2 with he
    set M1 := m1 * 2 ^ (e1 - e).toNat with hM1
    set M2 := m2 * 2 ^ (e2 - e).toNat with hM2
    have hM2pos : 0 < M2 := Nat.mul_pos (Nat.pos_of_ne_zero hm20) (by positivity)
    have hR : M1 % M2 < 2 ^ 53 := by
      by_cases h12 : e1 ≤ e2
      · have h0 : (e1 - e).toNat = 0 := by omega
        have : M1 = m1 := by rw [hM1, h0, pow_zero, mul_one]
        have := Nat.mod_le M1 M2
        omega
      · have h0 : (e2 - e).toNat = 0 := by omega
        have : M2 = m2 := by rw [hM2, h0, pow_zero, mul_one]
        have := Nat.mod_lt M1 hM2pos
        omega
    obtain ⟨m', e', hr, hrfin, hrval, hr0⟩ := round_fits s1 (M1 % M2) e hR (by omega) (by omega)
    rw [hfm, hr]
    have hc : (0 : ℚ) < (2 : ℚ) ^ e := by positivity
    have hxval : toRat (fin s1 m1 e1) = (if s1 then (-1 : ℚ) else 1) * ((M1 : ℚ) * (2 : ℚ) ^ e) := by
      rw [toRat_fin, hM1, scale_eq m1 e1 e (by omega)]
    have habs : |(k : ℚ)| = (M2 : ℚ) * (2 : ℚ) ^ e := by
      rw [← hval, hM2, scale_eq m2 e2 e (by omega)]
    have hkval : (k : ℚ) = (if decide (k < 0) then (-1 : ℚ) else 1) * ((M2 : ℚ) * (2 : ℚ) ^ e) := by
      rw [← habs]
      by_cases hneg : k < 0
      · have : (k : ℚ) < 0 := by exact_mod_cast hneg
        simp only [hneg, decide_True, if_true, abs_of_neg this]
        ring
      · have : (0 : ℚ) ≤ (k : ℚ) := by exact_mod_cast (not_lt.mp hneg)
        simp only [hneg, decide_False, Bool.false_eq_true, if_false, abs_of_nonneg this, one_mul]
    have hrv : toRat (fin s1 m' e') =
        (if s1 then (-1 : ℚ) else 1) * (((M1 % M2 : Nat) : ℚ) * (2 : ℚ) ^ e) := by
      rw [toRat_fin, hrval]
    have hsgn : |(if s1 then (-1 : ℚ) else 1)| = 1 := by cases s1 <;> simp
    refine ⟨hrfin, ?_, ?_, rfl, ?_⟩
    · rw [hrv, hxval]
      conv_rhs => rw [hkval]
      exact truncRem_core M1 M2 hM2pos _ hc s1 (decide (k < 0))
    · rw [hrv, habs, abs_mul, hsgn, one_mul, abs_of_nonneg (by positivity)]
      have : ((M1 % M2 : Nat) : ℚ) < (M2 : ℚ) := by exact_mod_cast Nat.mod_lt M1 hM2pos
      exact mul_lt_mul_of_pos_right this hc
    · rw [hrv, hxval]
      by_cases hz : M1 % M2 = 0
      · left; rw [hz]; simp
      · right
        have hRpos : (0 : ℚ) < ((M1 % M2 : Nat) : ℚ) := by
          exact_mod_cast Nat.pos_of_ne_zero hz
        have hM1pos : (0 : ℚ) < (M1 : ℚ) := by
          have := Nat.mod_le M1 M2
          have : 0 < M1 := by omega
          exact_mod_cast this
        cases s1 with
        | false =>
          left
          simp only [Bool.false_eq_true, if_false, one_mul]
          exact ⟨by positivity, by positivity⟩
        | true =>
          right
          simp only [if_true, neg_one_mul, neg_neg_iff_pos]
          exact ⟨by positivity, by positivity⟩

end F64

/-! ## Multiplication by the identity -/

theorem sumLeft_mul_idFun {α : Type} [Zero α] [One α] [Add α] [Mul α] [FloatNe α]
    {fin : α → Prop} (laws : IdentityLaws α fin) (n : Nat) (a : Nat → α)
    (hfin : ∀ k, k < n → fin (a k)) (j : Nat) (hj : j < n) :
    FloatNe.ne (sumLeft n fun k => a k * SquareMat.idFun k j) (a j) = false := by
  have inv : ∀ t, t ≤ n →
      (t ≤ j → IsZero (sumLeft t fun k => a k * SquareMat.idFun k j)) ∧
      (j < t → FloatNe.ne (sumLeft t fun k => a k * SquareMat.idFun k j) (a j) = false) := by
    intro t
    induction t with
    | zero =>
      intro _
      exact ⟨fun _ => by rw [sumLeft_zero]; exact laws.zero, fun h => absurd h (Nat.not_lt_zero j)⟩
    | succ t ih =>
      intro ht
      have iht := ih (by omega)
      rw [sumLeft_succ]
      refine ⟨fun htj => ?_, fun htj => ?_⟩
      · have hne : ¬ t = j := by omega
        simp only [SquareMat.idFun, hne, if_false]
        exact laws.zero_add_zero _ _ (iht.1 (by omega)) (laws.mul_zero _ (hfin t (by omega)))
      · by_cases htj' : t = j
        · subst htj'
          simp only [SquareMat.idFun, if_true]
          rw [laws.mul_one _ (hfin t hj)]
          exact laws.zero_add _ _ (iht.1 (le_refl t)) (hfin t hj)
        · simp only [SquareMat.idFun, htj', if_false]
          exact laws.add_zero _ _ _ (hfin j hj) (iht.2 (by omega))
            (laws.mul_zero _ (hfin t (by omega)))
  exact (inv n (le_refl n)).2 hj

theorem sumLeft_idFun_mul {α : Type} [Zero α] [One α] [Add α] [Mul α] [FloatNe α]
    {fin : α → Prop} (laws : IdentityLaws α fin) (n : Nat) (a : Nat → α)
    (hfin : ∀ k, k < n → fin (a k)) (i : Nat) (hi : i < n) :
    FloatNe.ne (sumLeft n fun k => SquareMat.idFun i k * a k) (a i) = false := by
  have inv : ∀ t, t ≤ n →
      (t ≤ i → IsZero (sumLeft t fun k => SquareMat.idFun i k * a k)) ∧
      (i < t → FloatNe.ne (sumLeft t fun k => SquareMat.idFun i k * a k) (a i) = false) := by
    intro t
    induction t with
    | zero =>
      intro _
      exact ⟨fun _ => by rw [sumLeft_zero]; exact laws.zero, fun h => absurd h (Nat.not_lt_zero i)⟩
    | succ t ih =>
      intro ht
      have iht := ih (by omega)
      rw [sumLeft_succ]
      refine ⟨fun hti => ?_, fun hti => ?_⟩
      · have hne : ¬ i = t := by omega
        simp only [SquareMat.idFun, hne, if_false]
        exact laws.zero_add_zero _ _ (iht.1 (by omega)) (laws.zero_mul _ (hfin t (by omega)))
      · by_cases hti' : i = t
        · subst hti'
          simp only [SquareMat.idFun, if_true]
          rw [laws.one_mul _ (hfin i hi)]
          exact laws.zero_add _ _ (iht.1 (le_refl i)) (hfin i hi)
        · simp only [SquareMat.idFun, hti', if_false]
          exact laws.add_zero _ _ _ (hfin i hi) (iht.2 (by omega))
            (laws.zero_mul _ (hfin t (by omega)))
  exact (inv n (le_refl n)).2 hi

namespace SquareMat

variable {α : Type}

/-- Under the laws `IdentityLaws`, multiplying a matrix with finite elements
by the identity on either side gives a matrix that `==` finds equal to it. -/
theorem identity_mul_of_laws [Zero α] [One α] [Add α] [Mul α] [FloatNe α]
    {fin : α → Prop} (laws : IdentityLaws α fin) (A : SquareMat α) (n : Nat) (h1 : 1 ≤ n)
    (hA : WF A n) (hfin : ∀ i j, i < n → j < n → fin (A.elem i j)) :
    ∃ L R, operatorMul A (identity n) = .ok L ∧ operatorMul (identity n) A = .ok R ∧
      operatorEq L A = .ok true ∧ operatorEq R A = .ok true := by
  have hn := hA.1
  have hI : WF (identity n : SquareMat α) n := ofFun_wf hn _
  have hIe : ∀ i j, i < n → j < n → (identity n : SquareMat α).elem i j = idFun i j :=
    fun i j hi hj => ofFun_elem idFun hi hj
  refine ⟨_, _, WF.operatorMul_eq h1 hA hI, WF.operatorMul_eq h1 hI hA, ?_, ?_⟩
  · rw [WF.operatorEq_eq (ofFun_wf hn _) hA]
    congr 1
    rw [allBelow_iff]
    intro i hi
    rw [allBelow_iff]
    intro j hj
    rw [ofFun_elem _ hi hj]
    have e : (sumLeft n fun k => A.elem i k * (identity n).elem k j) =
        sumLeft n fun k => A.elem i k * idFun k j := by
      unfold sumLeft
      apply List.foldl_ext
      intro acc k hk
      beta_reduce
      rw [hIe k j (List.mem_range.mp hk) hj]
    rw [e, sumLeft_mul_idFun laws n (fun k => A.elem i k) (fun k hk => hfin i k hi hk) j hj]
    rfl
  · rw [WF.operatorEq_eq (ofFun_wf hn _) hA]
    congr 1
    rw [allBelow_iff]
    intro i hi
    rw [allBelow_iff]
    intro j hj
    rw [ofFun_elem _ hi hj]
    have e : (sumLeft n fun k => (identity n).elem i k * A.elem k j) =
        sumLeft n fun k => idFun i k * A.elem k j := by
      unfold sumLeft
      apply List.foldl_ext
      intro acc k hk
      beta_reduce
      rw [hIe i k hi (List.mem_range.mp hk)]
    rw [e, sumLeft_idFun_mul laws n (fun k => A.elem k j) (fun k hk => hfin k j hk hj) i hi]
    rfl

end SquareMat

/-! ## The determinant of the identity -/

namespace SquareMat

variable {α : Type}

theorem skipCol_injective (i : Nat) {b b' : Nat} (h : skipCol i b = skipCol i b') : b = b' := by
  unfold skipCol at h
  split at h <;> split at h <;> omega

/-- The determinant computed for a matrix of zeros and ones with at most one
`1` in each row is a zero, `1` or `-1`. -/
theorem detRec_unitOrZero [Zero α] [One α] [Add α] [Sub α] [Mul α] [Neg α] [FloatNe α]
    (laws : DetLaws α) (m : Nat) :
    ∀ p : Nat → Nat → Bool, (∀ a b b', p a b = true → p a b' = true → b = b') →
      IsUnitOrZero (detRec (m + 2) fun a b => if p a b = true then (1 : α) else 0) := by
  induction m with
  | zero =>
    intro p _
    show IsUnitOrZero (_ * _ - _ * _)
    apply laws.base <;> (beta_reduce; split <;> simp)
  | succ k ih =>
    intro p hp
    show IsUnitOrZero (sumLeft (k + 3) _)
    have inv : ∀ t, t ≤ k + 3 →
        IsUnitOrZero (sumLeft t fun i =>
          (if i % 2 = 0 then (1 : α) else -1) * (if p 0 i = true then (1 : α) else 0) *
            detRec (k + 2) (minorFun (fun a b => if p a b = true then (1 : α) else 0) i)) ∧
        ((∀ i, i < t → p 0 i = false) →
          IsZero (sumLeft t fun i =>
            (if i % 2 = 0 then (1 : α) else -1) * (if p 0 i = true then (1 : α) else 0) *
              detRec (k + 2) (minorFun (fun a b => if p a b = true then (1 : α) else 0) i))) := by
      intro t
      induction t with
      | zero =>
        intro _
        rw [sumLeft_zero]
        exact ⟨Or.inl laws.zero, fun _ => laws.zero⟩
      | succ t iht =>
        intro ht
        obtain ⟨hT, hZ⟩ := iht (by omega)
        rw [sumLeft_succ]
        have hd : IsUnitOrZero (detRec (k + 2)
            (minorFun (fun a b => if p a b = true then (1 : α) else 0) t)) :=
          ih (fun a b => p (a + 1) (skipCol t b))
            (fun a b b' h h' => skipCol_injective t (hp _ _ _ h h'))
        by_cases hpt : p 0 t = true
        · have hprev : ∀ i, i < t → p 0 i = false := by
            intro i hi
            by_contra hc
            have : p 0 i = true := by simpa using hc
            have := hp 0 i t this hpt
            omega
          have hterm : IsUnitOrZero ((if t % 2 = 0 then (1 : α) else -1) *
              (if p 0 t = true then (1 : α) else 0) *
              detRec (k + 2) (minorFun (fun a b => if p a b = true then (1 : α) else 0) t)) := by
            simp only [hpt, if_true]
            split
            · rw [laws.one_mul_one]; exact laws.one_mul _ hd
            · rw [laws.neg_one_mul_one]; exact laws.neg_one_mul _ hd
          refine ⟨laws.zero_add _ _ (hZ hprev) hterm, fun hall => ?_⟩
          have := hall t (by omega)
          rw [hpt] at this
          exact absurd this (by simp)
        · have hpt' : p 0 t = false := by simpa using hpt
          have hterm : IsZero ((if t % 2 = 0 then (1 : α) else -1) *
              (if p 0 t = true then (1 : α) else 0) *
              detRec (k + 2) (minorFun (fun a b => if p a b = true then (1 : α) else 0) t)) := by
            simp only [hpt', Bool.false_eq_true, if_false]
            split
            · exact laws.zero_mul _ _ laws.one_mul_zero hd
            · exact laws.zero_mul _ _ laws.neg_one_mul_zero hd
          exact ⟨laws.add_zero _ _ hT hterm,
            fun hall => laws.zero_add_zero _ _ (hZ fun i hi => hall i (by omega)) hterm⟩
    exact (inv (k + 3) (le_refl _)).1

theorem minorFun_idFun_zero [Zero α] [One α] :
    minorFun (idFun (α := α)) 0 = idFun := by
  funext a b
  simp [minorFun, idFun, skipCol]

/-- The determinant computed for the identity matrix is `1`. -/
theorem detRec_idFun [Zero α] [One α] [Add α] [Sub α] [Mul α] [Neg α] [FloatNe α]
    (laws : DetLaws α) (n : Nat) : detRec (n + 1) (idFun (α := α)) = 1 := by
  induction n with
  | zero => simp [detRec, idFun]
  | succ n ih =>
    match n, ih with
    | 0, _ =>
      show idFun 0 0 * idFun 1 1 - idFun 0 1 * idFun 1 0 = (1 : α)
      simp only [idFun, if_true, one_ne_zero, zero_ne_one, if_false]
      exact laws.base_one
    | k + 1, ih =>
      show sumLeft (k + 3) _ = (1 : α)
      have inv : ∀ t, t + 1 ≤ k + 3 →
          (sumLeft (t + 1) fun i =>
            (if i % 2 = 0 then (1 : α) else -1) * idFun 0 i *
              detRec (k + 2) (minorFun idFun i)) = 1 := by
        intro t
        induction t with
        | zero =>
          intro _
          rw [sumLeft_succ, sumLeft_zero, minorFun_idFun_zero, ih]
          simp only [idFun, Nat.zero_mod, if_true]
          rw [laws.one_mul_one, laws.one_mul_one, laws.zero_add_one]
        | succ t iht =>
          intro ht
          rw [sumLeft_succ, iht (by omega)]
          have hd : IsUnitOrZero (detRec (k + 2) (minorFun (idFun (α := α)) (t + 1))) := by
            have := detRec_unitOrZero laws k (fun a b => decide (a + 1 = skipCol (t + 1) b))
              (fun a b b' h h' => skipCol_injective (t + 1) (by
                have h1 : a + 1 = skipCol (t + 1) b := by simpa using h
                have h2 : a + 1 = skipCol (t + 1) b' := by simpa using h'
                omega))
            have e : minorFun (idFun (α := α)) (t + 1) =
                fun a b => if decide (a + 1 = skipCol (t + 1) b) = true then (1 : α) else 0 := by
              funext a b
              simp [minorFun, idFun]
            rw [e]
            exact this
          have h0 : idFun (α := α) 0 (t + 1) = 0 := by simp [idFun]
          rw [h0]
          apply laws.one_add_zero
          split
          · exact laws.zero_mul _ _ laws.one_mul_zero hd
          · exact laws.zero_mul _ _ laws.neg_one_mul_zero hd
      exact inv (k + 2) (le_refl _)

end SquareMat

/-! ## Copies in memory -/

namespace Mem

variable {α : Type}

open SquareMat

theorem Inv.table_lt {m : Mem α} (h : Inv m) {p : Nat} {t : List (Option Nat)}
    (hp : m.tables p = some t) : p < m.next ∧ p ≠ 0 := by
  constructor
  · by_contra hc
    have := (h.2.2.2 p (Nat.le_of_not_lt hc)).1
    rw [hp] at this
    cases this
  · rintro rfl
    rw [h.2.1] at hp
    cases hp

theorem Inv.array_lt {m : Mem α} (h : Inv m) {q : Nat} {r : List (Option α)}
    (hq : m.arrays q = some r) : q < m.next ∧ q ≠ 0 := by
  constructor
  · by_contra hc
    have := (h.2.2.2 q (Nat.le_of_not_lt hc)).2
    rw [hq] at this
    cases this
  · rintro rfl
    rw [h.2.2.1] at hq
    cases hq

theorem map_range_none {β : Type} (n : Nat) :
    (List.range n).map (fun _ => (none : Option β)) = List.replicate n none := by
  apply List.ext_getElem?
  intro i
  by_cases hi : i < n
  · simp [List.getElem?_map, List.getElem?_range hi, List.getElem?_replicate, hi]
  · rw [List.getElem?_eq_none (by simpa using Nat.le_of_not_lt hi),
      List.getElem?_eq_none (by simpa using Nat.le_of_not_lt hi)]

theorem map_range_congr {β : Type} (n : Nat) {g h : Nat → β} (e : ∀ c, c < n → g c = h c) :
    (List.range n).map g = (List.range n).map h :=
  List.map_congr_left fun c hc => e c (List.mem_range.mp hc)

theorem readPtr_eq (m : Mem α) {p : Nat} {t : List (Option Nat)} (hp : m.tables p = some t)
    {i q : Nat} (hi : t[i]? = some (some q)) : m.readPtr p (i : Int) = .ok q := by
  have h0 : (0 : Int) ≤ (i : Int) := Int.natCast_nonneg i
  simp only [readPtr, h0, if_true, hp, Int.toNat_ofNat, List.get?_eq_getElem?, hi]

theorem readCell_eq (m : Mem α) {q : Nat} {r : List (Option α)} (hq : m.arrays q = some r)
    {j : Nat} {v : α} (hj : r[j]? = some (some v)) : m.readCell q (j : Int) = .ok v := by
  have h0 : (0 : Int) ≤ (j : Int) := Int.natCast_nonneg j
  simp only [readCell, h0, if_true, hq, Int.toNat_ofNat, List.get?_eq_getElem?, hj]

theorem writePtr_eq (m : Mem α) {p : Nat} {t : List (Option Nat)} (hp : m.tables p = some t)
    {i : Nat} (hi : i < t.length) (q : Nat) :
    m.writePtr p (i : Int) q =
      .ok { m with tables := Function.update m.tables p (some (t.set i (some q))) } := by
  have h0 : (0 : Int) ≤ (i : Int) := Int.natCast_nonneg i
  simp only [writePtr, h0, if_true, hp, Int.toNat_ofNat, hi]

theorem writeCell_eq (m : Mem α) {q : Nat} {r : List (Option α)} (hq : m.arrays q = some r)
    {j : Nat} (hj : j < r.length) (v : α) :
    m.writeCell q (j : Int) v =
      .ok { m with arrays := Function.update m.arrays q (some (r.set j (some v))) } := by
  have h0 : (0 : Int) ≤ (j : Int) := Int.natCast_nonneg j
  simp only [writeCell, h0, if_true, hq, Int.toNat_ofNat, hj]

theorem copyState_objs_this (m : Mem α) (this : Nat) (o : Obj) (p n : Nat)
    (f : Nat → Nat → α) (k i j : Nat) : (copyState m this o p n f k i j).objs this = o := by
  simp [copyState]

theorem copyState_objs_other (m : Mem α) {this other : Nat} (h : this ≠ other) (o : Obj)
    (p n : Nat) (f : Nat → Nat → α) (k i j : Nat) :
    (copyState m this o p n f k i j).objs other = m.objs other := by
  simp [copyState, Function.update_noteq (Ne.symm h)]

/-- Allocating row `t` of the copy and storing its address. -/
theorem copyState_alloc (m : Mem α) (this : Nat) (o : Obj) (p n : Nat) (f : Nat → Nat → α)
    {t : Nat} (ht : t < n) (hcol : o.columns = n) (hdata : o.data = p) :
    (do
      let r ← (copyState m this o p n f t t 0).newArray
        ((copyState m this o p n f t t 0).objs this).columns
      r.2.writePtr (r.2.objs this).data (t : Int) r.1) =
      .ok (copyState m this o p n f (t + 1) t 0) := by
  have hneg : ¬ ((n : Int) < 0) := by omega
  simp only [copyState_objs_this, hcol, newArray, hneg, if_false, bind, Except.bind,
    Int.toNat_ofNat]
  rw [hdata]
  rw [writePtr_eq (t := (List.range n).map fun r => if r < t then some (p + 1 + r) else none)
    _ (by simp [copyState]) (by simpa using ht)]
  congr 1
  simp only [copyState, Mem.mk.injEq, Function.update_idem, true_and]
  refine ⟨?_, ?_, by omega⟩
  · refine congrArg (Function.update m.tables p) (congrArg some ?_)
    rw [set_map_range]
    apply map_range_congr
    intro c _
    by_cases hc : c = t
    · subst hc; simp
    · have : c < t + 1 ↔ c < t := by omega
      simp [hc, this]
  · funext q
    by_cases hq : q = p + 1 + t
    · subst hq
      have hc : p + 1 ≤ p + 1 + t ∧ p + 1 + t < p + 1 + (t + 1) := by omega
      have hr : p + 1 + t - (p + 1) = t := by omega
      rw [Function.update_same, if_pos hc, hr, ← map_range_none]
      refine congrArg some (map_range_congr n fun c _ => ?_)
      simp
    · rw [Function.update_noteq hq]
      have : (p + 1 ≤ q ∧ q < p + 1 + (t + 1)) ↔ (p + 1 ≤ q ∧ q < p + 1 + t) := by omega
      simp only [this]

theorem copyState_tables_old (m : Mem α) (this : Nat) (o : Obj) (n : Nat) (f : Nat → Nat → α)
    (k i j : Nat) {d : Nat} (hd : d < m.next) :
    (copyState m this o m.next n f k i j).tables d = m.tables d := by
  simp only [copyState]
  exact Function.update_noteq (by omega) _ _

theorem copyState_arrays_old (m : Mem α) (this : Nat) (o : Obj) (n : Nat) (f : Nat → Nat → α)
    (k i j : Nat) {q : Nat} (hq : q < m.next) :
    (copyState m this o m.next n f k i j).arrays q = m.arrays q := by
  have : ¬ (m.next + 1 ≤ q ∧ q < m.next + 1 + k) := by omega
  simp only [copyState, this, if_false]

/-- Copying the element `(t, j)` into the row `t` of the copy. -/
theorem copyState_cell (m : Mem α) {this other : Nat} (hne : this ≠ other) (hinv : Inv m)
    (o : Obj) (hdata : o.data = m.next) {n : Nat} {pa : List Nat} {f : Nat → Nat → α}
    (hA : Layout m other n pa f) {t j : Nat} (ht : t < n) (hj : j < n) :
    (do
      let src ← (copyState m this o m.next n f (t + 1) t j).readPtr
        ((copyState m this o m.next n f (t + 1) t j).objs other).data (t : Int)
      let v ← (copyState m this o m.next n f (t + 1) t j).readCell src (j : Int)
      let dst ← (copyState m this o m.next n f (t + 1) t j).readPtr
        ((copyState m this o m.next n f (t + 1) t j).objs this).data (t : Int)
      (copyState m this o m.next n f (t + 1) t j).writeCell dst (j : Int) v) =
      .ok (copyState m this o m.next n f (t + 1) t (j + 1)) := by
  have htab : m.tables (m.objs other).data = some (pa.map some) := by
    rcases hA.table with h | ⟨h, -⟩
    · exact h
    · omega
  have htl : t < pa.length := by rw [hA.len]; exact ht
  have hq : pa[t]? = some pa[t] := List.getElem?_eq_getElem htl
  have hrow := hA.row t _ hq
  have hsrc : (copyState m this o m.next n f (t + 1) t j).readPtr (m.objs other).data (t : Int) =
      .ok pa[t] :=
    readPtr_eq _ ((copyState_tables_old m this o n f _ _ _ (hinv.table_lt htab).1).trans htab)
      (by simp [hq])
  have hv : (copyState m this o m.next n f (t + 1) t j).readCell pa[t] (j : Int) =
      .ok (f t j) :=
    readCell_eq _ ((copyState_arrays_old m this o n f _ _ _ (hinv.array_lt hrow).1).trans hrow)
      (by simp [List.getElem?_range hj])
  have hdst : (copyState m this o m.next n f (t + 1) t j).readPtr m.next (t : Int) =
      .ok (m.next + 1 + t) :=
    readPtr_eq (t := (List.range n).map fun r => if r < t + 1 then some (m.next + 1 + r) else none)
      _ (by simp [copyState]) (by simp [List.getElem?_range ht])
  have hc : m.next + 1 ≤ m.next + 1 + t ∧ m.next + 1 + t < m.next + 1 + (t + 1) := by omega
  have hr : m.next + 1 + t - (m.next + 1) = t := by omega
  have hw := writeCell_eq (copyState m this o m.next n f (t + 1) t j)
    (q := m.next + 1 + t)
    (r := (List.range n).map fun c => if t < t ∨ c < j then some (f t c) else none)
    (by simp only [copyState, if_pos hc, hr]) (j := j) (by simpa using hj) (f t j)
  simp only [copyState_objs_this, copyState_objs_other m hne, hdata, hsrc, hv, hdst, hw, bind,
    Except.bind]
  congr 1
  simp only [copyState, Mem.mk.injEq, true_and, and_true]
  funext q
  by_cases hq' : q = m.next + 1 + t
  · subst hq'
    rw [Function.update_same, if_pos hc, hr, set_map_range]
    refine congrArg some (map_range_congr n fun c _ => ?_)
    by_cases hcj : c = j
    · subst hcj; simp
    · have : c < j + 1 ↔ c < j := by omega
      simp [hcj, this]
  · rw [Function.update_noteq hq']
    by_cases hcond : m.next + 1 ≤ q ∧ q < m.next + 1 + (t + 1)
    · have hlt : q - (m.next + 1) < t := by omega
      simp only [if_pos hcond, hlt, true_or]
    · simp only [if_neg hcond]

theorem copyState_row_done (m : Mem α) (this : Nat) (o : Obj) (p n : Nat) (f : Nat → Nat → α)
    (t : Nat) : copyState m this o p n f (t + 1) t n = copyState m this o p n f (t + 1) (t + 1) 0 := by
  simp only [copyState, Mem.mk.injEq, true_and, and_true]
  funext q
  by_cases hcond : p + 1 ≤ q ∧ q < p + 1 + (t + 1)
  · have hlt : q - (p + 1) < t + 1 := by omega
    simp only [if_pos hcond]
    refine congrArg some (map_range_congr n fun c hc => ?_)
    simp [hc, hlt]
  · simp only [if_neg hcond]

/-- The loops of `copyFields`. -/
theorem copyLoop (m : Mem α) {this other : Nat} (hne : this ≠ other) (hinv : Inv m) {n : Nat}
    (o : Obj) (hcol : o.columns = n) (hdata : o.data = m.next)
    {pa : List Nat} {f : Nat → Nat → α} (hA : Layout m other n pa f) :
    forInt 0 (n : Int) (copyState m this o m.next n f 0 0 0)
      (fun i m' => do
        let r ← m'.newArray (m'.objs this).columns
        let m' ← r.2.writePtr (r.2.objs this).data i r.1
        forInt 0 (m'.objs this).columns m' fun j m' => do
          let src ← m'.readPtr (m'.objs other).data i
          let v ← m'.readCell src j
          let dst ← m'.readPtr (m'.objs this).data i
          m'.writeCell dst j v) =
      .ok (copyState m this o m.next n f n n 0) := by
  refine forInt_steps 0 _ n (zero_add _).symm (fun t => copyState m this o m.next n f t t 0)
    _ _ rfl rfl _ ?_
  intro t ht
  beta_reduce
  rw [zero_add]
  have halloc := copyState_alloc m this o m.next n f ht hcol hdata
  refine (bind_assoc _ _ _).symm.trans ?_
  rw [halloc]
  show forInt 0 ((copyState m this o m.next n f (t + 1) t 0).objs this).columns _ _ = _
  rw [copyState_objs_this, hcol, ← copyState_row_done]
  refine forInt_steps 0 _ n (zero_add _).symm
    (fun j => copyState m this o m.next n f (t + 1) t j) _ _ rfl rfl _ ?_
  intro j hj
  beta_reduce
  rw [zero_add]
  exact copyState_cell m hne hinv o hdata hA ht hj

theorem ok_bind {β γ : Type} (x : β) (g : β → Except Error γ) :
    (Except.ok x >>= g) = g x := rfl

theorem copyFields_eq (m : Mem α) {this other : Nat} (hne : this ≠ other) (hinv : Inv m)
    {n : Nat} {pa : List Nat} {f : Nat → Nat → α} (hA : Layout m other n pa f) :
    copyFields m this other =
      .ok (copyState m this ⟨n, n, m.next, (m.objs other).size⟩ m.next n f n n 0) := by
  have hneg : ¬ ((n : Int) < 0) := by omega
  have hoth : ∀ o : Obj, Function.update m.objs this o other = m.objs other :=
    fun o => Function.update_noteq (Ne.symm hne) _ _
  have h0 : ({ objs := Function.update m.objs this ⟨n, n, m.next, (m.objs other).size⟩
               tables := Function.update m.tables m.next (some (List.replicate n none))
               arrays := m.arrays
               next := m.next + 1 } : Mem α) =
      copyState m this ⟨n, n, m.next, (m.objs other).size⟩ m.next n f 0 0 0 := by
    simp only [copyState, Mem.mk.injEq, true_and, add_zero]
    refine ⟨?_, ?_, trivial⟩
    · refine congrArg (Function.update m.tables m.next) (congrArg some ?_)
      rw [← map_range_none]
      exact map_range_congr n fun c _ => by simp
    · funext q
      have : ¬ (m.next + 1 ≤ q ∧ q < m.next + 1) := by omega
      simp only [this, if_false]
  have key := copyLoop m hne hinv ⟨n, n, m.next, (m.objs other).size⟩ rfl rfl hA
  rw [← h0] at key
  simp only [copyFields, setObj, Function.update_same, Function.update_idem, hoth, hA.rows,
    hA.columns, newTable, hneg, if_false, Int.toNat_ofNat, ok_bind]
  exact key

theorem Layout.row_lt {m : Mem α} {a n : Nat} {pa : List Nat} {f : Nat → Nat → α}
    (hA : Layout m a n pa f) (hinv : Inv m) {q : Nat} (hq : q ∈ pa) : q < m.next ∧ q ≠ 0 := by
  obtain ⟨i, hi⟩ := List.getElem?_of_mem hq
  exact hinv.array_lt (hA.row i q hi)

theorem Layout.data_lt {m : Mem α} {a n : Nat} {pa : List Nat} {f : Nat → Nat → α}
    (hA : Layout m a n pa f) (hinv : Inv m) : (m.objs a).data < m.next := by
  rcases hA.table with h | ⟨-, h⟩
  · exact (hinv.table_lt h).1
  · rw [h]; exact hinv.1

theorem copyState_inv (m : Mem α) (hinv : Inv m) (this : Nat) (o : Obj) (n : Nat)
    (f : Nat → Nat → α) (k i j : Nat) : Inv (copyState m this o m.next n f k i j) := by
  obtain ⟨h1, h2, h3, h4⟩ := hinv
  refine ⟨?_, ?_, ?_, fun p hp => ⟨?_, ?_⟩⟩
  · simp only [copyState]; omega
  · rw [copyState_tables_old m this o n f k i j (by omega)]; exact h2
  · rw [copyState_arrays_old m this o n f k i j (by omega)]; exact h3
  · have hp' : m.next + 1 + k ≤ p := hp
    simp only [copyState]
    rw [Function.update_noteq (by omega)]
    exact (h4 p (by omega)).1
  · have hp' : m.next + 1 + k ≤ p := hp
    have : ¬ (m.next + 1 ≤ p ∧ p < m.next + 1 + k) := by omega
    simp only [copyState, this, if_false]
    exact (h4 p (by omega)).2

/-- The storage of an object other than `this` is as it was. -/
theorem copyState_layout_other (m : Mem α) (hinv : Inv m) {this other : Nat}
    (hne : this ≠ other) (o : Obj) {n' : Nat} {pa : List Nat} {g : Nat → Nat → α}
    (hA : Layout m other n' pa g) (n : Nat) (f : Nat → Nat → α) (k i j : Nat) :
    Layout (copyState m this o m.next n f k i j) other n' pa g := by
  have hobj := copyState_objs_other m hne o m.next n f k i j
  refine ⟨hA.dim, ?_, ?_, hA.len, hA.nodup, ?_, fun t q hq => ?_⟩
  · rw [hobj]; exact hA.rows
  · rw [hobj]; exact hA.columns
  · rw [hobj]
    rcases hA.table with h | h
    · left
      rw [copyState_tables_old m this o n f k i j (hinv.table_lt h).1]
      exact h
    · right; exact h
  · rw [copyState_arrays_old m this o n f k i j
      (hA.row_lt hinv (List.getElem?_mem hq)).1]
    exact hA.row t q hq

/-- The object at `this` holds the copy once the loops are done. -/
theorem copyState_layout_this (m : Mem α) (this : Nat) (o : Obj) (p n : Nat) (hn : n < 2 ^ 31)
    (hrows : o.rows = n) (hcol : o.columns = n) (hdata : o.data = p) (f : Nat → Nat → α) :
    Layout (copyState m this o p n f n n 0) this n ((List.range n).map fun r => p + 1 + r) f := by
  refine ⟨hn, ?_, ?_, by simp, ?_, ?_, fun t q hq => ?_⟩
  · rw [copyState_objs_this]; exact hrows
  · rw [copyState_objs_this]; exact hcol
  · exact (List.nodup_range n).map fun x y h => by omega
  · left
    rw [copyState_objs_this, hdata]
    simp only [copyState, Function.update_same, List.map_map]
    refine congrArg some (map_range_congr n fun c hc => ?_)
    simp [hc]
  · have ht : t < n := by
      by_contra hc
      rw [List.getElem?_eq_none (by simpa using Nat.le_of_not_lt hc)] at hq
      cases hq
    rw [List.getElem?_map, List.getElem?_range ht] at hq
    simp only [Option.map_some', Option.some.injEq] at hq
    subst hq
    have hc : p + 1 ≤ p + 1 + t ∧ p + 1 + t < p + 1 + n := by omega
    have hr : p + 1 + t - (p + 1) = t := by omega
    simp only [copyState, if_pos hc, hr, ht, true_or, if_true]

/-- The copy shared by the constructor and the assignment: it succeeds, the
object at `this` then holds the elements of the object at `other` in new
arrays, and the object at `other` is as it was. -/
theorem copyFields_sep (m : Mem α) {this other : Nat} (hne : this ≠ other) (hinv : Inv m)
    {n : Nat} {pa : List Nat} {f : Nat → Nat → α} (hA : Layout m other n pa f) :
    ∃ m', copyFields m this other = .ok m' ∧ Sep m' other this n n f f ∧
      (m'.objs this).size = (m.objs other).size ∧ m'.objs other = m.objs other ∧
      (∀ c, c ≠ this → m'.objs c = m.objs c) ∧
      (∀ q, q < m.next → m'.tables q = m.tables q ∧ m'.arrays q = m.arrays q) := by
  refine ⟨_, copyFields_eq m hne hinv hA, ⟨copyState_inv m hinv _ _ _ _ _ _ _, pa, _,
    copyState_layout_other m hinv hne _ hA _ _ _ _ _,
    copyState_layout_this m this _ m.next n hA.dim rfl rfl rfl f, ?_, ?_⟩, ?_,
    copyState_objs_other m hne _ _ _ _ _ _ _, ?_, ?_⟩
  · intro q hq hq'
    have h1 := (hA.row_lt hinv hq).1
    obtain ⟨r, -, rfl⟩ := List.mem_map.mp hq'
    omega
  · intro h
    rw [copyState_objs_other m hne, copyState_objs_this] at h
    have := hA.data_lt hinv
    simp only at h
    omega
  · rw [copyState_objs_this]
  · intro c hc
    simp only [copyState]
    exact Function.update_noteq hc _ _
  · intro q hq
    exact ⟨copyState_tables_old m this _ n f _ _ _ hq, copyState_arrays_old m this _ n f _ _ _ hq⟩

theorem Layout.table_live {m : Mem α} {a n : Nat} {pa : List Nat} {f : Nat → Nat → α}
    (hA : Layout m a n pa f) (hn : 0 < n) : m.tables (m.objs a).data = some (pa.map some) := by
  rcases hA.table with h | ⟨h, -⟩
  · exact h
  · omega

theorem Layout.readPtr_row {m : Mem α} {a n : Nat} {pa : List Nat} {f : Nat → Nat → α}
    (hA : Layout m a n pa f) {i : Nat} (hi : i < n) :
    ∃ q, pa[i]? = some q ∧ m.readPtr (m.objs a).data (i : Int) = .ok q := by
  have hil : i < pa.length := by rw [hA.len]; exact hi
  refine ⟨pa[i], List.getElem?_eq_getElem hil, ?_⟩
  exact Mem.readPtr_eq m (hA.table_live (by omega)) (by simp [List.getElem?_eq_getElem hil])

/-- Reading an element through `operator()`. -/
theorem Layout.operatorCall_read {m : Mem α} {a n : Nat} {pa : List Nat} {f : Nat → Nat → α}
    (hA : Layout m a n pa f) {i j : Nat} (hi : i < n) (hj : j < n) :
    m.operatorCall a (i : Int) (j : Int) = .ok (f i j) := by
  have hc : ¬ ((i : Int) < 0 ∨ (i : Int) ≥ (m.objs a).rows ∨ (j : Int) < 0 ∨
      (j : Int) ≥ (m.objs a).columns) := by
    rw [hA.rows, hA.columns]; omega
  obtain ⟨q, hq, hr⟩ := hA.readPtr_row hi
  simp only [operatorCall, hc, if_false, hr, bind, Except.bind]
  exact Mem.readCell_eq m (hA.row i q hq) (by simp [List.getElem?_range hj])

/-- Writing an element through `operator()`: only the row `i` of the object
changes. -/
theorem Layout.operatorCallSet_write {m : Mem α} {a n : Nat} {pa : List Nat} {f : Nat → Nat → α}
    (hA : Layout m a n pa f) {i j : Nat} (hi : i < n) (hj : j < n) (v : α) :
    ∃ q, pa[i]? = some q ∧
      m.operatorCallSet a (i : Int) (j : Int) v =
        .ok { m with
          arrays := Function.update m.arrays q
            (some ((List.range n).map fun c => some (upd f i j v i c))) } := by
  have hc : ¬ ((i : Int) < 0 ∨ (i : Int) ≥ (m.objs a).rows ∨ (j : Int) < 0 ∨
      (j : Int) ≥ (m.objs a).columns) := by
    rw [hA.rows, hA.columns]; omega
  obtain ⟨q, hq, hr⟩ := hA.readPtr_row hi
  refine ⟨q, hq, ?_⟩
  simp only [operatorCallSet, hc, if_false, hr, bind, Except.bind]
  rw [Mem.writeCell_eq m (hA.row i q hq) (by simpa using hj), set_map_range]
  refine congrArg (fun r => Except.ok { m with arrays := Function.update m.arrays q (some r) })
    (map_range_congr n fun c _ => ?_)
  by_cases hcj : c = j
  · subst hcj; simp [upd]
  · simp [upd, hcj]

/-- Replacing a live row leaves the allocator's invariant. -/
theorem Inv.update_array {m : Mem α} (hinv : Inv m) {q : Nat} {r : List (Option α)}
    (hq : m.arrays q = some r) (r' : List (Option α)) :
    Inv { m with arrays := Function.update m.arrays q (some r') } := by
  obtain ⟨hlt, h0⟩ := hinv.array_lt hq
  obtain ⟨h1, h2, h3, h4⟩ := hinv
  refine ⟨h1, h2, ?_, fun p hp => ⟨(h4 p hp).1, ?_⟩⟩
  · show Function.update m.arrays q (some r') 0 = none
    rw [Function.update_noteq (Ne.symm h0)]; exact h3
  · show Function.update m.arrays q (some r') p = none
    have hp' : m.next ≤ p := hp
    rw [Function.update_noteq (by omega)]; exact (h4 p hp).2

/-- An object that does not own the row at `q` is not touched by a write to
that row. -/
theorem Layout.update_other {m : Mem α} {a n : Nat} {pa : List Nat} {f : Nat → Nat → α}
    (hA : Layout m a n pa f) {q : Nat} (hq : q ∉ pa) (r' : Option (List (Option α))) :
    Layout { m with arrays := Function.update m.arrays q r' } a n pa f :=
  ⟨hA.dim, hA.rows, hA.columns, hA.len, hA.nodup, hA.table, fun t q' hq' => by
    show Function.update m.arrays q r' q' = _
    have hne : q' ≠ q := fun h => hq (by rw [← h]; exact List.getElem?_mem hq')
    rw [Function.update_noteq hne]
    exact hA.row t q' hq'⟩

/-- The owner of row `i` holds the new element after a write to that row. -/
theorem Layout.update_own {m : Mem α} {a n : Nat} {pa : List Nat} {f : Nat → Nat → α}
    (hA : Layout m a n pa f) {i q : Nat} (hq : pa[i]? = some q) (j : Nat) (v : α) :
    Layout { m with
      arrays := Function.update m.arrays q
        (some ((List.range n).map fun c => some (upd f i j v i c))) } a n pa (upd f i j v) :=
  ⟨hA.dim, hA.rows, hA.columns, hA.len, hA.nodup, hA.table, fun t q' hq' => by
    show Function.update m.arrays q _ q' = _
    by_cases h : q' = q
    · subst h
      have hti : t = i := by
        have h1 := List.getElem?_eq_some.mp hq'
        have h2 := List.getElem?_eq_some.mp hq
        obtain ⟨ht, e1⟩ := h1
        obtain ⟨hi, e2⟩ := h2
        exact (List.Nodup.getElem_inj_iff hA.nodup).mp (e1.trans e2.symm)
      subst hti
      rw [Function.update_same]
    · rw [Function.update_noteq h, hA.row t q' hq']
      have hti : t ≠ i := by
        rintro rfl
        rw [hq] at hq'
        exact h (Option.some.inj hq').symm
      refine congrArg some (map_range_congr n fun c _ => ?_)
      simp [upd, hti]⟩

theorem Sep.symm {m : Mem α} {a b na nb : Nat} {fa fb : Nat → Nat → α}
    (h : Sep m a b na nb fa fb) : Sep m b a nb na fb fa := by
  obtain ⟨hinv, pa, pb, hA, hB, hdis, hdata⟩ := h
  refine ⟨hinv, pb, pa, hB, hA, fun q hq hq' => hdis q hq' hq, fun e => ?_⟩
  rw [e]; exact hdata e.symm

/-- An element write to the second object leaves the first as it was. -/
theorem Sep.write_right {m : Mem α} {a b na nb : Nat} {fa fb : Nat → Nat → α}
    (h : Sep m a b na nb fa fb) {i j : Nat} (hi : i < nb) (hj : j < nb) (v : α) :
    ∃ m', m.operatorCallSet b (i : Int) (j : Int) v = .ok m' ∧
      Sep m' a b na nb fa (upd fb i j v) := by
  obtain ⟨hinv, pa, pb, hA, hB, hdis, hdata⟩ := h
  obtain ⟨q, hq, hw⟩ := hB.operatorCallSet_write hi hj v
  have hqa : q ∉ pa := fun hmem => hdis q hmem (List.getElem?_mem hq)
  exact ⟨_, hw, hinv.update_array (hB.row i q hq) _, pa, pb, hA.update_other hqa _,
    hB.update_own hq j v, hdis, hdata⟩

theorem not_mem_take_of_nodup {l : List Nat} (h : l.Nodup) {t : Nat} (ht : t < l.length) :
    l[t] ∉ l.take t := by
  intro hmem
  obtain ⟨s, hs, e⟩ := List.getElem_of_mem hmem
  have hst : s < t := by
    simp only [List.length_take] at hs
    omega
  rw [List.getElem_take] at e
  have := (List.Nodup.getElem_inj_iff h).mp e
  omega

theorem mem_take_succ {l : List Nat} {t : Nat} (ht : t < l.length) (q : Nat) :
    q ∈ l.take (t + 1) ↔ q ∈ l.take t ∨ q = l[t] := by
  rw [← List.take_concat_get l t ht, List.concat_eq_append, List.mem_append,
    List.mem_singleton]

/-- The loop of the copy assignment that deletes the rows of `*this`. -/
theorem deleteLoop (m : Mem α) (hinv : Inv m) {b k : Nat} {pb : List Nat} {g : Nat → Nat → α}
    (hB : Layout m b k pb g) :
    forInt 0 (k : Int) m
      (fun i m' => do
        let q ← m'.readPtr (m'.objs b).data i
        m'.deleteArray q) = .ok (freeState m pb k) := by
  refine forInt_steps 0 _ k (zero_add _).symm (fun t => freeState m pb t) _ _ ?_ rfl _ ?_
  · simp [freeState]
  · intro t ht
    beta_reduce
    rw [zero_add]
    have htl : t < pb.length := by rw [hB.len]; exact ht
    have htab := hB.table_live (Nat.lt_of_le_of_lt (Nat.zero_le t) ht)
    have hq : pb[t]? = some pb[t] := List.getElem?_eq_getElem htl
    have hrow := hB.row t _ hq
    have hr : (freeState m pb t).readPtr ((freeState m pb t).objs b).data (t : Int) =
        .ok pb[t] :=
      Mem.readPtr_eq (freeState m pb t) (p := (m.objs b).data) htab (by simp [hq])
    have hlive : (freeState m pb t).arrays pb[t] =
        some ((List.range k).map fun j => some (g t j)) := by
      simp only [freeState, not_mem_take_of_nodup hB.nodup htl, if_false]
      exact hrow
    have h0 : pb[t] ≠ 0 := (hinv.array_lt hrow).2
    simp only [hr, bind, Except.bind, deleteArray, h0, if_false, hlive]
    congr 1
    simp only [freeState, Mem.mk.injEq, true_and, and_true]
    funext q
    by_cases hqt : q = pb[t]
    · subst hqt
      rw [Function.update_same, if_pos ((mem_take_succ htl _).mpr (Or.inr rfl))]
    · rw [Function.update_noteq hqt]
      have : q ∈ pb.take (t + 1) ↔ q ∈ pb.take t := by
        rw [mem_take_succ htl]
        exact ⟨fun h => h.resolve_right hqt, Or.inl⟩
      simp only [this]

/-- The statement `delete[] data` of the copy assignment, after the rows have
been deleted. -/
theorem deleteTable_freeState (m : Mem α) (hinv : Inv m) {b k : Nat} {pb : List Nat}
    {g : Nat → Nat → α} (hB : Layout m b k pb g) :
    ∃ m2, (freeState m pb k).deleteTable ((freeState m pb k).objs b).data = .ok m2 ∧
      m2.objs = m.objs ∧ m2.next = m.next ∧ m2.arrays = (freeState m pb k).arrays ∧
      (∀ p, p ≠ (m.objs b).data → m2.tables p = m.tables p) ∧
      (∀ p, m.tables p = none → m2.tables p = none) := by
  rcases hB.table with h | ⟨-, h⟩
  · have h0 : (m.objs b).data ≠ 0 := (hinv.table_lt h).2
    have hlive : (freeState m pb k).tables (m.objs b).data = some (pb.map some) := h
    refine ⟨{ freeState m pb k with
      tables := Function.update (freeState m pb k).tables (m.objs b).data none }, ?_, rfl, rfl,
      rfl, fun p hp => Function.update_noteq hp _ _, fun p hp => ?_⟩
    · show (freeState m pb k).deleteTable (m.objs b).data = _
      simp only [deleteTable, h0, if_false, hlive]
    · show Function.update m.tables (m.objs b).data none p = none
      by_cases hpd : p = (m.objs b).data
      · rw [hpd, Function.update_same]
      · rw [Function.update_noteq hpd]; exact hp
  · refine ⟨freeState m pb k, ?_, rfl, rfl, rfl, fun _ _ => rfl, fun _ hp => hp⟩
    show (freeState m pb k).deleteTable (m.objs b).data = _
    simp only [deleteTable, h, if_true]

/-- The copy assignment into an object that holds storage of its own. -/
theorem copyAssign_sep (m : Mem α) {a b : Nat} (hab : a ≠ b) {n k : Nat}
    {f g : Nat → Nat → α} (h : Sep m a b n k f g) :
    ∃ m', copyAssign m b a = .ok m' ∧ Sep m' a b n n f f ∧
      (m'.objs b).size = (m.objs a).size ∧ m'.objs a = m.objs a := by
  obtain ⟨hinv, pa, pb, hA, hB, hdis, hdata⟩ := h
  obtain ⟨m2, hdel, hobjs, hnext, harr, htab, htabn⟩ := deleteTable_freeState m hinv hB
  have hinv2 : Inv m2 := by
    obtain ⟨h1, h2, h3, h4⟩ := hinv
    refine ⟨by rw [hnext]; exact h1, htabn 0 h2, ?_, fun p hp => ⟨htabn p (h4 p ?_).1, ?_⟩⟩
    · rw [harr]; simp only [freeState, h3, ite_self]
    · rw [hnext] at hp; exact hp
    · rw [harr]
      rw [hnext] at hp
      simp only [freeState, (h4 p hp).2, ite_self]
  have hA2 : Layout m2 a n pa f := by
    refine ⟨hA.dim, ?_, ?_, hA.len, hA.nodup, ?_, fun t q hq => ?_⟩
    · rw [hobjs]; exact hA.rows
    · rw [hobjs]; exact hA.columns
    · rw [hobjs]
      rcases hA.table with h | h
      · left
        have hne : (m.objs a).data ≠ (m.objs b).data := by
          intro e
          have := hdata e
          exact (hinv.table_lt h).2 this
        rw [htab _ hne]; exact h
      · right; exact h
    · rw [harr]
      have hq' : q ∉ pb.take k := fun hmem =>
        hdis q (List.getElem?_mem hq) (List.mem_of_mem_take hmem)
      simp only [freeState, hq', if_false]
      exact hA.row t q hq
  obtain ⟨m', hcopy, hsep, hsize, hobj, -, -⟩ :=
    copyFields_sep m2 (Ne.symm hab) hinv2 hA2
  refine ⟨m', ?_, hsep, ?_, ?_⟩
  · simp only [copyAssign, Ne.symm hab, if_false, hB.rows, deleteLoop m hinv hB, ok_bind, hdel,
      hcopy]
  · rw [hsize, hobjs]
  · rw [hobj, hobjs]

/-- The copy constructor. -/
theorem copyCtor_sep (m : Mem α) {a b : Nat} (hab : a ≠ b) (hinv : Inv m) {n : Nat}
    {pa : List Nat} {f : Nat → Nat → α} (hA : Layout m a n pa f) :
    ∃ m', copyCtor m b a = .ok m' ∧ Sep m' a b n n f f ∧
      (m'.objs b).size = (m.objs a).size ∧ m'.objs a = m.objs a := by
  obtain ⟨m', hcopy, hsep, hsize, hobj, -, -⟩ :=
    copyFields_sep m (Ne.symm hab) hinv hA
  exact ⟨m', hcopy, hsep, hsize, hobj⟩

end Mem

theorem collect_eq {β γ : Type} (g : β → Option γ) :
    ∀ (l : List β) (n : Nat) (h : Nat → γ), l.length = n →
      (∀ i x, l[i]? = some x → g x = some (h i)) →
      collect g l = some ((List.range n).map h) := by
  intro l
  induction l with
  | nil =>
    intro n h hn _
    subst hn
    rfl
  | cons x xs ih =>
    intro n h hn hg
    subst hn
    have h0 : g x = some (h 0) := hg 0 x (by simp)
    have hrest := ih xs.length (fun i => h (i + 1)) rfl fun i y hy => hg (i + 1) y (by simpa using hy)
    simp only [collect, h0, hrest, List.length_cons, List.range_succ_eq_map, List.map_cons,
      List.map_map]
    rfl

namespace Mem

variable {α : Type}

open SquareMat

/-- The value that the object at `a` holds is the matrix of its elements. -/
theorem Layout.load_eq {m : Mem α} (hinv : Inv m) {a n : Nat} {pa : List Nat}
    {f : Nat → Nat → α} (hA : Layout m a n pa f) :
    load m a = some ((ofFun n f).withSize (m.objs a).size) := by
  by_cases hd : (m.objs a).data = 0
  · have hn : n = 0 := by
      rcases hA.table with h | ⟨h, -⟩
      · exact absurd hd (hinv.table_lt h).2
      · exact h
    subst hn
    simp only [load, hd, if_true, hA.rows, hA.columns]
    rfl
  · have htab : m.tables (m.objs a).data = some (pa.map some) := by
      rcases hA.table with h | ⟨-, h⟩
      · exact h
      · exact absurd h hd
    have hrows : collect m.loadRow (pa.map some) =
        some ((List.range n).map fun i => (List.range n).map (f i)) := by
      refine collect_eq _ _ n _ (by simp [hA.len]) fun i x hx => ?_
      rw [List.getElem?_map] at hx
      cases hq : pa[i]? with
      | none => rw [hq] at hx; cases hx
      | some q =>
        rw [hq] at hx
        simp only [Option.map_some', Option.some.injEq] at hx
        subst hx
        simp only [loadRow, hA.row i q hq]
        exact collect_eq id _ n _ (by simp) fun j y hy => by
          have hj : j < n := by
            by_contra hc
            rw [List.getElem?_eq_none (by simpa using Nat.le_of_not_lt hc)] at hy
            cases hy
          rw [List.getElem?_map, List.getElem?_range hj] at hy
          simp only [Option.map_some', Option.some.injEq] at hy
          rw [← hy]
          rfl
    simp only [load, hd, if_false, htab, hrows, hA.rows, hA.columns]
    rfl

end Mem

/-! ## Moves in memory -/

namespace Mem

variable {α : Type}

open SquareMat

/-- The object at `b` takes over the members of the object at `a`, which is
left empty; nothing in the free store changes. -/
theorem moveCtor_eq (m : Mem α) {a b : Nat} (hab : a ≠ b) :
    moveCtor m b a =
      { m with objs := Function.update (Function.update m.objs b (m.objs a)) a Obj.empty } := by
  have h1 : ∀ o : Obj, Function.update m.objs b o a = m.objs a :=
    fun o => Function.update_noteq hab _ _
  simp only [moveCtor, resetObj, setObj, Function.update_same, Function.update_idem, h1,
    Obj.empty]

theorem moved_layout (m : Mem α) {a b : Nat} (hab : a ≠ b) {n : Nat} {pa : List Nat}
    {f : Nat → Nat → α} (hA : Layout m a n pa f) (m' : Mem α)
    (hobjs : m'.objs = Function.update (Function.update m.objs b (m.objs a)) a Obj.empty)
    (htab : m'.tables (m.objs a).data = m.tables (m.objs a).data)
    (harr : ∀ q, q ∈ pa → m'.arrays q = m.arrays q) :
    Layout m' b n pa f ∧ (∀ g : Nat → Nat → α, Layout m' a 0 [] g) ∧
      m'.objs b = m.objs a ∧ m'.objs a = Obj.empty := by
  have hb : m'.objs b = m.objs a := by
    rw [hobjs, Function.update_noteq (Ne.symm hab), Function.update_same]
  have ha : m'.objs a = Obj.empty := by rw [hobjs, Function.update_same]
  refine ⟨⟨hA.dim, ?_, ?_, hA.len, hA.nodup, ?_, fun t q hq => ?_⟩, fun g =>
    ⟨by norm_num, ?_, ?_, rfl, List.nodup_nil, Or.inr ⟨rfl, ?_⟩, fun t q hq => ?_⟩, hb, ha⟩
  · rw [hb]; exact hA.rows
  · rw [hb]; exact hA.columns
  · rw [hb, htab]; exact hA.table
  · rw [harr q (List.getElem?_mem hq)]; exact hA.row t q hq
  · rw [ha]; rfl
  · rw [ha]; rfl
  · rw [ha]; rfl
  · simp at hq

/-- Deleting arrays leaves the allocator's invariant. -/
theorem Inv.of_freed {m m2 : Mem α} (hinv : Inv m) (pb : List Nat) (k : Nat)
    (hnext : m2.next = m.next) (harr : m2.arrays = (freeState m pb k).arrays)
    (htabn : ∀ p, m.tables p = none → m2.tables p = none) : Inv m2 := by
  obtain ⟨h1, h2, h3, h4⟩ := hinv
  refine ⟨by rw [hnext]; exact h1, htabn 0 h2, ?_, fun p hp => ⟨htabn p (h4 p ?_).1, ?_⟩⟩
  · rw [harr]; simp only [freeState, h3, ite_self]
  · rw [hnext] at hp; exact hp
  · rw [harr]
    rw [hnext] at hp
    simp only [freeState, (h4 p hp).2, ite_self]

/-- The invariant of the allocator does not depend on the members of the
objects. -/
theorem Inv.of_store {m m' : Mem α} (hinv : Inv m) (ht : m'.tables = m.tables)
    (ha : m'.arrays = m.arrays) (hn : m'.next = m.next) : Inv m' := by
  unfold Inv
  rw [ht, ha, hn]
  exact hinv

/-- The move assignment into an object that holds storage of its own. -/
theorem moveAssign_eq (m : Mem α) {a b : Nat} (hab : a ≠ b) {n k : Nat}
    {f g : Nat → Nat → α} (h : Sep m a b n k f g) :
    ∃ m' pa, moveAssign m b a = .ok m' ∧ Inv m' ∧ Layout m a n pa f ∧
      m'.objs = Function.update (Function.update m.objs b (m.objs a)) a Obj.empty ∧
      m'.tables (m.objs a).data = m.tables (m.objs a).data ∧
      (∀ q, q ∈ pa → m'.arrays q = m.arrays q) := by
  obtain ⟨hinv, pa, pb, hA, hB, hdis, hdata⟩ := h
  obtain ⟨m2, hdel, hobjs, hnext, harr, htab, htabn⟩ := deleteTable_freeState m hinv hB
  have hinv2 : Inv m2 := hinv.of_freed pb k hnext harr htabn
  have h1 : ∀ o : Obj, Function.update m.objs b o a = m.objs a :=
    fun o => Function.update_noteq hab _ _
  refine ⟨{ m2 with objs := Function.update (Function.update m.objs b (m.objs a)) a Obj.empty },
    pa, ?_, hinv2.of_store rfl rfl rfl, hA, rfl, ?_, fun q hq => ?_⟩
  · simp only [moveAssign, Ne.symm hab, ne_eq, not_false_eq_true, if_true, hB.rows,
      deleteLoop m hinv hB, ok_bind, hdel]
    simp only [resetObj, setObj, hobjs, Function.update_same, Function.update_idem, h1,
      Obj.empty]
    rfl
  · show m2.tables (m.objs a).data = _
    rcases hA.table with ht | ⟨-, ht⟩
    · have hne : (m.objs a).data ≠ (m.objs b).data := fun e =>
        (hinv.table_lt ht).2 (hdata e)
      exact htab _ hne
    · rw [ht]
      rw [htabn 0 hinv.2.1, hinv.2.1]
  · show m2.arrays q = _
    rw [harr]
    have hq' : q ∉ pb.take k := fun hmem => hdis q hq (List.mem_of_mem_take hmem)
    simp only [freeState, hq', if_false]

/-- What both move operations leave: the object at `b` holds what the object at
`a` held, and the object at `a` is empty. -/
theorem moved_facts [Zero α] (m : Mem α) {a b : Nat} (hab : a ≠ b) {n : Nat} {pa : List Nat}
    {f : Nat → Nat → α} (hinv : Inv m) (hA : Layout m a n pa f) (m' : Mem α) (hinv' : Inv m')
    (hobjs : m'.objs = Function.update (Function.update m.objs b (m.objs a)) a Obj.empty)
    (htab : m'.tables (m.objs a).data = m.tables (m.objs a).data)
    (harr : ∀ q, q ∈ pa → m'.arrays q = m.arrays q) :
    m'.getRows b = n ∧ m'.getCols b = n ∧ (m'.objs b).size = (m.objs a).size ∧
      (∀ i j : Nat, i < n → j < n →
        m.operatorCall a i j = .ok (f i j) ∧ m'.operatorCall b i j = .ok (f i j)) ∧
      load m' b = load m a ∧
      m'.getRows a = 0 ∧ m'.getCols a = 0 ∧ (m'.objs a).size = 0 ∧
      load m' a = some { rows := 0, columns := 0, data := [], size := 0 } ∧
      ∀ g : Nat → Nat → α, Sep m' a b 0 n g f := by
  obtain ⟨hB', hA', hb, ha⟩ := moved_layout m hab hA m' hobjs htab harr
  refine ⟨hB'.rows, hB'.columns, by rw [hb], fun i j hi hj =>
    ⟨hA.operatorCall_read hi hj, hB'.operatorCall_read hi hj⟩, ?_, ?_, ?_, ?_, ?_, fun g =>
    ⟨hinv', [], pa, hA' g, hB', fun q hq => by simp at hq, fun _ => by rw [ha]; rfl⟩⟩
  · rw [hB'.load_eq hinv', hA.load_eq hinv, hb]
  · show (m'.objs a).rows = 0
    rw [ha]; rfl
  · show (m'.objs a).columns = 0
    rw [ha]; rfl
  · rw [ha]; rfl
  · simp only [load, ha, Obj.empty, if_true]

end Mem

/-! ## Reachable matrices -/

namespace SquareMat

variable {α : Type}

theorem ctor_zero [Zero α] : ctor (α := α) 0 0 = .error .invalid_argument := by
  simp [ctor]

theorem rawSet_wf {m m' : SquareMat α} {n : Nat} (h : WF m n) {i j : Int} {v : α}
    (hs : m.rawSet i j v = .ok m') : WF m' n := by
  unfold rawSet at hs
  split at hs
  · split at hs
    · rename_i r hr
      split at hs
      · cases hs
        obtain ⟨h1, h2, h3, h4, h5⟩ := h
        refine ⟨h1, h2, h3, by simpa using h4, fun r' hr' => ?_⟩
        rcases List.mem_or_eq_of_mem_set hr' with hmem | heq
        · exact h5 r' hmem
        · rw [heq, List.length_set]
          exact h5 r (List.get?_mem hr)
      · cases hs
    · cases hs
  · cases hs

theorem operatorCallSet_wf {m m' : SquareMat α} {n : Nat} (h : WF m n) {i j : Int} {v : α}
    (hs : m.operatorCallSet i j v = .ok m') : WF m' n := by
  unfold operatorCallSet at hs
  split at hs
  · cases hs
  · exact rawSet_wf h hs

theorem setIdx_wf {m m' : SquareMat α} {n : Nat} (h : WF m n) {i j : Int} {v : α}
    (hs : m.setIdx i j v = .ok m') : WF m' n := by
  unfold setIdx at hs
  split at hs
  · exact rawSet_wf h hs
  · cases hs

theorem ctor_wf [Zero α] {rows columns : Int} {M : SquareMat α} (hr : rows < 2 ^ 31)
    (h : ctor rows columns = .ok M) : ∃ n : Nat, 1 ≤ n ∧ WF M n := by
  by_cases hc : rows ≠ columns ∨ rows ≤ 0
  · have : ctor (α := α) rows columns = .error .invalid_argument := by
      unfold ctor
      rcases hc with hc | hc
      · simp [hc]
      · by_cases hrc : rows = columns
        · subst hrc; simp [hc]
        · simp [hrc]
    rw [this] at h
    cases h
  · have hrc : rows = columns := by
      by_contra h'
      exact hc (Or.inl h')
    have hpos : 0 < rows := by
      by_contra h'
      exact hc (Or.inr (by omega))
    subst hrc
    obtain ⟨n, rfl⟩ := Int.eq_ofNat_of_zero_le (le_of_lt hpos)
    have h1 : 1 ≤ n := by omega
    rw [ctor_ofFun h1] at h
    cases h
    exact ⟨n, h1, ofFun_wf (by omega) _⟩

/-! A matrix of dimension 0 as operand: the result cannot be constructed. -/

theorem operatorAdd_dim0 [Zero α] [Add α] (M B : SquareMat α) (hr : M.rows = 0)
    (hc : M.columns = 0) : operatorAdd M B = .error .invalid_argument := by
  unfold operatorAdd
  split
  · rfl
  · simp only [getRows, getCols, hr, hc, ctor_zero]
    rfl

theorem operatorSub_dim0 [Zero α] [Sub α] (M B : SquareMat α) (hr : M.rows = 0)
    (hc : M.columns = 0) : operatorSub M B = .error .invalid_argument := by
  unfold operatorSub
  split
  · rfl
  · simp only [getRows, getCols, hr, hc, ctor_zero]
    rfl

theorem operatorMul_dim0 [Zero α] [Add α] [Mul α] (M B : SquareMat α) (hr : M.rows = 0)
    (hc : M.columns = 0) : operatorMul M B = .error .invalid_argument := by
  unfold operatorMul
  split
  · rfl
  · simp only [getRows, getCols, hr, hc, ctor_zero]
    rfl

theorem operatorMod_dim0 [Zero α] [Mul α] (M B : SquareMat α) (hr : M.rows = 0)
    (hc : M.columns = 0) : operatorMod M B = .error .invalid_argument := by
  unfold operatorMod
  split
  · rfl
  · simp only [getRows, getCols, hr, hc, ctor_zero]
    rfl

theorem operatorMulScalar_dim0 [Zero α] [Mul α] (M : SquareMat α) (s : α) (hr : M.rows = 0)
    (hc : M.columns = 0) : operatorMulScalar M s = .error .invalid_argument := by
  simp only [operatorMulScalar, getRows, getCols, hr, hc, ctor_zero]
  rfl

theorem operatorTilde_dim0 [Zero α] (M : SquareMat α) (hr : M.rows = 0)
    (hc : M.columns = 0) : operatorTilde M = .error .invalid_argument := by
  simp only [operatorTilde, getRows, getCols, hr, hc, ctor_zero]
  rfl

theorem operatorDiv_dim0 [Zero α] [Div α] [FloatNe α] (M : SquareMat α) (s : α)
    (hr : M.rows = 0) (hc : M.columns = 0) : operatorDiv M s = .error .invalid_argument := by
  unfold operatorDiv
  split
  · rfl
  · simp only [getRows, getCols, hr, hc, ctor_zero]
    rfl

theorem operatorModInt_dim0 [Zero α] [IntCast α] [FloatMod α] (M : SquareMat α) (k : Int)
    (hr : M.rows = 0) (hc : M.columns = 0) :
    operatorModInt M k = .error .invalid_argument := by
  unfold operatorModInt
  split
  · rfl
  · simp only [getRows, getCols, hr, hc, ctor_zero]
    rfl

theorem operatorPow_dim0 [Zero α] [One α] [Add α] [Mul α] (M : SquareMat α) (e : Int)
    (hr : M.rows = 0) (hc : M.columns = 0) : operatorPow M e = .error .invalid_argument := by
  unfold operatorPow
  split
  · rfl
  · simp only [hr, hc, ctor_zero]
    rfl

theorem operatorNot_dim0 [Zero α] [One α] [Add α] [Sub α] [Mul α] [Neg α] (M : SquareMat α)
    (hr : M.rows = 0) (hc : M.columns = 0) : operatorNot M = .ok 0 := by
  have h1 : ¬ M.rows ≠ M.columns := by rw [hr, hc]; simp
  have h2 : ¬ M.rows = 1 := by rw [hr]; decide
  have h3 : ¬ M.getRows = 2 := by rw [getRows, hr]; decide
  simp only [operatorNot, h1, h2, if_false, getDeterminant, getRows, hr, Int.toNat_zero,
    zero_add]
  simp only [getDeterminantAux, h3, if_false, getCols, hc]
  rfl

/-- A binary operator that returns a matrix was given operands of the same
dimension `n >= 1`. -/
theorem binary_dims {A B : SquareMat α} {n k : Nat} (hA : WF A n) (hB : WF B k)
    {op : Except Error (SquareMat α)} {R : SquareMat α} (h : op = .ok R)
    (hmis : (A.getRows ≠ B.getRows ∨ A.getCols ≠ B.getCols) → op = .error .invalid_argument)
    (hzero : A.rows = 0 → A.columns = 0 → op = .error .invalid_argument) :
    1 ≤ n ∧ n = k := by
  constructor
  · by_contra hn
    have h0 : n = 0 := by omega
    have hr : A.rows = 0 := by rw [hA.2.1, h0]; rfl
    have hc : A.columns = 0 := by rw [hA.2.2.1, h0]; rfl
    rw [hzero hr hc] at h
    cases h
  · by_contra hnk
    rw [hmis (WF.mismatch hA hB hnk)] at h
    cases h

theorem unary_dims {A : SquareMat α} {n : Nat} (hA : WF A n)
    {op : Except Error (SquareMat α)} {R : SquareMat α} (h : op = .ok R)
    (hzero : A.rows = 0 → A.columns = 0 → op = .error .invalid_argument) : 1 ≤ n := by
  by_contra hn
  have h0 : n = 0 := by omega
  have hr : A.rows = 0 := by rw [hA.2.1, h0]; rfl
  have hc : A.columns = 0 := by rw [hA.2.2.1, h0]; rfl
  rw [hzero hr hc] at h
  cases h

theorem operatorAdd_wf [Zero α] [Add α] {A B R : SquareMat α} {n k : Nat} (hA : WF A n)
    (hB : WF B k) (h : operatorAdd A B = .ok R) : 1 ≤ n ∧ WF R n := by
  obtain ⟨h1, rfl⟩ := binary_dims hA hB h
    (fun hm => by simp only [operatorAdd, hm, if_true]) (operatorAdd_dim0 A B)
  rw [WF.operatorAdd_eq h1 hA hB] at h
  cases h
  exact ⟨h1, ofFun_wf hA.1 _⟩

theorem operatorSub_wf [Zero α] [Sub α] {A B R : SquareMat α} {n k : Nat} (hA : WF A n)
    (hB : WF B k) (h : operatorSub A B = .ok R) : 1 ≤ n ∧ WF R n := by
  obtain ⟨h1, rfl⟩ := binary_dims hA hB h
    (fun hm => by simp only [operatorSub, hm, if_true]) (operatorSub_dim0 A B)
  rw [WF.operatorSub_eq h1 hA hB] at h
  cases h
  exact ⟨h1, ofFun_wf hA.1 _⟩

theorem operatorMul_wf [Zero α] [Add α] [Mul α] {A B R : SquareMat α} {n k : Nat}
    (hA : WF A n) (hB : WF B k) (h : operatorMul A B = .ok R) : 1 ≤ n ∧ WF R n := by
  obtain ⟨h1, rfl⟩ := binary_dims hA hB h
    (fun hm => by simp only [operatorMul, hm, if_true]) (operatorMul_dim0 A B)
  rw [WF.operatorMul_eq h1 hA hB] at h
  cases h
  exact ⟨h1, ofFun_wf hA.1 _⟩

theorem operatorMod_wf [Zero α] [Mul α] {A B R : SquareMat α} {n k : Nat} (hA : WF A n)
    (hB : WF B k) (h : operatorMod A B = .ok R) : 1 ≤ n ∧ WF R n := by
  obtain ⟨h1, rfl⟩ := binary_dims hA hB h
    (fun hm => by simp only [operatorMod, hm, if_true]) (operatorMod_dim0 A B)
  rw [WF.operatorMod_eq h1 hA hB] at h
  cases h
  exact ⟨h1, ofFun_wf hA.1 _⟩

theorem operatorMulScalar_wf [Zero α] [Mul α] {A R : SquareMat α} {n : Nat} (hA : WF A n)
    {s : α} (h : operatorMulScalar A s = .ok R) : 1 ≤ n ∧ WF R n := by
  have h1 := unary_dims hA h (operatorMulScalar_dim0 A s)
  rw [WF.operatorMulScalar_eq h1 hA] at h
  cases h
  exact ⟨h1, ofFun_wf hA.1 _⟩

theorem operatorTilde_wf [Zero α] {A R : SquareMat α} {n : Nat} (hA : WF A n)
    (h : operatorTilde A = .ok R) : 1 ≤ n ∧ WF R n := by
  have h1 := unary_dims hA h (operatorTilde_dim0 A)
  rw [WF.operatorTilde_eq h1 hA] at h
  cases h
  exact ⟨h1, ofFun_wf hA.1 _⟩

theorem operatorDiv_wf [Zero α] [Div α] [FloatNe α] {A R : SquareMat α} {n : Nat}
    (hA : WF A n) {s : α} (h : operatorDiv A s = .ok R) : 1 ≤ n ∧ WF R n := by
  have h1 := unary_dims hA h (operatorDiv_dim0 A s)
  have hs : FloatNe.ne s 0 = true := by
    by_contra hs
    have hs' : FloatNe.ne s 0 = false := by simpa using hs
    simp only [operatorDiv, hs', if_true] at h
    cases h
  rw [WF.operatorDiv_eq h1 hA hs] at h
  cases h
  exact ⟨h1, ofFun_wf hA.1 _⟩

theorem operatorModInt_wf [Zero α] [IntCast α] [FloatMod α] {A R : SquareMat α} {n : Nat}
    (hA : WF A n) {k : Int} (h : operatorModInt A k = .ok R) : 1 ≤ n ∧ WF R n := by
  have h1 := unary_dims hA h (operatorModInt_dim0 A k)
  have hk : k ≠ 0 := by
    rintro rfl
    simp only [operatorModInt, if_true] at h
    cases h
  rw [WF.operatorModInt_eq h1 hA hk] at h
  cases h
  exact ⟨h1, ofFun_wf hA.1 _⟩

theorem operatorPow_wf [Zero α] [One α] [Add α] [Mul α] {A R : SquareMat α} {n : Nat}
    (hA : WF A n) {e : Int} (h : operatorPow A e = .ok R) : 1 ≤ n ∧ WF R n := by
  have h1 := unary_dims hA h (operatorPow_dim0 A e)
  have he : 0 ≤ e := by
    by_contra he
    have he' : e < 0 := by omega
    simp only [operatorPow, he', if_true] at h
    cases h
  obtain ⟨p, rfl⟩ := Int.eq_ofNat_of_zero_le he
  rw [WF.operatorPow_eq h1 hA p] at h
  cases h
  exact ⟨h1, ofFun_wf hA.1 _⟩

theorem moved_from_wf :
    WF ({ rows := 0, columns := 0, data := [], size := 0 } : SquareMat α) 0 :=
  ⟨by norm_num, rfl, rfl, rfl, fun r hr => by cases hr⟩

/-- Every value a caller can hold is a square matrix of some dimension `n`,
and `n >= 1` as long as no object has been moved from. -/
theorem Reach.wf [Zero α] [One α] [Add α] [Sub α] [Mul α] [Div α] [FloatNe α] [IntCast α]
    [FloatMod α] {moves : Bool} {M : SquareMat α} (h : Reach moves M) :
    ∃ n : Nat, WF M n ∧ (moves = false → 1 ≤ n) := by
  induction h with
  | ctor rows columns M _ hr _ _ hM =>
    obtain ⟨n, h1, hwf⟩ := ctor_wf hr hM
    exact ⟨n, hwf, fun _ => h1⟩
  | copy A B _ hB ih =>
    obtain ⟨n, hwf, hpos⟩ := ih
    rw [WF.copy_eq hwf] at hB
    cases hB
    exact ⟨n, hwf, hpos⟩
  | movedFromCtor A hm _ _ =>
    exact ⟨0, moved_from_wf, fun h => by rw [hm] at h; cases h⟩
  | movedFromAssign A B hm _ _ _ _ =>
    exact ⟨0, moved_from_wf, fun h => by rw [hm] at h; cases h⟩
  | setSize A s _ ih =>
    obtain ⟨n, hwf, hpos⟩ := ih
    exact ⟨n, withSize_wf hwf s, hpos⟩
  | add A B R _ _ hR ihA ihB =>
    obtain ⟨n, hA, _⟩ := ihA
    obtain ⟨k, hB, _⟩ := ihB
    obtain ⟨h1, hwf⟩ := operatorAdd_wf hA hB hR
    exact ⟨n, hwf, fun _ => h1⟩
  | sub A B R _ _ hR ihA ihB =>
    obtain ⟨n, hA, _⟩ := ihA
    obtain ⟨k, hB, _⟩ := ihB
    obtain ⟨h1, hwf⟩ := operatorSub_wf hA hB hR
    exact ⟨n, hwf, fun _ => h1⟩
  | mul A B R _ _ hR ihA ihB =>
    obtain ⟨n, hA, _⟩ := ihA
    obtain ⟨k, hB, _⟩ := ihB
    obtain ⟨h1, hwf⟩ := operatorMul_wf hA hB hR
    exact ⟨n, hwf, fun _ => h1⟩
  | mod A B R _ _ hR ihA ihB =>
    obtain ⟨n, hA, _⟩ := ihA
    obtain ⟨k, hB, _⟩ := ihB
    obtain ⟨h1, hwf⟩ := operatorMod_wf hA hB hR
    exact ⟨n, hwf, fun _ => h1⟩
  | mulScalar A s R _ hR ih =>
    obtain ⟨n, hA, _⟩ := ih
    obtain ⟨h1, hwf⟩ := operatorMulScalar_wf hA hR
    exact ⟨n, hwf, fun _ => h1⟩
  | scalarMul s A R _ hR ih =>
    obtain ⟨n, hA, _⟩ := ih
    obtain ⟨h1, hwf⟩ := operatorMulScalar_wf hA hR
    exact ⟨n, hwf, fun _ => h1⟩
  | div A s R _ hR ih =>
    obtain ⟨n, hA, _⟩ := ih
    obtain ⟨h1, hwf⟩ := operatorDiv_wf hA hR
    exact ⟨n, hwf, fun _ => h1⟩
  | modInt A k R _ hR ih =>
    obtain ⟨n, hA, _⟩ := ih
    obtain ⟨h1, hwf⟩ := operatorModInt_wf hA hR
    exact ⟨n, hwf, fun _ => h1⟩
  | pow A e R _ hR ih =>
    obtain ⟨n, hA, _⟩ := ih
    obtain ⟨h1, hwf⟩ := operatorPow_wf hA hR
    exact ⟨n, hwf, fun _ => h1⟩
  | tilde A R _ hR ih =>
    obtain ⟨n, hA, _⟩ := ih
    obtain ⟨h1, hwf⟩ := operatorTilde_wf hA hR
    exact ⟨n, hwf, fun _ => h1⟩
  | callSet A row col v A' _ hA' ih =>
    obtain ⟨n, hA, hpos⟩ := ih
    exact ⟨n, operatorCallSet_wf hA hA', hpos⟩
  | setIdx A i j v A' _ hA' ih =>
    obtain ⟨n, hA, hpos⟩ := ih
    exact ⟨n, setIdx_wf hA hA', hpos⟩
  | fill A v A' _ hA' ih =>
    obtain ⟨n, hA, hpos⟩ := ih
    rw [WF.fill_eq hA] at hA'
    cases hA'
    exact ⟨n, withSize_wf (ofFun_wf hA.1 _) _, hpos⟩
  | inc A A' _ hA' ih =>
    obtain ⟨n, hA, hpos⟩ := ih
    rw [WF.operatorInc_eq hA] at hA'
    cases hA'
    exact ⟨n, withSize_wf (ofFun_wf hA.1 _) _, hpos⟩
  | dec A A' _ hA' ih =>
    obtain ⟨n, hA, hpos⟩ := ih
    rw [WF.operatorDec_eq hA] at hA'
    cases hA'
    exact ⟨n, withSize_wf (ofFun_wf hA.1 _) _, hpos⟩

end SquareMat

/-! ## The calls of `getDeterminant` -/

namespace SquareMat

variable {α : Type}

/-- The function `getDeterminant` in terms of the minors it builds. -/
theorem getDeterminantAux_succ [Zero α] [One α] [Add α] [Sub α] [Mul α] [Neg α]
    (fuel : Nat) (mat : SquareMat α) :
    getDeterminantAux (fuel + 1) mat =
      (if mat.getRows = 2 then do
        let a ← mat.operatorCall 0 0
        let d ← mat.operatorCall 1 1
        let b ← mat.operatorCall 0 1
        let c ← mat.operatorCall 1 0
        pure (a * d - b * c)
      else
        forInt 0 mat.getCols (0 : α) fun i det => do
          let minor ← buildMinor mat i
          let x ← mat.idx 0 i
          let d ← getDeterminantAux fuel minor
          pure (det + (if i % 2 = 0 then (1 : α) else -1) * x * d)) := by
  rw [getDeterminantAux]
  split
  · rfl
  · simp only [buildMinor, bind_assoc]

theorem buildMinor_withSize [Zero α] (mat : SquareMat α) (s : Nat) (i : Int) :
    buildMinor (mat.withSize s) i = buildMinor mat i := rfl

theorem buildMinor_ofFun [Zero α] {m : Nat} (h1 : 1 ≤ m) (hm : m + 1 < 2 ^ 31)
    (f : Nat → Nat → α) {i : Nat} (hi : i < m + 1) :
    buildMinor (ofFun (m + 1) f) (i : Int) = .ok (ofFun m (minorFun f i)) := by
  have hrows : (ofFun (m + 1) f).getRows = ((m + 1 : Nat) : Int) := rfl
  have hcols : (ofFun (m + 1) f).getCols = ((m + 1 : Nat) : Int) := rfl
  have hsub : (((m + 1 : Nat) : Int) - 1) = ((m : Nat) : Int) := by
    push_cast; ring
  simp only [buildMinor, hrows, hcols, hsub, ctor_ofFun h1]
  exact minor_loop hm f hi (fun _ _ => (0 : α))

/-- The minor built by a call on a matrix of dimension `k >= 3`. -/
theorem WF.buildMinor_eq [Zero α] {M : SquareMat α} {k : Nat} (hM : WF M k) (h3 : 3 ≤ k)
    {i : Nat} (hi : i < k) :
    buildMinor M (i : Int) = .ok (ofFun (k - 1) (minorFun M.elem i)) := by
  obtain ⟨m, rfl⟩ : ∃ m, k = m + 1 := ⟨k - 1, by omega⟩
  have h := buildMinor_ofFun (by omega : 1 ≤ m) hM.1 M.elem hi
  rw [← buildMinor_withSize _ M.size, ← hM.eq_ofFun] at h
  exact h

/-- A recursive call goes from a matrix of dimension `k >= 3` to one of
dimension `k - 1`. -/
theorem Calls.minor_dim [Zero α] {M M' : SquareMat α} (h : Calls M M') {k : Nat} (hM : WF M k)
    (h2 : 2 ≤ k) : 3 ≤ k ∧ WF M' (k - 1) := by
  cases h with
  | minor i hne h0 hi hb =>
    have hk2 : k ≠ 2 := by
      intro e
      apply hne
      rw [getRows, hM.2.1, e]
      rfl
    have h3 : 3 ≤ k := by omega
    obtain ⟨i', rfl⟩ := Int.eq_ofNat_of_zero_le h0
    have hi' : i' < k := by
      rw [getCols, hM.2.2.1] at hi
      exact_mod_cast hi
    rw [hM.buildMinor_eq h3 hi'] at hb
    cases hb
    exact ⟨h3, ofFun_wf (by have := hM.1; omega) _⟩

/-- Every matrix on which `getDeterminant` is entered has a dimension between
2 and that of `A`. -/
theorem Entered.bounds [Zero α] {A M : SquareMat α} {n : Nat} (hA : WF A n) (h1 : 1 ≤ n)
    (h : Entered A M) : ∃ k : Nat, 2 ≤ k ∧ k ≤ n ∧ WF M k := by
  induction h with
  | first _ hne =>
    refine ⟨n, ?_, le_refl n, hA⟩
    by_contra hc
    have : n = 1 := by omega
    apply hne
    rw [hA.2.1, this]
    rfl
  | next M M' _ hcall ih =>
    obtain ⟨k, h2, hkn, hM⟩ := ih
    obtain ⟨h3, hM'⟩ := hcall.minor_dim hM h2
    exact ⟨k - 1, by omega, by omega, hM'⟩

end SquareMat

/-! ## Operations on doubles that do not round -/

namespace F64

/-- Two finite doubles of the same magnitude have the same significand and
exponent. -/
theorem canon_unique {s t : Bool} {m m' : Nat} {e e' : Int}
    (h : IsFinite (fin s m e)) (h' : IsFinite (fin t m' e'))
    (hv : (m : ℚ) * (2 : ℚ) ^ e = (m' : ℚ) * (2 : ℚ) ^ e') : m = m' ∧ e = e' := by
  have key : ∀ {s t : Bool} {m m' : Nat} {e e' : Int}, IsFinite (fin s m e) →
      IsFinite (fin t m' e') → (m : ℚ) * (2 : ℚ) ^ e = (m' : ℚ) * (2 : ℚ) ^ e' → e ≤ e' →
      m = m' ∧ e = e' := by
    intro s t m m' e e' h h' hv hle
    obtain ⟨hm, hlo, hhi, hsub⟩ := h
    obtain ⟨hm', hlo', hhi', hsub'⟩ := h'
    have hsc := scale_eq m' e' e hle
    rw [← hv] at hsc
    have h2 : (2 : ℚ) ^ e ≠ 0 := zpow_ne_zero _ two_ne_zero
    have hnat : m' * 2 ^ (e' - e).toNat = m := by
      have := mul_right_cancel₀ h2 hsc
      exact_mod_cast this
    by_cases hk : (e' - e).toNat = 0
    · rw [hk, pow_zero, mul_one] at hnat
      exact ⟨hnat.symm, by omega⟩
    · exfalso
      have h2k : 2 ≤ 2 ^ (e' - e).toNat := by
        calc 2 = 2 ^ 1 := by norm_num
          _ ≤ 2 ^ (e' - e).toNat := Nat.pow_le_pow_right (by norm_num) (by omega)
      by_cases hbig : m' < 2 ^ 52
      · have := hsub' hbig
        omega
      · have : 2 ^ 52 * 2 ≤ m' * 2 ^ (e' - e).toNat := Nat.mul_le_mul (by omega) h2k
        omega
  rcases le_total e e' with hle | hle
  · exact key h h' hv hle
  · obtain ⟨h1, h2⟩ := key h' h hv.symm hle
    exact ⟨h1.symm, h2.symm⟩

/-- Rounding leaves a number that is a double as it is. -/
theorem round_representable (s : Bool) (M : Nat) (E : Int) (hE : E ≤ 971) {m : Nat} {e : Int}
    (hfin : IsFinite (fin s m e)) (hv : (M : ℚ) * (2 : ℚ) ^ E = (m : ℚ) * (2 : ℚ) ^ e) :
    round s M E = fin s m e := by
  by_cases hle : E ≤ e
  · have hsc := scale_eq m e E hle
    rw [← hv] at hsc
    have h2 : (2 : ℚ) ^ E ≠ 0 := zpow_ne_zero _ two_ne_zero
    have hnat : m * 2 ^ (e - E).toNat = M := by
      have := mul_right_cancel₀ h2 hsc
      exact_mod_cast this
    obtain ⟨k, hk⟩ : ∃ k : Nat, (e - E).toNat = k := ⟨_, rfl⟩
    rw [hk] at hnat
    have hE' : E = e - (k : Int) := by omega
    subst hE'
    rw [← hnat]
    exact round_exact s m e k hfin
  · have hlo : -1074 ≤ E := by have := hfin.2.1; omega
    have hsc := scale_eq M E e (by omega)
    rw [hv] at hsc
    have h2 : (2 : ℚ) ^ e ≠ 0 := zpow_ne_zero _ two_ne_zero
    have hnat : M * 2 ^ (E - e).toNat = m := by
      have := mul_right_cancel₀ h2 hsc
      exact_mod_cast this
    have hM : M < 2 ^ 53 := by
      have h1 : M ≤ M * 2 ^ (E - e).toNat := Nat.le_mul_of_pos_right _ (by positivity)
      have := hfin.1
      omega
    obtain ⟨m', e', hr, hf, hval, -⟩ := round_fits s M E hM hlo hE
    rw [hv] at hval
    obtain ⟨hm, he⟩ := canon_unique hf hfin hval
    rw [hr, hm, he]

end F64

namespace F64

theorem toRat_fin_abs (s : Bool) (m : Nat) (e : Int) :
    |toRat (fin s m e)| = (m : ℚ) * (2 : ℚ) ^ e := by
  have h2 : (0 : ℚ) < (2 : ℚ) ^ e := zpow_pos (by norm_num) e
  have hm : (0 : ℚ) ≤ (m : ℚ) * (2 : ℚ) ^ e := by positivity
  rw [toRat_fin]
  cases s with
  | false => simp [abs_of_nonneg hm]
  | true => simp [abs_of_nonneg hm]

theorem toRat_fin_neg_iff (s : Bool) (m : Nat) (e : Int) (hm : m ≠ 0) :
    toRat (fin s m e) < 0 ↔ s = true := by
  have h2 : (0 : ℚ) < (2 : ℚ) ^ e := zpow_pos (by norm_num) e
  have hpos : (0 : ℚ) < (m : ℚ) * (2 : ℚ) ^ e := by
    have : (0 : ℚ) < (m : ℚ) := by exact_mod_cast Nat.pos_of_ne_zero hm
    positivity
  rw [toRat_fin]
  cases s with
  | false => simp; linarith
  | true => simp; linarith

theorem toRat_eq_zero_iff (s : Bool) (m : Nat) (e : Int) :
    toRat (fin s m e) = 0 ↔ m = 0 := by
  have h2 : (2 : ℚ) ^ e ≠ 0 := zpow_ne_zero _ two_ne_zero
  rw [toRat_fin]
  cases s with
  | false => simp [h2]
  | true => simp [h2]

/-- Two finite doubles with the same value other than zero are the same
double. -/
theorem eq_of_toRat_eq {x y : F64} (hx : IsFinite x) (hy : IsFinite y)
    (h : toRat x = toRat y) (h0 : toRat x ≠ 0) : x = y := by
  cases x with
  | nan => exact absurd hx (by simp [IsFinite])
  | inf s => exact absurd hx (by simp [IsFinite])
  | fin s m e =>
    cases y with
    | nan => exact absurd hy (by simp [IsFinite])
    | inf s => exact absurd hy (by simp [IsFinite])
    | fin t m' e' =>
      have hm : m ≠ 0 := fun hm => h0 ((toRat_eq_zero_iff s m e).mpr hm)
      have hm' : m' ≠ 0 := fun hm' => h0 (h ▸ (toRat_eq_zero_iff t m' e').mpr hm')
      have hs : s = t := by
        have h1 := toRat_fin_neg_iff s m e hm
        have h2 := toRat_fin_neg_iff t m' e' hm'
        rw [h] at h1
        cases s <;> cases t <;> simp_all
      have habs : (m : ℚ) * (2 : ℚ) ^ e = (m' : ℚ) * (2 : ℚ) ^ e' := by
        rw [← toRat_fin_abs s, ← toRat_fin_abs t, h]
      obtain ⟨h1, h2⟩ := canon_unique hx hy habs
      rw [hs, h1, h2]

/-- Two finite doubles with the same value compare equal. -/
theorem ne_of_toRat_eq {x y : F64} (hx : IsFinite x) (hy : IsFinite y)
    (h : toRat x = toRat y) : FloatNe.ne x y = false := by
  by_cases h0 : toRat x = 0
  · cases x with
    | nan => exact absurd hx (by simp [IsFinite])
    | inf s => exact absurd hx (by simp [IsFinite])
    | fin s m e =>
      cases y with
      | nan => exact absurd hy (by simp [IsFinite])
      | inf s => exact absurd hy (by simp [IsFinite])
      | fin t m' e' =>
        have hm : m = 0 := (toRat_eq_zero_iff s m e).mp h0
        have hm' : m' = 0 := (toRat_eq_zero_iff t m' e').mp (h ▸ h0)
        simp [ne_def, ne, hm, hm']
  · rw [← eq_of_toRat_eq hx hy h h0]
    exact ne_self_of_isFinite hx

end F64

namespace F64

theorem isFinite_zero (s : Bool) : IsFinite (fin s 0 (-1074)) :=
  ⟨by norm_num, le_refl _, by norm_num, fun _ => rfl⟩

theorem scaled_value (s : Bool) (m : Nat) (e1 e : Int) (h : e ≤ e1) :
    ((((if s = true then (-1 : Int) else 1) * ((m * 2 ^ (e1 - e).toNat : Nat) : Int) : Int)) : ℚ)
      * (2 : ℚ) ^ e = toRat (fin s m e1) := by
  rw [toRat_fin, ← scale_eq m e1 e h]
  cases s with
  | false => simp
  | true => simp

/-- The sum of two finite doubles is not rounded when the exact sum is a
double. -/
theorem add_exact {x y z : F64} (hx : IsFinite x) (hy : IsFinite y) (hz : IsFinite z)
    (h : toRat z = toRat x + toRat y) :
    IsFinite (x + y) ∧ toRat (x + y) = toRat x + toRat y ∧ (toRat z ≠ 0 → x + y = z) := by
  cases x with
  | nan => exact absurd hx (by simp [IsFinite])
  | inf s => exact absurd hx (by simp [IsFinite])
  | fin s1 m1 e1 =>
    cases y with
    | nan => exact absurd hy (by simp [IsFinite])
    | inf s => exact absurd hy (by simp [IsFinite])
    | fin s2 m2 e2 =>
      have ha := scaled_value s1 m1 e1 (min e1 e2) (min_le_left _ _)
      have hb := scaled_value s2 m2 e2 (min e1 e2) (min_le_right _ _)
      set a : Int := (if s1 = true then (-1 : Int) else 1) *
        ((m1 * 2 ^ (e1 - min e1 e2).toNat : Nat) : Int) with hadef
      set b : Int := (if s2 = true then (-1 : Int) else 1) *
        ((m2 * 2 ^ (e2 - min e1 e2).toNat : Nat) : Int) with hbdef
      have hsum : ((a + b : Int) : ℚ) * (2 : ℚ) ^ (min e1 e2) =
          toRat (fin s1 m1 e1) + toRat (fin s2 m2 e2) := by
        rw [← ha, ← hb]; push_cast; ring
      have h2 : (2 : ℚ) ^ (min e1 e2) ≠ 0 := zpow_ne_zero _ two_ne_zero
      have h2pos : (0 : ℚ) < (2 : ℚ) ^ (min e1 e2) := zpow_pos (by norm_num) _
      have hadd : fin s1 m1 e1 + fin s2 m2 e2 =
          if a + b = 0 then fin (s1 && s2) 0 (-1074)
          else round (decide (a + b < 0)) (a + b).natAbs (min e1 e2) := rfl
      by_cases hc : a + b = 0
      · rw [hadd, if_pos hc]
        have hz0 : toRat (fin s1 m1 e1) + toRat (fin s2 m2 e2) = 0 := by
          rw [← hsum, hc]; simp
        refine ⟨isFinite_zero _, ?_, fun hne => absurd (h.trans hz0) hne⟩
        rw [hz0, toRat_fin]; simp
      · rw [hadd, if_neg hc]
        have hcq : ((a + b : Int) : ℚ) ≠ 0 := by exact_mod_cast hc
        have hne : toRat z ≠ 0 := by
          rw [h, ← hsum]
          exact mul_ne_zero hcq h2
        have key : round (decide (a + b < 0)) (a + b).natAbs (min e1 e2) = z := by
          cases z with
          | nan => exact absurd hz (by simp [IsFinite])
          | inf s => exact absurd hz (by simp [IsFinite])
          | fin sz mz ez =>
            have hmz : mz ≠ 0 := fun hm => hne ((toRat_eq_zero_iff sz mz ez).mpr hm)
            have hsign : decide (a + b < 0) = sz := by
              have h1 := toRat_fin_neg_iff sz mz ez hmz
              rw [h, ← hsum] at h1
              have h3 : ((a + b : Int) : ℚ) * (2 : ℚ) ^ (min e1 e2) < 0 ↔ a + b < 0 := by
                constructor
                · intro hlt
                  have : ((a + b : Int) : ℚ) < 0 := by
                    by_contra hge
                    push_neg at hge
                    have := mul_nonneg hge h2pos.le
                    linarith
                  exact_mod_cast this
                · intro hlt
                  have : ((a + b : Int) : ℚ) < 0 := by exact_mod_cast hlt
                  exact mul_neg_of_neg_of_pos this h2pos
              rw [h3] at h1
              cases sz with
              | false => simpa using h1
              | true => simpa using h1
            have habs : (((a + b).natAbs : Nat) : ℚ) * (2 : ℚ) ^ (min e1 e2) =
                (mz : ℚ) * (2 : ℚ) ^ ez := by
              rw [← toRat_fin_abs sz mz ez, h, ← hsum, abs_mul, abs_of_pos h2pos, Nat.cast_natAbs,
                Int.cast_abs]
            rw [hsign]
            refine round_representable sz _ _ ?_ hz habs
            have := hx.2.2.1
            exact le_trans (min_le_left _ _) this
        rw [key]
        exact ⟨hz, h, fun _ => rfl⟩

theorem isFinite_neg {x : F64} (hx : IsFinite x) : IsFinite (-x) := by
  cases x with
  | nan => exact absurd hx (by simp [IsFinite])
  | inf s => exact absurd hx (by simp [IsFinite])
  | fin s m e => exact hx

theorem toRat_neg (x : F64) : toRat (-x) = -toRat x := by
  cases x with
  | nan => show toRat nan = _; simp [toRat]
  | inf s => show toRat (inf (!s)) = _; simp [toRat]
  | fin s m e =>
    show toRat (fin (!s) m e) = _
    rw [toRat_fin, toRat_fin]
    cases s <;> simp

/-- The difference of two finite doubles is not rounded when the exact
difference is a double. -/
theorem sub_exact {x y z : F64} (hx : IsFinite x) (hy : IsFinite y) (hz : IsFinite z)
    (h : toRat z = toRat x - toRat y) :
    IsFinite (x - y) ∧ toRat (x - y) = toRat x - toRat y ∧ (toRat z ≠ 0 → x - y = z) := by
  have := add_exact hx (isFinite_neg hy) hz (by rw [toRat_neg, h]; ring)
  rw [toRat_neg] at this
  obtain ⟨h1, h2, h3⟩ := this
  exact ⟨h1, by rw [sub_eq_add_neg]; exact h2, h3⟩

end F64

namespace F64

theorem nat_of_scale {M m : Nat} {E e : Int} (h : e ≤ E)
    (hv : (M : ℚ) * (2 : ℚ) ^ E = (m : ℚ) * (2 : ℚ) ^ e) : M * 2 ^ (E - e).toNat = m := by
  have hsc := scale_eq M E e h
  rw [hv] at hsc
  have h2 : (2 : ℚ) ^ e ≠ 0 := zpow_ne_zero _ two_ne_zero
  have := mul_right_cancel₀ h2 hsc
  exact_mod_cast this

/-- The product of two finite doubles is not rounded when the exact product
is a double. -/
theorem mul_exact {x y z : F64} (hx : IsFinite x) (hy : IsFinite y) (hz : IsFinite z)
    (h : toRat z = toRat x * toRat y) :
    IsFinite (x * y) ∧ toRat (x * y) = toRat x * toRat y ∧ (toRat z ≠ 0 → x * y = z) := by
  cases x with
  | nan => exact absurd hx (by simp [IsFinite])
  | inf s => exact absurd hx (by simp [IsFinite])
  | fin s1 m1 e1 =>
    cases y with
    | nan => exact absurd hy (by simp [IsFinite])
    | inf s => exact absurd hy (by simp [IsFinite])
    | fin s2 m2 e2 =>
      have hmul : fin s1 m1 e1 * fin s2 m2 e2 = round (xor s1 s2) (m1 * m2) (e1 + e2) := rfl
      have hprod : toRat (fin s1 m1 e1) * toRat (fin s2 m2 e2) =
          toRat (fin (xor s1 s2) (m1 * m2) (e1 + e2)) := by
        rw [toRat_fin, toRat_fin, toRat_fin, zpow_add₀ (two_ne_zero)]
        cases s1 <;> cases s2 <;> simp <;> ring
      by_cases hm : m1 * m2 = 0
      · have hr : round (xor s1 s2) (m1 * m2) (e1 + e2) = fin (xor s1 s2) 0 (-1074) := by
          simp [round, hm]
        have hz0 : toRat (fin s1 m1 e1) * toRat (fin s2 m2 e2) = 0 := by
          rw [hprod]; exact (toRat_eq_zero_iff _ _ _).mpr hm
        rw [hmul, hr]
        refine ⟨isFinite_zero _, ?_, fun hne => absurd (h.trans hz0) hne⟩
        rw [hz0]; exact (toRat_eq_zero_iff _ _ _).mpr rfl
      · have hne : toRat z ≠ 0 := by
          rw [h, hprod]
          exact fun h0 => hm ((toRat_eq_zero_iff _ _ _).mp h0)
        have key : round (xor s1 s2) (m1 * m2) (e1 + e2) = z := by
          cases z with
          | nan => exact absurd hz (by simp [IsFinite])
          | inf s => exact absurd hz (by simp [IsFinite])
          | fin sz mz ez =>
            have hmz : mz ≠ 0 := fun hm' => hne ((toRat_eq_zero_iff sz mz ez).mpr hm')
            have hsign : xor s1 s2 = sz := by
              have h1 := toRat_fin_neg_iff sz mz ez hmz
              have h2 := toRat_fin_neg_iff (xor s1 s2) (m1 * m2) (e1 + e2) hm
              rw [h, hprod, h2] at h1
              cases sz with
              | false => simpa using h1
              | true => simpa using h1
            have habs : ((m1 * m2 : Nat) : ℚ) * (2 : ℚ) ^ (e1 + e2) =
                (mz : ℚ) * (2 : ℚ) ^ ez := by
              rw [← toRat_fin_abs sz mz ez, h, hprod, toRat_fin_abs]
            have hE : e1 + e2 ≤ 971 := by
              by_contra hbig
              push_neg at hbig
              obtain ⟨hm1, hlo1, hhi1, hsub1⟩ := hx
              obtain ⟨hm2, hlo2, hhi2, hsub2⟩ := hy
              have hez := hz.2.2.1
              have hmz' := hz.1
              have hnat := nat_of_scale (by omega : ez ≤ e1 + e2) habs
              have h152 : 2 ^ 52 ≤ m1 := by
                by_contra hc
                have := hsub1 (by omega)
                omega
              have h252 : 2 ^ 52 ≤ m2 := by
                by_contra hc
                have := hsub2 (by omega)
                omega
              have hge : 2 ^ 52 * 2 ^ 52 ≤ m1 * m2 := Nat.mul_le_mul h152 h252
              have hle : m1 * m2 ≤ m1 * m2 * 2 ^ (e1 + e2 - ez).toNat :=
                Nat.le_mul_of_pos_right _ (by positivity)
              have h53 : (2 : Nat) ^ 53 ≤ 2 ^ 52 * 2 ^ 52 := by norm_num
              omega
            rw [hsign]
            exact round_representable sz _ _ hE hz habs
        rw [hmul, key]
        exact ⟨hz, h, fun _ => rfl⟩

/-- An integer of magnitude below `2^53` is a double. -/
theorem ofInt_exact (z : Int) (hz : z.natAbs < 2 ^ 53) :
    IsFinite (ofInt z) ∧ toRat (ofInt z) = (z : ℚ) := by
  obtain ⟨m, e, h1, h2, h3, -⟩ := round_fits (decide (z < 0)) z.natAbs 0 hz (by norm_num)
    (by norm_num)
  have hof : ofInt z = fin (decide (z < 0)) m e := h1
  rw [hof]
  refine ⟨h2, ?_⟩
  rw [toRat_fin, h3, zpow_zero, mul_one, Nat.cast_natAbs, Int.cast_abs]
  by_cases hneg : z < 0
  · have : (z : ℚ) < 0 := by exact_mod_cast hneg
    simp [hneg, abs_of_neg this]
  · have : (0 : ℚ) ≤ (z : ℚ) := by exact_mod_cast (not_lt.mp hneg)
    simp [hneg, abs_of_nonneg this]

theorem representable_int (z : Int) (hz : z.natAbs < 2 ^ 53) : Representable (z : ℚ) :=
  ⟨ofInt z, ofInt_exact z hz⟩

theorem isFinite_of_one : IsFinite (1 : F64) := by decide

theorem toRat_one : toRat (1 : F64) = 1 := by
  have := (ofInt_exact 1 (by norm_num)).2
  simpa using this

theorem toRat_zero : toRat (0 : F64) = 0 := by
  rw [zero_def]; exact (toRat_eq_zero_iff _ _ _).mpr rfl

end F64

namespace F64

/-- Adding `1.0` to a finite double `x` gives `x + 1` exactly when that number
is a double. -/
theorem add_one_exact {x : F64} (hx : IsFinite x) (hr : Representable (toRat x + 1)) :
    IsFinite (x + 1) ∧ toRat (x + 1) = toRat x + 1 := by
  obtain ⟨z, hz, hv⟩ := hr
  have := add_exact hx isFinite_of_one hz (by rw [hv, toRat_one])
  rw [toRat_one] at this
  exact ⟨this.1, this.2.1⟩

/-- Subtracting `1.0` from a finite double `x` gives `x - 1` exactly when that
number is a double. -/
theorem sub_one_exact {x : F64} (hx : IsFinite x) (hr : Representable (toRat x - 1)) :
    IsFinite (x - 1) ∧ toRat (x - 1) = toRat x - 1 := by
  obtain ⟨z, hz, hv⟩ := hr
  have := sub_exact hx isFinite_of_one hz (by rw [hv, toRat_one])
  rw [toRat_one] at this
  exact ⟨this.1, this.2.1⟩

end F64

/-! ## Sums that do not round -/

theorem sumRows_zero {α : Type} [Zero α] [Add α] (n : Nat) (f : Nat → Nat → α) :
    sumRows n f 0 = 0 := rfl

theorem sumRows_succ {α : Type} [Zero α] [Add α] (n : Nat) (f : Nat → Nat → α) (t : Nat) :
    sumRows n f (t + 1) = sumUpTo n f t n := by
  simp [sumRows, sumUpTo, List.range_succ, List.foldl_append]

theorem sumUpTo_zero {α : Type} [Zero α] [Add α] (n : Nat) (f : Nat → Nat → α) (i : Nat) :
    sumUpTo n f i 0 = sumRows n f i := rfl

theorem sumUpTo_succ {α : Type} [Zero α] [Add α] (n : Nat) (f : Nat → Nat → α) (i j : Nat) :
    sumUpTo n f i (j + 1) = sumUpTo n f i j + f i j := by
  simp [sumUpTo, SquareMat.sumFrom_succ]

theorem sumAll_eq_sumRows {α : Type} [Zero α] [Add α] (n : Nat) (f : Nat → Nat → α) :
    sumAll n f = sumRows n f n := rfl

namespace F64

/-- When no addition rounds, every value of the accumulator of `countSum` is
the exact partial sum. -/
theorem sumUpTo_exact (n : Nat) (f : Nat → Nat → F64)
    (hfin : ∀ i j : Nat, i < n → j < n → IsFinite (f i j))
    (hex : ExactSum n fun i j => toRat (f i j)) :
    ∀ i : Nat, i ≤ n →
      (IsFinite (sumRows n f i) ∧
        toRat (sumRows n f i) = sumRows n (fun i j => toRat (f i j)) i) ∧
      (i < n → ∀ j : Nat, j ≤ n →
        IsFinite (sumUpTo n f i j) ∧
          toRat (sumUpTo n f i j) = sumUpTo n (fun i j => toRat (f i j)) i j) := by
  have hrow : ∀ i : Nat, i < n →
      (IsFinite (sumRows n f i) ∧
        toRat (sumRows n f i) = sumRows n (fun i j => toRat (f i j)) i) →
      ∀ j : Nat, j ≤ n →
        IsFinite (sumUpTo n f i j) ∧
          toRat (sumUpTo n f i j) = sumUpTo n (fun i j => toRat (f i j)) i j := by
    intro i hi h0 j
    induction j with
    | zero => intro _; exact h0
    | succ j ih =>
      intro hj
      obtain ⟨hf, hv⟩ := ih (by omega)
      obtain ⟨z, hz, hzv⟩ := hex i j hi (by omega)
      rw [sumUpTo_succ] at hzv
      have := add_exact hf (hfin i j hi (by omega)) hz (by rw [hzv, hv])
      rw [sumUpTo_succ, sumUpTo_succ]
      exact ⟨this.1, by rw [this.2.1, hv]⟩
  intro i
  induction i with
  | zero =>
    intro _
    have h0 : IsFinite (sumRows n f 0) ∧
        toRat (sumRows n f 0) = sumRows n (fun i j => toRat (f i j)) 0 :=
      ⟨isFinite_zero false, by rw [sumRows_zero, sumRows_zero, toRat_zero]⟩
    exact ⟨h0, fun hi => hrow 0 hi h0⟩
  | succ i ih =>
    intro hi
    have hprev := (ih (by omega)).2 (by omega) n (le_refl n)
    have h0 : IsFinite (sumRows n f (i + 1)) ∧
        toRat (sumRows n f (i + 1)) = sumRows n (fun i j => toRat (f i j)) (i + 1) := by
      rw [sumRows_succ, sumRows_succ]
      exact hprev
    exact ⟨h0, fun hi' => hrow (i + 1) hi' h0⟩

/-- When no addition rounds, `countSum` is the exact sum of the elements. -/
theorem sumAll_exact (n : Nat) (f : Nat → Nat → F64)
    (hfin : ∀ i j : Nat, i < n → j < n → IsFinite (f i j))
    (hex : ExactSum n fun i j => toRat (f i j)) :
    IsFinite (sumAll n f) ∧
      toRat (sumAll n f) = ∑ i ∈ Finset.range n, ∑ j ∈ Finset.range n, toRat (f i j) := by
  have h := (sumUpTo_exact n f hfin hex n (le_refl n)).1
  rw [← sumAll_eq_sumRows, ← sumAll_eq_sumRows, SquareMat.sumAll_eq_sum] at h
  exact h

end F64

theorem sumFrom_congr {α : Type} [Add α] (acc : α) {k : Nat} {t u : Nat → α}
    (h : ∀ c, c < k → t c = u c) : sumFrom acc k t = sumFrom acc k u := by
  induction k with
  | zero => rfl
  | succ k ih =>
    rw [SquareMat.sumFrom_succ, SquareMat.sumFrom_succ, ih fun c hc => h c (by omega),
      h k (by omega)]

theorem sumRows_congr {α : Type} [Zero α] [Add α] {n : Nat} {f g : Nat → Nat → α}
    (h : ∀ i j, i < n → j < n → f i j = g i j) :
    ∀ t : Nat, t ≤ n → sumRows n f t = sumRows n g t := by
  intro t
  induction t with
  | zero => intro _; rfl
  | succ t ih =>
    intro ht
    rw [sumRows_succ, sumRows_succ, sumUpTo, sumUpTo, ih (by omega)]
    exact sumFrom_congr _ fun c hc => h t c (by omega) hc

theorem sumUpTo_congr {α : Type} [Zero α] [Add α] {n : Nat} {f g : Nat → Nat → α}
    (h : ∀ i j, i < n → j < n → f i j = g i j) {i j : Nat} (hi : i < n) (hj : j ≤ n) :
    sumUpTo n f i j = sumUpTo n g i j := by
  rw [sumUpTo, sumUpTo, sumRows_congr h i (by omega)]
  exact sumFrom_congr _ fun c hc => h i c hi (by omega)

theorem sumAll_congr {α : Type} [Zero α] [Add α] {n : Nat} {f g : Nat → Nat → α}
    (h : ∀ i j, i < n → j < n → f i j = g i j) : sumAll n f = sumAll n g := by
  rw [sumAll_eq_sumRows, sumAll_eq_sumRows]
  exact sumRows_congr h n (le_refl n)

theorem sumFrom_cast (acc : Int) (k : Nat) (t : Nat → Int) :
    ((sumFrom acc k t : Int) : ℚ) = sumFrom (acc : ℚ) k fun c => (t c : ℚ) := by
  induction k with
  | zero => rfl
  | succ k ih => rw [SquareMat.sumFrom_succ, SquareMat.sumFrom_succ, Int.cast_add, ih]

theorem sumRows_cast (n : Nat) (z : Nat → Nat → Int) (t : Nat) :
    ((sumRows n z t : Int) : ℚ) = sumRows n (fun i j => (z i j : ℚ)) t := by
  induction t with
  | zero => simp [sumRows_zero]
  | succ t ih => rw [sumRows_succ, sumRows_succ, sumUpTo, sumUpTo, sumFrom_cast, ih]

theorem sumUpTo_cast (n : Nat) (z : Nat → Nat → Int) (i j : Nat) :
    ((sumUpTo n z i j : Int) : ℚ) = sumUpTo n (fun i j => (z i j : ℚ)) i j := by
  rw [sumUpTo, sumUpTo, sumFrom_cast, sumRows_cast]

theorem sumFrom_natAbs_le (acc : Int) (k : Nat) (t : Nat → Int) (M : Nat)
    (h : ∀ c, c < k → (t c).natAbs ≤ M) : (sumFrom acc k t).natAbs ≤ acc.natAbs + k * M := by
  induction k with
  | zero => simp [sumFrom]
  | succ k ih =>
    rw [SquareMat.sumFrom_succ]
    have h1 := ih fun c hc => h c (by omega)
    have h2 := h k (by omega)
    have h3 := Int.natAbs_add_le (sumFrom acc k t) (t k)
    have : (k + 1) * M = k * M + M := by ring
    omega

theorem sumRows_natAbs_le (n : Nat) (z : Nat → Nat → Int) (M : Nat)
    (h : ∀ i j, i < n → j < n → (z i j).natAbs ≤ M) :
    ∀ t : Nat, t ≤ n → (sumRows n z t).natAbs ≤ t * (n * M) := by
  intro t
  induction t with
  | zero => intro _; simp [sumRows_zero]
  | succ t ih =>
    intro ht
    rw [sumRows_succ, sumUpTo]
    have h1 := ih (by omega)
    have h2 := sumFrom_natAbs_le (sumRows n z t) n (z t) M fun c hc => h t c (by omega) hc
    have : (t + 1) * (n * M) = t * (n * M) + n * M := by ring
    omega

theorem sumUpTo_natAbs_le (n : Nat) (z : Nat → Nat → Int) (M : Nat)
    (h : ∀ i j, i < n → j < n → (z i j).natAbs ≤ M) {i j : Nat} (hi : i < n) (hj : j ≤ n) :
    (sumUpTo n z i j).natAbs ≤ n * n * M := by
  rw [sumUpTo]
  have h1 := sumRows_natAbs_le n z M h i (by omega)
  have h2 := sumFrom_natAbs_le (sumRows n z i) j (z i) M fun c hc => h i c hi (by omega)
  have h3 : i * (n * M) + j * M ≤ n * n * M := by
    have : i + 1 ≤ n := hi
    calc i * (n * M) + j * M ≤ i * (n * M) + n * M := by
          have := Nat.mul_le_mul_right M hj
          omega
      _ = (i + 1) * (n * M) := by ring
      _ ≤ n * (n * M) := Nat.mul_le_mul_right _ this
      _ = n * n * M := by ring
  omega

namespace F64

theorem ExactSum.congr {n : Nat} {q q' : Nat → Nat → ℚ}
    (h : ∀ i j, i < n → j < n → q i j = q' i j) (hq : ExactSum n q) : ExactSum n q' := by
  intro i j hi hj
  rw [← sumUpTo_congr h hi (by omega : j + 1 ≤ n)]
  exact hq i j hi hj

/-- No addition of the accumulation rounds on integers of magnitude at most
`M` when `n * n * M < 2^53`. -/
theorem exactSum_of_int (n : Nat) (z : Nat → Nat → Int) (M : Nat)
    (h : ∀ i j, i < n → j < n → (z i j).natAbs ≤ M) (hb : n * n * M < 2 ^ 53) :
    ExactSum n fun i j => (z i j : ℚ) := by
  intro i j hi hj
  rw [← sumUpTo_cast]
  apply representable_int
  have := sumUpTo_natAbs_le n z M h hi (by omega : j + 1 ≤ n)
  omega

end F64

/-! ## The determinant of a matrix of doubles with a zero row or column -/

namespace F64

theorem isZero_mul_finite {u y : F64} (hu : IsZero u) (hy : IsFinite y) : IsZero (u * y) := by
  obtain ⟨s, e, rfl⟩ := (isZero_iff u).mp hu
  cases y with
  | nan => exact absurd hy (by simp [IsFinite])
  | inf t => exact absurd hy (by simp [IsFinite])
  | fin t m e' =>
    have : fin s 0 e * fin t m e' = fin (xor s t) 0 (-1074) := by
      show round (xor s t) (0 * m) (e + e') = _
      simp [round]
    rw [this]
    exact isZero_fin_zero _ _

theorem isZero_finite_mul {u y : F64} (hy : IsFinite y) (hu : IsZero u) : IsZero (y * u) := by
  rw [mul_comm_double]
  exact isZero_mul_finite hu hy

theorem isZero_add {u v : F64} (hu : IsZero u) (hv : IsZero v) : IsZero (u + v) :=
  detLaws.zero_add_zero u v hu hv

theorem isZero_neg {u : F64} (hu : IsZero u) : IsZero (-u) := by
  obtain ⟨s, e, rfl⟩ := (isZero_iff u).mp hu
  exact isZero_fin_zero _ _

theorem isZero_sub {u v : F64} (hu : IsZero u) (hv : IsZero v) : IsZero (u - v) := by
  have : u - v = u + -v := rfl
  rw [this]
  exact isZero_add hu (isZero_neg hv)

theorem isFinite_neg_of_one : IsFinite (-1 : F64) := by decide

theorem isFinite_sign (i : Nat) : IsFinite (if i % 2 = 0 then (1 : F64) else -1) := by
  split
  · exact isFinite_of_one
  · exact isFinite_neg_of_one

theorem isFinite_sign_mul (i : Nat) {x : F64} (hx : IsFinite x) :
    IsFinite ((if i % 2 = 0 then (1 : F64) else -1) * x) := by
  split
  · have : (1 : F64) * x = x := one_mul_finite hx
    rw [this]; exact hx
  · have h := mul_exact isFinite_neg_of_one hx (isFinite_neg hx) (by
      rw [toRat_neg, toRat_neg, toRat_one]; ring)
    exact h.1

theorem isZero_sumLeft (k : Nat) (t : Nat → F64) (h : ∀ c, c < k → IsZero (t c)) :
    IsZero (sumLeft k t) := by
  induction k with
  | zero => rw [sumLeft_zero]; exact detLaws.zero
  | succ k ih =>
    rw [sumLeft_succ]
    exact isZero_add (ih fun c hc => h c (by omega)) (h k (by omega))

end F64

namespace SquareMat

open F64

/-- The cofactor recursion on finite doubles with a zero row or a zero column
gives a zero when no determinant of a minor overflows. -/
theorem detRec_zero_line : ∀ (k : Nat) (f : Nat → Nat → F64), 1 ≤ k →
    (∀ i j : Nat, i < k → j < k → IsFinite (f i j)) → MinorsFinite k f →
    ((∃ r, r < k ∧ ∀ j, j < k → IsZero (f r j)) ∨
      (∃ c, c < k ∧ ∀ i, i < k → IsZero (f i c))) →
    IsZero (detRec k f) := by
  intro k
  induction k using Nat.strong_induction_on with
  | _ k ih =>
    intro f h1 hfin hmin hz
    match k, h1, ih, hfin, hmin, hz with
    | 1, _, _, hfin, _, hz =>
      show IsZero (f 0 0)
      rcases hz with ⟨r, hr, h⟩ | ⟨c, hc, h⟩
      · have : r = 0 := by omega
        subst this
        exact h 0 (by omega)
      · have : c = 0 := by omega
        subst this
        exact h 0 (by omega)
    | 2, _, _, hfin, _, hz =>
      show IsZero (f 0 0 * f 1 1 - f 0 1 * f 1 0)
      have f00 := hfin 0 0 (by omega) (by omega)
      have f01 := hfin 0 1 (by omega) (by omega)
      have f10 := hfin 1 0 (by omega) (by omega)
      have f11 := hfin 1 1 (by omega) (by omega)
      rcases hz with ⟨r, hr, h⟩ | ⟨c, hc, h⟩
      · have hr' : r = 0 ∨ r = 1 := by omega
        rcases hr' with rfl | rfl
        · exact isZero_sub (isZero_mul_finite (h 0 (by omega)) f11)
            (isZero_mul_finite (h 1 (by omega)) f10)
        · exact isZero_sub (isZero_finite_mul f00 (h 1 (by omega)))
            (isZero_finite_mul f01 (h 0 (by omega)))
      · have hc' : c = 0 ∨ c = 1 := by omega
        rcases hc' with rfl | rfl
        · exact isZero_sub (isZero_mul_finite (h 0 (by omega)) f11)
            (isZero_finite_mul f01 (h 1 (by omega)))
        · exact isZero_sub (isZero_finite_mul f00 (h 1 (by omega)))
            (isZero_mul_finite (h 0 (by omega)) f10)
    | m + 3, _, ih, hfin, hmin, hz =>
      show IsZero (sumLeft (m + 3) fun i =>
        (if i % 2 = 0 then (1 : F64) else -1) * f 0 i * detRec (m + 2) (minorFun f i))
      apply isZero_sumLeft
      intro i hi
      have hminor_fin : ∀ a b : Nat, a < m + 2 → b < m + 2 → IsFinite (minorFun f i a b) := by
        intro a b ha hb
        apply hfin
        · omega
        · unfold skipCol; split <;> omega
      have hd_fin : IsFinite (detRec (m + 2) (minorFun f i)) := (hmin i hi).1
      have hrec : ((∃ r, r < m + 2 ∧ ∀ j, j < m + 2 → IsZero (minorFun f i r j)) ∨
          (∃ c, c < m + 2 ∧ ∀ a, a < m + 2 → IsZero (minorFun f i a c))) →
          IsZero (detRec (m + 2) (minorFun f i)) :=
        ih (m + 2) (by omega) (minorFun f i) (by omega) hminor_fin (hmin i hi).2
      have hsign_fin : IsFinite ((if i % 2 = 0 then (1 : F64) else -1) * f 0 i) :=
        isFinite_sign_mul i (hfin 0 i (by omega) hi)
      rcases hz with ⟨r, hr, h⟩ | ⟨c, hc, h⟩
      · by_cases hr0 : r = 0
        · subst hr0
          exact isZero_mul_finite (isZero_finite_mul (isFinite_sign i) (h i hi)) hd_fin
        · refine isZero_finite_mul hsign_fin (hrec (Or.inl ⟨r - 1, by omega, fun j hj => ?_⟩))
          have : minorFun f i (r - 1) j = f r (skipCol i j) := by
            unfold minorFun
            congr 1
            omega
          rw [this]
          apply h
          unfold skipCol; split <;> omega
      · by_cases hci : c = i
        · subst hci
          exact isZero_mul_finite (isZero_finite_mul (isFinite_sign c) (h 0 (by omega))) hd_fin
        · refine isZero_finite_mul hsign_fin
            (hrec (Or.inr ⟨if c < i then c else c - 1, ?_, fun a ha => ?_⟩))
          · split <;> omega
          · have : skipCol i (if c < i then c else c - 1) = c := by
              unfold skipCol
              by_cases hlt : c < i
              · simp [hlt]
              · have h2 : ¬ (c - 1 < i) := by omega
                simp only [hlt, if_false, h2]
                omega
            unfold minorFun
            rw [this]
            exact h (a + 1) (by omega)

end SquareMat

/-! ## Products and powers that do not round -/

namespace F64

open SquareMat

theorem mulFun_exact (n : Nat) (f g : Nat → Nat → F64) (a b : Nat → Nat → ℚ)
    (hf : ∀ i k : Nat, i < n → k < n → IsFinite (f i k) ∧ toRat (f i k) = a i k)
    (hg : ∀ k j : Nat, k < n → j < n → IsFinite (g k j) ∧ toRat (g k j) = b k j)
    (hex : ExactProduct n a b) :
    ∀ i j : Nat, i < n → j < n →
      IsFinite (mulFun n f g i j) ∧ toRat (mulFun n f g i j) = mulFun n a b i j := by
  intro i j hi hj
  have key : ∀ k : Nat, k ≤ n →
      IsFinite (sumLeft k fun t => f i t * g t j) ∧
        toRat (sumLeft k fun t => f i t * g t j) = sumLeft k fun t => a i t * b t j := by
    intro k
    induction k with
    | zero =>
      intro _
      rw [sumLeft_zero, sumLeft_zero]
      exact ⟨isFinite_zero false, toRat_zero⟩
    | succ k ih =>
      intro hk
      obtain ⟨hacc, hv⟩ := ih (by omega)
      obtain ⟨hfk, hfa⟩ := hf i k hi (by omega)
      obtain ⟨hgk, hgb⟩ := hg k j (by omega) hj
      obtain ⟨⟨z1, hz1, hv1⟩, ⟨z2, hz2, hv2⟩⟩ := hex i j k hi hj (by omega)
      have hm := mul_exact hfk hgk hz1 (by rw [hv1, hfa, hgb])
      rw [sumLeft_succ] at hv2
      have hs := add_exact hacc hm.1 hz2 (by rw [hv2, hv, hm.2.1, hfa, hgb])
      rw [sumLeft_succ, sumLeft_succ]
      exact ⟨hs.1, by rw [hs.2.1, hv, hm.2.1, hfa, hgb]⟩
  exact key n (le_refl n)

theorem powFun_exact (n : Nat) (f : Nat → Nat → F64) (a : Nat → Nat → ℚ)
    (hf : ∀ i j : Nat, i < n → j < n → IsFinite (f i j) ∧ toRat (f i j) = a i j) :
    ∀ p : Nat, ExactPower n a p → ∀ i j : Nat, i < n → j < n →
      IsFinite (powFun n f p i j) ∧ toRat (powFun n f p i j) = powFun n a p i j := by
  intro p
  induction p with
  | zero =>
    intro _ i j _ _
    show IsFinite (idFun i j) ∧ toRat (idFun i j) = idFun i j
    unfold idFun
    by_cases h : i = j
    · simp only [h, if_true]
      exact ⟨isFinite_of_one, toRat_one⟩
    · simp only [h, if_false]
      exact ⟨isFinite_zero false, toRat_zero⟩
  | succ p ih =>
    intro hex
    exact mulFun_exact n (powFun n f p) f (powFun n a p) a (ih hex.1) hf hex.2

theorem ExactPower.prefix_left {n : Nat} {a : Nat → Nat → ℚ} {p : Nat} :
    ∀ q : Nat, ExactPower n a (p + q) → ExactPower n a p := by
  intro q
  induction q with
  | zero => exact id
  | succ q ih => exact fun h => ih h.1

theorem ExactPower.prefix_right {n : Nat} {a : Nat → Nat → ℚ} {p q : Nat}
    (h : ExactPower n a (p + q)) : ExactPower n a q := by
  rw [Nat.add_comm] at h
  exact ExactPower.prefix_left p h

theorem mulFun_powFun_rat (n : Nat) (a : Nat → Nat → ℚ) (p q : Nat) {i j : Nat} (hi : i < n)
    (hj : j < n) : mulFun n (powFun n a p) (powFun n a q) i j = powFun n a (p + q) i j := by
  have h : toMat n (mulFun n (powFun n a p) (powFun n a q)) = toMat n (powFun n a (p + q)) := by
    show toMat n (fun i j => sumLeft n fun k => powFun n a p i k * powFun n a q k j) = _
    rw [toMat_mul, toMat_powFun, toMat_powFun, toMat_powFun, pow_add]
  exact congrFun (congrFun h ⟨i, hi⟩) ⟨j, hj⟩

/-- When no operation rounds, the elements of `(A ^ p) * (A ^ q)` and of
`A ^ (p + q)` are the same exact numbers, and compare equal. -/
theorem power_law_core (n : Nat) (f : Nat → Nat → F64) (a : Nat → Nat → ℚ)
    (hf : ∀ i j : Nat, i < n → j < n → IsFinite (f i j) ∧ toRat (f i j) = a i j)
    (p q : Nat) (hpow : ExactPower n a (p + q))
    (hprod : ExactProduct n (powFun n a p) (powFun n a q)) :
    ∀ i j : Nat, i < n → j < n →
      toRat (mulFun n (powFun n f p) (powFun n f q) i j) = powFun n a (p + q) i j ∧
      toRat (powFun n f (p + q) i j) = powFun n a (p + q) i j ∧
      FloatNe.ne (mulFun n (powFun n f p) (powFun n f q) i j) (powFun n f (p + q) i j) =
        false := by
  intro i j hi hj
  have hP := powFun_exact n f a hf p (ExactPower.prefix_left q hpow)
  have hQ := powFun_exact n f a hf q (ExactPower.prefix_right hpow)
  have hR := powFun_exact n f a hf (p + q) hpow i j hi hj
  have hL := mulFun_exact n (powFun n f p) (powFun n f q) (powFun n a p) (powFun n a q) hP hQ
    hprod i j hi hj
  rw [mulFun_powFun_rat n a p q hi hj] at hL
  exact ⟨hL.2, hR.2, ne_of_toRat_eq hL.1 hR.1 (by rw [hL.2, hR.2])⟩

end F64

theorem sumLeft_cast (k : Nat) (t : Nat → Int) :
    ((sumLeft k t : Int) : ℚ) = sumLeft k fun c => (t c : ℚ) := by
  induction k with
  | zero => simp [sumLeft_zero]
  | succ k ih => rw [sumLeft_succ, sumLeft_succ, Int.cast_add, ih]

theorem sumLeft_natAbs_le (k : Nat) (t : Nat → Int) (B : Nat)
    (h : ∀ c, c < k → (t c).natAbs ≤ B) : (sumLeft k t).natAbs ≤ k * B := by
  induction k with
  | zero => simp [sumLeft_zero]
  | succ k ih =>
    rw [sumLeft_succ]
    have h1 := ih fun c hc => h c (by omega)
    have h2 := h k (by omega)
    have h3 := Int.natAbs_add_le (sumLeft k t) (t k)
    have : (k + 1) * B = k * B + B := by ring
    omega

namespace SquareMat

theorem powFun_cast (n : Nat) (z : Nat → Nat → Int) :
    ∀ (p i j : Nat), ((powFun n z p i j : Int) : ℚ) = powFun n (fun i j => (z i j : ℚ)) p i j := by
  intro p
  induction p with
  | zero =>
    intro i j
    show ((idFun i j : Int) : ℚ) = idFun i j
    unfold idFun
    split <;> simp
  | succ p ih =>
    intro i j
    show ((sumLeft n (fun k => powFun n z p i k * z k j) : Int) : ℚ) =
      sumLeft n fun k => powFun n (fun i j => (z i j : ℚ)) p i k * (z k j : ℚ)
    rw [sumLeft_cast]
    apply sumLeft_congr
    intro k _
    rw [Int.cast_mul, ih]

theorem powFun_natAbs_le (n : Nat) (z : Nat → Nat → Int) (M : Nat)
    (h : ∀ i j, i < n → j < n → (z i j).natAbs ≤ M) :
    ∀ (p i j : Nat), i < n → j < n → (powFun n z p i j).natAbs ≤ (n * M) ^ p := by
  intro p
  induction p with
  | zero =>
    intro i j _ _
    show (idFun i j : Int).natAbs ≤ _
    unfold idFun
    split <;> simp
  | succ p ih =>
    intro i j hi hj
    show (sumLeft n fun k => powFun n z p i k * z k j).natAbs ≤ _
    have hterm : ∀ k, k < n → (powFun n z p i k * z k j).natAbs ≤ (n * M) ^ p * M := by
      intro k hk
      rw [Int.natAbs_mul]
      exact Nat.mul_le_mul (ih i k hi hk) (h k j hk hj)
    have := sumLeft_natAbs_le n _ _ hterm
    have e : n * ((n * M) ^ p * M) = (n * M) ^ (p + 1) := by ring
    omega

end SquareMat

namespace F64

open SquareMat

/-- No operation rounds in the product of matrices of integers of magnitudes
at most `U` and `V` when `n * (U * V) < 2^53`. -/
theorem exactProduct_of_int (n : Nat) (u v : Nat → Nat → Int) (U V : Nat)
    (hu : ∀ i k, i < n → k < n → (u i k).natAbs ≤ U)
    (hv : ∀ k j, k < n → j < n → (v k j).natAbs ≤ V) (hb : n * (U * V) < 2 ^ 53) :
    ExactProduct n (fun i j => (u i j : ℚ)) (fun i j => (v i j : ℚ)) := by
  intro i j k hi hj hk
  have hterm : ∀ t, t < n → (u i t * v t j).natAbs ≤ U * V := by
    intro t ht
    rw [Int.natAbs_mul]
    exact Nat.mul_le_mul (hu i t hi ht) (hv t j ht hj)
  have hUV : U * V ≤ n * (U * V) := Nat.le_mul_of_pos_left _ (by omega)
  constructor
  · have := representable_int (u i k * v k j) (by have := hterm k hk; omega)
    push_cast at this
    exact this
  · have hsum := sumLeft_natAbs_le (k + 1) (fun t => u i t * v t j) (U * V)
      fun t ht => hterm t (by omega)
    have hle : (k + 1) * (U * V) ≤ n * (U * V) := Nat.mul_le_mul_right _ hk
    have := representable_int (sumLeft (k + 1) fun t => u i t * v t j) (by omega)
    rw [sumLeft_cast] at this
    simp only [Int.cast_mul] at this
    exact this

theorem powFun_cast_fun (n : Nat) (z : Nat → Nat → Int) (p : Nat) :
    powFun n (fun i j => (z i j : ℚ)) p = fun i j => ((powFun n z p i j : Int) : ℚ) := by
  funext i j
  exact (powFun_cast n z p i j).symm

/-- No operation rounds in the power `p` of a matrix of integers of magnitude
at most `M` when `(n * M) ^ p < 2^53`. -/
theorem exactPower_of_int (n : Nat) (hn : 1 ≤ n) (z : Nat → Nat → Int) (M : Nat) (hM : 1 ≤ M)
    (h : ∀ i j, i < n → j < n → (z i j).natAbs ≤ M) :
    ∀ p : Nat, (n * M) ^ p < 2 ^ 53 → ExactPower n (fun i j => (z i j : ℚ)) p := by
  intro p
  induction p with
  | zero => intro _; trivial
  | succ p ih =>
    intro hb
    have hnM : 1 ≤ n * M := Nat.mul_le_mul hn hM
    have hle : (n * M) ^ p ≤ (n * M) ^ (p + 1) := Nat.pow_le_pow_right hnM (by omega)
    refine ⟨ih (by omega), ?_⟩
    rw [powFun_cast_fun]
    refine exactProduct_of_int n (powFun n z p) z ((n * M) ^ p) M
      (fun i k hi hk => powFun_natAbs_le n z M h p i k hi hk) h ?_
    have e : n * ((n * M) ^ p * M) = (n * M) ^ (p + 1) := by ring
    omega

/-- No operation rounds in `(A ^ p) * (A ^ q)` and in `A ^ (p + q)` for a
matrix of integers of magnitude at most `M` when `n * (n * M) ^ (p + q) < 2^53`. -/
theorem exact_of_int (n : Nat) (hn : 1 ≤ n) (z : Nat → Nat → Int) (M : Nat) (hM : 1 ≤ M)
    (h : ∀ i j, i < n → j < n → (z i j).natAbs ≤ M) (p q : Nat)
    (hb : n * (n * M) ^ (p + q) < 2 ^ 53) :
    ExactPower n (fun i j => (z i j : ℚ)) (p + q) ∧
      ExactProduct n (powFun n (fun i j => (z i j : ℚ)) p)
        (powFun n (fun i j => (z i j : ℚ)) q) := by
  have hle : (n * M) ^ (p + q) ≤ n * (n * M) ^ (p + q) := Nat.le_mul_of_pos_left _ (by omega)
  refine ⟨exactPower_of_int n hn z M hM h (p + q) (by omega), ?_⟩
  rw [powFun_cast_fun, powFun_cast_fun]
  refine exactProduct_of_int n (powFun n z p) (powFun n z q) ((n * M) ^ p) ((n * M) ^ q)
    (fun i k hi hk => powFun_natAbs_le n z M h p i k hi hk)
    (fun k j hk hj => powFun_natAbs_le n z M h q k j hk hj) ?_
  rw [← pow_add]
  exact hb

end F64

/-! ## The claims -/

namespace SquareMat

variable {α : Type}

/-- C1: for matrices `A` and `B` of the same dimension `n >= 1`, `operator*`
succeeds and returns a matrix `R` of dimension `n` whose element `R[i][j]` is
the sum over `k = 0, ..., n - 1` of `A[i][k] * B[k][j]` (accumulated from `0`
in this order), for all `i, j < n`. -/
theorem C1_operatorMul_entries [Zero α] [Add α] [Mul α] (A B : SquareMat α) (n : Nat)
    (h1 : 1 ≤ n) (hA : WF A n) (hB : WF B n) :
    ∃ R, operatorMul A B = .ok R ∧ WF R n ∧
      ∀ i j : Nat, i < n → j < n →
        R.idx i j = .ok (sumLeft n fun k => A.elem i k * B.elem k j) := by
  refine ⟨ofFun n fun i j => sumLeft n fun k => A.elem i k * B.elem k j,
    WF.operatorMul_eq h1 hA hB, ofFun_wf hA.1 _, ?_⟩
  intro i j hi hj
  exact idx_ofFun hA.1 _ hi hj

/-- C2: for a matrix `A` of dimension `n >= 1`, `operator!` returns `A[0][0]`
when `n = 1`, `A[0][0]*A[1][1] - A[0][1]*A[1][0]` when `n = 2`, and for `n > 2`
the sum over the columns `i = 0, ..., n - 1` of `sign(i) * A[0][i] * d i`, where
`d i` is the value `operator!` returns on the minor of dimension `n - 1` obtained
by deleting row 0 and column `i`, and `sign(i)` is `1` for even and `-1` for odd
`i`. -/
theorem C2_operatorNot_cofactor [Zero α] [One α] [Add α] [Sub α] [Mul α] [Neg α]
    (A : SquareMat α) (n : Nat) (h1 : 1 ≤ n) (hA : WF A n) :
    (n = 1 → operatorNot A = .ok (A.elem 0 0)) ∧
    (n = 2 → operatorNot A = .ok (A.elem 0 0 * A.elem 1 1 - A.elem 0 1 * A.elem 1 0)) ∧
    (2 < n → ∃ d : Nat → α,
      (∀ i : Nat, i < n → WF (minorOf A i) (n - 1) ∧ operatorNot (minorOf A i) = .ok (d i)) ∧
      operatorNot A = .ok (sumLeft n fun i =>
        (if i % 2 = 0 then (1 : α) else -1) * A.elem 0 i * d i)) := by
  have e := WF.operatorNot_eq h1 hA
  refine ⟨?_, ?_, ?_⟩
  · intro hn; subst hn; exact e
  · intro hn; subst hn; exact e
  · intro hn
    obtain ⟨k, rfl⟩ : ∃ k, n = k + 3 := ⟨n - 3, by omega⟩
    refine ⟨fun i => detRec (k + 2) (minorFun A.elem i), ?_, e⟩
    intro i hi
    have hk : k + 2 < 2 ^ 31 := by have := hA.1; omega
    rw [WF.minorOf_eq hA hi]
    exact ⟨ofFun_wf hk _, operatorNot_ofFun (by omega) hk _⟩

/-- In exact arithmetic (a semiring in which `x != x` is false), for a matrix
`A` of dimension `n >= 1` and integers `p, q >= 0`, the four operator calls
succeed and `(A ^ p) * (A ^ q) == A ^ (p + q)` is true. -/
theorem power_law_exact [Semiring α] [FloatNe α] (hne : ∀ x : α, FloatNe.ne x x = false)
    (A : SquareMat α) (n : Nat) (h1 : 1 ≤ n) (hA : WF A n) (p q : Int) (hp : 0 ≤ p)
    (hq : 0 ≤ q) :
    ∃ P Q L R, operatorPow A p = .ok P ∧ operatorPow A q = .ok Q ∧
      operatorMul P Q = .ok L ∧ operatorPow A (p + q) = .ok R ∧
      operatorEq L R = .ok true := by
  obtain ⟨p', rfl⟩ := Int.eq_ofNat_of_zero_le hp
  obtain ⟨q', rfl⟩ := Int.eq_ofNat_of_zero_le hq
  have hn := hA.1
  refine ⟨ofFun n (powFun n A.elem p'), ofFun n (powFun n A.elem q'),
    ofFun n (fun i j => sumLeft n fun k => powFun n A.elem p' i k * powFun n A.elem q' k j),
    ofFun n (powFun n A.elem (p' + q')), WF.operatorPow_eq h1 hA p',
    WF.operatorPow_eq h1 hA q', operatorMul_ofFun h1 hn _ _, ?_, ?_⟩
  · have := WF.operatorPow_eq h1 hA (p' + q')
    rw [Nat.cast_add] at this
    exact this
  · have hLR : ofFun n
        (fun i j => sumLeft n fun k => powFun n A.elem p' i k * powFun n A.elem q' k j) =
        ofFun n (powFun n A.elem (p' + q')) := by
      apply ofFun_eq_of_toMat
      rw [toMat_mul, toMat_powFun, toMat_powFun, toMat_powFun, pow_add]
    rw [hLR]
    exact operatorEq_self _ fun _ _ _ _ => hne _

/-- C3 (amended): for a matrix `A` of doubles of dimension `n >= 1` and
integers `p, q >= 0`, the calls `A ^ p`, `A ^ q`, `(A ^ p) * (A ^ q)` and
`A ^ (p + q)` succeed, and `(A ^ p) * (A ^ q) == A ^ (p + q)` is true when
`p = 0` or `q = 0` and the elements of `A ^ (p + q)` are finite; when the
elements of `A` are finite and no multiplication or addition of the
computation rounds (`ExactPower`, `ExactProduct`), both sides then holding the
exact power; and so when the elements of `A` are integers of magnitude at most
`M >= 1` with `n * (n * M) ^ (p + q) < 2^53`. -/
theorem C3_power_law (A : SquareMat F64) (n : Nat) (h1 : 1 ≤ n) (hA : WF A n) (p q : Nat) :
    ∃ P Q L R : SquareMat F64,
      operatorPow A (p : Int) = .ok P ∧ operatorPow A (q : Int) = .ok Q ∧
      operatorMul P Q = .ok L ∧ operatorPow A ((p : Int) + (q : Int)) = .ok R ∧
      WF L n ∧ WF R n ∧
      ((p = 0 ∨ q = 0) → (∀ i j : Nat, i < n → j < n → F64.IsFinite (R.elem i j)) →
        operatorEq L R = .ok true) ∧
      ((∀ i j : Nat, i < n → j < n → F64.IsFinite (A.elem i j)) →
        F64.ExactPower n (fun i j => F64.toRat (A.elem i j)) (p + q) →
        F64.ExactProduct n (powFun n (fun i j => F64.toRat (A.elem i j)) p)
          (powFun n (fun i j => F64.toRat (A.elem i j)) q) →
        operatorEq L R = .ok true ∧
          ∀ i j : Nat, i < n → j < n →
            F64.toRat (L.elem i j) =
              powFun n (fun i j => F64.toRat (A.elem i j)) (p + q) i j ∧
            F64.toRat (R.elem i j) =
              powFun n (fun i j => F64.toRat (A.elem i j)) (p + q) i j) ∧
      (∀ (z : Nat → Nat → Int) (M : Nat), 1 ≤ M →
        (∀ i j : Nat, i < n → j < n → A.elem i j = F64.ofInt (z i j) ∧ (z i j).natAbs ≤ M) →
        n * (n * M) ^ (p + q) < 2 ^ 53 →
        operatorEq L R = .ok true) := by
  have hn := hA.1
  have hR : operatorPow A ((p : Int) + (q : Int)) = .ok (ofFun n (powFun n A.elem (p + q))) := by
    have := WF.operatorPow_eq h1 hA (p + q)
    rw [Nat.cast_add] at this
    exact this
  have hLe : ∀ i j : Nat, i < n → j < n →
      (ofFun n (fun i j => sumLeft n fun k =>
        powFun n A.elem p i k * powFun n A.elem q k j)).elem i j =
      mulFun n (powFun n A.elem p) (powFun n A.elem q) i j :=
    fun i j hi hj => ofFun_elem _ hi hj
  have hRe : ∀ i j : Nat, i < n → j < n →
      (ofFun n (powFun n A.elem (p + q))).elem i j = powFun n A.elem (p + q) i j :=
    fun i j hi hj => ofFun_elem _ hi hj
  have heq : (∀ i j : Nat, i < n → j < n →
      FloatNe.ne (mulFun n (powFun n A.elem p) (powFun n A.elem q) i j)
        (powFun n A.elem (p + q) i j) = false) →
      operatorEq (ofFun n (fun i j => sumLeft n fun k =>
        powFun n A.elem p i k * powFun n A.elem q k j))
        (ofFun n (powFun n A.elem (p + q))) = .ok true := by
    intro h
    rw [operatorEq_ofFun]
    congr 1
    rw [allBelow_iff]
    intro i hi
    rw [allBelow_iff]
    intro j hj
    have := h i j hi hj
    simp only [mulFun] at this
    simp [this]
  have htriv : (p = 0 ∨ q = 0) →
      (∀ i j : Nat, i < n → j < n →
        F64.IsFinite ((ofFun n (powFun n A.elem (p + q))).elem i j)) →
      operatorEq (ofFun n (fun i j => sumLeft n fun k =>
        powFun n A.elem p i k * powFun n A.elem q k j))
        (ofFun n (powFun n A.elem (p + q))) = .ok true := by
    intro hpq hfin
    have hWR : WF (ofFun n (powFun n A.elem (p + q))) n := ofFun_wf hn _
    obtain ⟨L', R', hL', hR', hLeq, hReq⟩ :=
      identity_mul_of_laws F64.identityLaws _ n h1 hWR hfin
    rcases hpq with rfl | rfl
    · have hP : ofFun n (powFun n A.elem 0) = (identity n : SquareMat F64) := rfl
      have hm := operatorMul_ofFun h1 hn (powFun n A.elem 0) (powFun n A.elem q)
      rw [hP] at hm
      have hq : powFun n A.elem (0 + q) = powFun n A.elem q := by rw [Nat.zero_add]
      rw [hq] at hR' hReq ⊢
      rw [hm] at hR'
      cases hR'
      exact hReq
    · have hQ : ofFun n (powFun n A.elem 0) = (identity n : SquareMat F64) := rfl
      have hm := operatorMul_ofFun h1 hn (powFun n A.elem p) (powFun n A.elem 0)
      rw [hQ] at hm
      have hq : powFun n A.elem (p + 0) = powFun n A.elem p := rfl
      rw [hq] at hL' hLeq ⊢
      rw [hm] at hL'
      cases hL'
      exact hLeq
  refine ⟨ofFun n (powFun n A.elem p), ofFun n (powFun n A.elem q),
    ofFun n (fun i j => sumLeft n fun k => powFun n A.elem p i k * powFun n A.elem q k j),
    ofFun n (powFun n A.elem (p + q)), WF.operatorPow_eq h1 hA p,
    WF.operatorPow_eq h1 hA q, operatorMul_ofFun h1 hn _ _, hR, ofFun_wf hn _, ofFun_wf hn _,
    htriv, ?_, ?_⟩
  · intro hfin hpow hprod
    have core := F64.power_law_core n A.elem (fun i j => F64.toRat (A.elem i j))
      (fun i j hi hj => ⟨hfin i j hi hj, rfl⟩) p q hpow hprod
    refine ⟨heq fun i j hi hj => (core i j hi hj).2.2, fun i j hi hj => ?_⟩
    rw [hLe i j hi hj, hRe i j hi hj]
    exact ⟨(core i j hi hj).1, (core i j hi hj).2.1⟩
  · intro z M hM hz hb
    by_cases h0 : p + q = 0
    · have hp0 : p = 0 := by omega
      refine htriv (Or.inl hp0) fun i j hi hj => ?_
      rw [hRe i j hi hj, h0]
      show F64.IsFinite (idFun i j)
      unfold idFun
      split
      · exact F64.isFinite_of_one
      · exact F64.isFinite_zero false
    · have hzb : ∀ i j : Nat, i < n → j < n → (z i j).natAbs < 2 ^ 53 := by
        intro i j hi hj
        have h1' := (hz i j hi hj).2
        have h2 : M ≤ n * M := Nat.le_mul_of_pos_left _ (by omega)
        have h3 : n * M ≤ n * (n * M) ^ (p + q) :=
          calc n * M ≤ (n * M) ^ (p + q) := Nat.le_self_pow h0 _
            _ ≤ n * (n * M) ^ (p + q) := Nat.le_mul_of_pos_left _ (by omega)
        omega
      obtain ⟨hpow, hprod⟩ := F64.exact_of_int n h1 z M hM
        (fun i j hi hj => (hz i j hi hj).2) p q hb
      have core := F64.power_law_core n A.elem (fun i j => (z i j : ℚ))
        (fun i j hi hj => by
          rw [(hz i j hi hj).1]
          exact F64.ofInt_exact _ (hzb i j hi hj)) p q hpow hprod
      exact heq fun i j hi hj => (core i j hi hj).2.2

/-- In exact arithmetic (a semiring in which `x != x` is false), for a matrix
`A` of dimension `n >= 1` and the identity `I` of dimension `n`, both products
succeed and `A * I == A` and `I * A == A` are true. -/
theorem identity_mul_exact [Semiring α] [FloatNe α] (hne : ∀ x : α, FloatNe.ne x x = false)
    (A : SquareMat α) (n : Nat) (h1 : 1 ≤ n) (hA : WF A n) :
    ∃ L R, operatorMul A (identity n) = .ok L ∧ operatorMul (identity n) A = .ok R ∧
      operatorEq L A = .ok true ∧ operatorEq R A = .ok true := by
  have hn := hA.1
  have hI : WF (identity n : SquareMat α) n := ofFun_wf hn _
  have hself : operatorEq (ofFun n A.elem) A = .ok true := by
    have := operatorEq_self (n := n) A.elem fun i j _ _ => hne (A.elem i j)
    rw [← operatorEq_withSize _ _ (n * n) A.size, ← hA.eq_ofFun] at this
    exact this
  have hL : ofFun n (fun i j => sumLeft n fun k => A.elem i k * (identity n).elem k j) =
      ofFun n A.elem := by
    apply ofFun_eq_of_toMat
    have : toMat n (identity n : SquareMat α).elem = 1 := by
      rw [← toMat_idFun]
      funext i j
      exact ofFun_elem idFun i.2 j.2
    rw [toMat_mul, this, mul_one]
  have hR : ofFun n (fun i j => sumLeft n fun k => (identity n).elem i k * A.elem k j) =
      ofFun n A.elem := by
    apply ofFun_eq_of_toMat
    have : toMat n (identity n : SquareMat α).elem = 1 := by
      rw [← toMat_idFun]
      funext i j
      exact ofFun_elem idFun i.2 j.2
    rw [toMat_mul, this, one_mul]
  refine ⟨ofFun n A.elem, ofFun n A.elem, ?_, ?_, hself, hself⟩
  · rw [WF.operatorMul_eq h1 hA hI, hL]
  · rw [WF.operatorMul_eq h1 hI hA, hR]

/-- C4 (amended): for a matrix `A` of doubles of dimension `n >= 1` all of
whose elements are finite (neither NaN nor an infinity), with `I` the identity
of dimension `n`, both products succeed and `A * I == A` and `I * A == A` are
true. -/
theorem C4_identity_finite (A : SquareMat F64) (n : Nat) (h1 : 1 ≤ n) (hA : WF A n)
    (hfin : ∀ i j, i < n → j < n → (A.elem i j).IsFinite) :
    ∃ L R, operatorMul A (identity n) = .ok L ∧ operatorMul (identity n) A = .ok R ∧
      operatorEq L A = .ok true ∧ operatorEq R A = .ok true :=
  identity_mul_of_laws F64.identityLaws A n h1 hA hfin

/-- C5 (amended): for every matrix `A` of dimension `n >= 1`, `~A` and `~(~A)`
succeed and `~(~A)` has the dimension, the rows and exactly the elements of
`A`, a NaN included; when no element of `A` is a NaN (`x != x` is false for
each element), `~(~A) == A` is true. -/
theorem C5_transpose_involution [Zero α] [FloatNe α] (A : SquareMat α) (n : Nat)
    (h1 : 1 ≤ n) (hA : WF A n) :
    ∃ T TT, operatorTilde A = .ok T ∧ operatorTilde T = .ok TT ∧
      TT.getRows = A.getRows ∧ TT.getCols = A.getCols ∧ TT.data = A.data ∧
      (∀ i j : Nat, i < n → j < n →
        T.idx i j = .ok (A.elem j i) ∧ TT.idx i j = .ok (A.elem i j) ∧
        TT.idx i j = A.idx i j) ∧
      ((∀ i j, i < n → j < n → FloatNe.ne (A.elem i j) (A.elem i j) = false) →
        operatorEq TT A = .ok true) := by
  have hn := hA.1
  have e := hA.eq_ofFun
  have hd : (ofFun n A.elem).data = A.data := by
    conv_rhs => rw [e]
    rfl
  refine ⟨ofFun n (fun i j => A.elem j i), ofFun n A.elem, WF.operatorTilde_eq h1 hA,
    operatorTilde_ofFun h1 hn _, ?_, ?_, hd, fun i j hi hj => ⟨?_, ?_, ?_⟩, fun hnan => ?_⟩
  · exact hA.2.1.symm
  · exact hA.2.2.1.symm
  · exact idx_ofFun hn _ hi hj
  · exact idx_ofFun hn _ hi hj
  · rw [idx_ofFun hn _ hi hj, WF.idx_eq hA hi hj]
  · have := operatorEq_self A.elem hnan
    rw [← operatorEq_withSize _ _ (n * n) A.size, ← e] at this
    exact this

/-- In exact arithmetic (a commutative ring), `operator!` on the identity
matrix of dimension `n >= 1` returns `1`. -/
theorem det_identity_exact [CommRing α] (n : Nat) (h1 : 1 ≤ n) (hn : n < 2 ^ 31) :
    operatorNot (identity n : SquareMat α) = .ok 1 := by
  rw [identity, operatorNot_ofFun h1 hn, detRec_eq_det n _ h1, toMat_idFun, Matrix.det_one]

/-- C6: for every dimension `n >= 1` (an `int`), `operator!` on the identity
matrix of doubles of dimension `n` returns `1`. -/
theorem C6_det_identity (n : Nat) (h1 : 1 ≤ n) (hn : n < 2 ^ 31) :
    WF (identity n : SquareMat F64) n ∧ operatorNot (identity n : SquareMat F64) = .ok 1 := by
  refine ⟨ofFun_wf hn _, ?_⟩
  obtain ⟨k, rfl⟩ : ∃ k, n = k + 1 := ⟨n - 1, by omega⟩
  rw [identity, operatorNot_ofFun h1 hn, detRec_idFun F64.detLaws k]

/-- In exact arithmetic (a commutative ring), for a matrix `A` of dimension
`n >= 1` in which some row consists only of zeros, or some column consists
only of zeros, `operator!` returns `0`. -/
theorem det_zero_line_exact [CommRing α] (A : SquareMat α) (n : Nat) (h1 : 1 ≤ n)
    (hA : WF A n)
    (hz : (∃ i, i < n ∧ ∀ j, j < n → A.elem i j = 0) ∨
      (∃ j, j < n ∧ ∀ i, i < n → A.elem i j = 0)) :
    operatorNot A = .ok 0 := by
  rw [WF.operatorNot_eq h1 hA, detRec_eq_det n _ h1]
  congr 1
  rcases hz with ⟨i, hi, h⟩ | ⟨j, hj, h⟩
  · exact Matrix.det_eq_zero_of_row_eq_zero ⟨i, hi⟩ fun j => h j j.2
  · exact Matrix.det_eq_zero_of_column_eq_zero ⟨j, hj⟩ fun i => h i i.2

/-- C7 (amended): for a matrix `A` of finite doubles of dimension `n >= 1` in
which some row consists only of zeros, or some column consists only of zeros
(`0.0` or `-0.0`), `operator!` returns a zero, that is a value `d` of the form
`+-0` for which `d != 0` is false, provided that no determinant of a minor
overflows in the recursion (`MinorsFinite`). -/
theorem C7_det_zero_line (A : SquareMat F64) (n : Nat) (h1 : 1 ≤ n) (hA : WF A n)
    (hfin : ∀ i j : Nat, i < n → j < n → F64.IsFinite (A.elem i j))
    (hmin : MinorsFinite n A.elem)
    (hz : (∃ i, i < n ∧ ∀ j, j < n → IsZero (A.elem i j)) ∨
      (∃ j, j < n ∧ ∀ i, i < n → IsZero (A.elem i j))) :
    ∃ d : F64, operatorNot A = .ok d ∧ IsZero d ∧ FloatNe.ne d 0 = false ∧
      ∃ (s : Bool) (e : Int), d = F64.fin s 0 e := by
  have hd := detRec_zero_line n A.elem h1 hfin hmin hz
  exact ⟨_, WF.operatorNot_eq h1 hA, hd, hd, (F64.isZero_iff _).mp hd⟩

/-- C8: `SquareMat(rows, columns)` fails, with `invalid_argument`, if and only
if `rows != columns` or `rows <= 0`; otherwise it yields a matrix with
`getRows() == getCols() == rows` holding `rows` rows of `rows` elements, every
one of them `0`. -/
theorem C8_ctor [Zero α] (rows columns : Int) :
    ((∃ e, ctor (α := α) rows columns = .error e) ↔ (rows ≠ columns ∨ rows ≤ 0)) ∧
    ((rows ≠ columns ∨ rows ≤ 0) → ctor (α := α) rows columns = .error .invalid_argument) ∧
    (¬ (rows ≠ columns ∨ rows ≤ 0) →
      ∃ m : SquareMat α, ctor rows columns = .ok m ∧ m.getRows = rows ∧ m.getCols = rows ∧
        m.data.length = rows.toNat ∧ (∀ r ∈ m.data, r.length = rows.toNat) ∧
        ∀ i j : Int, 0 ≤ i → i < rows → 0 ≤ j → j < rows → m.operatorCall i j = .ok 0) := by
  by_cases h : rows ≠ columns ∨ rows ≤ 0
  · have herr : ctor (α := α) rows columns = .error .invalid_argument := by
      unfold ctor
      rcases h with h | h
      · simp [h]
      · by_cases hrc : rows = columns
        · simp [hrc]; subst hrc; simp [h]
        · simp [hrc]
    exact ⟨⟨fun _ => h, fun _ => ⟨_, herr⟩⟩, fun _ => herr, fun hn => absurd h hn⟩
  · have hrc : rows = columns := by
      by_contra hne; exact h (Or.inl hne)
    have hpos : 0 < rows := by
      by_contra hle; exact h (Or.inr (not_lt.mp hle))
    subst hrc
    obtain ⟨n, rfl⟩ := Int.eq_ofNat_of_zero_le (le_of_lt hpos)
    have h1 : 1 ≤ n := by omega
    have hok := ctor_ofFun (α := α) h1
    refine ⟨⟨fun ⟨e, he⟩ => ?_, fun h' => absurd h' h⟩, fun h' => absurd h' h, fun _ => ?_⟩
    · rw [hok] at he; cases he
    · refine ⟨_, hok, rfl, rfl, by simp [ofFun], ?_, ?_⟩
      · intro r hr
        simp only [ofFun, List.mem_map, List.mem_range] at hr
        obtain ⟨i, _, rfl⟩ := hr
        simp
      · intro i j hi0 hin hj0 hjn
        obtain ⟨i', rfl⟩ := Int.eq_ofNat_of_zero_le hi0
        obtain ⟨j', rfl⟩ := Int.eq_ofNat_of_zero_le hj0
        exact operatorCall_ofFun _ (by omega) (by omega)

/-- C9: on a matrix of dimension `n`, `operator()(row, col)` fails, with
`out_of_range`, if and only if `row < 0`, `row >= n`, `col < 0` or `col >= n`,
in the const form and in the mutable form alike; otherwise the const form reads
the element stored at `(row, col)` and an assignment through the mutable form
replaces exactly that element, leaving `rows`, `columns` and `size` as they
were. -/
theorem C9_operatorCall [Zero α] (m : SquareMat α) (n : Nat) (hm : WF m n) (row col : Int)
    (v : α) :
    ((∃ e, m.operatorCall row col = .error e) ↔ (row < 0 ∨ row ≥ n ∨ col < 0 ∨ col ≥ n)) ∧
    ((∃ e, m.operatorCallSet row col v = .error e) ↔
      (row < 0 ∨ row ≥ n ∨ col < 0 ∨ col ≥ n)) ∧
    ((row < 0 ∨ row ≥ n ∨ col < 0 ∨ col ≥ n) →
      m.operatorCall row col = .error .out_of_range ∧
      m.operatorCallSet row col v = .error .out_of_range) ∧
    (¬ (row < 0 ∨ row ≥ n ∨ col < 0 ∨ col ≥ n) →
      m.operatorCall row col = .ok (m.elem row.toNat col.toNat) ∧
      m.operatorCallSet row col v =
        .ok ((ofFun n (upd m.elem row.toNat col.toNat v)).withSize m.size)) := by
  have hr : m.rows = n := hm.2.1
  have hc : m.columns = n := hm.2.2.1
  by_cases h : row < 0 ∨ row ≥ n ∨ col < 0 ∨ col ≥ n
  · have e1 : m.operatorCall row col = .error .out_of_range := by
      simp only [operatorCall, hr, hc, h, if_true]
    have e2 : m.operatorCallSet row col v = .error .out_of_range := by
      simp only [operatorCallSet, hr, hc, h, if_true]
    exact ⟨⟨fun _ => h, fun _ => ⟨_, e1⟩⟩, ⟨fun _ => h, fun _ => ⟨_, e2⟩⟩,
      fun _ => ⟨e1, e2⟩, fun hn => absurd h hn⟩
  · have hrow0 : 0 ≤ row := by omega
    have hcol0 : 0 ≤ col := by omega
    obtain ⟨i, rfl⟩ := Int.eq_ofNat_of_zero_le hrow0
    obtain ⟨j, rfl⟩ := Int.eq_ofNat_of_zero_le hcol0
    have hi : i < n := by omega
    have hj : j < n := by omega
    have e1 := WF.operatorCall_eq hm hi hj
    have e2 := WF.operatorCallSet_eq hm hi hj v
    simp only [Int.toNat_ofNat]
    refine ⟨⟨fun ⟨e', he⟩ => ?_, fun h' => absurd h' h⟩,
      ⟨fun ⟨e', he⟩ => ?_, fun h' => absurd h' h⟩, fun h' => absurd h' h, fun _ => ⟨e1, e2⟩⟩
    · rw [e1] at he; cases he
    · rw [e2] at he; cases he

/-- C10: on a matrix of dimension `n`, the row operator `[]` called with an
index `i` of a 64-bit integer type (converted to `size_t` modulo `2^64`) fails,
with `out_of_range`, if and only if `i` is not in `[0, n)`, so every negative
index is rejected; for `i` in `[0, n)` it returns row `i`, whose elements are
those of row `i` of the matrix. -/
theorem C10_operatorIndex [Zero α] (m : SquareMat α) (n : Nat) (hm : WF m n) (i : Int)
    (hlo : -(2 ^ 63) ≤ i) (hhi : i < 2 ^ 64) :
    ((∃ e, m.operatorIndex (toSizeT i) = .error e) ↔ ¬ (0 ≤ i ∧ i < n)) ∧
    (¬ (0 ≤ i ∧ i < n) → m.operatorIndex (toSizeT i) = .error .out_of_range) ∧
    ((0 ≤ i ∧ i < n) → m.operatorIndex (toSizeT i) = .ok i.toNat ∧
      ∀ j : Nat, j < n → m.raw (i.toNat : Nat) j = .ok (m.elem i.toNat j)) := by
  have hn : n < 2 ^ 31 := hm.1
  have hr : m.rows = n := hm.2.1
  have hrows : toSizeT m.rows = n := by
    rw [hr]; exact toSizeT_natCast n (by omega)
  by_cases h : 0 ≤ i ∧ i < n
  · obtain ⟨k, rfl⟩ := Int.eq_ofNat_of_zero_le h.1
    have hk : k < n := by omega
    have e1 := WF.operatorIndex_eq hm hk
    simp only [Int.toNat_ofNat]
    refine ⟨⟨fun ⟨e', he⟩ => ?_, fun h' => absurd h h'⟩, fun h' => absurd h h',
      fun _ => ⟨e1, fun j hj => WF.raw_eq hm hk hj⟩⟩
    rw [e1] at he; cases he
  · have hge : toSizeT i ≥ n := by
      unfold toSizeT
      by_cases hneg : i < 0
      · have : i % 2 ^ 64 = i + 2 ^ 64 := by omega
        rw [this]
        omega
      · have : i % 2 ^ 64 = i := Int.emod_eq_of_lt (by omega) hhi
        rw [this]
        omega
    have e1 : m.operatorIndex (toSizeT i) = .error .out_of_range := by
      simp only [operatorIndex, hrows, hge, if_true]
    exact ⟨⟨fun _ => h, fun _ => ⟨_, e1⟩⟩, fun _ => e1, fun h' => absurd h' h⟩

/-- On matrices of different dimensions the four binary operators throw
`invalid_argument`. -/
theorem dimension_mismatch [Zero α] [Add α] [Sub α] [Mul α] (A B : SquareMat α) {n m : Nat}
    (hA : WF A n) (hB : WF B m) (hne : n ≠ m) :
    operatorAdd A B = .error .invalid_argument ∧
    operatorSub A B = .error .invalid_argument ∧
    operatorMul A B = .error .invalid_argument ∧
    operatorMod A B = .error .invalid_argument := by
  have hmis := WF.mismatch hA hB hne
  refine ⟨?_, ?_, ?_, ?_⟩
  · simp only [operatorAdd, hmis, if_true]
  · simp only [operatorSub, hmis, if_true]
  · simp only [operatorMul, hmis, if_true]
  · simp only [operatorMod, hmis, if_true]

/-- C11: for matrices `A` and `B` of different dimensions, each of `A + B`,
`A - B`, `A * B` and `A % B` fails with `invalid_argument`; for matrices of the
same dimension `n >= 1` none of the four fails. -/
theorem C11_dimension_mismatch [Zero α] [Add α] [Sub α] [Mul α] (A B : SquareMat α)
    (n m : Nat) (hA : WF A n) (hB : WF B m) :
    (n ≠ m →
      operatorAdd A B = .error .invalid_argument ∧
      operatorSub A B = .error .invalid_argument ∧
      operatorMul A B = .error .invalid_argument ∧
      operatorMod A B = .error .invalid_argument) ∧
    (n = m → 1 ≤ n →
      (∃ R, operatorAdd A B = .ok R) ∧ (∃ R, operatorSub A B = .ok R) ∧
      (∃ R, operatorMul A B = .ok R) ∧ (∃ R, operatorMod A B = .ok R)) := by
  refine ⟨fun hne => dimension_mismatch A B hA hB hne, fun heq h1 => ?_⟩
  · subst heq
    exact ⟨⟨_, WF.operatorAdd_eq h1 hA hB⟩, ⟨_, WF.operatorSub_eq h1 hA hB⟩,
      ⟨_, WF.operatorMul_eq h1 hA hB⟩, ⟨_, WF.operatorMod_eq h1 hA hB⟩⟩

/-- C12: for every matrix `A`, `A / s` with `s == 0.0` and `A % 0` fail with
`invalid_argument`; for a matrix `A` of dimension `n >= 1`, `A / s` with
`s != 0.0` and `A % k` with `k != 0` return a matrix of dimension `n`. -/
theorem C12_division_by_zero [Zero α] [Div α] [FloatNe α] [IntCast α] [FloatMod α]
    (A : SquareMat α) (s : α) (k : Int) :
    (FloatNe.ne s 0 = false → operatorDiv A s = .error .invalid_argument) ∧
    operatorModInt A 0 = .error .invalid_argument ∧
    ∀ n : Nat, 1 ≤ n → WF A n →
      (FloatNe.ne s 0 = true → ∃ R, operatorDiv A s = .ok R ∧ WF R n) ∧
      (k ≠ 0 → ∃ R, operatorModInt A k = .ok R ∧ WF R n) := by
  refine ⟨fun hs => ?_, ?_, fun n h1 hA => ⟨fun hs => ?_, fun hk => ?_⟩⟩
  · simp only [operatorDiv, hs, if_true]
  · simp only [operatorModInt, if_true]
  · exact ⟨_, WF.operatorDiv_eq h1 hA hs, ofFun_wf hA.1 _⟩
  · exact ⟨_, WF.operatorModInt_eq h1 hA hk, ofFun_wf hA.1 _⟩

/-- C13: for a matrix `A` of dimension `n >= 1` and an `int` `e`, `A ^ e` fails
if and only if `e < 0`, then with `invalid_argument`; otherwise it returns a
matrix of dimension `n`. -/
theorem C13_negative_exponent [Zero α] [One α] [Add α] [Mul α] (A : SquareMat α) (n : Nat)
    (h1 : 1 ≤ n) (hA : WF A n) (e : Int) :
    ((∃ err, operatorPow A e = .error err) ↔ e < 0) ∧
    (e < 0 → operatorPow A e = .error .invalid_argument) ∧
    (0 ≤ e → ∃ R, operatorPow A e = .ok R ∧ WF R n) := by
  have hneg : e < 0 → operatorPow A e = .error .invalid_argument := by
    intro he
    simp only [operatorPow, he, if_true]
  have hpos : 0 ≤ e → ∃ R, operatorPow A e = .ok R ∧ WF R n := by
    intro he
    obtain ⟨p, rfl⟩ := Int.eq_ofNat_of_zero_le he
    exact ⟨_, WF.operatorPow_eq h1 hA p, ofFun_wf hA.1 _⟩
  refine ⟨⟨fun ⟨err, herr⟩ => ?_, fun he => ⟨_, hneg he⟩⟩, hneg, hpos⟩
  by_contra hge
  obtain ⟨R, hR, _⟩ := hpos (not_lt.mp hge)
  rw [hR] at herr
  cases herr

end SquareMat

namespace Heap

variable {α : Type}

open SquareMat

theorem assignFrom_error (h : Heap α) (this : Nat) (e : Error) :
    assignFrom h this (.error e) = (.error e, h) := rfl

theorem assignFrom_ok (h : Heap α) (this : Nat) (R : SquareMat α) :
    assignFrom h this (.ok R) = (.ok this, Function.update h this R) := rfl

/-- A compound assignment that throws leaves every object as it was. -/
theorem assignFrom_keeps (h : Heap α) (this : Nat) (r : Except Error (SquareMat α))
    (e : Error) (hr : (assignFrom h this r).1 = .error e) : (assignFrom h this r).2 = h := by
  cases r with
  | error e' => rfl
  | ok R => rw [assignFrom_ok] at hr; cases hr

/-- C14: a compound assignment that fails leaves the heap as it was, so that
`*this` and the right-hand operand keep their dimension and elements: this
holds for `+=`, `-=`, `*=` and `%=` on operands of different dimensions, for
`/=` with a divisor `== 0.0` and for `%=` with the `int` 0, which all fail with
`invalid_argument`, and for every other failure of the seven operators. -/
theorem C14_failed_assignment [Zero α] [Add α] [Sub α] [Mul α] [Div α] [FloatNe α]
    [IntCast α] [FloatMod α] (h : Heap α) (a b : Nat) (s : α) (k : Int) :
    (∀ n m : Nat, WF (h a) n → WF (h b) m → n ≠ m →
      operatorAddAssign h a b = (.error .invalid_argument, h) ∧
      operatorSubAssign h a b = (.error .invalid_argument, h) ∧
      operatorMulAssign h a b = (.error .invalid_argument, h) ∧
      operatorModAssign h a b = (.error .invalid_argument, h)) ∧
    (FloatNe.ne s 0 = false → operatorDivAssign h a s = (.error .invalid_argument, h)) ∧
    operatorModIntAssign h a 0 = (.error .invalid_argument, h) ∧
    (∀ e, (operatorAddAssign h a b).1 = .error e → (operatorAddAssign h a b).2 = h) ∧
    (∀ e, (operatorSubAssign h a b).1 = .error e → (operatorSubAssign h a b).2 = h) ∧
    (∀ e, (operatorMulAssign h a b).1 = .error e → (operatorMulAssign h a b).2 = h) ∧
    (∀ e, (operatorModAssign h a b).1 = .error e → (operatorModAssign h a b).2 = h) ∧
    (∀ e, (operatorMulScalarAssign h a s).1 = .error e →
      (operatorMulScalarAssign h a s).2 = h) ∧
    (∀ e, (operatorDivAssign h a s).1 = .error e → (operatorDivAssign h a s).2 = h) ∧
    (∀ e, (operatorModIntAssign h a k).1 = .error e →
      (operatorModIntAssign h a k).2 = h) := by
  refine ⟨fun n m hA hB hne => ?_, fun hs => ?_, ?_, fun e => assignFrom_keeps _ _ _ e,
    fun e => assignFrom_keeps _ _ _ e, fun e => assignFrom_keeps _ _ _ e,
    fun e => assignFrom_keeps _ _ _ e, fun e => assignFrom_keeps _ _ _ e,
    fun e => assignFrom_keeps _ _ _ e, fun e => assignFrom_keeps _ _ _ e⟩
  · obtain ⟨h1, h2, h3, h4⟩ := (dimension_mismatch (h a) (h b) hA hB) hne
    refine ⟨?_, ?_, ?_, ?_⟩
    · rw [operatorAddAssign, h1, assignFrom_error]
    · rw [operatorSubAssign, h2, assignFrom_error]
    · rw [operatorMulAssign, h3, assignFrom_error]
    · rw [operatorModAssign, h4, assignFrom_error]
  · have : operatorDiv (h a) s = .error .invalid_argument := by
      simp only [operatorDiv, hs, if_true]
    rw [operatorDivAssign, this, assignFrom_error]
  · have : operatorModInt (h a) 0 = .error .invalid_argument := by
      simp only [operatorModInt, if_true]
    rw [operatorModIntAssign, this, assignFrom_error]

/-- C15: when the binary operator succeeds on the states before the call,
`A op= x` returns `*this` and leaves in `A` exactly the value of `A op x`, every
other object being as before, for each of `+=`, `-=`, `*=` (matrix and scalar),
`/=` and `%=` (`int` and matrix); this holds when `x` is `A` itself, and
`A += A` leaves the sum of every element with itself. -/
theorem C15_compound_assignment [Zero α] [Add α] [Sub α] [Mul α] [Div α] [FloatNe α]
    [IntCast α] [FloatMod α] (h : Heap α) (a b : Nat) (s : α) (k : Int) :
    (∀ R, operatorAdd (h a) (h b) = .ok R →
      operatorAddAssign h a b = (.ok a, Function.update h a R)) ∧
    (∀ R, operatorSub (h a) (h b) = .ok R →
      operatorSubAssign h a b = (.ok a, Function.update h a R)) ∧
    (∀ R, operatorMul (h a) (h b) = .ok R →
      operatorMulAssign h a b = (.ok a, Function.update h a R)) ∧
    (∀ R, operatorMulScalar (h a) s = .ok R →
      operatorMulScalarAssign h a s = (.ok a, Function.update h a R)) ∧
    (∀ R, operatorDiv (h a) s = .ok R →
      operatorDivAssign h a s = (.ok a, Function.update h a R)) ∧
    (∀ R, operatorModInt (h a) k = .ok R →
      operatorModIntAssign h a k = (.ok a, Function.update h a R)) ∧
    (∀ R, operatorMod (h a) (h b) = .ok R →
      operatorModAssign h a b = (.ok a, Function.update h a R)) ∧
    (∀ n : Nat, 1 ≤ n → WF (h a) n →
      operatorAddAssign h a a =
        (.ok a, Function.update h a (ofFun n fun i j => (h a).elem i j + (h a).elem i j))) := by
  refine ⟨fun R hR => ?_, fun R hR => ?_, fun R hR => ?_, fun R hR => ?_, fun R hR => ?_,
    fun R hR => ?_, fun R hR => ?_, fun n h1 hA => ?_⟩
  · rw [operatorAddAssign, hR, assignFrom_ok]
  · rw [operatorSubAssign, hR, assignFrom_ok]
  · rw [operatorMulAssign, hR, assignFrom_ok]
  · rw [operatorMulScalarAssign, hR, assignFrom_ok]
  · rw [operatorDivAssign, hR, assignFrom_ok]
  · rw [operatorModIntAssign, hR, assignFrom_ok]
  · rw [operatorModAssign, hR, assignFrom_ok]
  · rw [operatorAddAssign, WF.operatorAdd_eq h1 hA hA, assignFrom_ok]

end Heap

namespace SquareMat

variable {α : Type}

/-- C16: for matrices `A` and `B` of the same dimension `n >= 1`, `A + B` is a
matrix `R` of dimension `n` with `R[i][j] = A[i][j] + B[i][j]` for all
`i, j < n`; the operands are only read. -/
theorem C16_operatorAdd_entries [Zero α] [Add α] (A B : SquareMat α) (n : Nat) (h1 : 1 ≤ n)
    (hA : WF A n) (hB : WF B n) :
    ∃ R, operatorAdd A B = .ok R ∧ WF R n ∧
      ∀ i j : Nat, i < n → j < n → R.idx i j = .ok (A.elem i j + B.elem i j) :=
  ⟨ofFun n fun i j => A.elem i j + B.elem i j, WF.operatorAdd_eq h1 hA hB, ofFun_wf hA.1 _,
    fun _ _ hi hj => idx_ofFun hA.1 _ hi hj⟩

/-- C17: for matrices `A` and `B` of the same dimension `n >= 1`, `A - B` is a
matrix `R` of dimension `n` with `R[i][j] = A[i][j] - B[i][j]` for all
`i, j < n`. -/
theorem C17_operatorSub_entries [Zero α] [Sub α] (A B : SquareMat α) (n : Nat) (h1 : 1 ≤ n)
    (hA : WF A n) (hB : WF B n) :
    ∃ R, operatorSub A B = .ok R ∧ WF R n ∧
      ∀ i j : Nat, i < n → j < n → R.idx i j = .ok (A.elem i j - B.elem i j) :=
  ⟨ofFun n fun i j => A.elem i j - B.elem i j, WF.operatorSub_eq h1 hA hB, ofFun_wf hA.1 _,
    fun _ _ hi hj => idx_ofFun hA.1 _ hi hj⟩

/-- C18: for a matrix `A` of dimension `n >= 1` and a scalar `s`, `A * s` and
`s * A` both succeed and return the same matrix `R` of dimension `n`, with
`R[i][j] = A[i][j] * s` for all `i, j < n`. -/
theorem C18_scalar_product [Zero α] [Mul α] (A : SquareMat α) (n : Nat) (h1 : 1 ≤ n)
    (hA : WF A n) (s : α) :
    ∃ R, operatorMulScalar A s = .ok R ∧ operatorScalarMul s A = .ok R ∧ WF R n ∧
      ∀ i j : Nat, i < n → j < n → R.idx i j = .ok (A.elem i j * s) :=
  ⟨ofFun n fun i j => A.elem i j * s, WF.operatorMulScalar_eq h1 hA s,
    WF.operatorMulScalar_eq h1 hA s, ofFun_wf hA.1 _, fun _ _ hi hj => idx_ofFun hA.1 _ hi hj⟩

/-- C19: for a matrix `A` of dimension `n >= 1` and a scalar `s != 0.0`, `A / s`
is a matrix `R` of dimension `n` with `R[i][j] = A[i][j] / s` for all
`i, j < n`. -/
theorem C19_operatorDiv_entries [Zero α] [Div α] [FloatNe α] (A : SquareMat α) (n : Nat)
    (h1 : 1 ≤ n) (hA : WF A n) (s : α) (hs : FloatNe.ne s 0 = true) :
    ∃ R, operatorDiv A s = .ok R ∧ WF R n ∧
      ∀ i j : Nat, i < n → j < n → R.idx i j = .ok (A.elem i j / s) :=
  ⟨ofFun n fun i j => A.elem i j / s, WF.operatorDiv_eq h1 hA hs, ofFun_wf hA.1 _,
    fun _ _ hi hj => idx_ofFun hA.1 _ hi hj⟩

/-- C21 (amended): for a matrix `A` of doubles of dimension `n >= 1` all of
whose elements are finite, and an `int` `k != 0`, `(A % k)[i][j]` is
`std::fmod(A[i][j], k)`, a finite double `r` whose value is exactly
`A[i][j] - k * trunc(A[i][j] / k)`, so that `|r| < |k|`; `r` has the sign bit
of `A[i][j]` and is zero or of the sign of `A[i][j]`. -/
theorem C21_scalar_modulo (A : SquareMat F64) (n : Nat) (h1 : 1 ≤ n) (hA : WF A n) (k : Int)
    (hk : k ≠ 0) (hint : -(2 ^ 31) ≤ k ∧ k < 2 ^ 31)
    (hfin : ∀ i j : Nat, i < n → j < n → (A.elem i j).IsFinite) :
    ∃ R, operatorModInt A k = .ok R ∧ WF R n ∧
      ∀ i j : Nat, i < n → j < n →
        ∃ r : F64, R.idx i j = .ok r ∧ r = F64.fmod (A.elem i j) (F64.ofInt k) ∧
          r.IsFinite ∧
          r.toRat = (A.elem i j).toRat -
            (k : ℚ) * (truncQ ((A.elem i j).toRat / (k : ℚ)) : ℚ) ∧
          |r.toRat| < |(k : ℚ)| ∧
          r.signBit = (A.elem i j).signBit ∧
          (r.toRat = 0 ∨ (0 < r.toRat ∧ 0 < (A.elem i j).toRat) ∨
            (r.toRat < 0 ∧ (A.elem i j).toRat < 0)) := by
  refine ⟨_, WF.operatorModInt_eq h1 hA hk, ofFun_wf hA.1 _, fun i j hi hj => ?_⟩
  obtain ⟨h1, h2, h3, h4, h5⟩ := F64.fmod_spec (A.elem i j) (hfin i j hi hj) k hk hint
  exact ⟨_, idx_ofFun hA.1 _ hi hj, rfl, h1, h2, h3, h4, h5⟩

/-- C22 (amended): for a matrix `A` of dimension `n >= 1`, `A ^ 0` is the
identity matrix of dimension `n`; for every integer `k >= 0`, `A ^ (k + 1)` is
the same matrix as `(A ^ k) * A`, and `A ^ (k + 1) == (A ^ k) * A` is true when
none of its elements is a NaN; `A ^ e` is the identity multiplied from the
right by `A` exactly `e` times; and `A ^ 1 == A` is true when every element of
`A` is finite (stated with the laws `IdentityLaws`, which the finite doubles
satisfy). -/
theorem C22_power_steps [Zero α] [One α] [Add α] [Mul α] [FloatNe α] (A : SquareMat α)
    (n : Nat) (h1 : 1 ≤ n) (hA : WF A n) :
    operatorPow A 0 = .ok (identity n) ∧
    (∀ k : Int, 0 ≤ k → ∃ P Q R, operatorPow A k = .ok P ∧ operatorMul P A = .ok Q ∧
      operatorPow A (k + 1) = .ok R ∧ R = Q ∧
      ((∀ i j : Nat, i < n → j < n → FloatNe.ne (R.elem i j) (R.elem i j) = false) →
        operatorEq R Q = .ok true)) ∧
    (∀ e : Nat, operatorPow A (e : Int) = .ok (ofFun n (powFun n A.elem e))) ∧
    (∀ fin : α → Prop, IdentityLaws α fin → (∀ i j : Nat, i < n → j < n → fin (A.elem i j)) →
      ∃ R, operatorPow A 1 = .ok R ∧ operatorEq R A = .ok true) := by
  have hn := hA.1
  refine ⟨WF.operatorPow_eq h1 hA 0, fun k hk => ?_, fun e => WF.operatorPow_eq h1 hA e,
    fun fin laws hfin => ?_⟩
  · obtain ⟨p, rfl⟩ := Int.eq_ofNat_of_zero_le hk
    have hP : WF (ofFun n (powFun n A.elem p)) n := ofFun_wf hn _
    have hQR : ofFun n (powFun n A.elem (p + 1)) =
        ofFun n fun i j => sumLeft n fun k =>
          (ofFun n (powFun n A.elem p)).elem i k * A.elem k j :=
      ofFun_congr fun i j hi _ =>
        sumLeft_congr fun k hk => by rw [ofFun_elem _ hi hk]
    refine ⟨_, _, _, WF.operatorPow_eq h1 hA p, WF.operatorMul_eq h1 hP hA,
      WF.operatorPow_eq h1 hA (p + 1), hQR, fun hnan => ?_⟩
    rw [← hQR]
    exact operatorEq_self _ fun i j hi hj => by
      have := hnan i j hi hj
      rwa [ofFun_elem _ hi hj] at this
  · obtain ⟨L, R, -, hR, -, hRA⟩ := identity_mul_of_laws laws A n h1 hA hfin
    have hI : WF (identity n : SquareMat α) n := ofFun_wf hn _
    have e : ofFun n (powFun n A.elem 1) =
        ofFun n fun i j => sumLeft n fun k => (identity n : SquareMat α).elem i k * A.elem k j :=
      ofFun_congr fun i j hi _ =>
        sumLeft_congr fun k hk => by
          show idFun i k * A.elem k j = _
          rw [identity, ofFun_elem _ hi hk]
    rw [WF.operatorMul_eq h1 hI hA] at hR
    refine ⟨_, WF.operatorPow_eq h1 hA 1, ?_⟩
    rw [e]
    cases hR
    exact hRA

/-- C23: for a matrix `A` of dimension `n >= 1`, `~A` succeeds and is the
matrix `R` of dimension `n` with `R[i][j] = A[j][i]` for all `i, j < n`; `A` is
only read. -/
theorem C23_transpose_entries [Zero α] (A : SquareMat α) (n : Nat) (h1 : 1 ≤ n)
    (hA : WF A n) :
    ∃ R, operatorTilde A = .ok R ∧ WF R n ∧
      ∀ i j : Nat, i < n → j < n → R.idx i j = .ok (A.elem j i) :=
  ⟨ofFun n fun i j => A.elem j i, WF.operatorTilde_eq h1 hA, ofFun_wf hA.1 _,
    fun _ _ hi hj => idx_ofFun hA.1 _ hi hj⟩

end SquareMat

namespace Heap

variable {α : Type}

open SquareMat

/-- For a matrix `A` of dimension `n` over any element type, stored at address
`a`: `++A` returns a reference to `A` and leaves in `A` the matrix `A'` of the
same dimension with `A'[i][j] = A[i][j] + 1`; `A++` leaves the same `A'` in `A`
and returns the matrix `A` was before the call; `--A` and `A--` do the same
with `A[i][j] - 1`.  No other object changes. -/
theorem increment_decrement_any [Zero α] [One α] [Add α] [Sub α] (h : Heap α) (a n : Nat)
    (hA : WF (h a) n) :
    ∃ Ainc Adec : SquareMat α,
      WF Ainc n ∧ WF Adec n ∧
      (∀ i j : Nat, i < n → j < n →
        Ainc.idx i j = .ok ((h a).elem i j + 1) ∧ Adec.idx i j = .ok ((h a).elem i j - 1)) ∧
      Heap.operatorInc h a = .ok (a, Function.update h a Ainc) ∧
      Heap.operatorPostInc h a = .ok (h a, Function.update h a Ainc) ∧
      Heap.operatorDec h a = .ok (a, Function.update h a Adec) ∧
      Heap.operatorPostDec h a = .ok (h a, Function.update h a Adec) := by
  have hn := hA.1
  have hinc : Heap.operatorInc h a = .ok (a, Function.update h a
      ((ofFun n fun i j => (h a).elem i j + 1).withSize (h a).size)) := by
    simp only [Heap.operatorInc, WF.operatorInc_eq hA, bind, Except.bind, pure, Except.pure]
  have hdec : Heap.operatorDec h a = .ok (a, Function.update h a
      ((ofFun n fun i j => (h a).elem i j - 1).withSize (h a).size)) := by
    simp only [Heap.operatorDec, WF.operatorDec_eq hA, bind, Except.bind, pure, Except.pure]
  refine ⟨_, _, withSize_wf (ofFun_wf hn _) _, withSize_wf (ofFun_wf hn _) _,
    fun i j hi hj => ⟨?_, ?_⟩, hinc, ?_, hdec, ?_⟩
  · rw [idx_withSize]; exact idx_ofFun hn _ hi hj
  · rw [idx_withSize]; exact idx_ofFun hn _ hi hj
  · simp only [Heap.operatorPostInc, WF.copy_eq hA, hinc, bind, Except.bind, pure, Except.pure]
  · simp only [Heap.operatorPostDec, WF.copy_eq hA, hdec, bind, Except.bind, pure, Except.pure]

/-- C24 (amended): for a matrix `A` of doubles of dimension `n`, stored at
address `a`: `++A` returns a reference to `A` and leaves in `A` the matrix `A'`
of the same dimension with `A'[i][j] = A[i][j] + 1.0`, the sum of doubles,
rounded to nearest; it is `A[i][j]` increased by exactly 1 whenever that
number is a double, as for every integer of magnitude below `2^53`.  `A++`
leaves the same `A'` in `A` and returns the matrix `A` was before the call;
`--A` and `A--` do the same with `A[i][j] - 1.0`.  No other object changes. -/
theorem C24_increment_decrement (h : Heap F64) (a n : Nat) (hA : WF (h a) n) :
    ∃ Ainc Adec : SquareMat F64,
      WF Ainc n ∧ WF Adec n ∧
      (∀ i j : Nat, i < n → j < n →
        Ainc.idx i j = .ok ((h a).elem i j + 1) ∧ Adec.idx i j = .ok ((h a).elem i j - 1) ∧
        Ainc.elem i j = (h a).elem i j + 1 ∧ Adec.elem i j = (h a).elem i j - 1 ∧
        (F64.IsFinite ((h a).elem i j) →
          F64.Representable (F64.toRat ((h a).elem i j) + 1) →
          F64.IsFinite (Ainc.elem i j) ∧
            F64.toRat (Ainc.elem i j) = F64.toRat ((h a).elem i j) + 1) ∧
        (F64.IsFinite ((h a).elem i j) →
          F64.Representable (F64.toRat ((h a).elem i j) - 1) →
          F64.IsFinite (Adec.elem i j) ∧
            F64.toRat (Adec.elem i j) = F64.toRat ((h a).elem i j) - 1) ∧
        (∀ z : Int, (z - 1).natAbs < 2 ^ 53 → z.natAbs < 2 ^ 53 → (z + 1).natAbs < 2 ^ 53 →
          (h a).elem i j = F64.ofInt z →
          F64.toRat (Ainc.elem i j) = (z : ℚ) + 1 ∧ F64.toRat (Adec.elem i j) = (z : ℚ) - 1)) ∧
      Heap.operatorInc h a = .ok (a, Function.update h a Ainc) ∧
      Heap.operatorPostInc h a = .ok (h a, Function.update h a Ainc) ∧
      Heap.operatorDec h a = .ok (a, Function.update h a Adec) ∧
      Heap.operatorPostDec h a = .ok (h a, Function.update h a Adec) := by
  have hn := hA.1
  have hinc : Heap.operatorInc h a = .ok (a, Function.update h a
      ((ofFun n fun i j => (h a).elem i j + 1).withSize (h a).size)) := by
    simp only [Heap.operatorInc, WF.operatorInc_eq hA, bind, Except.bind, pure, Except.pure]
  have hdec : Heap.operatorDec h a = .ok (a, Function.update h a
      ((ofFun n fun i j => (h a).elem i j - 1).withSize (h a).size)) := by
    simp only [Heap.operatorDec, WF.operatorDec_eq hA, bind, Except.bind, pure, Except.pure]
  refine ⟨_, _, withSize_wf (ofFun_wf hn _) _, withSize_wf (ofFun_wf hn _) _,
    fun i j hi hj => ?_, hinc, ?_, hdec, ?_⟩
  · have e1 : ((ofFun n fun i j => (h a).elem i j + 1).withSize (h a).size).elem i j =
        (h a).elem i j + 1 := by
      rw [elem_withSize]; exact ofFun_elem _ hi hj
    have e2 : ((ofFun n fun i j => (h a).elem i j - 1).withSize (h a).size).elem i j =
        (h a).elem i j - 1 := by
      rw [elem_withSize]; exact ofFun_elem _ hi hj
    refine ⟨?_, ?_, e1, e2, ?_, ?_, ?_⟩
    · rw [idx_withSize]; exact idx_ofFun hn _ hi hj
    · rw [idx_withSize]; exact idx_ofFun hn _ hi hj
    · intro hf hr
      rw [e1]
      exact F64.add_one_exact hf hr
    · intro hf hr
      rw [e2]
      exact F64.sub_one_exact hf hr
    · intro z hz1 hz hz2 hel
      obtain ⟨hf, hv⟩ := F64.ofInt_exact z hz
      rw [← hel] at hf hv
      rw [e1, e2]
      constructor
      · have := F64.add_one_exact hf (by
          rw [hv]
          have := F64.representable_int (z + 1) hz2
          push_cast at this
          exact this)
        rw [this.2, hv]
      · have := F64.sub_one_exact hf (by
          rw [hv]
          have := F64.representable_int (z - 1) hz1
          push_cast at this
          exact this)
        rw [this.2, hv]
  · simp only [Heap.operatorPostInc, WF.copy_eq hA, hinc, bind, Except.bind, pure, Except.pure]
  · simp only [Heap.operatorPostDec, WF.copy_eq hA, hdec, bind, Except.bind, pure, Except.pure]

end Heap

namespace SquareMat

variable {α : Type}

/-- C25: for matrices `A` of dimension `n` and `B` of dimension `m`, `A == B`
is true if and only if `n = m` and `A[i][j] != B[i][j]` is false for all
`i, j < n`; `A != B` is the negation of `A == B`, so matrices of different
dimensions are unequal. -/
theorem C25_equality [Zero α] [FloatNe α] (A B : SquareMat α) (n m : Nat) (hA : WF A n)
    (hB : WF B m) :
    ∃ b : Bool, operatorEq A B = .ok b ∧ operatorNe A B = .ok (!b) ∧
      (b = true ↔
        n = m ∧ ∀ i j : Nat, i < n → j < n → FloatNe.ne (A.elem i j) (B.elem i j) = false) ∧
      (n ≠ m → operatorEq A B = .ok false ∧ operatorNe A B = .ok true) := by
  by_cases hnm : n = m
  · subst hnm
    have hE := WF.operatorEq_eq hA hB
    refine ⟨_, hE, ?_, ?_, fun h => absurd rfl h⟩
    · simp only [operatorNe, hE, bind, Except.bind, pure, Except.pure]
    · rw [allBelow_iff]
      constructor
      · intro h
        refine ⟨rfl, fun i j hi hj => ?_⟩
        have := (allBelow_iff _ _).mp (h i hi) j hj
        simpa using this
      · rintro ⟨-, h⟩ i hi
        rw [allBelow_iff]
        intro j hj
        simp [h i j hi hj]
  · have hmis : A.rows ≠ B.rows ∨ A.columns ≠ B.columns := WF.mismatch hA hB hnm
    have hE : operatorEq A B = .ok false := by
      simp only [operatorEq, hmis, if_true]
    refine ⟨false, hE, ?_, ?_, fun _ => ⟨hE, ?_⟩⟩
    · simp only [operatorNe, hE, bind, Except.bind, pure, Except.pure]
    · constructor
      · intro h; cases h
      · rintro ⟨h, -⟩; exact absurd h hnm
    · simp only [operatorNe, hE, bind, Except.bind, pure, Except.pure]
      rfl

/-- C26: for matrices `A` and `B` of any dimensions, with `sa = countSum(A)` and
`sb = countSum(B)`: `A > B` is `sa > sb`, `A < B` is `sa < sb`, `A >= B` is
`sa >= sb` and `A <= B` is `sa <= sb`; hence when the sums compare equal, `A` is
neither greater nor less than `B`, whatever `A == B` says (values that compare
equal are neither less nor greater, as it is for doubles). -/
theorem C26_ordering_by_sum [Zero α] [Add α] [FloatNe α] [FloatOrd α] (A B : SquareMat α)
    (n m : Nat) (hA : WF A n) (hB : WF B m) :
    ∃ sa sb : α, countSum A = .ok sa ∧ countSum B = .ok sb ∧
      operatorGt A B = .ok (FloatOrd.lt sb sa) ∧
      operatorLt A B = .ok (FloatOrd.lt sa sb) ∧
      operatorGe A B = .ok (FloatOrd.le sb sa) ∧
      operatorLe A B = .ok (FloatOrd.le sa sb) ∧
      ((∀ x y : α, FloatNe.ne x y = false →
          FloatOrd.lt x y = false ∧ FloatOrd.lt y x = false) →
        FloatNe.ne sa sb = false →
        operatorGt A B = .ok false ∧ operatorLt A B = .ok false) := by
  have ha := WF.countSum_eq hA
  have hb := WF.countSum_eq hB
  have hgt : operatorGt A B = .ok (FloatOrd.lt (sumAll m B.elem) (sumAll n A.elem)) := by
    simp only [operatorGt, ha, hb, bind, Except.bind, pure, Except.pure]
  have hlt : operatorLt A B = .ok (FloatOrd.lt (sumAll n A.elem) (sumAll m B.elem)) := by
    simp only [operatorLt, ha, hb, bind, Except.bind, pure, Except.pure]
  refine ⟨_, _, ha, hb, hgt, hlt, ?_, ?_, fun hord hne => ?_⟩
  · simp only [operatorGe, ha, hb, bind, Except.bind, pure, Except.pure]
  · simp only [operatorLe, ha, hb, bind, Except.bind, pure, Except.pure]
  · obtain ⟨h1, h2⟩ := hord _ _ hne
    rw [hgt, hlt, h1, h2]
    exact ⟨rfl, rfl⟩

/-- For a matrix `A` of dimension `n` whose elements are exact numbers (a
ring: no rounding), `countSum(A)` is the sum of all `n * n` elements
accumulated from `0` row by row, which is the double sum of the `A[i][j]`; for
a matrix whose every element is `v` it is `n * n * v`; and overwriting the
element `(i, j)` by `v` changes the sum by `v - A[i][j]`. -/
theorem countSum_exact [Ring α] (A : SquareMat α) (n : Nat) (hA : WF A n) :
    countSum A = .ok (sumAll n A.elem) ∧
    sumAll n A.elem = ∑ i ∈ Finset.range n, ∑ j ∈ Finset.range n, A.elem i j ∧
    (∀ v : α, (∀ i j : Nat, i < n → j < n → A.elem i j = v) →
      countSum A = .ok ((n : α) * (n : α) * v)) ∧
    (∀ (i j : Nat) (v : α), i < n → j < n →
      ∃ A', operatorCallSet A i j v = .ok A' ∧
        countSum A' = .ok (sumAll n A.elem + (v - A.elem i j))) := by
  have hn := hA.1
  refine ⟨WF.countSum_eq hA, sumAll_eq_sum n _, fun v hv => ?_, fun i j v hi hj => ?_⟩
  · rw [WF.countSum_eq hA, sumAll_eq_sum]
    congr 1
    rw [Finset.sum_congr rfl fun i hi =>
      Finset.sum_congr rfl fun j hj => hv i j (Finset.mem_range.mp hi) (Finset.mem_range.mp hj)]
    simp only [Finset.sum_const, Finset.card_range, nsmul_eq_mul, mul_assoc]
  · refine ⟨_, WF.operatorCallSet_eq hA hi hj v, ?_⟩
    rw [WF.countSum_eq (withSize_wf (ofFun_wf hn _) _), ← sumAll_upd n A.elem hi hj v,
      sumAll_eq_sum, sumAll_eq_sum]
    congr 1
    refine Finset.sum_congr rfl fun a ha => Finset.sum_congr rfl fun b hb => ?_
    rw [elem_withSize, ofFun_elem _ (Finset.mem_range.mp ha) (Finset.mem_range.mp hb)]

/-- C27 (amended): for a matrix `A` of doubles of dimension `n`, `countSum(A)`
is the sum of the `n * n` elements accumulated from `0` row by row, every
addition being an addition of doubles.  When the elements are finite and no
addition rounds (`ExactSum`), it is the exact sum of the elements; then for a
matrix whose every element is `v` it is `n * n * v`, and overwriting the
element `(r, c)` by `w` changes the sum by `w - A[r][c]`.  No addition rounds
when the elements are integers of magnitude at most `M` with
`n * n * M < 2^53`. -/
theorem C27_countSum (A : SquareMat F64) (n : Nat) (hA : WF A n) :
    countSum A = .ok (sumAll n A.elem) ∧
    ((∀ i j : Nat, i < n → j < n → F64.IsFinite (A.elem i j)) →
      F64.ExactSum n (fun i j => F64.toRat (A.elem i j)) →
      F64.IsFinite (sumAll n A.elem) ∧
        F64.toRat (sumAll n A.elem) =
          ∑ i ∈ Finset.range n, ∑ j ∈ Finset.range n, F64.toRat (A.elem i j)) ∧
    (∀ v : F64, F64.IsFinite v → (∀ i j : Nat, i < n → j < n → A.elem i j = v) →
      F64.ExactSum n (fun _ _ => F64.toRat v) →
      F64.toRat (sumAll n A.elem) = (n : ℚ) * (n : ℚ) * F64.toRat v) ∧
    (∀ (r c : Nat) (w : F64), r < n → c < n → F64.IsFinite w →
      (∀ i j : Nat, i < n → j < n → F64.IsFinite (A.elem i j)) →
      F64.ExactSum n (fun i j => F64.toRat (A.elem i j)) →
      F64.ExactSum n (upd (fun i j => F64.toRat (A.elem i j)) r c (F64.toRat w)) →
      ∃ A' : SquareMat F64, operatorCallSet A r c w = .ok A' ∧
        countSum A' = .ok (sumAll n A'.elem) ∧
        F64.toRat (sumAll n A'.elem) =
          F64.toRat (sumAll n A.elem) + (F64.toRat w - F64.toRat (A.elem r c))) ∧
    (∀ (z : Nat → Nat → Int) (M : Nat),
      (∀ i j : Nat, i < n → j < n → A.elem i j = F64.ofInt (z i j) ∧ (z i j).natAbs ≤ M) →
      n * n * M < 2 ^ 53 →
      (∀ i j : Nat, i < n → j < n → F64.IsFinite (A.elem i j)) ∧
        F64.ExactSum n (fun i j => F64.toRat (A.elem i j)) ∧
        F64.toRat (sumAll n A.elem) =
          ∑ i ∈ Finset.range n, ∑ j ∈ Finset.range n, (z i j : ℚ)) := by
  have hn := hA.1
  refine ⟨WF.countSum_eq hA, fun hfin hex => F64.sumAll_exact n A.elem hfin hex,
    fun v hv hconst hex => ?_, fun r c w hr hc hw hfin hex hex' => ?_, fun z M hz hb => ?_⟩
  · have hfin : ∀ i j : Nat, i < n → j < n → F64.IsFinite (A.elem i j) := fun i j hi hj => by
      rw [hconst i j hi hj]; exact hv
    have hex2 : F64.ExactSum n (fun i j => F64.toRat (A.elem i j)) :=
      hex.congr fun i j hi hj => by rw [hconst i j hi hj]
    rw [(F64.sumAll_exact n A.elem hfin hex2).2]
    rw [Finset.sum_congr rfl fun i hi => Finset.sum_congr rfl fun j hj => by
      rw [hconst i j (Finset.mem_range.mp hi) (Finset.mem_range.mp hj)]]
    simp only [Finset.sum_const, Finset.card_range, nsmul_eq_mul, mul_assoc]
  · have hA' : WF ((ofFun n (upd A.elem r c w)).withSize A.size) n :=
      withSize_wf (ofFun_wf hn _) _
    have helem : ∀ i j : Nat, i < n → j < n →
        ((ofFun n (upd A.elem r c w)).withSize A.size).elem i j = upd A.elem r c w i j :=
      fun i j hi hj => by rw [elem_withSize]; exact ofFun_elem _ hi hj
    have hupd : ∀ i j : Nat, F64.toRat (upd A.elem r c w i j) =
        upd (fun i j => F64.toRat (A.elem i j)) r c (F64.toRat w) i j := by
      intro i j
      simp only [upd]
      split <;> rfl
    refine ⟨_, WF.operatorCallSet_eq hA hr hc w, WF.countSum_eq hA', ?_⟩
    have hfin' : ∀ i j : Nat, i < n → j < n →
        F64.IsFinite (((ofFun n (upd A.elem r c w)).withSize A.size).elem i j) := by
      intro i j hi hj
      rw [helem i j hi hj]
      simp only [upd]
      split
      · exact hw
      · exact hfin i j hi hj
    have hex2 : F64.ExactSum n fun i j =>
        F64.toRat (((ofFun n (upd A.elem r c w)).withSize A.size).elem i j) :=
      hex'.congr fun i j hi hj => by rw [helem i j hi hj, hupd]
    rw [(F64.sumAll_exact n _ hfin' hex2).2, (F64.sumAll_exact n A.elem hfin hex).2,
      ← sumAll_eq_sum, ← sumAll_eq_sum,
      sumAll_congr (fun i j hi hj => by rw [helem i j hi hj, hupd] :
        ∀ i j, i < n → j < n →
          F64.toRat (((ofFun n (upd A.elem r c w)).withSize A.size).elem i j) =
            upd (fun i j => F64.toRat (A.elem i j)) r c (F64.toRat w) i j),
      sumAll_upd n _ hr hc]
  · have hzb : ∀ i j : Nat, i < n → j < n → (z i j).natAbs < 2 ^ 53 := by
      intro i j hi hj
      have h1 := (hz i j hi hj).2
      have h2 : 1 * 1 * M ≤ n * n * M :=
        Nat.mul_le_mul_right M (Nat.mul_le_mul (by omega) (by omega))
      omega
    have hfin : ∀ i j : Nat, i < n → j < n → F64.IsFinite (A.elem i j) := fun i j hi hj => by
      rw [(hz i j hi hj).1]; exact (F64.ofInt_exact _ (hzb i j hi hj)).1
    have hval : ∀ i j : Nat, i < n → j < n → (z i j : ℚ) = F64.toRat (A.elem i j) :=
      fun i j hi hj => by
        rw [(hz i j hi hj).1]; exact (F64.ofInt_exact _ (hzb i j hi hj)).2.symm
    have hex : F64.ExactSum n (fun i j => F64.toRat (A.elem i j)) :=
      (F64.exactSum_of_int n z M (fun i j hi hj => (hz i j hi hj).2) hb).congr hval
    refine ⟨hfin, hex, ?_⟩
    rw [(F64.sumAll_exact n A.elem hfin hex).2]
    exact Finset.sum_congr rfl fun i hi => Finset.sum_congr rfl fun j hj =>
      (hval i j (Finset.mem_range.mp hi) (Finset.mem_range.mp hj)).symm

/-- C28: for a matrix `A` of dimension `n` and a value `v`, `fill(v)` does not
fail and leaves in `A` a matrix of the same dimension `n` whose every element
`A[i][j]`, `i, j < n`, is `v`, whatever `A` held before. -/
theorem C28_fill [Zero α] (A : SquareMat α) (n : Nat) (hA : WF A n) (v : α) :
    ∃ A', fill A v = .ok A' ∧ WF A' n ∧ A'.getRows = A.getRows ∧ A'.getCols = A.getCols ∧
      ∀ i j : Nat, i < n → j < n → A'.operatorCall i j = .ok v ∧ A'.idx i j = .ok v := by
  have hn := hA.1
  refine ⟨_, WF.fill_eq hA v, withSize_wf (ofFun_wf hn _) _, ?_, ?_, fun i j hi hj => ⟨?_, ?_⟩⟩
  · exact hA.2.1.symm
  · exact hA.2.2.1.symm
  · rw [operatorCall_withSize]; exact operatorCall_ofFun _ hi hj
  · rw [idx_withSize]; exact idx_ofFun hn _ hi hj

/-- C29: for a matrix `A` of dimension `n`, indices `i, j < n` and a value `v`,
the writes `A(i, j) = v` and `A[i][j] = v` succeed and leave the same matrix
`A'`, of the same dimension, in which `A'(i, j)` and `A'[i][j]` read `v` and
every other element `(r, c)` reads what it was in `A`. -/
theorem C29_write_frame [Zero α] (A : SquareMat α) (n : Nat) (hA : WF A n) (i j : Nat)
    (hi : i < n) (hj : j < n) (v : α) :
    ∃ A', operatorCallSet A i j v = .ok A' ∧ setIdx A i j v = .ok A' ∧ WF A' n ∧
      A'.getRows = A.getRows ∧ A'.getCols = A.getCols ∧
      A'.operatorCall i j = .ok v ∧ A'.idx i j = .ok v ∧
      ∀ r c : Nat, r < n → c < n → (r, c) ≠ (i, j) →
        A'.operatorCall r c = .ok (A.elem r c) ∧ A'.idx r c = .ok (A.elem r c) := by
  have hn := hA.1
  have hother : ∀ r c : Nat, (r, c) ≠ (i, j) → upd A.elem i j v r c = A.elem r c := by
    intro r c hrc
    have : ¬ (r = i ∧ c = j) := fun ⟨h1, h2⟩ => hrc (by rw [h1, h2])
    simp only [upd, this, if_false]
  refine ⟨_, WF.operatorCallSet_eq hA hi hj v, WF.setIdx_eq hA hi hj v,
    withSize_wf (ofFun_wf hn _) _, hA.2.1.symm, hA.2.2.1.symm, ?_, ?_, fun r c hr hc hrc =>
      ⟨?_, ?_⟩⟩
  · rw [operatorCall_withSize, operatorCall_ofFun _ hi hj, upd_same]
  · rw [idx_withSize, idx_ofFun hn _ hi hj, upd_same]
  · rw [operatorCall_withSize, operatorCall_ofFun _ hr hc, hother r c hrc]
  · rw [idx_withSize, idx_ofFun hn _ hr hc, hother r c hrc]

end SquareMat

namespace Mem

variable {α : Type}

open SquareMat

/-- C30 (amended): let `a` and `b` be distinct objects, `a` holding a matrix of
dimension `n` with elements `f`.  The copy construction of `b` from `a`, and
the copy assignment `b = a` into a `b` of any dimension `k` and contents `g`
stored in arrays of its own, succeed and leave `a` as it was and `b` with the
same dimension and exactly the same elements, in new arrays (`Sep`).  Two
objects in storage of their own read their elements through `operator()`, hold
the matrices of these elements, and an element write to one changes that
element of it and nothing of the other, after which they are in storage of
their own again.  `b == a` is true after a copy when no element is a NaN. -/
theorem C30_copy_independent [Zero α] [FloatNe α] (m : Mem α) (a b : Nat) (hab : a ≠ b)
    (n : Nat) (f : Nat → Nat → α) :
    (∀ pa : List Nat, Inv m → Layout m a n pa f →
      ∃ m', copyCtor m b a = .ok m' ∧ Sep m' a b n n f f ∧
        (m'.objs b).size = (m.objs a).size ∧ m'.objs a = m.objs a) ∧
    (∀ (k : Nat) (g : Nat → Nat → α), Sep m a b n k f g →
      ∃ m', copyAssign m b a = .ok m' ∧ Sep m' a b n n f f ∧
        (m'.objs b).size = (m.objs a).size ∧ m'.objs a = m.objs a) ∧
    (∀ (na nb : Nat) (fa fb : Nat → Nat → α), Sep m a b na nb fa fb →
      (m.objs a).rows = na ∧ (m.objs a).columns = na ∧
      (m.objs b).rows = nb ∧ (m.objs b).columns = nb ∧
      (∀ i j : Nat, i < na → j < na → m.operatorCall a i j = .ok (fa i j)) ∧
      (∀ i j : Nat, i < nb → j < nb → m.operatorCall b i j = .ok (fb i j)) ∧
      load m a = some ((ofFun na fa).withSize (m.objs a).size) ∧
      load m b = some ((ofFun nb fb).withSize (m.objs b).size) ∧
      ∀ (i j : Nat) (v : α),
        (i < nb → j < nb →
          ∃ m', m.operatorCallSet b i j v = .ok m' ∧ Sep m' a b na nb fa (upd fb i j v)) ∧
        (i < na → j < na →
          ∃ m', m.operatorCallSet a i j v = .ok m' ∧ Sep m' a b na nb (upd fa i j v) fb)) ∧
    (Sep m a b n n f f →
      (∀ i j : Nat, i < n → j < n → FloatNe.ne (f i j) (f i j) = false) →
      ∃ A B, load m a = some A ∧ load m b = some B ∧ operatorEq B A = .ok true) := by
  refine ⟨fun pa hinv hA => copyCtor_sep m hab hinv hA, fun k g h => copyAssign_sep m hab h,
    fun na nb fa fb h => ?_, fun h hnan => ?_⟩
  · have hs := h
    obtain ⟨hinv, pa, pb, hA, hB, -, -⟩ := h
    refine ⟨hA.rows, hA.columns, hB.rows, hB.columns,
      fun i j hi hj => hA.operatorCall_read hi hj, fun i j hi hj => hB.operatorCall_read hi hj,
      hA.load_eq hinv, hB.load_eq hinv, fun i j v => ⟨fun hi hj => hs.write_right hi hj v,
        fun hi hj => ?_⟩⟩
    obtain ⟨m', hw, hsep⟩ := hs.symm.write_right hi hj v
    exact ⟨m', hw, hsep.symm⟩
  · obtain ⟨hinv, pa, pb, hA, hB, -, -⟩ := h
    refine ⟨_, _, hA.load_eq hinv, hB.load_eq hinv, ?_⟩
    rw [operatorEq_withSize]
    exact operatorEq_self f hnan

/-- C31: let `a` and `b` be distinct objects, `a` holding a matrix of dimension
`n` with elements `f`.  After the move construction of `b` from `a`, and after
the move assignment `b = std::move(a)` into a `b` holding storage of its own,
`b` has the dimension `n`, the `size` and every element that `a` had before,
and `a` reports `getRows() == 0`, `getCols() == 0` and `size == 0` and holds no
row. -/
theorem C31_move [Zero α] (m : Mem α) (a b : Nat) (hab : a ≠ b) (n : Nat)
    (f : Nat → Nat → α) :
    (∀ pa : List Nat, Inv m → Layout m a n pa f →
      (moveCtor m b a).getRows b = n ∧ (moveCtor m b a).getCols b = n ∧
      ((moveCtor m b a).objs b).size = (m.objs a).size ∧
      (∀ i j : Nat, i < n → j < n →
        m.operatorCall a i j = .ok (f i j) ∧
        (moveCtor m b a).operatorCall b i j = .ok (f i j)) ∧
      load (moveCtor m b a) b = load m a ∧
      (moveCtor m b a).getRows a = 0 ∧ (moveCtor m b a).getCols a = 0 ∧
      ((moveCtor m b a).objs a).size = 0 ∧
      load (moveCtor m b a) a = some { rows := 0, columns := 0, data := [], size := 0 } ∧
      ∀ g : Nat → Nat → α, Sep (moveCtor m b a) a b 0 n g f) ∧
    (∀ (k : Nat) (g : Nat → Nat → α), Sep m a b n k f g →
      ∃ m', moveAssign m b a = .ok m' ∧
        m'.getRows b = n ∧ m'.getCols b = n ∧ (m'.objs b).size = (m.objs a).size ∧
        (∀ i j : Nat, i < n → j < n →
          m.operatorCall a i j = .ok (f i j) ∧ m'.operatorCall b i j = .ok (f i j)) ∧
        load m' b = load m a ∧
        m'.getRows a = 0 ∧ m'.getCols a = 0 ∧ (m'.objs a).size = 0 ∧
        load m' a = some { rows := 0, columns := 0, data := [], size := 0 } ∧
        ∀ g' : Nat → Nat → α, Sep m' a b 0 n g' f) := by
  refine ⟨fun pa hinv hA => ?_, fun k g h => ?_⟩
  · have he := moveCtor_eq m hab
    exact moved_facts m hab hinv hA _ (hinv.of_store (by rw [he]) (by rw [he]) (by rw [he]))
      (by rw [he]) (by rw [he]) (fun q _ => by rw [he])
  · obtain ⟨m', pa, hmove, hinv', hA, hobjs, htab, harr⟩ := moveAssign_eq m hab h
    exact ⟨m', hmove, moved_facts m hab h.1 hA m' hinv' hobjs htab harr⟩

end Mem

namespace SquareMat

variable {α : Type}

/-- C32, amended: every value that a caller can hold, in any state reachable by
the sized constructor, copy, move, assignment and the operators, is a square
matrix of some dimension `n` with `n` rows of `n` elements; `n >= 1` as long as
no object has been moved from, and a value of dimension 0 is the empty state
that a move leaves in its source, with `getRows() == 0`, `getCols() == 0` and
no row.  The source of a move construction and of a move assignment is in that
state. -/
theorem C32_reachable_dimension [Zero α] [One α] [Add α] [Sub α] [Mul α] [Div α] [FloatNe α]
    [IntCast α] [FloatMod α] (moves : Bool) (M : SquareMat α) (h : Reach moves M) :
    (∃ n : Nat, WF M n ∧ (moves = false → 1 ≤ n) ∧
      (n = 0 → moves = true ∧ M.getRows = 0 ∧ M.getCols = 0 ∧ M.data = [])) ∧
    (∀ B : SquareMat α, WF (moveCtor M).2 0 ∧ WF (moveAssign B M).2 0 ∧
      (moveCtor M).1 = M ∧ (moveAssign B M).1 = M) := by
  refine ⟨?_, fun B => ⟨moved_from_wf, moved_from_wf, rfl, rfl⟩⟩
  obtain ⟨n, hM, hn⟩ := h.wf
  refine ⟨n, hM, hn, fun h0 => ?_⟩
  subst h0
  refine ⟨?_, hM.2.1, hM.2.2.1, List.eq_nil_of_length_eq_zero hM.2.2.2.1⟩
  cases moves with
  | true => rfl
  | false => exact absurd (hn rfl) (by decide)

/-- C33: every matrix reachable through the sized constructor, copy, move, both
assignments and the operators satisfies `getRows() == getCols()`, so
`operator!` does not take its "matrix must be square" branch on it and returns
a value; the sized constructor fails with `invalid_argument` whenever `rows`
and `columns` differ, as for `SquareMat(2, 3)`. -/
theorem C33_reachable_square [Zero α] [One α] [Add α] [Sub α] [Mul α] [Neg α] [Div α]
    [FloatNe α] [IntCast α] [FloatMod α] (moves : Bool) (M : SquareMat α)
    (h : Reach moves M) :
    M.getRows = M.getCols ∧ ¬ (M.rows ≠ M.columns) ∧
      (∃ d : α, operatorNot M = .ok d) ∧
      (∀ rows columns : Int, rows ≠ columns →
        ctor (α := α) rows columns = .error .invalid_argument) ∧
      ctor (α := α) 2 3 = .error .invalid_argument := by
  obtain ⟨n, hM, -⟩ := h.wf
  have hsq : M.rows = M.columns := by rw [hM.2.1, hM.2.2.1]
  refine ⟨hsq, fun hne => hne hsq, ?_, fun rows columns hne => ?_, ?_⟩
  · rcases Nat.eq_zero_or_pos n with h0 | hpos
    · subst h0
      exact ⟨0, operatorNot_dim0 M hM.2.1 hM.2.2.1⟩
    · exact ⟨_, WF.operatorNot_eq hpos hM⟩
  · simp only [ctor, hne, ne_eq, not_false_eq_true, if_true]
  · rfl

/-- C34: for every matrix `A` of dimension `n >= 1`, `operator!` returns a
value.  Every matrix `M` on which `getDeterminant` is entered has a dimension
`k` with `2 <= k <= n`, and the call on it returns a value; for `k = 2` it
makes no recursive call; otherwise, for every column `i < k`, the read
`mat[0][i]` succeeds and the minor is constructed with all its reads
`mat[r][c]` and writes `minor[r - 1][colIndex]` in bounds (an index out of
bounds is an error of the model) and has dimension `k - 1`; every recursive
call goes from a dimension `k >= 3` to a minor of dimension `k - 1 >= 2`. -/
theorem C34_determinant_safe [Zero α] [One α] [Add α] [Sub α] [Mul α] [Neg α]
    (A : SquareMat α) (n : Nat) (hn : 1 ≤ n) (hA : WF A n) :
    (∃ d : α, operatorNot A = .ok d) ∧
    ∀ M : SquareMat α, Entered A M →
      ∃ k : Nat, 2 ≤ k ∧ k ≤ n ∧ WF M k ∧
        (∃ d : α, getDeterminantAux (M.getRows.toNat + 1) M = .ok d) ∧
        (∀ fuel : Nat, k ≤ fuel + 1 → ∃ d : α, getDeterminantAux fuel M = .ok d) ∧
        (k = 2 → ∀ M' : SquareMat α, ¬ Calls M M') ∧
        (k ≠ 2 → ∀ i : Nat, i < k →
          M.idx 0 i = .ok (M.elem 0 i) ∧
          buildMinor M i = .ok (ofFun (k - 1) (minorFun M.elem i))) ∧
        (∀ M' : SquareMat α, Calls M M' → 3 ≤ k ∧ 2 ≤ k - 1 ∧ WF M' (k - 1)) := by
  refine ⟨⟨_, WF.operatorNot_eq hn hA⟩, fun M hM => ?_⟩
  obtain ⟨k, h2, hkn, hMk⟩ := hM.bounds hA hn
  have hfuel : ∀ fuel : Nat, k ≤ fuel + 1 →
      getDeterminantAux fuel M = .ok (detRec k M.elem) := by
    intro fuel hf
    have e := getDeterminantAux_ofFun fuel k M.elem h2 hMk.1 hf
    rw [← getDeterminantAux_withSize _ _ M.size, ← hMk.eq_ofFun] at e
    exact e
  refine ⟨k, h2, hkn, hMk, ⟨_, hfuel _ ?_⟩, fun fuel hf => ⟨_, hfuel fuel hf⟩, ?_, ?_, ?_⟩
  · rw [getRows, hMk.2.1, Int.toNat_ofNat]
    omega
  · intro hk M' hc
    cases hc with
    | minor i hne _ _ _ =>
      apply hne
      rw [getRows, hMk.2.1, hk]
      rfl
  · intro hk i hi
    refine ⟨?_, hMk.buildMinor_eq (by omega) hi⟩
    have e := idx_ofFun hMk.1 M.elem (i := 0) (j := i) (by omega) hi
    rw [← idx_withSize _ M.size, ← hMk.eq_ofFun] at e
    simpa using e
  · intro M' hc
    obtain ⟨h3, hM'⟩ := hc.minor_dim hMk h2
    exact ⟨h3, by omega, hM'⟩

/-- C35: for a matrix `M` of dimension 0, as a move leaves its source, the
construction of a result of the dimension of `M` is rejected, so `M * s`,
`s * M`, `~M`, `M ^ k` for `k >= 0`, `M / s` for `s != 0`, `M % k` for
`k != 0`, `M + M`, `M - M`, `M * M` and `M % M` fail with `invalid_argument`,
whereas `operator!` on `M` returns 0. -/
theorem C35_moved_from_operands [Zero α] [One α] [Add α] [Sub α] [Mul α] [Neg α] [Div α]
    [FloatNe α] [IntCast α] [FloatMod α] (M : SquareMat α) (hr : M.getRows = 0)
    (hc : M.getCols = 0) :
    ctor (α := α) M.getRows M.getCols = .error .invalid_argument ∧
    (∀ s : α, operatorMulScalar M s = .error .invalid_argument) ∧
    (∀ s : α, operatorScalarMul s M = .error .invalid_argument) ∧
    operatorTilde M = .error .invalid_argument ∧
    (∀ k : Int, 0 ≤ k → operatorPow M k = .error .invalid_argument) ∧
    (∀ s : α, FloatNe.ne s 0 = true → operatorDiv M s = .error .invalid_argument) ∧
    (∀ k : Int, k ≠ 0 → operatorModInt M k = .error .invalid_argument) ∧
    operatorAdd M M = .error .invalid_argument ∧
    operatorSub M M = .error .invalid_argument ∧
    operatorMul M M = .error .invalid_argument ∧
    operatorMod M M = .error .invalid_argument ∧
    operatorNot M = .ok 0 := by
  have hr' : M.rows = 0 := hr
  have hc' : M.columns = 0 := hc
  refine ⟨?_, fun s => operatorMulScalar_dim0 M s hr' hc', fun s => ?_,
    operatorTilde_dim0 M hr' hc', fun k _ => operatorPow_dim0 M k hr' hc',
    fun s _ => operatorDiv_dim0 M s hr' hc', fun k _ => operatorModInt_dim0 M k hr' hc',
    operatorAdd_dim0 M M hr' hc', operatorSub_dim0 M M hr' hc', operatorMul_dim0 M M hr' hc',
    operatorMod_dim0 M M hr' hc', operatorNot_dim0 M hr' hc'⟩
  · rw [hr, hc]
    exact ctor_zero
  · exact operatorMulScalar_dim0 M s hr' hc'

/-- C36: for every matrix `A` of dimension `n >= 1` over a commutative ring,
the value that `operator!` returns is the determinant of `A` in Mathlib,
`Matrix.det`, which is the Leibniz sum over the permutations of the `n`
indices. -/
theorem C36_determinant [CommRing α] (A : SquareMat α) (n : Nat) (hn : 1 ≤ n)
    (hA : WF A n) :
    operatorNot A = .ok (toMat n A.elem).det ∧
      operatorNot A = .ok (leibniz n A.elem) ∧
      (toMat n A.elem).det = leibniz n A.elem := by
  have hdet : (toMat n A.elem).det = leibniz n A.elem := by
    rw [Matrix.det_apply']
    rfl
  have h := WF.operatorNot_eq hn hA
  rw [detRec_eq_det n A.elem hn] at h
  exact ⟨h, hdet ▸ h, hdet⟩

end SquareMat

/-! ## Instances of the claims on concrete matrices -/

namespace SquareMat

theorem C1_witness :
    1 ≤ 2 ∧ WF exA 2 ∧ WF exB 2 ∧
      ∃ R, operatorMul exA exB = .ok R ∧ WF R 2 ∧
        ∀ i j : Nat, i < 2 → j < 2 →
          R.idx i j = .ok (sumLeft 2 fun k => exA.elem i k * exB.elem k j) :=
  ⟨by decide, by decide, by decide,
    C1_operatorMul_entries exA exB 2 (by decide) (by decide) (by decide)⟩

theorem C2_witness :
    1 ≤ 3 ∧ WF exC 3 ∧
      ∃ d : Nat → Int,
        (∀ i : Nat, i < 3 → WF (minorOf exC i) (3 - 1) ∧
          operatorNot (minorOf exC i) = .ok (d i)) ∧
        operatorNot exC = .ok (sumLeft 3 fun i =>
          (if i % 2 = 0 then (1 : Int) else -1) * exC.elem 0 i * d i) :=
  ⟨by decide, by decide,
    (C2_operatorNot_cofactor exC 3 (by decide) (by decide)).2.2 (by decide)⟩

set_option exponentiation.threshold 2048 in
set_option maxRecDepth 8000 in
theorem C3_witness :
    1 ≤ 2 ∧ WF exF 2 ∧
      (∀ i j : Nat, i < 2 → j < 2 →
        exF.elem i j = F64.ofInt (exA.elem i j) ∧ (exA.elem i j).natAbs ≤ 4) ∧
      2 * (2 * 4) ^ (1 + 2) < 2 ^ 53 ∧
      (∃ P Q L R : SquareMat F64,
        operatorPow exF ((1 : Nat) : Int) = .ok P ∧ operatorPow exF ((2 : Nat) : Int) = .ok Q ∧
        operatorMul P Q = .ok L ∧
        operatorPow exF (((1 : Nat) : Int) + ((2 : Nat) : Int)) = .ok R ∧
        operatorEq L R = .ok true) ∧
      (∃ P Q L R : SquareMat F64,
        operatorPow exTenth ((0 : Nat) : Int) = .ok P ∧
        operatorPow exTenth ((2 : Nat) : Int) = .ok Q ∧
        operatorMul P Q = .ok L ∧
        operatorPow exTenth (((0 : Nat) : Int) + ((2 : Nat) : Int)) = .ok R ∧
        operatorEq L R = .ok true) :=
  have hz : ∀ i j : Nat, i < 2 → j < 2 →
      exF.elem i j = F64.ofInt (exA.elem i j) ∧ (exA.elem i j).natAbs ≤ 4 :=
    fun i j hi hj => by interval_cases i <;> interval_cases j <;> exact ⟨rfl, by decide⟩
  ⟨by decide, by decide, hz, by norm_num,
    (let ⟨P, Q, L, R, hP, hQ, hL, hR, _, _, _, _, hint⟩ :=
      C3_power_law exF 2 (by decide) (by decide) 1 2
    ⟨P, Q, L, R, hP, hQ, hL, hR, hint exA.elem 4 (by decide) hz (by norm_num)⟩),
    (let ⟨P, Q, L, R, hP, hQ, hL, hR, _, hWR, htriv, _, _⟩ :=
      C3_power_law exTenth 1 (by decide) (by decide) 0 2
    ⟨P, Q, L, R, hP, hQ, hL, hR, htriv (Or.inl rfl) (fun i j hi hj => by
      have hR2 : operatorPow exTenth (((0 : Nat) : Int) + ((2 : Nat) : Int)) =
          .ok ({ rows := 1, columns := 1, data := [[F64.tenth * F64.tenth]], size := 1 } :
            SquareMat F64) := by rfl
      rw [hR2] at hR
      cases hR
      interval_cases i
      interval_cases j
      decide)⟩)⟩

theorem C4_witness :
    1 ≤ 1 ∧ WF exTenth 1 ∧ (∀ i j, i < 1 → j < 1 → (exTenth.elem i j).IsFinite) ∧
      ∃ L R, operatorMul exTenth (identity 1) = .ok L ∧
        operatorMul (identity 1) exTenth = .ok R ∧
        operatorEq L exTenth = .ok true ∧ operatorEq R exTenth = .ok true :=
  have hfin : ∀ i j, i < 1 → j < 1 → (exTenth.elem i j).IsFinite := by
    intro i j hi hj
    obtain rfl : i = 0 := by omega
    obtain rfl : j = 0 := by omega
    decide
  ⟨by decide, by decide, hfin,
    C4_identity_finite exTenth 1 (by decide) (by decide) hfin⟩

theorem C5_witness :
    1 ≤ 1 ∧ WF exNaN 1 ∧ 1 ≤ 2 ∧ WF exA 2 ∧
      (∃ T TT, operatorTilde exNaN = .ok T ∧ operatorTilde T = .ok TT ∧
        TT.getRows = exNaN.getRows ∧ TT.getCols = exNaN.getCols ∧ TT.data = exNaN.data ∧
        (∀ i j : Nat, i < 1 → j < 1 →
          T.idx i j = .ok (exNaN.elem j i) ∧ TT.idx i j = .ok (exNaN.elem i j) ∧
          TT.idx i j = exNaN.idx i j) ∧
        ((∀ i j, i < 1 → j < 1 → FloatNe.ne (exNaN.elem i j) (exNaN.elem i j) = false) →
          operatorEq TT exNaN = .ok true)) ∧
      (∃ T TT, operatorTilde exA = .ok T ∧ operatorTilde T = .ok TT ∧ TT.data = exA.data ∧
        operatorEq TT exA = .ok true) :=
  ⟨by decide, by decide, by decide, by decide,
    C5_transpose_involution exNaN 1 (by decide) (by decide),
    (let ⟨T, TT, h1, h2, _, _, hd, _, heq⟩ :=
      C5_transpose_involution exA 2 (by decide) (by decide)
    ⟨T, TT, h1, h2, hd, heq fun i j _ _ => by simp [FloatNe.ne]⟩)⟩

theorem C6_witness :
    1 ≤ 3 ∧ 3 < 2 ^ 31 ∧ WF (identity 3 : SquareMat F64) 3 ∧
      operatorNot (identity 3 : SquareMat F64) = .ok 1 :=
  ⟨by decide, by decide, C6_det_identity 3 (by decide) (by decide)⟩

set_option exponentiation.threshold 2048 in
set_option maxRecDepth 8000 in
theorem C7_witness :
    1 ≤ 3 ∧ WF exZeroCol 3 ∧
      (∀ i j : Nat, i < 3 → j < 3 → F64.IsFinite (exZeroCol.elem i j)) ∧
      MinorsFinite 3 exZeroCol.elem ∧
      (∀ i, i < 3 → IsZero (exZeroCol.elem i 0)) ∧
      operatorNot exZeroCol = .ok 0 ∧
      ∃ d : F64, operatorNot exZeroCol = .ok d ∧ IsZero d ∧ FloatNe.ne d 0 = false ∧
        ∃ (s : Bool) (e : Int), d = F64.fin s 0 e :=
  have hfin : ∀ i j : Nat, i < 3 → j < 3 → F64.IsFinite (exZeroCol.elem i j) :=
    fun i j hi hj => by interval_cases i <;> interval_cases j <;> decide
  have hmin : MinorsFinite 3 exZeroCol.elem :=
    fun i hi => by interval_cases i <;> exact ⟨by decide, trivial⟩
  have hz : ∀ i, i < 3 → IsZero (exZeroCol.elem i 0) :=
    fun i hi => by interval_cases i <;> rfl
  ⟨by decide, by decide, hfin, hmin, hz, by rfl,
    C7_det_zero_line exZeroCol 3 (by decide) (by decide) hfin hmin (Or.inr ⟨0, by decide, hz⟩)⟩

theorem C9_witness :
    WF exA 2 ∧ exA.operatorCall 1 0 = .ok (exA.elem 1 0) ∧
      exA.operatorCallSet 1 0 7 = .ok ((ofFun 2 (upd exA.elem 1 0 7)).withSize exA.size) ∧
      exA.operatorCall 2 0 = .error .out_of_range :=
  ⟨by decide,
    ((C9_operatorCall exA 2 (by decide) 1 0 7).2.2.2 (by decide)).1,
    ((C9_operatorCall exA 2 (by decide) 1 0 7).2.2.2 (by decide)).2,
    ((C9_operatorCall exA 2 (by decide) 2 0 7).2.2.1 (by decide)).1⟩

theorem C10_witness :
    WF exA 2 ∧ -(2 ^ 63) ≤ (-1 : Int) ∧ (-1 : Int) < 2 ^ 64 ∧
      exA.operatorIndex (toSizeT (-1)) = .error .out_of_range :=
  ⟨by decide, by decide, by decide,
    (C10_operatorIndex exA 2 (by decide) (-1) (by decide) (by decide)).2.1 (by decide)⟩

theorem C11_witness :
    WF exA 2 ∧ WF exC 3 ∧ 2 ≠ 3 ∧
      operatorAdd exA exC = .error .invalid_argument ∧
      operatorSub exA exC = .error .invalid_argument ∧
      operatorMul exA exC = .error .invalid_argument ∧
      operatorMod exA exC = .error .invalid_argument :=
  ⟨by decide, by decide, by decide,
    (C11_dimension_mismatch exA exC 2 3 (by decide) (by decide)).1 (by decide)⟩

theorem C12_witness :
    WF exTenth 1 ∧ FloatNe.ne (0 : F64) 0 = false ∧ FloatNe.ne F64.tenth 0 = true ∧
      operatorDiv exTenth 0 = .error .invalid_argument ∧
      operatorModInt exTenth 0 = .error .invalid_argument ∧
      (∃ R, operatorDiv exTenth F64.tenth = .ok R ∧ WF R 1) ∧
      (∃ R, operatorModInt exTenth 3 = .ok R ∧ WF R 1) :=
  ⟨by decide, by decide, by decide,
    (C12_division_by_zero exTenth 0 3).1 (by decide),
    (C12_division_by_zero exTenth 0 3).2.1,
    ((C12_division_by_zero exTenth F64.tenth 3).2.2 1 (by decide) (by decide)).1 (by decide),
    ((C12_division_by_zero exTenth F64.tenth 3).2.2 1 (by decide) (by decide)).2 (by decide)⟩

theorem C13_witness :
    1 ≤ 2 ∧ WF exA 2 ∧ operatorPow exA (-1) = .error .invalid_argument ∧
      ∃ R, operatorPow exA 3 = .ok R ∧ WF R 2 :=
  ⟨by decide, by decide,
    (C13_negative_exponent exA 2 (by decide) (by decide) (-1)).2.1 (by decide),
    (C13_negative_exponent exA 2 (by decide) (by decide) 3).2.2 (by decide)⟩

theorem C14_witness :
    WF (exHeap 0) 1 ∧ WF (exHeap 1) 2 ∧
      Heap.operatorAddAssign exHeap 0 1 = (.error .invalid_argument, exHeap) ∧
      Heap.operatorSubAssign exHeap 0 1 = (.error .invalid_argument, exHeap) ∧
      Heap.operatorMulAssign exHeap 0 1 = (.error .invalid_argument, exHeap) ∧
      Heap.operatorModAssign exHeap 0 1 = (.error .invalid_argument, exHeap) ∧
      Heap.operatorDivAssign exHeap 0 0 = (.error .invalid_argument, exHeap) ∧
      Heap.operatorModIntAssign exHeap 0 0 = (.error .invalid_argument, exHeap) :=
  ⟨by decide, by decide,
    ((Heap.C14_failed_assignment exHeap 0 1 0 0).1 1 2 (by decide) (by decide) (by decide)).1,
    ((Heap.C14_failed_assignment exHeap 0 1 0 0).1 1 2 (by decide) (by decide) (by decide)).2.1,
    ((Heap.C14_failed_assignment exHeap 0 1 0 0).1 1 2 (by decide) (by decide)
      (by decide)).2.2.1,
    ((Heap.C14_failed_assignment exHeap 0 1 0 0).1 1 2 (by decide) (by decide)
      (by decide)).2.2.2,
    (Heap.C14_failed_assignment exHeap 0 1 0 0).2.1 (by decide),
    (Heap.C14_failed_assignment exHeap 0 1 0 0).2.2.1⟩

theorem C15_witness :
    WF (exHeap 0) 1 ∧
      Heap.operatorAddAssign exHeap 0 0 =
        (.ok 0, Function.update exHeap 0
          (ofFun 1 fun i j => (exHeap 0).elem i j + (exHeap 0).elem i j)) ∧
      (ofFun 1 fun i j => (exHeap 0).elem i j + (exHeap 0).elem i j).data =
        [[F64.fin false 0x1999999999999A (-55)]] :=
  ⟨by decide, (Heap.C15_compound_assignment exHeap 0 0 0 0).2.2.2.2.2.2.2 1 (by decide)
    (by decide), by rfl⟩

theorem C16_witness :
    1 ≤ 2 ∧ WF exA 2 ∧ WF exB 2 ∧
      ∃ R, operatorAdd exA exB = .ok R ∧ WF R 2 ∧
        ∀ i j : Nat, i < 2 → j < 2 → R.idx i j = .ok (exA.elem i j + exB.elem i j) :=
  ⟨by decide, by decide, by decide,
    C16_operatorAdd_entries exA exB 2 (by decide) (by decide) (by decide)⟩

theorem C17_witness :
    1 ≤ 2 ∧ WF exA 2 ∧ WF exB 2 ∧
      ∃ R, operatorSub exA exB = .ok R ∧ WF R 2 ∧
        ∀ i j : Nat, i < 2 → j < 2 → R.idx i j = .ok (exA.elem i j - exB.elem i j) :=
  ⟨by decide, by decide, by decide,
    C17_operatorSub_entries exA exB 2 (by decide) (by decide) (by decide)⟩

theorem C18_witness :
    1 ≤ 1 ∧ WF exTenth 1 ∧
      ∃ R, operatorMulScalar exTenth F64.tenth = .ok R ∧
        operatorScalarMul F64.tenth exTenth = .ok R ∧ WF R 1 ∧
        ∀ i j : Nat, i < 1 → j < 1 → R.idx i j = .ok (exTenth.elem i j * F64.tenth) :=
  ⟨by decide, by decide, C18_scalar_product exTenth 1 (by decide) (by decide) F64.tenth⟩

theorem C19_witness :
    1 ≤ 1 ∧ WF exTenth 1 ∧ FloatNe.ne F64.tenth 0 = true ∧
      ∃ R, operatorDiv exTenth F64.tenth = .ok R ∧ WF R 1 ∧
        ∀ i j : Nat, i < 1 → j < 1 → R.idx i j = .ok (exTenth.elem i j / F64.tenth) :=
  ⟨by decide, by decide, by decide,
    C19_operatorDiv_entries exTenth 1 (by decide) (by decide) F64.tenth (by decide)⟩

set_option maxRecDepth 8000 in
theorem C21_witness :
    1 ≤ 2 ∧ WF exMod 2 ∧ (4 : Int) ≠ 0 ∧ (-(2 ^ 31) ≤ (4 : Int) ∧ (4 : Int) < 2 ^ 31) ∧
      (∀ i j : Nat, i < 2 → j < 2 → (exMod.elem i j).IsFinite) ∧
      operatorModInt exMod 4 =
        .ok { rows := 2, columns := 2, size := 4
              data := [[F64.ofInt 1, F64.ofInt 3], [F64.ofInt 1, F64.ofInt 3]] } ∧
      ∃ R, operatorModInt exMod 4 = .ok R ∧ WF R 2 ∧
        ∀ i j : Nat, i < 2 → j < 2 →
          ∃ r : F64, R.idx i j = .ok r ∧ r = F64.fmod (exMod.elem i j) (F64.ofInt 4) ∧
            r.IsFinite ∧
            r.toRat = (exMod.elem i j).toRat -
              ((4 : Int) : ℚ) * (truncQ ((exMod.elem i j).toRat / ((4 : Int) : ℚ)) : ℚ) ∧
            |r.toRat| < |(((4 : Int) : ℚ))| ∧
            r.signBit = (exMod.elem i j).signBit ∧
            (r.toRat = 0 ∨ (0 < r.toRat ∧ 0 < (exMod.elem i j).toRat) ∨
              (r.toRat < 0 ∧ (exMod.elem i j).toRat < 0)) :=
  have hfin : ∀ i j : Nat, i < 2 → j < 2 → (exMod.elem i j).IsFinite := by
    intro i j hi hj
    interval_cases i <;> interval_cases j <;> decide
  ⟨by decide, by decide, by decide, by decide, hfin, by rfl,
    C21_scalar_modulo exMod 2 (by decide) (by decide) 4 (by decide) (by decide) hfin⟩

set_option maxRecDepth 8000 in
theorem C22_witness :
    1 ≤ 1 ∧ WF exTenth 1 ∧ operatorPow exTenth 0 = .ok (identity 1) ∧
      (∀ i j : Nat, i < 1 → j < 1 → (exTenth.elem i j).IsFinite) ∧
      ∃ R, operatorPow exTenth 1 = .ok R ∧ operatorEq R exTenth = .ok true :=
  have hfin : ∀ i j : Nat, i < 1 → j < 1 → (exTenth.elem i j).IsFinite := by
    intro i j hi hj
    interval_cases i; interval_cases j; decide
  ⟨by decide, by decide, (C22_power_steps exTenth 1 (by decide) (by decide)).1, hfin,
    (C22_power_steps exTenth 1 (by decide) (by decide)).2.2.2 F64.IsFinite F64.identityLaws hfin⟩

theorem C23_witness :
    1 ≤ 2 ∧ WF exA 2 ∧
      ∃ R, operatorTilde exA = .ok R ∧ WF R 2 ∧
        ∀ i j : Nat, i < 2 → j < 2 → R.idx i j = .ok (exA.elem j i) :=
  ⟨by decide, by decide, C23_transpose_entries exA 2 (by decide) (by decide)⟩

set_option exponentiation.threshold 2048 in
set_option maxRecDepth 8000 in
theorem C24_witness :
    WF ((fun _ => exTwo : Heap F64) 0) 1 ∧ exTwo.elem 0 0 = F64.ofInt 2 ∧
      ∃ Ainc Adec : SquareMat F64,
        WF Ainc 1 ∧ WF Adec 1 ∧
        Ainc.idx 0 0 = .ok (F64.ofInt 3) ∧ Adec.idx 0 0 = .ok (F64.ofInt 1) ∧
        F64.toRat (Ainc.elem 0 0) = ((2 : Int) : ℚ) + 1 ∧
        F64.toRat (Adec.elem 0 0) = ((2 : Int) : ℚ) - 1 ∧
        Heap.operatorInc (fun _ => exTwo) 0 = .ok (0, Function.update (fun _ => exTwo) 0 Ainc) ∧
        Heap.operatorPostInc (fun _ => exTwo) 0 =
          .ok (exTwo, Function.update (fun _ => exTwo) 0 Ainc) ∧
        Heap.operatorDec (fun _ => exTwo) 0 = .ok (0, Function.update (fun _ => exTwo) 0 Adec) ∧
        Heap.operatorPostDec (fun _ => exTwo) 0 =
          .ok (exTwo, Function.update (fun _ => exTwo) 0 Adec) :=
  ⟨by decide, rfl,
    (let ⟨Ainc, Adec, hwi, hwd, hel, hinc, hpinc, hdec, hpdec⟩ :=
      Heap.C24_increment_decrement (fun _ => exTwo) 0 1 (by decide)
    have h00 := hel 0 0 (by decide) (by decide)
    have hint := h00.2.2.2.2.2.2 2 (by decide) (by decide) (by decide) rfl
    ⟨Ainc, Adec, hwi, hwd, h00.1, h00.2.1, hint.1, hint.2, hinc, hpinc, hdec, hpdec⟩)⟩

theorem C25_witness :
    WF exNaN 1 ∧ WF exInf 2 ∧
      operatorEq exNaN exNaN = .ok false ∧ operatorNe exNaN exNaN = .ok true ∧
      ∃ b : Bool, operatorEq exNaN exInf = .ok b ∧ operatorNe exNaN exInf = .ok (!b) ∧
        (b = true ↔
          1 = 2 ∧ ∀ i j : Nat, i < 1 → j < 1 →
            FloatNe.ne (exNaN.elem i j) (exInf.elem i j) = false) ∧
        (1 ≠ 2 → operatorEq exNaN exInf = .ok false ∧ operatorNe exNaN exInf = .ok true) :=
  ⟨by decide, by decide, by rfl, by rfl, C25_equality exNaN exInf 1 2 (by decide) (by decide)⟩

set_option exponentiation.threshold 2048 in
set_option maxRecDepth 8000 in
theorem C26_witness :
    WF exMod 2 ∧ WF exModRev 2 ∧ operatorEq exMod exModRev = .ok false ∧
      countSum exMod = .ok (F64.ofInt 32) ∧ countSum exModRev = .ok (F64.ofInt 32) ∧
      operatorGt exMod exModRev = .ok false ∧ operatorLt exMod exModRev = .ok false := by
  have hsa : countSum exMod = .ok (F64.ofInt 32) := by rfl
  have hsb : countSum exModRev = .ok (F64.ofInt 32) := by rfl
  obtain ⟨sa, sb, ha, hb, -, -, -, -, h⟩ :=
    C26_ordering_by_sum exMod exModRev 2 2 (by decide) (by decide)
  rw [hsa] at ha
  rw [hsb] at hb
  cases ha
  cases hb
  exact ⟨by decide, by decide, by rfl, hsa, hsb, h F64.lt_of_ne_false (by decide)⟩

set_option exponentiation.threshold 2048 in
set_option maxRecDepth 8000 in
theorem C27_witness :
    WF exCancel 2 ∧ countSum exCancel = .ok (sumAll 2 exCancel.elem) ∧
      sumAll 2 exCancel.elem = F64.ofInt 1 ∧
      WF exThrees 2 ∧ countSum exThrees = .ok (sumAll 2 exThrees.elem) ∧
      (∀ i j : Nat, i < 2 → j < 2 → exThrees.elem i j = F64.ofInt 3) ∧
      F64.ExactSum 2 (fun _ _ => F64.toRat (F64.ofInt 3)) ∧
      F64.toRat (sumAll 2 exThrees.elem) =
        ((2 : Nat) : ℚ) * ((2 : Nat) : ℚ) * F64.toRat (F64.ofInt 3) ∧
      F64.toRat (sumAll 2 exThrees.elem) = 12 :=
  have hconst : ∀ i j : Nat, i < 2 → j < 2 → exThrees.elem i j = F64.ofInt 3 :=
    fun i j hi hj => by interval_cases i <;> interval_cases j <;> rfl
  have h3 : F64.toRat (F64.ofInt 3) = 3 := by
    have := (F64.ofInt_exact 3 (by decide)).2
    simpa using this
  have hex : F64.ExactSum 2 (fun _ _ => F64.toRat (F64.ofInt 3)) :=
    (F64.exactSum_of_int 2 (fun _ _ => 3) 3
      (fun _ _ _ _ => (by decide : (3 : Int).natAbs ≤ 3)) (by norm_num)).congr
      fun _ _ _ _ => by rw [h3]; norm_num
  have hsum := (C27_countSum exThrees 2 (by decide)).2.2.1 (F64.ofInt 3) (by decide) hconst hex
  ⟨by decide, (C27_countSum exCancel 2 (by decide)).1, by rfl, by decide,
    (C27_countSum exThrees 2 (by decide)).1, hconst, hex, hsum, by rw [hsum, h3]; norm_num⟩

theorem C28_witness :
    WF exTenth 1 ∧
      ∃ A', fill exTenth F64.nan = .ok A' ∧ WF A' 1 ∧ A'.getRows = exTenth.getRows ∧
        A'.getCols = exTenth.getCols ∧
        ∀ i j : Nat, i < 1 → j < 1 →
          A'.operatorCall i j = .ok F64.nan ∧ A'.idx i j = .ok F64.nan :=
  ⟨by decide, C28_fill exTenth 1 (by decide) F64.nan⟩

theorem C29_witness :
    WF exA 2 ∧ 1 < 2 ∧ 0 < 2 ∧
      ∃ A', exA.operatorCallSet (1 : Nat) (0 : Nat) 7 = .ok A' ∧
        exA.setIdx (1 : Nat) (0 : Nat) 7 = .ok A' ∧ WF A' 2 ∧
        A'.getRows = exA.getRows ∧ A'.getCols = exA.getCols ∧
        A'.operatorCall (1 : Nat) (0 : Nat) = .ok 7 ∧ A'.idx (1 : Nat) (0 : Nat) = .ok 7 ∧
        ∀ r c : Nat, r < 2 → c < 2 → (r, c) ≠ (1, 0) →
          A'.operatorCall r c = .ok (exA.elem r c) ∧ A'.idx r c = .ok (exA.elem r c) :=
  ⟨by decide, by decide, by decide, C29_write_frame exA 2 (by decide) 1 0 (by decide) (by decide) 7⟩

theorem C30_witness :
    (0 : Nat) ≠ 1 ∧ Mem.Inv exMem ∧ Mem.Layout exMem 0 1 [2] (fun _ _ => F64.tenth) ∧
      ((Mem.copyCtor exMem 1 0).toOption.bind fun m' => Mem.load m' 1) = some exTenth ∧
      ∃ m', Mem.copyCtor exMem 1 0 = .ok m' ∧
        Mem.Sep m' 0 1 1 1 (fun _ _ => F64.tenth) (fun _ _ => F64.tenth) ∧
        (m'.objs 1).size = (exMem.objs 0).size ∧ m'.objs 0 = exMem.objs 0 :=
  have hinv : Mem.Inv exMem :=
    ⟨by decide, rfl, rfl, fun p hp => by
      have hp' : 3 ≤ p := hp
      have h1 : ¬ p = 1 := by omega
      have h2 : ¬ p = 2 := by omega
      simp only [exMem, h1, h2, if_false, and_self]⟩
  have hlay : Mem.Layout exMem 0 1 [2] (fun _ _ => F64.tenth) :=
    ⟨by decide, rfl, rfl, rfl, by decide, Or.inl rfl, fun i q hq => by
      cases i with
      | zero =>
        simp only [List.getElem?_cons_zero, Option.some.injEq] at hq
        subst hq
        rfl
      | succ i => simp at hq⟩
  ⟨by decide, hinv, hlay, by rfl,
    (Mem.C30_copy_independent exMem 0 1 (by decide) 1 (fun _ _ => F64.tenth)).1 [2] hinv hlay⟩

set_option exponentiation.threshold 2048 in
set_option maxRecDepth 8000 in
/-- C3, as stated, fails on doubles: for the 1 x 1 matrix `A = [[0.1]]` and
`p = q = 2`, `(A ^ 2) * (A ^ 2)` holds `(0.1 * 0.1) * (0.1 * 0.1)` and `A ^ 4`
holds `((0.1 * 0.1) * 0.1) * 0.1`, which round differently, so `==` is false. -/
theorem C3_counterexample :
    WF exTenth 1 ∧
      (do
        let P ← exTenth.operatorPow 2
        let Q ← exTenth.operatorPow 2
        let L ← operatorMul P Q
        let R ← exTenth.operatorPow (2 + 2)
        operatorEq L R) = .ok false :=
  ⟨by decide, by rfl⟩

/-- C4, as stated, fails on doubles: for `A = [[inf, 0], [0, 0]]` the element
`(0, 1)` of `A * I` is `0 + inf * 0 + 0 * 1 = NaN`, so `A * I == A` is false. -/
theorem C4_counterexample :
    WF exInf 2 ∧
      (do
        let L ← operatorMul exInf (identity 2)
        operatorEq L exInf) = .ok false :=
  ⟨by decide, by rfl⟩

/-- C5, as stated, fails on doubles: for `A = [[NaN]]`, `~(~A)` holds the
same NaN and `NaN != NaN`, so `~(~A) == A` is false. -/
theorem C5_counterexample :
    WF exNaN 1 ∧
      (do
        let T ← operatorTilde exNaN
        let TT ← operatorTilde T
        operatorEq TT exNaN) = .ok false :=
  ⟨by decide, by rfl⟩

set_option maxRecDepth 8000 in
/-- C7, as stated, fails on doubles: the first column of
`[[0, 1, 1], [0, b, b], [0, b, b]]`, `b = 2^600`, is zero, but the first minor
has determinant `b * b - b * b = inf - inf = NaN`, and `operator!` returns NaN. -/
theorem C7_counterexample :
    WF exBig 3 ∧ (∀ i, i < 3 → exBig.elem i 0 = 0) ∧ operatorNot exBig = .ok F64.nan :=
  ⟨by decide, by decide, by rfl⟩

/-- C21, as stated, fails on doubles: for `A = [[inf]]` and `k = 4` the element
of `A % k` is `std::fmod(inf, 4)`, a NaN, which is not a remainder smaller than
`k`: `|NaN| < |4|` is false. -/
theorem C21_counterexample :
    WF exInfOne 1 ∧ operatorModInt exInfOne 4 = .ok exNaN ∧
      exNaN.idx 0 0 = .ok F64.nan ∧
      FloatOrd.lt (F64.abs F64.nan) (F64.abs (F64.ofInt 4)) = false :=
  ⟨by decide, by rfl, by rfl, by rfl⟩

set_option maxRecDepth 8000 in
/-- C22, as stated, fails on doubles: for `A = [[inf, 0], [0, 0]]`, which holds
no NaN, `A ^ 1` is `I * A`, whose element `(1, 0)` is `0 * inf + 1 * 0 = NaN`;
hence `A ^ 1 == A` is false and `A ^ (0 + 1) == (A ^ 0) * A` is false. -/
theorem C22_counterexample :
    WF exInf 2 ∧
      (do
        let R ← exInf.operatorPow 1
        operatorEq R exInf) = .ok false ∧
      (do
        let P ← exInf.operatorPow 0
        let Q ← operatorMul P exInf
        let R ← exInf.operatorPow (0 + 1)
        operatorEq R Q) = .ok false :=
  ⟨by decide, by rfl, by rfl⟩

set_option exponentiation.threshold 2048 in
set_option maxRecDepth 8000 in
/-- C24, as stated, fails on doubles: for `A = [[2^53]]` the sum `2^53 + 1.0`
rounds to `2^53`, so `++A` and `A++` leave the element of `A` as it was, not
increased by 1. -/
theorem C24_counterexample :
    WF exTwo53 1 ∧ F64.IsFinite (exTwo53.elem 0 0) ∧
      F64.toRat (exTwo53.elem 0 0) = 2 ^ 53 ∧
      SquareMat.operatorInc exTwo53 = .ok exTwo53 ∧
      ((Heap.operatorInc (fun _ => exTwo53) 0).toOption.map fun r => r.2 0) = some exTwo53 ∧
      ((Heap.operatorPostInc (fun _ => exTwo53) 0).toOption.map fun r => r.2 0) =
        some exTwo53 ∧
      F64.toRat (exTwo53.elem 0 0) ≠ F64.toRat (exTwo53.elem 0 0) + 1 :=
  ⟨by decide, by decide, by
    show F64.toRat (F64.fin false (2 ^ 52) 1) = 2 ^ 53
    rw [F64.toRat_fin]; norm_num, by rfl, by rfl, by rfl, by
    intro h; linarith⟩

set_option exponentiation.threshold 2048 in
set_option maxRecDepth 8000 in
/-- C27, as stated, fails on doubles: the nine elements `0.1` of a 3 x 3 matrix
sum to `0.8999999999999999`, while `3 * 3 * 0.1` is `0.9`; and overwriting one
element `0.1` of a 2 x 2 matrix of `0.1` by `0.5` moves the sum from `0.4` to
`0.7999999999999999`, not to `0.4 + (0.5 - 0.1) = 0.8`. -/
theorem C27_counterexample :
    WF exTenths3 3 ∧ (∀ i j : Nat, i < 3 → j < 3 → exTenths3.elem i j = F64.tenth) ∧
      countSum exTenths3 = .ok (F64.fin false 0x1CCCCCCCCCCCCC (-53)) ∧
      F64.ofInt 3 * F64.ofInt 3 * F64.tenth = F64.fin false 0x1CCCCCCCCCCCCD (-53) ∧
      WF exTenths2 2 ∧
      (do
        let s ← countSum exTenths2
        let A' ← exTenths2.operatorCallSet 0 0 F64.half
        let s' ← countSum A'
        pure (FloatNe.ne s' (s + (F64.half - F64.tenth)), FloatNe.ne (s' - s)
          (F64.half - F64.tenth))) = .ok (true, true) :=
  ⟨by decide,
    fun i j hi hj => by interval_cases i <;> interval_cases j <;> rfl,
    by rfl, by rfl, by decide, by rfl⟩

/-- C30, as stated, fails on doubles: the copy of the matrix `[[NaN]]` holds
the same NaN in a row of its own, and `NaN != NaN`, so `B == A` is false. -/
theorem C30_counterexample :
    ((Mem.copyCtor exMemNaN 1 0).toOption.bind fun m' => Mem.load m' 0) = some exNaN ∧
      ((Mem.copyCtor exMemNaN 1 0).toOption.bind fun m' => Mem.load m' 1) = some exNaN ∧
      ((Mem.copyCtor exMemNaN 1 0).toOption.bind fun m' =>
        (Mem.load m' 0).bind fun A =>
          (Mem.load m' 1).bind fun B => (operatorEq B A).toOption) = some false :=
  ⟨by rfl, by rfl, by rfl⟩

theorem C31_witness :
    (0 : Nat) ≠ 1 ∧ Mem.Inv exMem ∧ Mem.Layout exMem 0 1 [2] (fun _ _ => F64.tenth) ∧
      Mem.load exMem 0 = some exTenth ∧
      Mem.getRows (Mem.moveCtor exMem 1 0) 1 = 1 ∧
      Mem.getCols (Mem.moveCtor exMem 1 0) 1 = 1 ∧
      ((Mem.moveCtor exMem 1 0).objs 1).size = (exMem.objs 0).size ∧
      (∀ i j : Nat, i < 1 → j < 1 →
        Mem.operatorCall exMem 0 i j = .ok F64.tenth ∧
        Mem.operatorCall (Mem.moveCtor exMem 1 0) 1 i j = .ok F64.tenth) ∧
      Mem.load (Mem.moveCtor exMem 1 0) 1 = Mem.load exMem 0 ∧
      Mem.getRows (Mem.moveCtor exMem 1 0) 0 = 0 ∧
      Mem.getCols (Mem.moveCtor exMem 1 0) 0 = 0 ∧
      ((Mem.moveCtor exMem 1 0).objs 0).size = 0 ∧
      Mem.load (Mem.moveCtor exMem 1 0) 0 =
        some { rows := 0, columns := 0, data := [], size := 0 } ∧
      ∀ g : Nat → Nat → F64,
        Mem.Sep (Mem.moveCtor exMem 1 0) 0 1 0 1 g (fun _ _ => F64.tenth) :=
  have hinv : Mem.Inv exMem :=
    ⟨by decide, rfl, rfl, fun p hp => by
      have hp' : 3 ≤ p := hp
      have h1 : ¬ p = 1 := by omega
      have h2 : ¬ p = 2 := by omega
      simp only [exMem, h1, h2, if_false, and_self]⟩
  have hlay : Mem.Layout exMem 0 1 [2] (fun _ _ => F64.tenth) :=
    ⟨by decide, rfl, rfl, rfl, by decide, Or.inl rfl, fun i q hq => by
      cases i with
      | zero =>
        simp only [List.getElem?_cons_zero, Option.some.injEq] at hq
        subst hq
        rfl
      | succ i => simp at hq⟩
  ⟨by decide, hinv, hlay, by rfl,
    (Mem.C31_move exMem 0 1 (by decide) 1 (fun _ _ => F64.tenth)).1 [2] hinv hlay⟩

theorem C32_witness :
    Reach false exTenth ∧
      (∃ n : Nat, WF exTenth n ∧ ((false : Bool) = false → 1 ≤ n) ∧
        (n = 0 → (false : Bool) = true ∧ exTenth.getRows = 0 ∧ exTenth.getCols = 0 ∧
          exTenth.data = [])) ∧
      exTenth.getRows = 1 :=
  have hreach : Reach false exTenth :=
    Reach.callSet _ 0 0 F64.tenth exTenth
      (Reach.ctor 1 1 _ (by decide) (by decide) (by decide) (by decide) rfl) (by rfl)
  ⟨hreach, (C32_reachable_dimension false exTenth hreach).1, rfl⟩

/-- C32, as stated, fails on an object that has been moved from: after
`SquareMat B(std::move(A))` with `A = [[0.1]]`, the caller still holds `A`, and
`A.getRows()` and `A.getCols()` are 0. -/
theorem C32_counterexample :
    Reach true (moveCtor exTenth).2 ∧ (moveCtor exTenth).2.getRows = 0 ∧
      (moveCtor exTenth).2.getCols = 0 ∧ ¬ (1 ≤ (moveCtor exTenth).2.getRows) ∧
      (¬ ∃ n : Nat, 1 ≤ n ∧ WF (moveCtor exTenth).2 n) ∧
      Mem.load exMem 0 = some exTenth ∧
      Mem.getRows (Mem.moveCtor exMem 1 0) 0 = 0 ∧
      Mem.getCols (Mem.moveCtor exMem 1 0) 0 = 0 ∧
      Mem.load (Mem.moveCtor exMem 1 0) 0 = some (moveCtor exTenth).2 :=
  ⟨Reach.movedFromCtor exTenth rfl
      (Reach.callSet _ 0 0 F64.tenth exTenth
        (Reach.ctor 1 1 _ (by decide) (by decide) (by decide) (by decide) rfl) (by rfl)),
    rfl, rfl, by decide,
    fun ⟨n, h1, hw⟩ => by
      have h0 : ((0 : Int)) = (n : Int) := hw.2.1
      omega,
    by rfl, rfl, rfl, by rfl⟩

theorem C33_witness :
    Reach true (moveCtor exTenth).2 ∧ (moveCtor exTenth).2.getRows = (moveCtor exTenth).2.getCols ∧
      (∃ d : F64, operatorNot (moveCtor exTenth).2 = .ok d) ∧
      ctor (α := F64) 2 3 = .error .invalid_argument :=
  have hreach : Reach true (moveCtor exTenth).2 :=
    Reach.movedFromCtor exTenth rfl
      (Reach.callSet _ 0 0 F64.tenth exTenth
        (Reach.ctor 1 1 _ (by decide) (by decide) (by decide) (by decide) rfl) (by rfl))
  have h := C33_reachable_square true (moveCtor exTenth).2 hreach
  ⟨hreach, h.1, h.2.2.1, h.2.2.2.2⟩

theorem C34_witness :
    1 ≤ 3 ∧ WF exC 3 ∧ Entered exC exC ∧ operatorNot exC = .ok (-3) ∧
      (∃ d : Int, operatorNot exC = .ok d) ∧
      ∀ M : SquareMat Int, Entered exC M →
        ∃ k : Nat, 2 ≤ k ∧ k ≤ 3 ∧ WF M k ∧
          (∃ d : Int, getDeterminantAux (M.getRows.toNat + 1) M = .ok d) ∧
          (∀ fuel : Nat, k ≤ fuel + 1 → ∃ d : Int, getDeterminantAux fuel M = .ok d) ∧
          (k = 2 → ∀ M' : SquareMat Int, ¬ Calls M M') ∧
          (k ≠ 2 → ∀ i : Nat, i < k →
            M.idx 0 i = .ok (M.elem 0 i) ∧
            buildMinor M i = .ok (ofFun (k - 1) (minorFun M.elem i))) ∧
          (∀ M' : SquareMat Int, Calls M M' → 3 ≤ k ∧ 2 ≤ k - 1 ∧ WF M' (k - 1)) :=
  ⟨by decide, by decide, Entered.first rfl (by decide), by rfl,
    C34_determinant_safe exC 3 (by decide) (by decide)⟩

theorem C35_witness :
    (moveCtor exTenth).2.getRows = 0 ∧ (moveCtor exTenth).2.getCols = 0 ∧
      operatorTilde (moveCtor exTenth).2 = .error .invalid_argument ∧
      operatorAdd (moveCtor exTenth).2 (moveCtor exTenth).2 = .error .invalid_argument ∧
      operatorNot (moveCtor exTenth).2 = .ok 0 :=
  have h := C35_moved_from_operands (moveCtor exTenth).2 rfl rfl
  ⟨rfl, rfl, h.2.2.2.1, h.2.2.2.2.2.2.2.1, h.2.2.2.2.2.2.2.2.2.2.2⟩

theorem C36_witness :
    1 ≤ 3 ∧ WF exC 3 ∧ operatorNot exC = .ok (-3) ∧
      operatorNot exC = .ok (toMat 3 exC.elem).det ∧
      operatorNot exC = .ok (leibniz 3 exC.elem) ∧
      (toMat 3 exC.elem).det = leibniz 3 exC.elem :=
  ⟨by decide, by decide, by rfl, C36_determinant exC 3 (by decide) (by decide)⟩

end SquareMat
